import Mathlib

/-!
Anaglyph composition and Gaussian blur (OpenCV-OMP)

A shallow embedding of the three programs under `OpenCV-OMP/`:

* `2.1.1-omp.cpp`            anaglyph composition of the two halves of a stereo frame,
* `2.1.2-omp.cpp`            hand-written Gaussian blur followed by anaglyph composition,
* `2.1.2_anaglyphs-omp.cpp`  library blur followed by the same composition switch as 2.1.2.

Conventions of the embedding.

* An 8-bit channel (`uchar`) is a `Nat`; `Vec3b.valid` says that it is below 256.
* A C `int` is an `Int`; the anaglyph type is kept as the integer code that `main`
  obtains from `atoi`, because the `switch` has a `default` branch for every other code.
  The integer expressions of the programs (`kernelSize / 2`, `i + halfKernelSize`,
  `y + i`, `i * i + j * j`) stay below `2^31` as long as the kernel size is below 65536
  and the image has fewer than `2^30` rows and columns, where no `int` operation wraps.
* A C `double` is an IEEE 754 binary64 value.  Every arithmetic operation computes the
  exact rational result and rounds it to the nearest `double`, ties to even
  (`roundToDouble`), with gradual underflow; the blur, where the operands are not
  bounded, also has overflow to an infinity, the infinities and NaN (`Dbl`).  A decimal
  literal of the source is the `double` nearest to it.  No operation is fused with
  another.  The narrowing conversion `double → uchar` discards the fractional part.
* The exponential of `<cmath>` is a parameter `exp : Dbl → Dbl` of the kernel
  generation; theorems state what they assume of it.
* The statement `sum /= gaussianTotal` calls the operator of `cv::Vec`, which
  multiplies every channel by the reciprocal `1. / gaussianTotal`.  The blur carries a
  Boolean parameter `viaReciprocal` that selects this reading (`true`) or a division
  of every channel (`false`); the theorems hold for both.
* `cv::Mat` of type `CV_8UC3` is a record of `rows`, `cols` and the row-major pixel
  buffer as a list of rows.  Loops that store into a matrix are folds that thread the
  matrix through every store.
-/

set_option autoImplicit false

namespace OpenCVOMP

/-! ## Pixels and matrices -/

/-- A `cv::Vec3b`: three stored channels, index 0, 1 and 2. -/
structure Vec3b where
  c0 : Nat
  c1 : Nat
  c2 : Nat
deriving DecidableEq, Repr

instance : Inhabited Vec3b := ⟨⟨0, 0, 0⟩⟩

/-- Every channel fits the 8-bit storage type. -/
def Vec3b.valid (p : Vec3b) : Prop := p.c0 < 256 ∧ p.c1 < 256 ∧ p.c2 < 256

instance (p : Vec3b) : Decidable p.valid := by
  unfold Vec3b.valid; infer_instance

/-- Truncation toward zero, the integer part kept by a floating-to-integer conversion. -/
def truncZ {K : Type} [LinearOrderedField K] [FloorRing K] (q : K) : Int :=
  if 0 ≤ q then Int.floor q else Int.ceil q

/-- The implicit conversion `double → uchar` at a `cv::Vec3b(v0, v1, v2)` call: the
fractional part is discarded and the integer is narrowed to 8 bits.  Neither rounding
nor saturation takes place.  (For a value outside `[0, 256)` C++ leaves the result
undefined; the embedding wraps modulo 256.) -/
def toUchar {K : Type} [LinearOrderedField K] [FloorRing K] (q : K) : Nat :=
  (truncZ q % 256).toNat

/-- Read cell `(i, j)` of a two-dimensional buffer stored as a list of rows. -/
def getCell {α : Type} (d : α) (g : List (List α)) (i j : Nat) : α :=
  (g.getD i []).getD j d

/-- Store `v` into cell `(i, j)` of a two-dimensional buffer. -/
def setCell {α : Type} (g : List (List α)) (i j : Nat) (v : α) : List (List α) :=
  g.set i ((g.getD i []).set j v)

/-- The loop nest `for i in [0, rows) for j in [0, cols) g[i][j] = f i j`, threading
the buffer through every store. -/
def fillCells {α : Type} (rows cols : Nat) (f : Nat → Nat → α) (g : List (List α)) :
    List (List α) :=
  (List.range rows).foldl
    (fun g i => (List.range cols).foldl (fun g j => setCell g i j (f i j)) g) g

/-- A buffer of `R` rows of `C` cells each. -/
def gridShape {α : Type} (R C : Nat) (g : List (List α)) : Prop :=
  g.length = R ∧ ∀ i, i < R → (g.getD i []).length = C

/-- A `cv::Mat` of type `CV_8UC3`. -/
structure Mat where
  rows : Nat
  cols : Nat
  data : List (List Vec3b)
deriving DecidableEq, Repr

/-- The buffer has `rows` rows of `cols` pixels each. -/
def Mat.WF (m : Mat) : Prop := gridShape m.rows m.cols m.data

instance (m : Mat) : Decidable m.WF := by
  unfold Mat.WF gridShape; infer_instance

/-- Two matrices have the same number of rows and of columns. -/
def Mat.sameSize (a b : Mat) : Prop := a.rows = b.rows ∧ a.cols = b.cols

instance (a b : Mat) : Decidable (a.sameSize b) := by
  unfold Mat.sameSize; infer_instance

/-- The accessor `m.at<cv::Vec3b>(i, j)` used for reading. -/
def Mat.atVec3b (m : Mat) (i j : Nat) : Vec3b := getCell default m.data i j

/-- Every stored channel is an 8-bit value. -/
def Mat.valid (m : Mat) : Prop :=
  ∀ i, i < m.rows → ∀ j, j < m.cols → (m.atVec3b i j).valid

instance (m : Mat) : Decidable m.valid := by
  unfold Mat.valid; infer_instance

/-- The accessor `m.at<cv::Vec3b>(i, j) = v` used for writing. -/
def Mat.setVec3b (m : Mat) (i j : Nat) (v : Vec3b) : Mat :=
  { m with data := setCell m.data i j v }

/-- The constructor `cv::Mat(size, CV_8UC3)`: a fresh buffer of the given size.  Its
content is unspecified in C++; here it is black. -/
def Mat.create (rows cols : Nat) : Mat :=
  ⟨rows, cols, List.replicate rows (List.replicate cols ⟨0, 0, 0⟩)⟩

/-- The row/column loop nest over an image that stores `f i j` at every `(i, j)`. -/
def Mat.fill (rows cols : Nat) (f : Nat → Nat → Vec3b) (dst : Mat) : Mat :=
  { dst with data := fillCells rows cols f dst.data }

/-! ## IEEE 754 binary64 arithmetic -/

/-- The exponent `e` of the binade `[2^e, 2^(e+1))` in which a `double` rounds the
number `x`: the binary logarithm of `|x|`, and `-1022` for zero and throughout the
subnormal range. -/
def binadeOf (x : ℚ) : Int :=
  if x = 0 then -1022 else max (Int.log 2 |x|) (-1022)

/-- The spacing of the `double` grid around `x`: 52 fraction bits below the binade
exponent, hence `2^(-1074)` throughout the subnormal range. -/
def ulpOf (x : ℚ) : ℚ := (2 : ℚ) ^ (binadeOf x - 52)

/-- Rounding to the nearest integer, a tie going to the even neighbour. -/
def roundHalfEven (t : ℚ) : Int :=
  if t - (Int.floor t : ℚ) < 1 / 2 then Int.floor t
  else if 1 / 2 < t - (Int.floor t : ℚ) then Int.floor t + 1
  else if Int.floor t % 2 = 0 then Int.floor t
  else Int.floor t + 1

/-- The `double` nearest to the exact value `x` in the default rounding mode (to
nearest, ties to even), as long as the exponent range is not exceeded upwards; gradual
underflow is part of it. -/
def roundToDouble (x : ℚ) : ℚ := (roundHalfEven (x / ulpOf x) : ℚ) * ulpOf x

/-! ## Anaglyph composition, `2.1.1-omp.cpp` -/

/-- The expression `0.299 * p[0] + 0.578 * p[1] + 0.114 * p[2]` of `2.1.1-omp.cpp`
(lines 81, 83, 90-92, 108) in `double` arithmetic: the three literals are rounded, each
channel is converted exactly, and each of the three products and of the two sums, taken
from left to right, is rounded.  All values stay below 256, far from overflow. -/
def luma211 (p : Vec3b) : ℚ :=
  roundToDouble
    (roundToDouble
        (roundToDouble (roundToDouble (299 / 1000) * (p.c0 : ℚ)) +
          roundToDouble (roundToDouble (578 / 1000) * (p.c1 : ℚ))) +
      roundToDouble (roundToDouble (114 / 1000) * (p.c2 : ℚ)))

/-- The expression `0.7 * right_pixel[1] + 0.3 * right_pixel[2]` of `2.1.1-omp.cpp`
(line 117) in `double` arithmetic. -/
def optimized211 (p : Vec3b) : ℚ :=
  roundToDouble
    (roundToDouble (roundToDouble (7 / 10) * (p.c1 : ℚ)) +
      roundToDouble (roundToDouble (3 / 10) * (p.c2 : ℚ)))

/-- The `switch (anaglyph_type)` of `2.1.1-omp.cpp` (lines 76-125) for one pair of
pixels; `ty` is the integer code of the enumeration (`TRUE = 1`, ..., `OPTIMIZED = 5`). -/
def anaglyphPixel211 (ty : Int) (left_pixel right_pixel : Vec3b) : Vec3b :=
  if ty = 1 then
    ⟨toUchar (luma211 right_pixel), 0, toUchar (luma211 left_pixel)⟩
  else if ty = 2 then
    ⟨toUchar (luma211 right_pixel), toUchar (luma211 right_pixel),
      toUchar (luma211 left_pixel)⟩
  else if ty = 3 then
    ⟨right_pixel.c0, right_pixel.c1, left_pixel.c2⟩
  else if ty = 4 then
    ⟨toUchar (luma211 right_pixel), right_pixel.c1, left_pixel.c2⟩
  else if ty = 5 then
    ⟨toUchar (optimized211 right_pixel), right_pixel.c1, left_pixel.c2⟩
  else
    left_pixel

/-- One pass of the pixel loops of `2.1.1-omp.cpp` (lines 70-127) over the
destination `anaglyph_image`. -/
def composePass211 (ty : Int) (left_image right_image anaglyph_image : Mat) : Mat :=
  Mat.fill left_image.rows left_image.cols
    (fun i j => anaglyphPixel211 ty (left_image.atVec3b i j) (right_image.atVec3b i j))
    anaglyph_image

/-! ## Anaglyph composition, `2.1.2-omp.cpp` and `2.1.2_anaglyphs-omp.cpp` -/

/-- The expression `0.299 * p[2] + 0.578 * p[1] + 0.114 * p[0]` of `2.1.2-omp.cpp`
(lines 162-189) and `2.1.2_anaglyphs-omp.cpp` (lines 100-127) in `double` arithmetic. -/
def luma212 (p : Vec3b) : ℚ :=
  roundToDouble
    (roundToDouble
        (roundToDouble (roundToDouble (299 / 1000) * (p.c2 : ℚ)) +
          roundToDouble (roundToDouble (578 / 1000) * (p.c1 : ℚ))) +
      roundToDouble (roundToDouble (114 / 1000) * (p.c0 : ℚ)))

/-- The expression `0.7 * right_pixel[1] + 0.3 * right_pixel[0]` of `2.1.2-omp.cpp`
(line 198) and `2.1.2_anaglyphs-omp.cpp` (line 136) in `double` arithmetic. -/
def optimized212 (p : Vec3b) : ℚ :=
  roundToDouble
    (roundToDouble (roundToDouble (7 / 10) * (p.c1 : ℚ)) +
      roundToDouble (roundToDouble (3 / 10) * (p.c0 : ℚ)))

/-- The `switch (anaglyph_type)` of `2.1.2-omp.cpp` (lines 157-206), which is also the
switch of `2.1.2_anaglyphs-omp.cpp` (lines 95-144), for one pair of pixels. -/
def anaglyphPixel212 (ty : Int) (left_pixel right_pixel : Vec3b) : Vec3b :=
  if ty = 1 then
    ⟨toUchar (luma212 right_pixel), 0, toUchar (luma212 left_pixel)⟩
  else if ty = 2 then
    ⟨toUchar (luma212 right_pixel), toUchar (luma212 right_pixel),
      toUchar (luma212 left_pixel)⟩
  else if ty = 3 then
    ⟨right_pixel.c2, right_pixel.c1, left_pixel.c0⟩
  else if ty = 4 then
    ⟨toUchar (luma212 right_pixel), right_pixel.c1, left_pixel.c0⟩
  else if ty = 5 then
    ⟨toUchar (optimized212 right_pixel), right_pixel.c1, left_pixel.c0⟩
  else
    left_pixel

/-- One pass of the pixel loops of `2.1.2-omp.cpp` (lines 151-208) and of
`2.1.2_anaglyphs-omp.cpp` (lines 89-146) over the destination `anaglyph_image`. -/
def composePass212 (ty : Int) (left_image right_image anaglyph_image : Mat) : Mat :=
  Mat.fill left_image.rows left_image.cols
    (fun i j => anaglyphPixel212 ty (left_image.atVec3b i j) (right_image.atVec3b i j))
    anaglyph_image

/-! ## The composition table as the specification words it -/

/-- The luma of the specification, `0.299·c0 + 0.578·c1 + 0.114·c2` on the stored
channels, evaluated exactly and truncated toward zero. -/
def specLuma (p : Vec3b) : Nat :=
  (truncZ (299 / 1000 * (p.c0 : ℚ) + 578 / 1000 * (p.c1 : ℚ) + 114 / 1000 * (p.c2 : ℚ))).toNat

/-- Channel 0 of the row OPTIMIZED of the specification, `0.7·right.c1 + 0.3·right.c0`
on the stored channels, evaluated exactly and truncated toward zero. -/
def specOptimizedMix (right : Vec3b) : Nat :=
  (truncZ (7 / 10 * (right.c1 : ℚ) + 3 / 10 * (right.c0 : ℚ))).toNat

/-- The row OPTIMIZED of the specification. -/
def specOptimizedPixel (left right : Vec3b) : Vec3b :=
  ⟨specOptimizedMix right, right.c1, left.c2⟩

/-- The real-valued channel expression `q` lies in `[0, 255]`, its truncation is an
integer of `0..255`, and the narrowing to `uchar` returns that truncation unchanged. -/
def narrowsExactly (q : ℚ) : Prop :=
  0 ≤ q ∧ q ≤ 255 ∧ 0 ≤ truncZ q ∧ truncZ q ≤ 255 ∧ (toUchar q : Int) = truncZ q

instance (q : ℚ) : Decidable (narrowsExactly q) := by
  unfold narrowsExactly; infer_instance
/-! ## The values of type `double` -/

/-- A value of the C type `double`: a finite number, one of the two infinities, or a
NaN.  The sign of a zero is not represented: the programs start every accumulator at
`+0.0` and never divide a non-zero value by a zero of negative sign, so no result
depends on it. -/
inductive Dbl where
  | fin (q : ℚ)
  | pinf
  | ninf
  | nan
deriving DecidableEq, Repr

instance : Zero Dbl := ⟨Dbl.fin 0⟩

instance : Inhabited Dbl := ⟨Dbl.fin 0⟩

/-- The result of an operation whose exact value is `x`: the nearest `double`, and the
infinity of the sign of `x` when that rounding reaches `2^1024`. -/
def Dbl.round (x : ℚ) : Dbl :=
  if (2 : ℚ) ^ (1024 : Nat) ≤ |roundToDouble x| then (if 0 < x then .pinf else .ninf)
  else .fin (roundToDouble x)

/-- The conversion of a `uchar` to `double`, which is exact. -/
def Dbl.ofUchar (c : Nat) : Dbl := .fin (c : ℚ)

/-- The conversion of an `int` to `double`. -/
def Dbl.ofInt (n : Int) : Dbl := Dbl.round (n : ℚ)

/-- The sum `a + b` of two `double`s. -/
def Dbl.add : Dbl → Dbl → Dbl
  | .fin a, .fin b => Dbl.round (a + b)
  | .nan, _ => .nan
  | _, .nan => .nan
  | .pinf, .ninf => .nan
  | .ninf, .pinf => .nan
  | .pinf, _ => .pinf
  | _, .pinf => .pinf
  | .ninf, _ => .ninf
  | _, .ninf => .ninf

/-- The product `a * b` of two `double`s. -/
def Dbl.mul : Dbl → Dbl → Dbl
  | .fin a, .fin b => Dbl.round (a * b)
  | .nan, _ => .nan
  | _, .nan => .nan
  | .fin a, .pinf => if a = 0 then .nan else if 0 < a then .pinf else .ninf
  | .fin a, .ninf => if a = 0 then .nan else if 0 < a then .ninf else .pinf
  | .pinf, .fin b => if b = 0 then .nan else if 0 < b then .pinf else .ninf
  | .ninf, .fin b => if b = 0 then .nan else if 0 < b then .ninf else .pinf
  | .pinf, .pinf => .pinf
  | .pinf, .ninf => .ninf
  | .ninf, .pinf => .ninf
  | .ninf, .ninf => .pinf

/-- The quotient `a / b` of two `double`s; a zero divisor counts as `+0.0`. -/
def Dbl.div : Dbl → Dbl → Dbl
  | .fin a, .fin b =>
    if b = 0 then (if a = 0 then .nan else if 0 < a then .pinf else .ninf)
    else Dbl.round (a / b)
  | .nan, _ => .nan
  | _, .nan => .nan
  | .fin _, .pinf => .fin 0
  | .fin _, .ninf => .fin 0
  | .pinf, .fin b => if 0 ≤ b then .pinf else .ninf
  | .ninf, .fin b => if 0 ≤ b then .ninf else .pinf
  | .pinf, .pinf => .nan
  | .pinf, .ninf => .nan
  | .ninf, .pinf => .nan
  | .ninf, .ninf => .nan

/-- The conversion `double → uchar` at the call `cv::Vec3b(sum[0], sum[1], sum[2])`.  A
finite value is truncated and narrowed as in `toUchar`; for an infinity or a NaN C++
leaves the result undefined, and the embedding fixes 0. -/
def Dbl.toUchar : Dbl → Nat
  | .fin q => OpenCVOMP.toUchar q
  | _ => 0

/-- The value is a number greater than zero (`+∞` included). -/
def Dbl.isPos : Dbl → Prop
  | .fin q => 0 < q
  | .pinf => True
  | _ => False

instance (d : Dbl) : Decidable d.isPos := by
  cases d <;> unfold Dbl.isPos <;> infer_instance

/-- The value is a finite number. -/
def Dbl.isFinite : Dbl → Prop
  | .fin _ => True
  | _ => False

instance (d : Dbl) : Decidable d.isFinite := by
  cases d <;> unfold Dbl.isFinite <;> infer_instance

/-- The value is a number that is not negative (`+∞` included). -/
def Dbl.isNonneg : Dbl → Prop
  | .fin q => 0 ≤ q
  | .pinf => True
  | _ => False

instance (d : Dbl) : Decidable d.isNonneg := by
  cases d <;> unfold Dbl.isNonneg <;> infer_instance

/-- The value is a number that is not positive (`-∞` included). -/
def Dbl.isNonpos : Dbl → Prop
  | .fin q => q ≤ 0
  | .ninf => True
  | _ => False

instance (d : Dbl) : Decidable d.isNonpos := by
  cases d <;> unfold Dbl.isNonpos <;> infer_instance

/-- The value is one that the type `double` holds: a finite number is on the grid of
its binade and below `2^1024`. -/
def Dbl.isDouble : Dbl → Prop
  | .fin q => roundToDouble q = q ∧ |q| < (2 : ℚ) ^ (1024 : Nat)
  | _ => True

instance (d : Dbl) : Decidable d.isDouble := by
  cases d <;> unfold Dbl.isDouble <;> infer_instance

/-- The value is at least the smallest positive `double`, `2^(-1074)` (`+∞`
included). -/
def Dbl.isPosDouble : Dbl → Prop
  | .fin q => (2 : ℚ) ^ (-1074 : Int) ≤ q
  | .pinf => True
  | _ => False

instance (d : Dbl) : Decidable d.isPosDouble := by
  cases d <;> unfold Dbl.isPosDouble <;> infer_instance

/-- The number held by a finite `double`, and 0 for an infinity or a NaN. -/
def Dbl.toRat : Dbl → ℚ
  | .fin q => q
  | _ => 0

/-- A stand-in for `std::exp` with which theorems about an arbitrary exponential are
instantiated: 1 at zero, 0 (underflow) at every negative argument and `+∞` (overflow)
at every positive one. -/
def expCoarse : Dbl → Dbl
  | .fin q => if q = 0 then .fin 1 else if q < 0 then .fin 0 else .pinf
  | .pinf => .pinf
  | .ninf => .fin 0
  | .nan => .nan

/-! ## Gaussian blur, `2.1.2-omp.cpp` -/

/-- The values taken by the loop variable of `for (int i = lo; i <= hi; ++i)`, in
order. -/
def intRange (lo hi : Int) : List Int :=
  (List.range (hi + 1 - lo).toNat).map (fun (k : Nat) => lo + (k : Int))

/-- The read `gaussKernel[a][b]` of the `double**` kernel. -/
def kernelAt (gaussKernel : List (List Dbl)) (a b : Int) : Dbl :=
  getCell 0 gaussKernel a.toNat b.toNat

/-- The test `y + i >= 0 && y + i < src.rows && x + j >= 0 && x + j < src.cols` of
`applyGaussianBlur` (line 39): the source position of offset `(i, j)` lies inside the
image. -/
def inImage (rows cols : Nat) (y x : Nat) (i j : Int) : Prop :=
  0 ≤ (y : Int) + i ∧ (y : Int) + i < (rows : Int) ∧
    0 ≤ (x : Int) + j ∧ (x : Int) + j < (cols : Int)

instance (rows cols y x : Nat) (i j : Int) : Decidable (inImage rows cols y x i j) := by
  unfold inImage; infer_instance

/-- The local variables `sum` (a `cv::Vec3d`) and `gaussianTotal` of
`applyGaussianBlur`. -/
structure BlurAcc where
  sum0 : Dbl
  sum1 : Dbl
  sum2 : Dbl
  gaussianTotal : Dbl
deriving DecidableEq, Repr

/-- The body of the two offset loops of `applyGaussianBlur` (lines 39-44): when
`(y + i, x + j)` lies inside the image, the kernel weight is added to `gaussianTotal`,
and the pixel, converted to `cv::Vec3d` and multiplied by the weight, is added to
`sum`. -/
def blurStep (src : Mat) (halfKernelSize : Int) (gaussKernel : List (List Dbl))
    (y x : Nat) (i j : Int) (acc : BlurAcc) : BlurAcc :=
  if inImage src.rows src.cols y x i j then
    let gaussianVal := kernelAt gaussKernel (i + halfKernelSize) (j + halfKernelSize)
    let pixel := src.atVec3b ((y : Int) + i).toNat ((x : Int) + j).toNat
    { sum0 := Dbl.add acc.sum0 (Dbl.mul (Dbl.ofUchar pixel.c0) gaussianVal)
      sum1 := Dbl.add acc.sum1 (Dbl.mul (Dbl.ofUchar pixel.c1) gaussianVal)
      sum2 := Dbl.add acc.sum2 (Dbl.mul (Dbl.ofUchar pixel.c2) gaussianVal)
      gaussianTotal := Dbl.add acc.gaussianTotal gaussianVal }
  else acc

/-- The two offset loops of `applyGaussianBlur` (lines 34-46) for the output pixel
`(y, x)`, started from `sum = (0, 0, 0)` and `gaussianTotal = 0`. -/
def blurAccumulate (src : Mat) (halfKernelSize : Int) (gaussKernel : List (List Dbl))
    (y x : Nat) : BlurAcc :=
  (intRange (-halfKernelSize) halfKernelSize).foldl
    (fun acc i =>
      (intRange (-halfKernelSize) halfKernelSize).foldl
        (fun acc j => blurStep src halfKernelSize gaussKernel y x i j acc) acc)
    ⟨0, 0, 0, 0⟩

/-- One channel of `sum /= gaussianTotal` (line 47).  The operator belongs to OpenCV
(`cv::Vec`, `matx.hpp`), where it multiplies every channel by the reciprocal
`1. / gaussianTotal`; `viaReciprocal = false` is the reading in which every channel is
divided by `gaussianTotal`. -/
def vecDivChannel (viaReciprocal : Bool) (s gaussianTotal : Dbl) : Dbl :=
  if viaReciprocal then Dbl.mul s (Dbl.div (.fin 1) gaussianTotal)
  else Dbl.div s gaussianTotal

/-- The value stored at `dst.at<cv::Vec3b>(y, x)` (lines 47-48): `sum /= gaussianTotal`
followed by the narrowing of the three quotients to `uchar`. -/
def blurPixel (viaReciprocal : Bool) (src : Mat) (halfKernelSize : Int)
    (gaussKernel : List (List Dbl)) (y x : Nat) : Vec3b :=
  let acc := blurAccumulate src halfKernelSize gaussKernel y x
  ⟨Dbl.toUchar (vecDivChannel viaReciprocal acc.sum0 acc.gaussianTotal),
    Dbl.toUchar (vecDivChannel viaReciprocal acc.sum1 acc.gaussianTotal),
    Dbl.toUchar (vecDivChannel viaReciprocal acc.sum2 acc.gaussianTotal)⟩

/-- The function `applyGaussianBlur` of `2.1.2-omp.cpp` (lines 25-53). -/
def applyGaussianBlur (viaReciprocal : Bool) (src : Mat) (kernelSize : Int)
    (gaussKernel : List (List Dbl)) : Mat :=
  let halfKernelSize := kernelSize.tdiv 2
  Mat.fill src.rows src.cols (blurPixel viaReciprocal src halfKernelSize gaussKernel)
    (Mat.create src.rows src.cols)

/-- The constant `PI` of `generateGaussianKernel` (line 57): the `double` nearest to
the decimal literal. -/
def PI : Dbl := Dbl.round (314159265358979323846 / 100000000000000000000)

/-- The local `lp = 1.0 / (2.0 * PI * sigma * sigma)` of `generateGaussianKernel` (line
59), the products taken from left to right. -/
def kernelLp (sigma : Dbl) : Dbl :=
  Dbl.div (.fin 1) (Dbl.mul (Dbl.mul (Dbl.mul (.fin 2) PI) sigma) sigma)

/-- The local `rp = 1.0 / (2.0 * sigma * sigma)` of `generateGaussianKernel` (line
60). -/
def kernelRp (sigma : Dbl) : Dbl :=
  Dbl.div (.fin 1) (Dbl.mul (Dbl.mul (.fin 2) sigma) sigma)

/-- The value `lp * exp(-(i * i + j * j) * rp)` computed for offset `(i, j)` (line
64): the integer `-(i * i + j * j)` is converted to `double`, multiplied by `rp`, and
handed to the exponential of `<cmath>`, which is the parameter `exp`. -/
def gaussianVal (exp : Dbl → Dbl) (sigma : Dbl) (i j : Int) : Dbl :=
  Dbl.mul (kernelLp sigma) (exp (Dbl.mul (Dbl.ofInt (-(i * i + j * j))) (kernelRp sigma)))

/-- The function `generateGaussianKernel` of `2.1.2-omp.cpp` (lines 55-69): every
offset `(i, j)` of `[-half, half]²` is stored at `gaussKernel[i + half][j + half]`. -/
def generateGaussianKernel (exp : Dbl → Dbl) (gaussKernel : List (List Dbl))
    (kernelSize : Int) (sigma : Dbl) : List (List Dbl) :=
  let halfKernelSize := kernelSize.tdiv 2
  (intRange (-halfKernelSize) halfKernelSize).foldl
    (fun g i =>
      (intRange (-halfKernelSize) halfKernelSize).foldl
        (fun g j =>
          setCell g (i + halfKernelSize).toNat (j + halfKernelSize).toNat
            (gaussianVal exp sigma i j)) g)
    gaussKernel

/-- The allocation of the kernel in `main` (lines 123-126): `kernelSize` rows of
`kernelSize` cells.  The cells are uninitialised in C++; here they are zero. -/
def allocKernel (kernelSize : Int) : List (List Dbl) :=
  List.replicate kernelSize.toNat (List.replicate kernelSize.toNat 0)

/-- The kernel that `main` hands to `applyGaussianBlur` (lines 123-127): allocated,
then filled by `generateGaussianKernel`. -/
def mainKernel (exp : Dbl → Dbl) (kernelSize : Int) (sigma : Dbl) : List (List Dbl) :=
  generateGaussianKernel exp (allocKernel kernelSize) kernelSize sigma

/-! ## The convolution as the specification words it -/

/-- The offsets `(i, j)` of `[-half, half]²` for which `(y + i, x + j)` lies inside an
image of `rows × cols` pixels. -/
def inBoundsOffsets (rows cols : Nat) (half : Int) (y x : Nat) : Finset (Int × Int) :=
  ((Finset.Icc (-half) half) ×ˢ (Finset.Icc (-half) half)).filter
    (fun o => inImage rows cols y x o.1 o.2)

/-- The in-bounds offsets in the order in which the two offset loops meet them: `i`
from `-half` to `half`, and for every `i`, `j` from `-half` to `half`. -/
def inBoundsOffsetList (rows cols : Nat) (half : Int) (y x : Nat) : List (Int × Int) :=
  ((intRange (-half) half).flatMap
      (fun i => (intRange (-half) half).map (fun j => (i, j)))).filter
    (fun o => decide (inImage rows cols y x o.1 o.2))

/-- The kernel weight of the offset `o`, read at `kernel[o.1 + half][o.2 + half]`. -/
def weightAt (kernel : List (List Dbl)) (half : Int) (o : Int × Int) : Dbl :=
  kernelAt kernel (o.1 + half) (o.2 + half)

/-- The value of the channel `ch` of the source pixel at offset `o` from `(y, x)`. -/
def sourceAt (ch : Vec3b → Nat) (src : Mat) (y x : Nat) (o : Int × Int) : Nat :=
  ch (src.atVec3b ((y : Int) + o.1).toNat ((x : Int) + o.2).toNat)

/-- The sum of `kernel[i + half][j + half] * src[y + i][x + j]` over the in-bounds
offsets, for the channel selected by `ch`, in exact arithmetic. -/
def weightedSum (ch : Vec3b → Nat) (src : Mat) (half : Int) (kernel : List (List Dbl))
    (y x : Nat) : ℚ :=
  ∑ o in inBoundsOffsets src.rows src.cols half y x,
    (weightAt kernel half o).toRat * (sourceAt ch src y x o : ℚ)

/-- The used-weight total: the sum of the kernel weights at the in-bounds offsets, in
exact arithmetic. -/
def usedWeightTotal (src : Mat) (half : Int) (kernel : List (List Dbl)) (y x : Nat) : ℚ :=
  ∑ o in inBoundsOffsets src.rows src.cols half y x, (weightAt kernel half o).toRat

/-- Rounding to the nearest integer followed by clamping to `[0, 255]`. -/
def roundClamp (q : ℚ) : Nat :=
  (max 0 (min 255 (round q))).toNat

/-- The output channel of the blur as the specification words it: the weighted sum
divided by the used-weight total, rounded to the nearest integer and clamped. -/
def specBlurChannel (ch : Vec3b → Nat) (src : Mat) (half : Int)
    (kernel : List (List Dbl)) (y x : Nat) : Nat :=
  roundClamp (weightedSum ch src half kernel y x / usedWeightTotal src half kernel y x)

/-- The weighted sum as the program accumulates it: over the in-bounds offsets in the
order of the loops, every product and every partial sum being rounded to `double`. -/
def sumInOrder (ch : Vec3b → Nat) (src : Mat) (half : Int) (kernel : List (List Dbl))
    (y x : Nat) : Dbl :=
  (inBoundsOffsetList src.rows src.cols half y x).foldl
    (fun s o => Dbl.add s (Dbl.mul (Dbl.ofUchar (sourceAt ch src y x o)) (weightAt kernel half o)))
    0

/-- The used-weight total as the program accumulates it: over the in-bounds offsets in
the order of the loops, every partial sum being rounded to `double`. -/
def totalInOrder (src : Mat) (half : Int) (kernel : List (List Dbl)) (y x : Nat) : Dbl :=
  (inBoundsOffsetList src.rows src.cols half y x).foldl
    (fun t o => Dbl.add t (weightAt kernel half o)) 0

/-! ## The programs -/

/-- The error exits of `main` (each prints a message and returns `-1`).  The check of
the argument count is not part of the model. -/
inductive MainError where
  | unableToLoad
  | invalidAnaglyphType
  | invalidKernelOrSigma
deriving DecidableEq, Repr

/-- The test `m.empty()`: the matrix has no element. -/
def Mat.empty (m : Mat) : Prop := m.rows = 0 ∨ m.cols = 0

instance (m : Mat) : Decidable m.empty := by
  unfold Mat.empty; infer_instance

/-- The sub-matrix `cv::Mat(m, cv::Rect(x, y, width, height))`: pixel `(i, j)` of the
view is pixel `(y + i, x + j)` of `m`. -/
def Mat.roi (m : Mat) (x y width height : Nat) : Mat :=
  ⟨height, width,
    (List.range height).map (fun i => (List.range width).map (fun j => m.atVec3b (y + i) (x + j)))⟩

/-- The left half of the stereo frame (`2.1.1-omp.cpp` line 51, `2.1.2-omp.cpp` line
102). -/
def splitLeft (stereo_image : Mat) : Mat :=
  stereo_image.roi 0 0 (stereo_image.cols / 2) stereo_image.rows

/-- The right half of the stereo frame (`2.1.1-omp.cpp` line 52, `2.1.2-omp.cpp` line
103). -/
def splitRight (stereo_image : Mat) : Mat :=
  stereo_image.roi (stereo_image.cols / 2) 0 (stereo_image.cols / 2) stereo_image.rows

/-- The call `cv::hconcat(a, b, dst)`: the rows of `a` followed by the rows of `b`. -/
def hconcat (a b : Mat) : Mat :=
  ⟨a.rows, a.cols + b.cols, List.zipWith (fun r s => r ++ s) a.data b.data⟩

/-- The checks of `main` on the image and on the anaglyph type (`2.1.1-omp.cpp` lines
33-48, `2.1.2-omp.cpp` lines 84-99). -/
def checkInputs (stereo_image : Mat) (anaglyph_type : Int) : Except MainError Unit :=
  if stereo_image.empty then .error .unableToLoad
  else if anaglyph_type < 0 ∨ anaglyph_type > 5 then .error .invalidAnaglyphType
  else .ok ()

/-- The check `if (!kernelSize || !sigma)` of `2.1.2-omp.cpp` (lines 109-114), whose
message reads "Input kernel size in range odd numbers from 3 to 21" and "Input sigma
in range odd numbers from 0.1 to 10". -/
def checkKernelParams (kernelSize : Int) (sigma : Dbl) : Except MainError Unit :=
  if kernelSize = 0 ∨ sigma = Dbl.fin 0 then .error .invalidKernelOrSigma else .ok ()

/-- The iteration loop of `2.1.1-omp.cpp` (lines 66-128): `iter` passes over the same
destination. -/
def loop211 (iter : Nat) (ty : Int) (left_image right_image anaglyph_image : Mat) : Mat :=
  (List.range iter).foldl (fun dst _ => composePass211 ty left_image right_image dst)
    anaglyph_image

/-- The program `2.1.1-omp.cpp` from the decoded image to the anaglyph that is shown
and saved, with the number of iterations as a parameter. -/
def run211 (iter : Nat) (stereo_image : Mat) (anaglyph_type : Int) : Except MainError Mat :=
  match checkInputs stereo_image anaglyph_type with
  | .error e => .error e
  | .ok _ =>
    let left_image := splitLeft stereo_image
    let right_image := splitRight stereo_image
    let anaglyph_image := Mat.create left_image.rows left_image.cols
    .ok (loop211 iter anaglyph_type left_image right_image anaglyph_image)

/-- The program `2.1.1-omp.cpp`, where `iter = 5` (line 63). -/
def main211 (stereo_image : Mat) (anaglyph_type : Int) : Except MainError Mat :=
  run211 5 stereo_image anaglyph_type

/-- The matrices that the iteration loop of `2.1.2-omp.cpp` updates. -/
structure LoopState where
  left_image : Mat
  right_image : Mat
  blurred_image : Mat
  anaglyph_image : Mat

/-- The body of the iteration loop of `2.1.2-omp.cpp` (lines 138-208): both halves are
blurred in place of their predecessors, concatenated, and composed; for the type
`NORMAL` the anaglyph is the blurred left half and the pixel loops are skipped. -/
def iterate212 (viaReciprocal : Bool) (ty : Int) (kernelSize : Int)
    (gaussKernel : List (List Dbl)) (s : LoopState) : LoopState :=
  let left_image := applyGaussianBlur viaReciprocal s.left_image kernelSize gaussKernel
  let right_image := applyGaussianBlur viaReciprocal s.right_image kernelSize gaussKernel
  let blurred_image := hconcat left_image right_image
  if ty = 0 then
    ⟨left_image, right_image, blurred_image, left_image⟩
  else
    ⟨left_image, right_image, blurred_image,
      composePass212 ty left_image right_image s.anaglyph_image⟩

/-- The iteration loop of `2.1.2-omp.cpp` (lines 136-209). -/
def loop212 (viaReciprocal : Bool) (iter : Nat) (ty : Int) (kernelSize : Int)
    (gaussKernel : List (List Dbl)) (s : LoopState) : LoopState :=
  (List.range iter).foldl (fun s _ => iterate212 viaReciprocal ty kernelSize gaussKernel s) s

/-- The program `2.1.2-omp.cpp` from the decoded image to the pair of the anaglyph and
the blurred concatenation that are shown and saved, with the number of iterations as
a parameter. -/
def run212 (viaReciprocal : Bool) (exp : Dbl → Dbl) (iter : Nat) (stereo_image : Mat)
    (anaglyph_type : Int) (kernelSize : Int) (sigma : Dbl) : Except MainError (Mat × Mat) :=
  match checkInputs stereo_image anaglyph_type with
  | .error e => .error e
  | .ok _ =>
    let left_image := splitLeft stereo_image
    let right_image := splitRight stereo_image
    match checkKernelParams kernelSize sigma with
    | .error e => .error e
    | .ok _ =>
      let anaglyph_image := Mat.create left_image.rows left_image.cols
      let blurred_image := Mat.create stereo_image.rows stereo_image.cols
      let gaussKernel := mainKernel exp kernelSize sigma
      let s := loop212 viaReciprocal iter anaglyph_type kernelSize gaussKernel
        ⟨left_image, right_image, blurred_image, anaglyph_image⟩
      .ok (s.anaglyph_image, s.blurred_image)

/-- The program `2.1.2-omp.cpp`, where `iter = 5` (line 133). -/
def main212 (viaReciprocal : Bool) (exp : Dbl → Dbl) (stereo_image : Mat)
    (anaglyph_type : Int) (kernelSize : Int) (sigma : Dbl) : Except MainError (Mat × Mat) :=
  run212 viaReciprocal exp 5 stereo_image anaglyph_type kernelSize sigma

/-- The composition of two halves into a fresh image of their size, the pass of
`2.1.1-omp.cpp`. -/
def compose211 (ty : Int) (left_image right_image : Mat) : Mat :=
  composePass211 ty left_image right_image (Mat.create left_image.rows left_image.cols)

/-- The share of one worker of `#pragma omp parallel for` over the rows: the pixel
loops restricted to the rows `lo ≤ i < hi`. -/
def fillRowRange {α : Type} (lo hi cols : Nat) (f : Nat → Nat → α) (g : List (List α)) :
    List (List α) :=
  (List.range (hi - lo)).foldl
    (fun g k => (List.range cols).foldl (fun g j => setCell g (lo + k) j (f (lo + k) j)) g)
    g

/-- The workers, each with its sub-range `(lo, hi)` of the rows, store into the one
destination buffer; they are taken in the order of the list. -/
def fillChunks {α : Type} (chunks : List (Nat × Nat)) (cols : Nat) (f : Nat → Nat → α)
    (g : List (List α)) : List (List α) :=
  chunks.foldl (fun g c => fillRowRange c.1 c.2 cols f g) g

/-- The pixel loops over an image, the rows being distributed over workers. -/
def Mat.fillChunks (chunks : List (Nat × Nat)) (cols : Nat) (f : Nat → Nat → Vec3b)
    (dst : Mat) : Mat :=
  { dst with data := OpenCVOMP.fillChunks chunks cols f dst.data }

/-- The function `applyGaussianBlur` with the rows of its parallel loop (lines 31-50)
distributed over workers. -/
def applyGaussianBlurChunks (viaReciprocal : Bool) (chunks : List (Nat × Nat)) (src : Mat)
    (kernelSize : Int) (gaussKernel : List (List Dbl)) : Mat :=
  Mat.fillChunks chunks src.cols (blurPixel viaReciprocal src (kernelSize.tdiv 2) gaussKernel)
    (Mat.create src.rows src.cols)

/-- The pass of `2.1.1-omp.cpp` with the rows of its parallel loop (lines 68-127)
distributed over workers. -/
def composePass211Chunks (chunks : List (Nat × Nat)) (ty : Int)
    (left_image right_image anaglyph_image : Mat) : Mat :=
  Mat.fillChunks chunks left_image.cols
    (fun i j => anaglyphPixel211 ty (left_image.atVec3b i j) (right_image.atVec3b i j))
    anaglyph_image

/-- The pass of `2.1.2-omp.cpp` with the rows of its parallel loop (lines 150-208)
distributed over workers. -/
def composePass212Chunks (chunks : List (Nat × Nat)) (ty : Int)
    (left_image right_image anaglyph_image : Mat) : Mat :=
  Mat.fillChunks chunks left_image.cols
    (fun i j => anaglyphPixel212 ty (left_image.atVec3b i j) (right_image.atVec3b i j))
    anaglyph_image

/-- The sub-ranges `(lo, hi)`, standing for the rows `lo ≤ i < hi`, are a partition of
the rows `[0, rows)` into disjoint contiguous sub-ranges, listed in any order. -/
def isRowPartition (rows : Nat) (chunks : List (Nat × Nat)) : Prop :=
  (∀ c ∈ chunks, c.1 ≤ c.2 ∧ c.2 ≤ rows) ∧
  (∀ a, a < rows → ∃ c ∈ chunks, c.1 ≤ a ∧ a < c.2) ∧
  chunks.Pairwise (fun c d => c.2 ≤ d.1 ∨ d.2 ≤ c.1)

instance (rows : Nat) (chunks : List (Nat × Nat)) : Decidable (isRowPartition rows chunks) := by
  unfold isRowPartition; infer_instance

/-! ## The window of a pixel -/

/-- The values of the channel `ch` of the source pixels in the in-bounds window around
`(y, x)`. -/
def windowValues (ch : Vec3b → Nat) (src : Mat) (half : Int) (y x : Nat) : Finset Nat :=
  (inBoundsOffsets src.rows src.cols half y x).image (sourceAt ch src y x)

/-- The quotient computed for the channel `ch` of the output pixel `(y, x)` lies, as a
real number, between the minimum and the maximum of the source values in the in-bounds
window, hence in `[0, 255]`, and its narrowing to `uchar` returns its truncation
unchanged. -/
def quotientInWindow (ch : Vec3b → Nat) (src : Mat) (half : Int) (y x : Nat) : Dbl → Prop
  | .fin q => ∃ hne : (windowValues ch src half y x).Nonempty,
      (((windowValues ch src half y x).min' hne : Nat) : ℚ) ≤ q ∧
      q ≤ (((windowValues ch src half y x).max' hne : Nat) : ℚ) ∧
      0 ≤ q ∧ q ≤ 255 ∧ (toUchar q : Int) = truncZ q
  | _ => False

instance (ch : Vec3b → Nat) (src : Mat) (half : Int) (y x : Nat) (d : Dbl) :
    Decidable (quotientInWindow ch src half y x d) := by
  cases d <;> unfold quotientInWindow <;> infer_instance

/-- The quotient computed for the channel `ch` of the output pixel `(y, x)` is a finite
number within `2^(-19)` of the interval between the minimum and the maximum of the
source values in the in-bounds window; it lies in `[0, 256)`, its narrowing to `uchar`
returns its truncation unchanged, and the stored value lies between that minimum less
one and that maximum. -/
def quotientNearWindow (ch : Vec3b → Nat) (src : Mat) (half : Int) (y x : Nat) :
    Dbl → Prop
  | .fin q => ∃ hne : (windowValues ch src half y x).Nonempty,
      (((windowValues ch src half y x).min' hne : Nat) : ℚ) - 1 / 2 ^ (19 : Nat) ≤ q ∧
      q ≤ (((windowValues ch src half y x).max' hne : Nat) : ℚ) + 1 / 2 ^ (19 : Nat) ∧
      0 ≤ q ∧ q < 256 ∧ (toUchar q : Int) = truncZ q ∧
      (windowValues ch src half y x).min' hne ≤ toUchar q + 1 ∧
      toUchar q ≤ (windowValues ch src half y x).max' hne
  | _ => False

instance (ch : Vec3b → Nat) (src : Mat) (half : Int) (y x : Nat) (d : Dbl) :
    Decidable (quotientNearWindow ch src half y x d) := by
  cases d <;> unfold quotientNearWindow <;> infer_instance

/-! ## Kernel indices and channel order -/

/-- The kernel indices `i + halfKernelSize` that the offset loops of
`applyGaussianBlur` (lines 37-40) and of `generateGaussianKernel` (lines 63-66) form
for `i` from `-halfKernelSize` to `halfKernelSize`, in the order of the loop. -/
def kernelIndices (halfKernelSize : Int) : List Int :=
  (intRange (-halfKernelSize) halfKernelSize).map (fun i => i + halfKernelSize)

/-- The pixel with its channels in the reverse order, `(p[2], p[1], p[0])`. -/
def Vec3b.reversed (p : Vec3b) : Vec3b := ⟨p.c2, p.c1, p.c0⟩

/-! ## Accesses with their bounds -/

/-- The read `src.at<cv::Vec3b>(i, j)` together with its precondition: `none` when the
position lies outside the matrix, where the unchecked accessor of a release build
reads foreign memory. -/
def Mat.atChecked (m : Mat) (i j : Int) : Option Vec3b :=
  if 0 ≤ i ∧ i < (m.rows : Int) ∧ 0 ≤ j ∧ j < (m.cols : Int) then
    some (m.atVec3b i.toNat j.toNat)
  else none

/-- The read `gaussKernel[a][b]` together with its precondition: `none` when an index
lies outside the `kernelSize` rows of `kernelSize` cells that `main` allocates. -/
def kernelAtChecked (kernelSize : Int) (gaussKernel : List (List Dbl)) (a b : Int) :
    Option Dbl :=
  if 0 ≤ a ∧ a < kernelSize ∧ 0 ≤ b ∧ b < kernelSize then some (kernelAt gaussKernel a b)
  else none

/-- The body of the offset loops of `applyGaussianBlur` with the preconditions of its
two reads. -/
def blurStepChecked (src : Mat) (kernelSize halfKernelSize : Int)
    (gaussKernel : List (List Dbl)) (y x : Nat) (i j : Int) (acc : BlurAcc) :
    Option BlurAcc :=
  if inImage src.rows src.cols y x i j then
    match kernelAtChecked kernelSize gaussKernel (i + halfKernelSize) (j + halfKernelSize),
      src.atChecked ((y : Int) + i) ((x : Int) + j) with
    | some gaussianVal, some pixel =>
      some
        { sum0 := Dbl.add acc.sum0 (Dbl.mul (Dbl.ofUchar pixel.c0) gaussianVal)
          sum1 := Dbl.add acc.sum1 (Dbl.mul (Dbl.ofUchar pixel.c1) gaussianVal)
          sum2 := Dbl.add acc.sum2 (Dbl.mul (Dbl.ofUchar pixel.c2) gaussianVal)
          gaussianTotal := Dbl.add acc.gaussianTotal gaussianVal }
    | _, _ => none
  else some acc

/-- The two offset loops of `applyGaussianBlur` with the preconditions of the reads:
`none` as soon as one read is out of bounds. -/
def blurAccumulateChecked (src : Mat) (kernelSize halfKernelSize : Int)
    (gaussKernel : List (List Dbl)) (y x : Nat) : Option BlurAcc :=
  (intRange (-halfKernelSize) halfKernelSize).foldlM
    (fun acc i =>
      (intRange (-halfKernelSize) halfKernelSize).foldlM
        (fun acc j => blurStepChecked src kernelSize halfKernelSize gaussKernel y x i j acc)
        acc)
    ⟨0, 0, 0, 0⟩

/-- The value stored at `dst.at<cv::Vec3b>(y, x)`, with the preconditions of the
reads. -/
def blurPixelChecked (viaReciprocal : Bool) (src : Mat) (kernelSize halfKernelSize : Int)
    (gaussKernel : List (List Dbl)) (y x : Nat) : Option Vec3b :=
  (blurAccumulateChecked src kernelSize halfKernelSize gaussKernel y x).map
    (fun acc =>
      ⟨Dbl.toUchar (vecDivChannel viaReciprocal acc.sum0 acc.gaussianTotal),
        Dbl.toUchar (vecDivChannel viaReciprocal acc.sum1 acc.gaussianTotal),
        Dbl.toUchar (vecDivChannel viaReciprocal acc.sum2 acc.gaussianTotal)⟩)

/-- The loop nest `for i in [0, rows) for j in [0, cols) g[i][j] = f i j` for a
computation `f` that may have no result: `none` as soon as one has none. -/
def fillCellsChecked {α : Type} (rows cols : Nat) (f : Nat → Nat → Option α)
    (g : List (List α)) : Option (List (List α)) :=
  (List.range rows).foldlM
    (fun g i => (List.range cols).foldlM (fun g j => (f i j).map (setCell g i j)) g) g

/-- The function `applyGaussianBlur` of `2.1.2-omp.cpp` (lines 25-53) with the
preconditions of its reads of `src` and of `gaussKernel`, the kernel being an array
of `kernelSize` rows of `kernelSize` cells: the returned image, or `none` when a read
is out of bounds.  The function has no other exit: no `throw`, no error value. -/
def applyGaussianBlurChecked (viaReciprocal : Bool) (src : Mat) (kernelSize : Int)
    (gaussKernel : List (List Dbl)) : Option Mat :=
  (fillCellsChecked src.rows src.cols
      (blurPixelChecked viaReciprocal src kernelSize (kernelSize.tdiv 2) gaussKernel)
      (Mat.create src.rows src.cols).data).map
    (fun d => { Mat.create src.rows src.cols with data := d })

/-! ## Failures as the specification words them -/

/-- The error values of the specification (section 7). -/
inductive SpecError where
  | InvalidInput
  | InvalidMode
  | InvalidParameter
  | DimensionMismatch
deriving DecidableEq, Repr

/-- The failure of the blur as the specification words it: `InvalidParameter`, and no
image, when the kernel size exceeds the width or the height of the image. -/
def specBlurFailure (src : Mat) (kernelSize : Int) : Option SpecError :=
  if (src.cols : Int) < kernelSize ∨ (src.rows : Int) < kernelSize then
    some .InvalidParameter
  else none

/-- The kernel parameters that the specification rejects with `InvalidParameter`: an
even size, a size below 3 or above 21, or a `sigma` that is not positive. -/
def specInvalidParameter (kernelSize : Int) (sigma : ℚ) : Prop :=
  kernelSize % 2 = 0 ∨ kernelSize < 3 ∨ 21 < kernelSize ∨ sigma ≤ 0

instance (kernelSize : Int) (sigma : ℚ) : Decidable (specInvalidParameter kernelSize sigma) := by
  unfold specInvalidParameter; infer_instance

/-! ## Concrete inputs -/

/-- The 1×3 image with pixels `(0,0,0)`, `(1,1,1)`, `(1,1,1)`. -/
def row3 : Mat := ⟨1, 3, [[⟨0, 0, 0⟩, ⟨1, 1, 1⟩, ⟨1, 1, 1⟩]]⟩

/-- The 3×3 kernel whose nine weights are 1. -/
def boxKernel3 : List (List Dbl) :=
  [[.fin 1, .fin 1, .fin 1], [.fin 1, .fin 1, .fin 1], [.fin 1, .fin 1, .fin 1]]

/-- The 5×5 image of uniform colour `(7, 8, 9)`. -/
def uniform5 : Mat := ⟨5, 5, List.replicate 5 (List.replicate 5 ⟨7, 8, 9⟩)⟩

/-- The 21×21 kernel whose weights are all 1. -/
def boxKernel21 : List (List Dbl) := List.replicate 21 (List.replicate 21 (.fin 1))

/-- The 3×3 kernel whose nine weights are the `double` nearest to `0.01`. -/
def centiKernel3 : List (List Dbl) :=
  List.replicate 3 (List.replicate 3 (Dbl.round (1 / 100)))

/-! ## Two-dimensional buffers -/

theorem getCell_setCell {α : Type} (d : α) (g : List (List α)) (i j a b : Nat) (v : α)
    (hi : i < g.length) (hj : j < (g.getD i []).length) :
    getCell d (setCell g i j v) a b = if a = i ∧ b = j then v else getCell d g a b := by
  unfold getCell setCell
  simp only [List.getD_eq_getElem?_getD, List.getElem?_set] at *
  have hgi : g[i]? = some g[i] := List.getElem?_eq_getElem hi
  rw [hgi] at hj
  simp only [Option.getD_some] at hj
  by_cases hai : a = i
  · subst hai
    by_cases hbj : b = j
    · subst hbj
      simp [hi, hj, hgi]
    · simp [hi, hbj, Ne.symm hbj, hgi]
  · simp [hai, Ne.symm hai]

theorem length_setCell {α : Type} (g : List (List α)) (i j : Nat) (v : α) :
    (setCell g i j v).length = g.length := by
  simp [setCell]

theorem rowLength_setCell {α : Type} (g : List (List α)) (i j a : Nat) (v : α) :
    ((setCell g i j v).getD a []).length = (g.getD a []).length := by
  unfold setCell
  simp only [List.getD_eq_getElem?_getD, List.getElem?_set]
  by_cases hai : i = a
  · subst hai
    by_cases hi : i < g.length
    · simp [hi]
    · simp [hi, List.getElem?_eq_none (Nat.le_of_not_lt hi)]
  · simp [hai]

theorem gridShape_setCell {α : Type} {R C : Nat} {g : List (List α)}
    (h : gridShape R C g) (i j : Nat) (v : α) : gridShape R C (setCell g i j v) := by
  refine ⟨by rw [length_setCell]; exact h.1, fun a ha => ?_⟩
  rw [rowLength_setCell]
  exact h.2 a ha

/-- The inner loop over the columns of row `i` stores `f j` at every `j < n` and
leaves every other cell alone. -/
theorem rowLoop_spec {α : Type} (d : α) {R C : Nat} (f : Nat → α) (i : Nat) (hi : i < R)
    (n : Nat) (hn : n ≤ C) (g : List (List α)) (h : gridShape R C g) :
    gridShape R C ((List.range n).foldl (fun g j => setCell g i j (f j)) g) ∧
    ∀ a b, getCell d ((List.range n).foldl (fun g j => setCell g i j (f j)) g) a b =
      if a = i ∧ b < n then f b else getCell d g a b := by
  induction n with
  | zero => simp [h]
  | succ n ih =>
    obtain ⟨hs, hget⟩ := ih (Nat.le_of_succ_le hn)
    rw [List.range_succ, List.foldl_append]
    simp only [List.foldl_cons, List.foldl_nil]
    refine ⟨gridShape_setCell hs i n _, fun a b => ?_⟩
    rw [getCell_setCell d _ i n a b _ (by rw [hs.1]; exact hi) (by rw [hs.2 i hi]; omega),
      hget]
    by_cases hai : a = i
    · by_cases hbn : b = n
      · simp [hai, hbn]
      · by_cases hlt : b < n
        · simp [hai, hbn, hlt, Nat.lt_succ_of_lt hlt]
        · have : ¬ b < n + 1 := by omega
          simp [hai, hbn, hlt, this]
    · simp [hai]

/-- The loop nest stores `f a b` at every `(a, b)` with `a < n`, `b < cols`, and
leaves every other cell alone. -/
theorem fillCells_spec {α : Type} (d : α) {R C : Nat} (f : Nat → Nat → α) (cols : Nat)
    (hc : cols ≤ C) (n : Nat) (hn : n ≤ R) (g : List (List α)) (h : gridShape R C g) :
    gridShape R C (fillCells n cols f g) ∧
    ∀ a b, getCell d (fillCells n cols f g) a b =
      if a < n ∧ b < cols then f a b else getCell d g a b := by
  unfold fillCells
  induction n with
  | zero => simp [h]
  | succ n ih =>
    obtain ⟨hs, hget⟩ := ih (Nat.le_of_succ_le hn)
    rw [List.range_succ, List.foldl_append]
    simp only [List.foldl_cons, List.foldl_nil]
    obtain ⟨hs2, hget2⟩ := rowLoop_spec d (f n) n (by omega : n < R) cols hc _ hs
    refine ⟨hs2, fun a b => ?_⟩
    rw [hget2, hget]
    by_cases han : a = n
    · subst han
      by_cases hb : b < cols
      · simp [hb]
      · simp [hb]
    · by_cases hlt : a < n
      · have : a < n + 1 := by omega
        simp [han, hlt, this]
      · have : ¬ a < n + 1 := by omega
        simp [han, hlt, this]

theorem gridShape_ext {α : Type} (d : α) {R C : Nat} {g₁ g₂ : List (List α)}
    (h₁ : gridShape R C g₁) (h₂ : gridShape R C g₂)
    (h : ∀ a b, a < R → b < C → getCell d g₁ a b = getCell d g₂ a b) : g₁ = g₂ := by
  apply List.ext_getElem (by rw [h₁.1, h₂.1])
  intro a ha₁ ha₂
  have haR : a < R := by rw [← h₁.1]; exact ha₁
  have e₁ : g₁.getD a [] = g₁[a] := by
    simp [List.getD_eq_getElem?_getD, List.getElem?_eq_getElem ha₁]
  have e₂ : g₂.getD a [] = g₂[a] := by
    simp [List.getD_eq_getElem?_getD, List.getElem?_eq_getElem ha₂]
  have l₁ : g₁[a].length = C := by rw [← e₁]; exact h₁.2 a haR
  have l₂ : g₂[a].length = C := by rw [← e₂]; exact h₂.2 a haR
  apply List.ext_getElem (by rw [l₁, l₂])
  intro b hb₁ hb₂
  have := h a b haR (by rw [← l₁]; exact hb₁)
  unfold getCell at this
  rw [e₁, e₂] at this
  simpa [List.getD_eq_getElem?_getD, List.getElem?_eq_getElem hb₁,
    List.getElem?_eq_getElem hb₂] using this

/-! ## Matrices -/

theorem Mat.WF_create (rows cols : Nat) : (Mat.create rows cols).WF := by
  refine ⟨by simp [Mat.create], fun i hi => ?_⟩
  have hi2 : i < rows := hi
  simp [Mat.create, List.getD_eq_getElem?_getD, List.getElem?_replicate, hi2]

theorem Mat.WF_fill {rows cols : Nat} (f : Nat → Nat → Vec3b) {dst : Mat} (h : dst.WF)
    (hr : rows ≤ dst.rows) (hc : cols ≤ dst.cols) : (Mat.fill rows cols f dst).WF :=
  (fillCells_spec default f cols hc rows hr dst.data h).1

theorem Mat.atVec3b_fill {rows cols : Nat} (f : Nat → Nat → Vec3b) {dst : Mat} (h : dst.WF)
    (hr : rows ≤ dst.rows) (hc : cols ≤ dst.cols) (a b : Nat) :
    (Mat.fill rows cols f dst).atVec3b a b =
      if a < rows ∧ b < cols then f a b else dst.atVec3b a b :=
  (fillCells_spec default f cols hc rows hr dst.data h).2 a b

theorem Mat.ext_of_WF {m₁ m₂ : Mat} (h₁ : m₁.WF) (h₂ : m₂.WF) (hs : m₁.sameSize m₂)
    (h : ∀ a b, a < m₁.rows → b < m₁.cols → m₁.atVec3b a b = m₂.atVec3b a b) :
    m₁ = m₂ := by
  obtain ⟨r₁, c₁, d₁⟩ := m₁
  obtain ⟨r₂, c₂, d₂⟩ := m₂
  obtain ⟨hr, hc⟩ := hs
  simp only at hr hc
  subst hr hc
  have : d₁ = d₂ := gridShape_ext default h₁ h₂ h
  rw [this]

/-! ## The composition passes -/

theorem composePass211_sameSize (ty : Int) (left right dst : Mat) :
    (composePass211 ty left right dst).sameSize dst := ⟨rfl, rfl⟩

theorem composePass211_WF (ty : Int) (left right : Mat) {dst : Mat} (hd : dst.WF)
    (hs : dst.sameSize left) : (composePass211 ty left right dst).WF :=
  Mat.WF_fill _ hd (le_of_eq hs.1.symm) (le_of_eq hs.2.symm)

theorem composePass211_at (ty : Int) (left right : Mat) {dst : Mat} (hd : dst.WF)
    (hs : dst.sameSize left) {i j : Nat} (hi : i < left.rows) (hj : j < left.cols) :
    (composePass211 ty left right dst).atVec3b i j =
      anaglyphPixel211 ty (left.atVec3b i j) (right.atVec3b i j) := by
  unfold composePass211
  rw [Mat.atVec3b_fill _ hd (le_of_eq hs.1.symm) (le_of_eq hs.2.symm), if_pos ⟨hi, hj⟩]

theorem composePass212_at (ty : Int) (left right : Mat) {dst : Mat} (hd : dst.WF)
    (hs : dst.sameSize left) {i j : Nat} (hi : i < left.rows) (hj : j < left.cols) :
    (composePass212 ty left right dst).atVec3b i j =
      anaglyphPixel212 ty (left.atVec3b i j) (right.atVec3b i j) := by
  unfold composePass212
  rw [Mat.atVec3b_fill _ hd (le_of_eq hs.1.symm) (le_of_eq hs.2.symm), if_pos ⟨hi, hj⟩]

/-! ## Rounding to `double` -/

theorem ulpOf_pos (x : ℚ) : 0 < ulpOf x := by
  unfold ulpOf; positivity

theorem binadeOf_ge (x : ℚ) : -1022 ≤ binadeOf x := by
  unfold binadeOf
  split_ifs
  · exact le_refl _
  · exact le_max_right _ _

theorem binadeOf_eq {x : ℚ} {e : Int} (he : -1022 ≤ e) (h₁ : (2 : ℚ) ^ e ≤ |x|)
    (h₂ : |x| < (2 : ℚ) ^ (e + 1)) : binadeOf x = e := by
  have hpos : 0 < |x| := lt_of_lt_of_le (by positivity) h₁
  have hx : x ≠ 0 := abs_pos.mp hpos
  unfold binadeOf
  rw [if_neg hx]
  have h₃ : e ≤ Int.log 2 |x| :=
    (Int.zpow_le_iff_le_log (by norm_num) hpos).mp (by exact_mod_cast h₁)
  have h₄ : Int.log 2 |x| < e + 1 :=
    (Int.lt_zpow_iff_log_lt (by norm_num) hpos).mp (by exact_mod_cast h₂)
  omega

theorem binadeOf_le {x : ℚ} {e : Int} (he : -1022 ≤ e) (h₂ : |x| < (2 : ℚ) ^ (e + 1)) :
    binadeOf x ≤ e := by
  unfold binadeOf
  split_ifs with hx
  · exact he
  · have hpos : 0 < |x| := abs_pos.mpr hx
    have h₄ : Int.log 2 |x| < e + 1 :=
      (Int.lt_zpow_iff_log_lt (by norm_num) hpos).mp (by exact_mod_cast h₂)
    exact max_le (by omega) he

theorem le_binadeOf {x : ℚ} {e : Int} (h₁ : (2 : ℚ) ^ e ≤ |x|) : e ≤ binadeOf x := by
  have hpos : 0 < |x| := lt_of_lt_of_le (by positivity) h₁
  have hx : x ≠ 0 := abs_pos.mp hpos
  unfold binadeOf
  rw [if_neg hx]
  have h₃ : e ≤ Int.log 2 |x| :=
    (Int.zpow_le_iff_le_log (by norm_num) hpos).mp (by exact_mod_cast h₁)
  exact le_trans h₃ (le_max_left _ _)

theorem binadeOf_subnormal {x : ℚ} (h : |x| < (2 : ℚ) ^ (-1022 : Int)) :
    binadeOf x = -1022 :=
  le_antisymm (binadeOf_le (le_refl _) (lt_trans h (by norm_num))) (binadeOf_ge x) |>.trans rfl

theorem roundHalfEven_eq {t : ℚ} {n : Int} (h : |t - n| < 1 / 2) : roundHalfEven t = n := by
  rw [abs_lt] at h
  obtain ⟨h₁, h₂⟩ := h
  have hf₁ : (Int.floor t : ℚ) ≤ t := Int.floor_le t
  have hf₂ : t < (Int.floor t : ℚ) + 1 := Int.lt_floor_add_one t
  unfold roundHalfEven
  split_ifs with c₁ c₂ c₃
  · have a : ((Int.floor t : Int) : ℚ) < (n : ℚ) + 1 := by linarith
    have b : (n : ℚ) < (Int.floor t : ℚ) + 1 := by linarith
    have a' : Int.floor t < n + 1 := by exact_mod_cast a
    have b' : n < Int.floor t + 1 := by exact_mod_cast b
    omega
  · have a : ((Int.floor t : Int) : ℚ) < (n : ℚ) := by linarith
    have b : (n : ℚ) < (Int.floor t : ℚ) + 2 := by linarith
    have a' : Int.floor t < n := by exact_mod_cast a
    have b' : n < Int.floor t + 2 := by exact_mod_cast b
    omega
  · exfalso
    have e : t - (Int.floor t : ℚ) = 1 / 2 := le_antisymm (not_lt.mp c₂) (not_lt.mp c₁)
    have a : ((Int.floor t : Int) : ℚ) < (n : ℚ) := by linarith
    have b : (n : ℚ) < (Int.floor t : ℚ) + 1 := by linarith
    have a' : Int.floor t < n := by exact_mod_cast a
    have b' : n < Int.floor t + 1 := by exact_mod_cast b
    omega
  · exfalso
    have e : t - (Int.floor t : ℚ) = 1 / 2 := le_antisymm (not_lt.mp c₂) (not_lt.mp c₁)
    have a : ((Int.floor t : Int) : ℚ) < (n : ℚ) := by linarith
    have b : (n : ℚ) < (Int.floor t : ℚ) + 1 := by linarith
    have a' : Int.floor t < n := by exact_mod_cast a
    have b' : n < Int.floor t + 1 := by exact_mod_cast b
    omega

theorem roundHalfEven_tie {t : ℚ} {n : Int} (h : t = (n : ℚ) + 1 / 2) :
    roundHalfEven t = if n % 2 = 0 then n else n + 1 := by
  have hf : Int.floor t = n := by
    rw [Int.floor_eq_iff]
    constructor <;> rw [h] <;> linarith
  unfold roundHalfEven
  rw [hf, h]
  norm_num

theorem roundHalfEven_intCast (n : Int) : roundHalfEven (n : ℚ) = n :=
  roundHalfEven_eq (by simp)

theorem roundHalfEven_le {t : ℚ} {m : Int} (h : t ≤ m) : roundHalfEven t ≤ m := by
  have hf₁ : (Int.floor t : ℚ) ≤ t := Int.floor_le t
  have hfm : Int.floor t ≤ m := by exact_mod_cast le_trans hf₁ h
  unfold roundHalfEven
  split_ifs with c₁ c₂ c₃
  · exact hfm
  · have a : ((Int.floor t : Int) : ℚ) < (m : ℚ) := by linarith
    have a' : Int.floor t < m := by exact_mod_cast a
    omega
  · exact hfm
  · have e : t - (Int.floor t : ℚ) = 1 / 2 := le_antisymm (not_lt.mp c₂) (not_lt.mp c₁)
    have a : ((Int.floor t : Int) : ℚ) < (m : ℚ) := by linarith
    have a' : Int.floor t < m := by exact_mod_cast a
    omega

theorem le_roundHalfEven {t : ℚ} {m : Int} (h : (m : ℚ) ≤ t) : m ≤ roundHalfEven t := by
  have hmf : m ≤ Int.floor t := Int.le_floor.mpr h
  unfold roundHalfEven
  split_ifs <;> omega

theorem abs_roundHalfEven_sub_le (t : ℚ) : |(roundHalfEven t : ℚ) - t| ≤ 1 / 2 := by
  have hf₁ : (Int.floor t : ℚ) ≤ t := Int.floor_le t
  have hf₂ : t < (Int.floor t : ℚ) + 1 := Int.lt_floor_add_one t
  unfold roundHalfEven
  rw [abs_le]
  split_ifs with c₁ c₂ c₃
  · constructor <;> linarith
  · push_cast
    constructor <;> linarith
  · have e : t - (Int.floor t : ℚ) = 1 / 2 := le_antisymm (not_lt.mp c₂) (not_lt.mp c₁)
    constructor <;> linarith
  · have e : t - (Int.floor t : ℚ) = 1 / 2 := le_antisymm (not_lt.mp c₂) (not_lt.mp c₁)
    push_cast
    constructor <;> linarith

/-- Evaluation of a rounding: `x` lies in the binade of exponent `e` and `n` is the
integer nearest to `x / 2^(e - 52)`. -/
theorem roundToDouble_eq {x : ℚ} (e : Int) (n : Int) (he : -1022 ≤ e)
    (h₁ : (2 : ℚ) ^ e ≤ |x|) (h₂ : |x| < (2 : ℚ) ^ (e + 1))
    (hn : |x / (2 : ℚ) ^ (e - 52) - n| < 1 / 2) :
    roundToDouble x = (n : ℚ) * (2 : ℚ) ^ (e - 52) := by
  unfold roundToDouble ulpOf
  rw [binadeOf_eq he h₁ h₂, roundHalfEven_eq hn]

/-- Evaluation of a rounding in the subnormal range. -/
theorem roundToDouble_eq_subnormal {x : ℚ} (n : Int) (h : |x| < (2 : ℚ) ^ (-1022 : Int))
    (hn : |x / (2 : ℚ) ^ (-1074 : Int) - n| < 1 / 2) :
    roundToDouble x = (n : ℚ) * (2 : ℚ) ^ (-1074 : Int) := by
  unfold roundToDouble ulpOf
  rw [binadeOf_subnormal h]
  have e : (-1022 : Int) - 52 = -1074 := by norm_num
  rw [e, roundHalfEven_eq hn]

theorem roundToDouble_zero : roundToDouble 0 = 0 := by
  unfold roundToDouble
  rw [zero_div]
  have : roundHalfEven 0 = 0 := by
    have := roundHalfEven_intCast 0
    simpa using this
  rw [this]
  simp

theorem roundToDouble_nonneg {x : ℚ} (h : 0 ≤ x) : 0 ≤ roundToDouble x := by
  unfold roundToDouble
  have hu := ulpOf_pos x
  have : (0 : Int) ≤ roundHalfEven (x / ulpOf x) :=
    le_roundHalfEven (by simpa using div_nonneg h (le_of_lt hu))
  have h' : (0 : ℚ) ≤ (roundHalfEven (x / ulpOf x) : ℚ) := by exact_mod_cast this
  exact mul_nonneg h' (le_of_lt hu)

theorem roundToDouble_nonpos {x : ℚ} (h : x ≤ 0) : roundToDouble x ≤ 0 := by
  unfold roundToDouble
  have hu := ulpOf_pos x
  have : roundHalfEven (x / ulpOf x) ≤ (0 : Int) :=
    roundHalfEven_le (by simpa using div_nonpos_of_nonpos_of_nonneg h (le_of_lt hu))
  have h' : (roundHalfEven (x / ulpOf x) : ℚ) ≤ (0 : ℚ) := by exact_mod_cast this
  exact mul_nonpos_of_nonpos_of_nonneg h' (le_of_lt hu)

/-- The rounding error is at most half the spacing of the grid. -/
theorem abs_roundToDouble_sub_le (x : ℚ) : |roundToDouble x - x| ≤ ulpOf x / 2 := by
  have hu := ulpOf_pos x
  have h := abs_roundHalfEven_sub_le (x / ulpOf x)
  have e : roundToDouble x - x = ((roundHalfEven (x / ulpOf x) : ℚ) - x / ulpOf x) * ulpOf x := by
    unfold roundToDouble
    field_simp
  rw [e, abs_mul, abs_of_pos hu]
  calc |(roundHalfEven (x / ulpOf x) : ℚ) - x / ulpOf x| * ulpOf x
      ≤ 1 / 2 * ulpOf x := mul_le_mul_of_nonneg_right h (le_of_lt hu)
    _ = ulpOf x / 2 := by ring

/-- An upper bound that lies on the grid around `x` is an upper bound of the rounded
value. -/
theorem roundToDouble_le_of_le {x : ℚ} (m : Int) (h : x ≤ (m : ℚ) * ulpOf x) :
    roundToDouble x ≤ (m : ℚ) * ulpOf x := by
  have hu := ulpOf_pos x
  unfold roundToDouble
  have : roundHalfEven (x / ulpOf x) ≤ m := roundHalfEven_le ((div_le_iff₀ hu).mpr h)
  have h' : (roundHalfEven (x / ulpOf x) : ℚ) ≤ (m : ℚ) := by exact_mod_cast this
  exact mul_le_mul_of_nonneg_right h' (le_of_lt hu)

theorem le_roundToDouble_of_le {x : ℚ} (m : Int) (h : (m : ℚ) * ulpOf x ≤ x) :
    (m : ℚ) * ulpOf x ≤ roundToDouble x := by
  have hu := ulpOf_pos x
  unfold roundToDouble
  have : m ≤ roundHalfEven (x / ulpOf x) := le_roundHalfEven ((le_div_iff₀ hu).mpr h)
  have h' : (m : ℚ) ≤ (roundHalfEven (x / ulpOf x) : ℚ) := by exact_mod_cast this
  exact mul_le_mul_of_nonneg_right h' (le_of_lt hu)

/-- Evaluation of a rounding at a tie: `x / 2^(e - 52)` is `f + 1/2`, and the even one
of `f` and `f + 1` is taken. -/
theorem roundToDouble_tie {x : ℚ} (e : Int) (f : Int) (he : -1022 ≤ e)
    (h₁ : (2 : ℚ) ^ e ≤ |x|) (h₂ : |x| < (2 : ℚ) ^ (e + 1))
    (ht : x / (2 : ℚ) ^ (e - 52) = (f : ℚ) + 1 / 2) :
    roundToDouble x = ((if f % 2 = 0 then f else f + 1 : Int) : ℚ) * (2 : ℚ) ^ (e - 52) := by
  unfold roundToDouble ulpOf
  rw [binadeOf_eq he h₁ h₂, roundHalfEven_tie ht]

theorem ulpOf_eq_of_binadeOf {x : ℚ} : ulpOf x = (2 : ℚ) ^ (binadeOf x - 52) := rfl

/-- A dyadic upper bound `m * 2^k` whose exponent is not below the grid of the binade
of `x` is an upper bound of the rounded value. -/
theorem roundToDouble_le_dyadic {x : ℚ} (e m k : Int) (he : -1022 ≤ e)
    (hx : |x| < (2 : ℚ) ^ (e + 1)) (hk : e - 52 ≤ k) (h : x ≤ (m : ℚ) * (2 : ℚ) ^ k) :
    roundToDouble x ≤ (m : ℚ) * (2 : ℚ) ^ k := by
  have hb : binadeOf x ≤ e := binadeOf_le he hx
  obtain ⟨d, hd⟩ : ∃ d : Nat, k = (binadeOf x - 52) + (d : Int) :=
    ⟨(k - (binadeOf x - 52)).toNat, by omega⟩
  have e₁ : (m : ℚ) * (2 : ℚ) ^ k = ((m * 2 ^ d : Int) : ℚ) * ulpOf x := by
    unfold ulpOf
    rw [hd, zpow_add₀ (by norm_num : (2 : ℚ) ≠ 0)]
    push_cast
    rw [zpow_natCast]
    ring
  rw [e₁] at h ⊢
  exact roundToDouble_le_of_le _ h

theorem le_roundToDouble_dyadic {x : ℚ} (e m k : Int) (he : -1022 ≤ e)
    (hx : |x| < (2 : ℚ) ^ (e + 1)) (hk : e - 52 ≤ k) (h : (m : ℚ) * (2 : ℚ) ^ k ≤ x) :
    (m : ℚ) * (2 : ℚ) ^ k ≤ roundToDouble x := by
  have hb : binadeOf x ≤ e := binadeOf_le he hx
  obtain ⟨d, hd⟩ : ∃ d : Nat, k = (binadeOf x - 52) + (d : Int) :=
    ⟨(k - (binadeOf x - 52)).toNat, by omega⟩
  have e₁ : (m : ℚ) * (2 : ℚ) ^ k = ((m * 2 ^ d : Int) : ℚ) * ulpOf x := by
    unfold ulpOf
    rw [hd, zpow_add₀ (by norm_num : (2 : ℚ) ≠ 0)]
    push_cast
    rw [zpow_natCast]
    ring
  rw [e₁] at h ⊢
  exact le_roundToDouble_of_le _ h

/-- The rounding error of a value below `2^(e+1)` is at most `2^(e-53)`. -/
theorem abs_roundToDouble_sub_le_zpow {x : ℚ} (e : Int) (he : -1022 ≤ e)
    (hx : |x| < (2 : ℚ) ^ (e + 1)) : |roundToDouble x - x| ≤ (2 : ℚ) ^ (e - 53) := by
  have hb : binadeOf x ≤ e := binadeOf_le he hx
  have h := abs_roundToDouble_sub_le x
  have hu : ulpOf x ≤ (2 : ℚ) ^ (e - 52) := by
    unfold ulpOf
    exact zpow_le_zpow_right₀ (by norm_num) (by omega)
  have e₁ : (2 : ℚ) ^ (e - 53) = (2 : ℚ) ^ (e - 52) / 2 := by
    have : e - 52 = (e - 53) + 1 := by ring
    rw [this, zpow_add₀ (by norm_num : (2 : ℚ) ≠ 0)]
    norm_num
  rw [e₁]
  linarith

/-- The relative rounding error of a value of the normal range is at most `2^(-53)`. -/
theorem abs_roundToDouble_sub_le_mul {x : ℚ} (hx : (2 : ℚ) ^ (-1022 : Int) ≤ |x|) :
    |roundToDouble x - x| ≤ |x| / 2 ^ (53 : Nat) := by
  have hpos : 0 < |x| := lt_of_lt_of_le (by positivity) hx
  have hx0 : x ≠ 0 := abs_pos.mp hpos
  have h := abs_roundToDouble_sub_le x
  have hl : (-1022 : Int) ≤ Int.log 2 |x| :=
    (Int.zpow_le_iff_le_log (by norm_num) hpos).mp (by exact_mod_cast hx)
  have hb : binadeOf x = Int.log 2 |x| := by
    unfold binadeOf
    rw [if_neg hx0]
    exact max_eq_left hl
  have h₂ : (2 : ℚ) ^ (Int.log 2 |x|) ≤ |x| := by
    have := Int.zpow_log_le_self (b := 2) (r := |x|) (by norm_num) hpos
    exact_mod_cast this
  have hu : ulpOf x = (2 : ℚ) ^ (Int.log 2 |x|) / 2 ^ (52 : Nat) := by
    unfold ulpOf
    rw [hb, zpow_sub₀ (by norm_num : (2 : ℚ) ≠ 0)]
    norm_num
  rw [hu] at h
  have h₃ : (2 : ℚ) ^ (Int.log 2 |x|) / 2 ^ (52 : Nat) / 2 ≤ |x| / 2 ^ (53 : Nat) := by
    rw [div_div, div_le_div_iff₀ (by positivity) (by positivity)]
    have : (2 : ℚ) ^ (52 : Nat) * 2 = 2 ^ (53 : Nat) := by norm_num
    rw [this]
    exact mul_le_mul_of_nonneg_right h₂ (by positivity)
  linarith

/-- The rounding error is at most the relative error `2^(-53)` plus half the spacing
`2^(-1074)` of the subnormal grid. -/
theorem abs_roundToDouble_sub_le_add (x : ℚ) :
    |roundToDouble x - x| ≤ |x| / 2 ^ (53 : Nat) + (2 : ℚ) ^ (-1075 : Int) := by
  by_cases hx : (2 : ℚ) ^ (-1022 : Int) ≤ |x|
  · have := abs_roundToDouble_sub_le_mul hx
    have : (0 : ℚ) ≤ (2 : ℚ) ^ (-1075 : Int) := by positivity
    linarith
  · have h := abs_roundToDouble_sub_le_zpow (-1022) (le_refl _)
      (lt_trans (not_le.mp hx) (by norm_num))
    have e : ((-1022 : Int) - 53) = -1075 := by norm_num
    rw [e] at h
    have : (0 : ℚ) ≤ |x| / 2 ^ (53 : Nat) := by positivity
    exact le_trans h (le_add_of_nonneg_left this)

/-- A value that lies on the grid of its own binade is not changed by the rounding. -/
theorem roundToDouble_of_grid {x : ℚ} (m : Int) (h : x = (m : ℚ) * ulpOf x) :
    roundToDouble x = x := by
  have hu := ulpOf_pos x
  unfold roundToDouble
  have : x / ulpOf x = (m : ℚ) := by
    rw [div_eq_iff (ne_of_gt hu)]
    exact h
  rw [this, roundHalfEven_intCast]
  exact h.symm
/-! ## The literals of the composition -/

theorem double_299_1000 : roundToDouble (299 / 1000) = 5386305154335113 / 18014398509481984 := by
  rw [roundToDouble_eq (-2) 5386305154335113 (by norm_num) (by norm_num [abs_of_pos])
    (by norm_num [abs_of_pos]) (by rw [abs_lt]; constructor <;> norm_num)]
  norm_num

theorem double_578_1000 : roundToDouble (578 / 1000) = 5206161169240293 / 9007199254740992 := by
  rw [roundToDouble_eq (-1) 5206161169240293 (by norm_num) (by norm_num [abs_of_pos])
    (by norm_num [abs_of_pos]) (by rw [abs_lt]; constructor <;> norm_num)]
  norm_num

theorem double_114_1000 : roundToDouble (114 / 1000) = 8214565720323785 / 72057594037927936 := by
  rw [roundToDouble_eq (-4) 8214565720323785 (by norm_num) (by norm_num [abs_of_pos])
    (by norm_num [abs_of_pos]) (by rw [abs_lt]; constructor <;> norm_num)]
  norm_num

theorem double_7_10 : roundToDouble (7 / 10) = 3152519739159347 / 4503599627370496 := by
  rw [roundToDouble_eq (-1) 6305039478318694 (by norm_num) (by norm_num [abs_of_pos])
    (by norm_num [abs_of_pos]) (by rw [abs_lt]; constructor <;> norm_num)]
  norm_num

theorem double_3_10 : roundToDouble (3 / 10) = 5404319552844595 / 18014398509481984 := by
  rw [roundToDouble_eq (-2) 5404319552844595 (by norm_num) (by norm_num [abs_of_pos])
    (by norm_num [abs_of_pos]) (by rw [abs_lt]; constructor <;> norm_num)]
  norm_num

/-! ## The range and the rounding error of the channel expressions -/

/-- One rounding adds at most `2^(e-53)` to the distance from a reference value. -/
theorem abs_roundToDouble_sub_le_of {x r δ : ℚ} (e : Int) (he : -1022 ≤ e)
    (hx : |x| < (2 : ℚ) ^ (e + 1)) (h : |x - r| ≤ δ) :
    |roundToDouble x - r| ≤ δ + (2 : ℚ) ^ (e - 53) := by
  have h₁ := abs_roundToDouble_sub_le_zpow e he hx
  have h₂ : roundToDouble x - r = (roundToDouble x - x) + (x - r) := by ring
  rw [h₂]
  exact le_trans (abs_add _ _) (by linarith)

/-- The shape `fl(fl(fl(k₁·a) + fl(k₂·b)) + fl(k₃·c))` of the luma, with the three
literals already rounded: for channels in `[0, 255]` the value lies in `[0, 255]` and
differs from `0.299·a + 0.578·b + 0.114·c` by at most `2^(-43)`. -/
theorem lumaShape_bounds {a b c : ℚ} (ha0 : 0 ≤ a) (ha : a ≤ 255) (hb0 : 0 ≤ b)
    (hb : b ≤ 255) (hc0 : 0 ≤ c) (hc : c ≤ 255) :
    0 ≤ roundToDouble
        (roundToDouble
            (roundToDouble (5386305154335113 / 18014398509481984 * a) +
              roundToDouble (5206161169240293 / 9007199254740992 * b)) +
          roundToDouble (8214565720323785 / 72057594037927936 * c)) ∧
    roundToDouble
        (roundToDouble
            (roundToDouble (5386305154335113 / 18014398509481984 * a) +
              roundToDouble (5206161169240293 / 9007199254740992 * b)) +
          roundToDouble (8214565720323785 / 72057594037927936 * c)) ≤ 255 ∧
    |roundToDouble
        (roundToDouble
            (roundToDouble (5386305154335113 / 18014398509481984 * a) +
              roundToDouble (5206161169240293 / 9007199254740992 * b)) +
          roundToDouble (8214565720323785 / 72057594037927936 * c)) -
      (299 / 1000 * a + 578 / 1000 * b + 114 / 1000 * c)| ≤ 1 / 2 ^ (43 : Nat) := by
  -- the three products
  have hA0 : (0 : ℚ) ≤ 5386305154335113 / 18014398509481984 * a := by positivity
  have hA1 : (5386305154335113 / 18014398509481984 * a : ℚ) ≤ 77 := by linarith
  have hAx : |(5386305154335113 / 18014398509481984 * a : ℚ)| < (2 : ℚ) ^ ((6 : Int) + 1) := by
    rw [abs_of_nonneg hA0]; norm_num; linarith
  have hAr : |(5386305154335113 / 18014398509481984 * a : ℚ) - 299 / 1000 * a| ≤
      1 / 2 ^ (47 : Nat) := by
    rw [abs_le]; constructor <;> norm_num <;> linarith
  have x₁0 := roundToDouble_nonneg hA0
  have x₁1 := roundToDouble_le_dyadic 6 77 0 (by norm_num) hAx (by norm_num)
    (by norm_num; linarith)
  have x₁e := abs_roundToDouble_sub_le_of 6 (by norm_num) hAx hAr
  have hB0 : (0 : ℚ) ≤ 5206161169240293 / 9007199254740992 * b := by positivity
  have hB1 : (5206161169240293 / 9007199254740992 * b : ℚ) ≤ 148 := by linarith
  have hBx : |(5206161169240293 / 9007199254740992 * b : ℚ)| < (2 : ℚ) ^ ((7 : Int) + 1) := by
    rw [abs_of_nonneg hB0]; norm_num; linarith
  have hBr : |(5206161169240293 / 9007199254740992 * b : ℚ) - 578 / 1000 * b| ≤
      1 / 2 ^ (46 : Nat) := by
    rw [abs_le]; constructor <;> norm_num <;> linarith
  have x₂0 := roundToDouble_nonneg hB0
  have x₂1 := roundToDouble_le_dyadic 7 148 0 (by norm_num) hBx (by norm_num)
    (by norm_num; linarith)
  have x₂e := abs_roundToDouble_sub_le_of 7 (by norm_num) hBx hBr
  have hC0 : (0 : ℚ) ≤ 8214565720323785 / 72057594037927936 * c := by positivity
  have hC1 : (8214565720323785 / 72057594037927936 * c : ℚ) ≤ 30 := by linarith
  have hCx : |(8214565720323785 / 72057594037927936 * c : ℚ)| < (2 : ℚ) ^ ((4 : Int) + 1) := by
    rw [abs_of_nonneg hC0]; norm_num; linarith
  have hCr : |(8214565720323785 / 72057594037927936 * c : ℚ) - 114 / 1000 * c| ≤
      1 / 2 ^ (49 : Nat) := by
    rw [abs_le]; constructor <;> norm_num <;> linarith
  have x₃0 := roundToDouble_nonneg hC0
  have x₃1 := roundToDouble_le_dyadic 4 30 0 (by norm_num) hCx (by norm_num)
    (by norm_num; linarith)
  have x₃e := abs_roundToDouble_sub_le_of 4 (by norm_num) hCx hCr
  norm_num at x₁1 x₂1 x₃1 x₁e x₂e x₃e
  generalize roundToDouble (5386305154335113 / 18014398509481984 * a) = x₁ at *
  generalize roundToDouble (5206161169240293 / 9007199254740992 * b) = x₂ at *
  generalize roundToDouble (8214565720323785 / 72057594037927936 * c) = x₃ at *
  -- the first sum
  have hS0 : 0 ≤ x₁ + x₂ := by linarith
  have hSx : |x₁ + x₂| < (2 : ℚ) ^ ((7 : Int) + 1) := by
    rw [abs_of_nonneg hS0]; norm_num; linarith
  have hSr : |x₁ + x₂ - (299 / 1000 * a + 578 / 1000 * b)| ≤ 1 / 2 ^ (44 : Nat) := by
    have e : x₁ + x₂ - (299 / 1000 * a + 578 / 1000 * b) =
        (x₁ - 299 / 1000 * a) + (x₂ - 578 / 1000 * b) := by ring
    rw [e]
    refine le_trans (abs_add _ _) ?_
    norm_num
    linarith
  have s₁0 := roundToDouble_nonneg hS0
  have s₁1 := roundToDouble_le_dyadic 7 225 0 (by norm_num) hSx (by norm_num)
    (by norm_num; linarith)
  have s₁e := abs_roundToDouble_sub_le_of 7 (by norm_num) hSx hSr
  norm_num at s₁1 s₁e
  generalize roundToDouble (x₁ + x₂) = s₁ at *
  -- the second sum
  have hT0 : 0 ≤ s₁ + x₃ := by linarith
  have hTx : |s₁ + x₃| < (2 : ℚ) ^ ((7 : Int) + 1) := by
    rw [abs_of_nonneg hT0]; norm_num; linarith
  have hTr : |s₁ + x₃ - (299 / 1000 * a + 578 / 1000 * b + 114 / 1000 * c)| ≤
      1 / 2 ^ (44 : Nat) + 1 / 2 ^ (46 : Nat) + 1 / 2 ^ (46 : Nat) := by
    have e : s₁ + x₃ - (299 / 1000 * a + 578 / 1000 * b + 114 / 1000 * c) =
        (s₁ - (299 / 1000 * a + 578 / 1000 * b)) + (x₃ - 114 / 1000 * c) := by ring
    rw [e]
    refine le_trans (abs_add _ _) ?_
    norm_num
    linarith
  have s₂0 := roundToDouble_nonneg hT0
  have s₂1 := roundToDouble_le_dyadic 7 255 0 (by norm_num) hTx (by norm_num)
    (by norm_num; linarith)
  have s₂e := abs_roundToDouble_sub_le_of 7 (by norm_num) hTx hTr
  norm_num at s₂1
  exact ⟨s₂0, s₂1, le_trans s₂e (by norm_num)⟩

/-- The shape `fl(fl(k₁·a) + fl(k₂·b))` of the OPTIMIZED mix, with the two literals
already rounded: for channels in `[0, 255]` the value lies in `[0, 255]` and differs
from `0.7·a + 0.3·b` by at most `2^(-43)`. -/
theorem mixShape_bounds {a b : ℚ} (ha0 : 0 ≤ a) (ha : a ≤ 255) (hb0 : 0 ≤ b)
    (hb : b ≤ 255) :
    0 ≤ roundToDouble
        (roundToDouble (3152519739159347 / 4503599627370496 * a) +
          roundToDouble (5404319552844595 / 18014398509481984 * b)) ∧
    roundToDouble
        (roundToDouble (3152519739159347 / 4503599627370496 * a) +
          roundToDouble (5404319552844595 / 18014398509481984 * b)) ≤ 255 ∧
    |roundToDouble
        (roundToDouble (3152519739159347 / 4503599627370496 * a) +
          roundToDouble (5404319552844595 / 18014398509481984 * b)) -
      (7 / 10 * a + 3 / 10 * b)| ≤ 1 / 2 ^ (43 : Nat) := by
  have hA0 : (0 : ℚ) ≤ 3152519739159347 / 4503599627370496 * a := by positivity
  have hAx : |(3152519739159347 / 4503599627370496 * a : ℚ)| < (2 : ℚ) ^ ((7 : Int) + 1) := by
    rw [abs_of_nonneg hA0]; norm_num; linarith
  have hAr : |(3152519739159347 / 4503599627370496 * a : ℚ) - 7 / 10 * a| ≤
      1 / 2 ^ (46 : Nat) := by
    rw [abs_le]; constructor <;> norm_num <;> linarith
  have x₁0 := roundToDouble_nonneg hA0
  have x₁1 := roundToDouble_le_dyadic 7 357 (-1) (by norm_num) hAx (by norm_num)
    (by norm_num; linarith)
  have x₁e := abs_roundToDouble_sub_le_of 7 (by norm_num) hAx hAr
  have hB0 : (0 : ℚ) ≤ 5404319552844595 / 18014398509481984 * b := by positivity
  have hBx : |(5404319552844595 / 18014398509481984 * b : ℚ)| < (2 : ℚ) ^ ((6 : Int) + 1) := by
    rw [abs_of_nonneg hB0]; norm_num; linarith
  have hBr : |(5404319552844595 / 18014398509481984 * b : ℚ) - 3 / 10 * b| ≤
      1 / 2 ^ (47 : Nat) := by
    rw [abs_le]; constructor <;> norm_num <;> linarith
  have x₂0 := roundToDouble_nonneg hB0
  have x₂1 := roundToDouble_le_dyadic 6 153 (-1) (by norm_num) hBx (by norm_num)
    (by norm_num; linarith)
  have x₂e := abs_roundToDouble_sub_le_of 6 (by norm_num) hBx hBr
  norm_num at x₁1 x₂1 x₁e x₂e
  generalize roundToDouble (3152519739159347 / 4503599627370496 * a) = x₁ at *
  generalize roundToDouble (5404319552844595 / 18014398509481984 * b) = x₂ at *
  have hS0 : 0 ≤ x₁ + x₂ := by linarith
  have hSx : |x₁ + x₂| < (2 : ℚ) ^ ((7 : Int) + 1) := by
    rw [abs_of_nonneg hS0]; norm_num; linarith
  have hSr : |x₁ + x₂ - (7 / 10 * a + 3 / 10 * b)| ≤
      1 / 2 ^ (45 : Nat) + 1 / 2 ^ (46 : Nat) := by
    have e : x₁ + x₂ - (7 / 10 * a + 3 / 10 * b) =
        (x₁ - 7 / 10 * a) + (x₂ - 3 / 10 * b) := by ring
    rw [e]
    refine le_trans (abs_add _ _) ?_
    norm_num
    linarith
  have s₁0 := roundToDouble_nonneg hS0
  have s₁1 := roundToDouble_le_dyadic 7 255 0 (by norm_num) hSx (by norm_num)
    (by norm_num; linarith)
  have s₁e := abs_roundToDouble_sub_le_of 7 (by norm_num) hSx hSr
  norm_num at s₁1
  exact ⟨s₁0, s₁1, le_trans s₁e (by norm_num)⟩

theorem luma211_bounds {p : Vec3b} (h : p.valid) :
    0 ≤ luma211 p ∧ luma211 p ≤ 255 ∧
    |luma211 p - (299 / 1000 * (p.c0 : ℚ) + 578 / 1000 * (p.c1 : ℚ) +
      114 / 1000 * (p.c2 : ℚ))| ≤ 1 / 2 ^ (43 : Nat) := by
  obtain ⟨h0, h1, h2⟩ := h
  unfold luma211
  rw [double_299_1000, double_578_1000, double_114_1000]
  exact lumaShape_bounds (Nat.cast_nonneg _) (by exact_mod_cast Nat.le_of_lt_succ h0)
    (Nat.cast_nonneg _) (by exact_mod_cast Nat.le_of_lt_succ h1)
    (Nat.cast_nonneg _) (by exact_mod_cast Nat.le_of_lt_succ h2)

theorem optimized211_bounds {p : Vec3b} (h : p.valid) :
    0 ≤ optimized211 p ∧ optimized211 p ≤ 255 ∧
    |optimized211 p - (7 / 10 * (p.c1 : ℚ) + 3 / 10 * (p.c2 : ℚ))| ≤ 1 / 2 ^ (43 : Nat) := by
  obtain ⟨_, h1, h2⟩ := h
  unfold optimized211
  rw [double_7_10, double_3_10]
  exact mixShape_bounds (Nat.cast_nonneg _) (by exact_mod_cast Nat.le_of_lt_succ h1)
    (Nat.cast_nonneg _) (by exact_mod_cast Nat.le_of_lt_succ h2)

theorem optimized212_bounds {p : Vec3b} (h : p.valid) :
    0 ≤ optimized212 p ∧ optimized212 p ≤ 255 ∧
    |optimized212 p - (7 / 10 * (p.c1 : ℚ) + 3 / 10 * (p.c0 : ℚ))| ≤ 1 / 2 ^ (43 : Nat) := by
  obtain ⟨h0, h1, _⟩ := h
  unfold optimized212
  rw [double_7_10, double_3_10]
  exact mixShape_bounds (Nat.cast_nonneg _) (by exact_mod_cast Nat.le_of_lt_succ h1)
    (Nat.cast_nonneg _) (by exact_mod_cast Nat.le_of_lt_succ h0)

theorem luma212_bounds {p : Vec3b} (h : p.valid) :
    0 ≤ luma212 p ∧ luma212 p ≤ 255 ∧
    |luma212 p - (299 / 1000 * (p.c2 : ℚ) + 578 / 1000 * (p.c1 : ℚ) +
      114 / 1000 * (p.c0 : ℚ))| ≤ 1 / 2 ^ (43 : Nat) := by
  obtain ⟨h0, h1, h2⟩ := h
  unfold luma212
  rw [double_299_1000, double_578_1000, double_114_1000]
  exact lumaShape_bounds (Nat.cast_nonneg _) (by exact_mod_cast Nat.le_of_lt_succ h2)
    (Nat.cast_nonneg _) (by exact_mod_cast Nat.le_of_lt_succ h1)
    (Nat.cast_nonneg _) (by exact_mod_cast Nat.le_of_lt_succ h0)

theorem luma211_range {p : Vec3b} (h : p.valid) : 0 ≤ luma211 p ∧ luma211 p ≤ 255 :=
  ⟨(luma211_bounds h).1, (luma211_bounds h).2.1⟩

theorem optimized211_range {p : Vec3b} (h : p.valid) :
    0 ≤ optimized211 p ∧ optimized211 p ≤ 255 :=
  ⟨(optimized211_bounds h).1, (optimized211_bounds h).2.1⟩

theorem luma212_range {p : Vec3b} (h : p.valid) : 0 ≤ luma212 p ∧ luma212 p ≤ 255 :=
  ⟨(luma212_bounds h).1, (luma212_bounds h).2.1⟩

theorem optimized212_range {p : Vec3b} (h : p.valid) :
    0 ≤ optimized212 p ∧ optimized212 p ≤ 255 :=
  ⟨(optimized212_bounds h).1, (optimized212_bounds h).2.1⟩

/-- A value within `2^(-43)` of a multiple `n / d` of `1 / d`, `d ≤ 1000`, has the
integer part of `n / d` or, only when `n / d` is itself an integer, possibly one
less. -/
theorem floor_near_fraction {v : ℚ} {n d : Nat} (hd0 : 0 < d) (hd : d ≤ 1000)
    (h : |v - (n : ℚ) / (d : ℚ)| ≤ 1 / 2 ^ (43 : Nat)) :
    (Int.floor v = ((n / d : Nat) : Int) ∨ Int.floor v = ((n / d : Nat) : Int) - 1) ∧
    (n % d ≠ 0 → Int.floor v = ((n / d : Nat) : Int)) := by
  have hdq : (0 : ℚ) < (d : ℚ) := by exact_mod_cast hd0
  have hdq' : (d : ℚ) ≤ 1000 := by exact_mod_cast hd
  have hn : (n : ℚ) = (d : ℚ) * ((n / d : Nat) : ℚ) + ((n % d : Nat) : ℚ) := by
    exact_mod_cast (Nat.div_add_mod n d).symm
  have hr : ((n % d : Nat) : ℚ) + 1 ≤ (d : ℚ) := by
    exact_mod_cast Nat.mod_lt n hd0
  have hr0 : (0 : ℚ) ≤ ((n % d : Nat) : ℚ) := Nat.cast_nonneg _
  have hq : (n : ℚ) / (d : ℚ) = ((n / d : Nat) : ℚ) + ((n % d : Nat) : ℚ) / (d : ℚ) := by
    rw [hn]; field_simp; ring
  rw [hq, abs_le] at h
  obtain ⟨h₁, h₂⟩ := h
  have hfrac1 : ((n % d : Nat) : ℚ) / (d : ℚ) ≤ 1 - 1 / 1000 := by
    rw [div_le_iff₀ hdq]
    have : (1 - 1 / 1000 : ℚ) * d = d - d / 1000 := by ring
    rw [this]
    have : (d : ℚ) / 1000 ≤ 1 := by rw [div_le_one (by norm_num)]; exact hdq'
    linarith
  have hfrac0 : (0 : ℚ) ≤ ((n % d : Nat) : ℚ) / (d : ℚ) := div_nonneg hr0 (le_of_lt hdq)
  have hsmall : (1 : ℚ) / 2 ^ (43 : Nat) < 1 / 1000 := by norm_num
  have hup : v < ((n / d : Nat) : ℚ) + 1 := by linarith
  have hlo : ((n / d : Nat) : ℚ) - 1 ≤ v := by linarith
  have hf₁ : Int.floor v < ((n / d : Nat) : Int) + 1 := by
    rw [Int.floor_lt]; push_cast; exact hup
  have hf₂ : ((n / d : Nat) : Int) - 1 ≤ Int.floor v := by
    rw [Int.le_floor]; push_cast; exact hlo
  constructor
  · omega
  · intro hne
    have hpos : (1 : ℚ) ≤ ((n % d : Nat) : ℚ) := by
      exact_mod_cast Nat.one_le_iff_ne_zero.mpr hne
    have hfr : (1 : ℚ) / 1000 ≤ ((n % d : Nat) : ℚ) / (d : ℚ) := by
      rw [le_div_iff₀ hdq]
      have : (1 / 1000 : ℚ) * d ≤ 1 := by
        have : (1 / 1000 : ℚ) * d = d / 1000 := by ring
        rw [this, div_le_one (by norm_num)]; exact hdq'
      linarith
    have hlo2 : ((n / d : Nat) : ℚ) ≤ v := by linarith
    have hf₃ : ((n / d : Nat) : Int) ≤ Int.floor v := by
      rw [Int.le_floor]; push_cast; exact hlo2
    omega

/-! ## The narrowing conversion -/

theorem truncZ_of_nonneg {K : Type} [LinearOrderedField K] [FloorRing K] {q : K}
    (h : 0 ≤ q) : truncZ q = Int.floor q := by
  unfold truncZ; rw [if_pos h]

/-- A value of `[0, 256)` is narrowed to its integer part: nothing wraps. -/
theorem toUchar_of_range {K : Type} [LinearOrderedField K] [FloorRing K] {q : K}
    (h0 : 0 ≤ q) (h1 : q < 256) : (toUchar q : Int) = truncZ q ∧ toUchar q < 256 := by
  have hf0 : 0 ≤ Int.floor q := Int.floor_nonneg.mpr h0
  have hf1 : Int.floor q < 256 := by
    rw [Int.floor_lt]; exact_mod_cast h1
  unfold toUchar
  rw [truncZ_of_nonneg h0]
  constructor <;> omega

theorem toUchar_natCast {K : Type} [LinearOrderedField K] [FloorRing K] {n : Nat}
    (h : n < 256) : toUchar (n : K) = n := by
  unfold toUchar
  rw [truncZ_of_nonneg (Nat.cast_nonneg n), Int.floor_natCast]
  omega

theorem toUchar_eq_toNat {q : ℚ} (h0 : 0 ≤ q) (h1 : q ≤ 255) :
    toUchar q = (truncZ q).toNat := by
  have := (toUchar_of_range h0 (lt_of_le_of_lt h1 (by norm_num))).1
  omega

theorem narrowsExactly_of_range {q : ℚ} (h0 : 0 ≤ q) (h1 : q ≤ 255) : narrowsExactly q := by
  have h := toUchar_of_range h0 (lt_of_le_of_lt h1 (by norm_num))
  have hf0 : 0 ≤ Int.floor q := Int.floor_nonneg.mpr h0
  have hf1 : Int.floor q ≤ 255 := by
    have : Int.floor q < 256 := by
      rw [Int.floor_lt]; exact lt_of_le_of_lt h1 (by norm_num)
    omega
  refine ⟨h0, h1, ?_, ?_, h.1⟩
  · rw [truncZ_of_nonneg h0]; exact hf0
  · rw [truncZ_of_nonneg h0]; exact hf1

theorem toUchar_lt {K : Type} [LinearOrderedField K] [FloorRing K] (q : K) :
    toUchar q < 256 := by
  unfold toUchar
  omega

theorem anaglyphPixel211_valid (ty : Int) {l r : Vec3b} (hl : l.valid) (hr : r.valid) :
    (anaglyphPixel211 ty l r).valid := by
  unfold anaglyphPixel211
  split_ifs
  · exact ⟨toUchar_lt _, by norm_num, toUchar_lt _⟩
  · exact ⟨toUchar_lt _, toUchar_lt _, toUchar_lt _⟩
  · exact ⟨hr.1, hr.2.1, hl.2.2⟩
  · exact ⟨toUchar_lt _, hr.2.1, hl.2.2⟩
  · exact ⟨toUchar_lt _, hr.2.1, hl.2.2⟩
  · exact hl

theorem anaglyphPixel212_valid (ty : Int) {l r : Vec3b} (hl : l.valid) (hr : r.valid) :
    (anaglyphPixel212 ty l r).valid := by
  unfold anaglyphPixel212
  split_ifs
  · exact ⟨toUchar_lt _, by norm_num, toUchar_lt _⟩
  · exact ⟨toUchar_lt _, toUchar_lt _, toUchar_lt _⟩
  · exact ⟨hr.2.2, hr.2.1, hl.1⟩
  · exact ⟨toUchar_lt _, hr.2.1, hl.1⟩
  · exact ⟨toUchar_lt _, hr.2.1, hl.1⟩
  · exact hl

/-! ## The stored channel against the exact value -/

theorem truncZ_natCast_div (n d : Nat) :
    (truncZ ((n : ℚ) / (d : ℚ))).toNat = n / d := by
  rw [truncZ_of_nonneg (by positivity), Rat.floor_natCast_div_natCast]
  have : ((n : Int) / (d : Int)) = ((n / d : Nat) : Int) := (Int.natCast_div n d).symm
  rw [this]
  exact Int.toNat_natCast _

theorem specLuma_eq (p : Vec3b) :
    specLuma p = (299 * p.c0 + 578 * p.c1 + 114 * p.c2) / 1000 := by
  unfold specLuma
  have e : (299 / 1000 * (p.c0 : ℚ) + 578 / 1000 * (p.c1 : ℚ) + 114 / 1000 * (p.c2 : ℚ)) =
      ((299 * p.c0 + 578 * p.c1 + 114 * p.c2 : Nat) : ℚ) / ((1000 : Nat) : ℚ) := by
    push_cast; ring
  rw [e, truncZ_natCast_div]

theorem specOptimizedMix_eq (p : Vec3b) :
    specOptimizedMix p = (7 * p.c1 + 3 * p.c0) / 10 := by
  unfold specOptimizedMix
  have e : (7 / 10 * (p.c1 : ℚ) + 3 / 10 * (p.c0 : ℚ)) =
      ((7 * p.c1 + 3 * p.c0 : Nat) : ℚ) / ((10 : Nat) : ℚ) := by
    push_cast; ring
  rw [e, truncZ_natCast_div]

/-- A value of `[0, 255]` within `2^(-43)` of the fraction `n / d`, `d ≤ 1000`, is
stored as the integer part of `n / d` or as one less; it is stored as that integer
part whenever `d` does not divide `n`. -/
theorem toUchar_near_fraction {v : ℚ} {n d : Nat} (hd0 : 0 < d) (hd : d ≤ 1000)
    (h0 : 0 ≤ v) (h1 : v ≤ 255) (h : |v - (n : ℚ) / (d : ℚ)| ≤ 1 / 2 ^ (43 : Nat)) :
    (toUchar v = n / d ∨ toUchar v + 1 = n / d) ∧ (n % d ≠ 0 → toUchar v = n / d) := by
  have hu := (toUchar_of_range h0 (lt_of_le_of_lt h1 (by norm_num))).1
  rw [truncZ_of_nonneg h0] at hu
  have hf0 : 0 ≤ Int.floor v := Int.floor_nonneg.mpr h0
  obtain ⟨hA, hB⟩ := floor_near_fraction hd0 hd h
  constructor
  · rcases hA with hA | hA
    · left; omega
    · right; omega
  · intro hne
    have := hB hne
    omega

/-- The OPTIMIZED mix computed in `double` arithmetic is stored as the truncation of the
exact value `0.7·a + 0.3·b` or as one less; as that truncation whenever the exact value
is not a whole number. -/
theorem toUchar_mix_near {v : ℚ} {a b : Nat} (h0 : 0 ≤ v) (h1 : v ≤ 255)
    (h : |v - (7 / 10 * (a : ℚ) + 3 / 10 * (b : ℚ))| ≤ 1 / 2 ^ (43 : Nat)) :
    (toUchar v = (truncZ (7 / 10 * (a : ℚ) + 3 / 10 * (b : ℚ))).toNat ∨
      toUchar v + 1 = (truncZ (7 / 10 * (a : ℚ) + 3 / 10 * (b : ℚ))).toNat) ∧
    ((7 * a + 3 * b) % 10 ≠ 0 →
      toUchar v = (truncZ (7 / 10 * (a : ℚ) + 3 / 10 * (b : ℚ))).toNat) := by
  have e : (7 / 10 * (a : ℚ) + 3 / 10 * (b : ℚ)) =
      ((7 * a + 3 * b : Nat) : ℚ) / ((10 : Nat) : ℚ) := by
    push_cast; ring
  rw [e] at h ⊢
  rw [truncZ_natCast_div]
  exact toUchar_near_fraction (by norm_num) (by norm_num) h0 h1 h

/-- The luma computed in `double` arithmetic is stored as the truncation of the exact
value `0.299·a + 0.578·b + 0.114·c` or as one less; as that truncation whenever the
exact value is not a whole number. -/
theorem toUchar_luma_near {v : ℚ} {a b c : Nat} (h0 : 0 ≤ v) (h1 : v ≤ 255)
    (h : |v - (299 / 1000 * (a : ℚ) + 578 / 1000 * (b : ℚ) + 114 / 1000 * (c : ℚ))| ≤
      1 / 2 ^ (43 : Nat)) :
    (toUchar v =
        (truncZ (299 / 1000 * (a : ℚ) + 578 / 1000 * (b : ℚ) + 114 / 1000 * (c : ℚ))).toNat ∨
      toUchar v + 1 =
        (truncZ (299 / 1000 * (a : ℚ) + 578 / 1000 * (b : ℚ) + 114 / 1000 * (c : ℚ))).toNat) ∧
    ((299 * a + 578 * b + 114 * c) % 1000 ≠ 0 →
      toUchar v =
        (truncZ (299 / 1000 * (a : ℚ) + 578 / 1000 * (b : ℚ) + 114 / 1000 * (c : ℚ))).toNat) := by
  have e : (299 / 1000 * (a : ℚ) + 578 / 1000 * (b : ℚ) + 114 / 1000 * (c : ℚ)) =
      ((299 * a + 578 * b + 114 * c : Nat) : ℚ) / ((1000 : Nat) : ℚ) := by
    push_cast; ring
  rw [e] at h ⊢
  rw [truncZ_natCast_div]
  exact toUchar_near_fraction (by norm_num) (by norm_num) h0 h1 h

theorem toUchar_luma211_near {p : Vec3b} (h : p.valid) :
    (toUchar (luma211 p) = specLuma p ∨ toUchar (luma211 p) + 1 = specLuma p) ∧
    ((299 * p.c0 + 578 * p.c1 + 114 * p.c2) % 1000 ≠ 0 →
      toUchar (luma211 p) = specLuma p) := by
  obtain ⟨h0, h1, he⟩ := luma211_bounds h
  exact toUchar_luma_near h0 h1 he

/-! ## The channel expressions at particular pixels -/

theorem optimized211_0_0_100 : optimized211 ⟨0, 0, 100⟩ = 30 := by
  have h0 : roundToDouble (135107988821114875 / 4503599627370496) = 30 := by
    rw [roundToDouble_eq (4) 8444249301319680 (by norm_num) (by norm_num [abs_of_pos])
      (by norm_num [abs_of_pos]) (by rw [abs_lt]; constructor <;> norm_num)]
    norm_num
  have h1 : roundToDouble (30) = 30 := by
    rw [roundToDouble_eq (4) 8444249301319680 (by norm_num) (by norm_num [abs_of_pos])
      (by norm_num [abs_of_pos]) (by rw [abs_lt]; constructor <;> norm_num)]
    norm_num
  simp only [optimized211, double_7_10, double_3_10]
  norm_num [roundToDouble_zero, h0, h1]

theorem optimized212_0_0_100 : optimized212 ⟨0, 0, 100⟩ = 0 := by
  simp only [optimized212, double_7_10, double_3_10]
  norm_num [roundToDouble_zero]

theorem optimized212_0_90_0 : optimized212 ⟨0, 90, 0⟩ = 8866461766385663 / 140737488355328 := by
  have h0 : roundToDouble (141863388262170615 / 2251799813685248) = 8866461766385663 / 140737488355328 := by
    rw [roundToDouble_eq (5) 8866461766385663 (by norm_num) (by norm_num [abs_of_pos])
      (by norm_num [abs_of_pos]) (by rw [abs_lt]; constructor <;> norm_num)]
    norm_num
  have h1 : roundToDouble (8866461766385663 / 140737488355328) = 8866461766385663 / 140737488355328 := by
    rw [roundToDouble_eq (5) 8866461766385663 (by norm_num) (by norm_num [abs_of_pos])
      (by norm_num [abs_of_pos]) (by rw [abs_lt]; constructor <;> norm_num)]
    norm_num
  simp only [optimized212, double_7_10, double_3_10]
  norm_num [roundToDouble_zero, h0, h1]

theorem optimized211_0_1_31 : optimized211 ⟨0, 1, 31⟩ = 5629499534213119 / 562949953421312 := by
  have h0 : roundToDouble (3152519739159347 / 4503599627370496) = 3152519739159347 / 4503599627370496 := by
    rw [roundToDouble_eq (-1) 6305039478318694 (by norm_num) (by norm_num [abs_of_pos])
      (by norm_num [abs_of_pos]) (by rw [abs_lt]; constructor <;> norm_num)]
    norm_num
  have h1 : roundToDouble (167533906138182445 / 18014398509481984) = 5235434566818201 / 562949953421312 := by
    rw [roundToDouble_eq (3) 5235434566818201 (by norm_num) (by norm_num [abs_of_pos])
      (by norm_num [abs_of_pos]) (by rw [abs_lt]; constructor <;> norm_num)]
    norm_num
  have h2 : roundToDouble (45035996273704955 / 4503599627370496) = 5629499534213119 / 562949953421312 := by
    rw [roundToDouble_eq (3) 5629499534213119 (by norm_num) (by norm_num [abs_of_pos])
      (by norm_num [abs_of_pos]) (by rw [abs_lt]; constructor <;> norm_num)]
    norm_num
  simp only [optimized211, double_7_10, double_3_10]
  norm_num [roundToDouble_zero, h0, h1, h2]

theorem luma211_0_63_49 : luma211 ⟨0, 63, 49⟩ = 5910974510923775 / 140737488355328 := by
  have h0 : roundToDouble (327988153662138459 / 9007199254740992) = 5124814900970913 / 140737488355328 := by
    rw [roundToDouble_eq (5) 5124814900970913 (by norm_num) (by norm_num [abs_of_pos])
      (by norm_num [abs_of_pos]) (by rw [abs_lt]; constructor <;> norm_num)]
    norm_num
  have h1 : roundToDouble (402513720295865465 / 72057594037927936) = 3144638439811449 / 562949953421312 := by
    rw [roundToDouble_eq (2) 6289276879622898 (by norm_num) (by norm_num [abs_of_pos])
      (by norm_num [abs_of_pos]) (by rw [abs_lt]; constructor <;> norm_num)]
    norm_num
  have h2 : roundToDouble (5124814900970913 / 140737488355328) = 5124814900970913 / 140737488355328 := by
    rw [roundToDouble_eq (5) 5124814900970913 (by norm_num) (by norm_num [abs_of_pos])
      (by norm_num [abs_of_pos]) (by rw [abs_lt]; constructor <;> norm_num)]
    norm_num
  have h3 : roundToDouble (23643898043695101 / 562949953421312) = 5910974510923775 / 140737488355328 := by
    rw [roundToDouble_eq (5) 5910974510923775 (by norm_num) (by norm_num [abs_of_pos])
      (by norm_num [abs_of_pos]) (by rw [abs_lt]; constructor <;> norm_num)]
    norm_num
  simp only [luma211, double_299_1000, double_578_1000, double_114_1000]
  norm_num [roundToDouble_zero, h0, h1, h2, h3]

theorem luma211_40_50_60 : luma211 ⟨40, 50, 60⟩ = 3356589097274573 / 70368744177664 := by
  have h0 : roundToDouble (26931525771675565 / 2251799813685248) = 6732881442918891 / 562949953421312 := by
    rw [roundToDouble_eq (3) 6732881442918891 (by norm_num) (by norm_num [abs_of_pos])
      (by norm_num [abs_of_pos]) (by rw [abs_lt]; constructor <;> norm_num)]
    norm_num
  have h1 : roundToDouble (130154029231007325 / 4503599627370496) = 4067313413468979 / 140737488355328 := by
    rw [roundToDouble_eq (4) 8134626826937958 (by norm_num) (by norm_num [abs_of_pos])
      (by norm_num [abs_of_pos]) (by rw [abs_lt]; constructor <;> norm_num)]
    norm_num
  have h2 : roundToDouble (123218485804856775 / 18014398509481984) = 1925288840700887 / 281474976710656 := by
    rw [roundToDouble_eq (2) 7701155362803548 (by norm_num) (by norm_num [abs_of_pos])
      (by norm_num [abs_of_pos]) (by rw [abs_lt]; constructor <;> norm_num)]
    norm_num
  have h3 : roundToDouble (23002135096794807 / 562949953421312) = 2875266887099351 / 70368744177664 := by
    rw [roundToDouble_eq (5) 5750533774198702 (by norm_num) (by norm_num [abs_of_pos])
      (by norm_num [abs_of_pos]) (by rw [abs_lt]; constructor <;> norm_num)]
    norm_num
  have h4 : roundToDouble (13426356389098291 / 281474976710656) = 3356589097274573 / 70368744177664 := by
    rw [roundToDouble_tie (5) 6713178194549145 (by norm_num) (by norm_num [abs_of_pos])
      (by norm_num [abs_of_pos]) (by norm_num)]
    norm_num
  simp only [luma211, double_299_1000, double_578_1000, double_114_1000]
  norm_num [roundToDouble_zero, h0, h1, h2, h3, h4]

theorem luma211_10_20_30 : luma211 ⟨10, 20, 30⟩ = 632263166436311 / 35184372088832 := by
  have h0 : roundToDouble (26931525771675565 / 9007199254740992) = 6732881442918891 / 2251799813685248 := by
    rw [roundToDouble_eq (1) 6732881442918891 (by norm_num) (by norm_num [abs_of_pos])
      (by norm_num [abs_of_pos]) (by rw [abs_lt]; constructor <;> norm_num)]
    norm_num
  have h1 : roundToDouble (26030805846201465 / 2251799813685248) = 3253850730775183 / 281474976710656 := by
    rw [roundToDouble_eq (3) 6507701461550366 (by norm_num) (by norm_num [abs_of_pos])
      (by norm_num [abs_of_pos]) (by rw [abs_lt]; constructor <;> norm_num)]
    norm_num
  have h2 : roundToDouble (123218485804856775 / 36028797018963968) = 1925288840700887 / 562949953421312 := by
    rw [roundToDouble_eq (1) 7701155362803548 (by norm_num) (by norm_num [abs_of_pos])
      (by norm_num [abs_of_pos]) (by rw [abs_lt]; constructor <;> norm_num)]
    norm_num
  have h3 : roundToDouble (32763687289120355 / 2251799813685248) = 8190921822280089 / 562949953421312 := by
    rw [roundToDouble_eq (3) 8190921822280089 (by norm_num) (by norm_num [abs_of_pos])
      (by norm_num [abs_of_pos]) (by rw [abs_lt]; constructor <;> norm_num)]
    norm_num
  have h4 : roundToDouble (632263166436311 / 35184372088832) = 632263166436311 / 35184372088832 := by
    rw [roundToDouble_eq (4) 5058105331490488 (by norm_num) (by norm_num [abs_of_pos])
      (by norm_num [abs_of_pos]) (by rw [abs_lt]; constructor <;> norm_num)]
    norm_num
  simp only [luma211, double_299_1000, double_578_1000, double_114_1000]
  norm_num [roundToDouble_zero, h0, h1, h2, h3, h4]

theorem double_477_10 : roundToDouble (477 / 10) = 3356589097274573 / 70368744177664 := by
  rw [roundToDouble_eq (5) 6713178194549146 (by norm_num) (by norm_num [abs_of_pos])
    (by norm_num [abs_of_pos]) (by rw [abs_lt]; constructor <;> norm_num)]
  norm_num

theorem double_1797_100 : roundToDouble (1797 / 100) = 632263166436311 / 35184372088832 := by
  rw [roundToDouble_eq (4) 5058105331490488 (by norm_num) (by norm_num [abs_of_pos])
    (by norm_num [abs_of_pos]) (by rw [abs_lt]; constructor <;> norm_num)]
  norm_num

/-! ## The offset loops of the blur -/

theorem mem_intRange {lo hi i : Int} : i ∈ intRange lo hi ↔ lo ≤ i ∧ i ≤ hi := by
  unfold intRange
  simp only [List.mem_map, List.mem_range]
  constructor
  · rintro ⟨k, hk, rfl⟩
    omega
  · intro h
    exact ⟨(i - lo).toNat, by omega, by omega⟩

theorem nodup_intRange (lo hi : Int) : (intRange lo hi).Nodup := by
  unfold intRange
  refine List.Nodup.map ?_ (List.nodup_range _)
  intro a b hab
  simpa using hab

theorem applyGaussianBlur_rows {r : Bool} (src : Mat)
    (kernelSize : Int) (kernel : List (List Dbl)) :
    (applyGaussianBlur r src kernelSize kernel).rows = src.rows := rfl

theorem applyGaussianBlur_cols {r : Bool} (src : Mat)
    (kernelSize : Int) (kernel : List (List Dbl)) :
    (applyGaussianBlur r src kernelSize kernel).cols = src.cols := rfl

theorem applyGaussianBlur_WF {r : Bool} (src : Mat)
    (kernelSize : Int) (kernel : List (List Dbl)) :
    (applyGaussianBlur r src kernelSize kernel).WF :=
  Mat.WF_fill _ (Mat.WF_create _ _) (le_refl _) (le_refl _)

/-- The pixel of the blurred image at `(y, x)` is the pixel computed by the body of
the pixel loops. -/
theorem applyGaussianBlur_at {r : Bool} (src : Mat)
    (kernelSize : Int) (kernel : List (List Dbl)) {y x : Nat} (hy : y < src.rows)
    (hx : x < src.cols) :
    (applyGaussianBlur r src kernelSize kernel).atVec3b y x =
      blurPixel r src (kernelSize.tdiv 2) kernel y x := by
  unfold applyGaussianBlur
  simp only []
  rw [Mat.atVec3b_fill _ (Mat.WF_create src.rows src.cols)
    (show src.rows ≤ (Mat.create src.rows src.cols).rows from le_refl _)
    (show src.cols ≤ (Mat.create src.rows src.cols).cols from le_refl _), if_pos ⟨hy, hx⟩]

/-! ## The generated kernel -/

theorem intRange_neg (h : Nat) :
    intRange (-(h : Int)) h = (List.range (2 * h + 1)).map (fun (k : Nat) => (k : Int) - h) := by
  unfold intRange
  have e : ((h : Int) + 1 - -(h : Int)).toNat = 2 * h + 1 := by omega
  rw [e]
  apply List.map_congr_left
  intro k _
  ring

/-- With `half = h`, the generator is the loop nest that stores the value of offset
`(a - h, b - h)` at cell `(a, b)` for `a, b ≤ 2h`. -/
theorem generateGaussianKernel_eq_fillCells (exp : Dbl → Dbl)
    (g : List (List Dbl)) (kernelSize : Int) (sigma : Dbl) (h : Nat)
    (hh : kernelSize.tdiv 2 = h) :
    generateGaussianKernel exp g kernelSize sigma =
      fillCells (2 * h + 1) (2 * h + 1)
        (fun a b => gaussianVal exp sigma ((a : Int) - h) ((b : Int) - h)) g := by
  have e : ∀ k : Nat, ((k : Int) - (h : Int) + (h : Int)).toNat = k := by
    intro k; omega
  unfold generateGaussianKernel fillCells
  simp only [hh, intRange_neg, List.foldl_map, e]

theorem gridShape_allocKernel (n : Nat) :
    gridShape n n (allocKernel (n : Int)) := by
  refine ⟨by simp [allocKernel], fun i hi => ?_⟩
  simp [allocKernel, List.getD_eq_getElem?_getD, List.getElem?_replicate, hi]

theorem tdiv_two_of_odd (h : Nat) : (2 * (h : Int) + 1).tdiv 2 = h := by
  rw [Int.tdiv_eq_ediv (by omega) (by norm_num)]
  omega

/-- For the odd size `2h + 1`, the kernel of `main` holds at `[i + h][j + h]` the value
computed for offset `(i, j)`, for every offset of `[-h, h]²`. -/
theorem kernelAt_mainKernel (exp : Dbl → Dbl) (sigma : Dbl)
    (h : Nat) {i j : Int} (hi₁ : -(h : Int) ≤ i) (hi₂ : i ≤ h) (hj₁ : -(h : Int) ≤ j)
    (hj₂ : j ≤ h) :
    kernelAt (mainKernel exp (2 * (h : Int) + 1) sigma) (i + h) (j + h) =
      gaussianVal exp sigma i j := by
  unfold mainKernel kernelAt
  rw [generateGaussianKernel_eq_fillCells exp _ _ sigma h (tdiv_two_of_odd h)]
  have hs : gridShape (2 * h + 1) (2 * h + 1) (allocKernel (2 * (h : Int) + 1)) := by
    have := gridShape_allocKernel (2 * h + 1)
    simpa using this
  rw [(fillCells_spec 0 _ (2 * h + 1) (le_refl _) (2 * h + 1) (le_refl _) _ hs).2,
    if_pos ⟨by omega, by omega⟩]
  have ei : (((i + h).toNat : Nat) : Int) - h = i := by omega
  have ej : (((j + h).toNat : Nat) : Int) - h = j := by omega
  rw [ei, ej]

/-! ## The in-bounds offsets -/

theorem zero_mem_inBoundsOffsets {rows cols : Nat} {half : Int} (h0 : 0 ≤ half) {y x : Nat}
    (hy : y < rows) (hx : x < cols) : ((0 : Int), (0 : Int)) ∈ inBoundsOffsets rows cols half y x := by
  unfold inBoundsOffsets inImage
  simp only [Finset.mem_filter, Finset.mem_product, Finset.mem_Icc]
  omega

theorem mem_inBoundsOffsets {rows cols : Nat} {half : Int} {y x : Nat} {o : Int × Int} :
    o ∈ inBoundsOffsets rows cols half y x ↔
      (-half ≤ o.1 ∧ o.1 ≤ half) ∧ (-half ≤ o.2 ∧ o.2 ≤ half) ∧
        inImage rows cols y x o.1 o.2 := by
  unfold inBoundsOffsets
  simp only [Finset.mem_filter, Finset.mem_product, Finset.mem_Icc]
  tauto

/-- An odd size of at least 3 is `2h + 1` with `h ≥ 1`. -/
theorem odd_size_eq {kernelSize : Int} (hodd : kernelSize % 2 = 1) (h3 : 3 ≤ kernelSize) :
    ∃ h : Nat, 1 ≤ h ∧ kernelSize = 2 * (h : Int) + 1 :=
  ⟨(kernelSize / 2).toNat, by omega, by omega⟩

theorem inBoundsOffsets_row3 : inBoundsOffsets 1 3 1 0 1 = {(0, -1), (0, 0), (0, 1)} := by
  decide

theorem inBoundsOffsets_single {half : Int} (h0 : 0 ≤ half) :
    inBoundsOffsets 1 1 half 0 0 = {((0 : Int), (0 : Int))} := by
  ext o
  obtain ⟨i, j⟩ := o
  rw [mem_inBoundsOffsets]
  unfold inImage
  simp only [Finset.mem_singleton, Prod.mk.injEq]
  omega

/-! ## Views and the split of the stereo frame -/

theorem getD_map_range {β : Type} (d : β) (n : Nat) (f : Nat → β) {a : Nat} (ha : a < n) :
    ((List.range n).map f).getD a d = f a := by
  simp [List.getD_eq_getElem?_getD, List.getElem?_map, List.getElem?_range ha]

theorem getCell_map_range {α : Type} (d : α) (R C : Nat) (f : Nat → Nat → α) {a b : Nat}
    (ha : a < R) (hb : b < C) :
    getCell d ((List.range R).map (fun i => (List.range C).map (fun j => f i j))) a b =
      f a b := by
  unfold getCell
  rw [getD_map_range [] R _ ha, getD_map_range d C _ hb]

theorem gridShape_map_range {α : Type} (R C : Nat) (f : Nat → Nat → α) :
    gridShape R C ((List.range R).map (fun i => (List.range C).map (fun j => f i j))) := by
  refine ⟨by simp, fun i hi => ?_⟩
  rw [getD_map_range [] R _ hi]
  simp

theorem Mat.WF_roi (m : Mat) (x y width height : Nat) : (m.roi x y width height).WF :=
  gridShape_map_range height width _

theorem Mat.atVec3b_roi (m : Mat) (x y width height : Nat) {i j : Nat} (hi : i < height)
    (hj : j < width) : (m.roi x y width height).atVec3b i j = m.atVec3b (y + i) (x + j) :=
  getCell_map_range default height width _ hi hj

/-- A view depends on the matrix only through the pixels of its rectangle. -/
theorem Mat.roi_congr (m₁ m₂ : Mat) (x y width height : Nat)
    (h : ∀ i, i < height → ∀ j, j < width →
      m₁.atVec3b (y + i) (x + j) = m₂.atVec3b (y + i) (x + j)) :
    m₁.roi x y width height = m₂.roi x y width height := by
  unfold Mat.roi
  congr 1
  apply List.map_congr_left
  intro i hi
  apply List.map_congr_left
  intro j hj
  exact h i (List.mem_range.mp hi) j (List.mem_range.mp hj)

theorem uniform5_at : ∀ a, a < uniform5.rows → ∀ b, b < uniform5.cols →
    uniform5.atVec3b a b = ⟨7, 8, 9⟩ := by
  decide

/-! ## The checks of `main` -/

theorem checkInputs_eq_ok {stereo : Mat} {ty : Int} (h₁ : ¬ stereo.empty) (h₂ : 0 ≤ ty)
    (h₃ : ty ≤ 5) : checkInputs stereo ty = .ok () := by
  unfold checkInputs
  rw [if_neg h₁, if_neg (by omega)]

theorem checkInputs_of_empty {stereo : Mat} (ty : Int) (h : stereo.empty) :
    checkInputs stereo ty = .error .unableToLoad := by
  unfold checkInputs
  rw [if_pos h]

theorem checkInputs_of_bad_type {stereo : Mat} {ty : Int} (h₁ : ¬ stereo.empty)
    (h₂ : ty < 0 ∨ 5 < ty) : checkInputs stereo ty = .error .invalidAnaglyphType := by
  unfold checkInputs
  rw [if_neg h₁, if_pos (by omega)]

theorem checkInputs_ok_iff (stereo : Mat) (ty : Int) :
    checkInputs stereo ty = .ok () ↔ ¬ stereo.empty ∧ 0 ≤ ty ∧ ty ≤ 5 := by
  constructor
  · intro h
    by_cases h₁ : stereo.empty
    · rw [checkInputs_of_empty ty h₁] at h
      exact Except.noConfusion h
    · by_cases h₂ : ty < 0 ∨ 5 < ty
      · rw [checkInputs_of_bad_type h₁ h₂] at h
        exact Except.noConfusion h
      · exact ⟨h₁, by omega, by omega⟩
  · rintro ⟨h₁, h₂, h₃⟩
    exact checkInputs_eq_ok h₁ h₂ h₃

theorem checkKernelParams_eq_ok {kernelSize : Int}
    {sigma : Dbl} (h₁ : kernelSize ≠ 0) (h₂ : sigma ≠ Dbl.fin 0) :
    checkKernelParams kernelSize sigma = .ok () := by
  unfold checkKernelParams
  rw [if_neg (by tauto)]

theorem checkKernelParams_error_iff (kernelSize : Int)
    (sigma : Dbl) :
    checkKernelParams kernelSize sigma = .error .invalidKernelOrSigma ↔
      kernelSize = 0 ∨ sigma = Dbl.fin 0 := by
  unfold checkKernelParams
  by_cases h : kernelSize = 0 ∨ sigma = Dbl.fin 0
  · simp [h]
  · rw [if_neg h]
    constructor
    · intro h'
      exact Except.noConfusion h'
    · intro h'
      exact absurd h' h

theorem run211_eq_ok (iter : Nat) {stereo : Mat} {ty : Int} (h₁ : ¬ stereo.empty)
    (h₂ : 0 ≤ ty) (h₃ : ty ≤ 5) :
    run211 iter stereo ty =
      .ok (loop211 iter ty (splitLeft stereo) (splitRight stereo)
        (Mat.create (splitLeft stereo).rows (splitLeft stereo).cols)) := by
  unfold run211
  rw [checkInputs_eq_ok h₁ h₂ h₃]

theorem run211_of_error (iter : Nat) {stereo : Mat} {ty : Int} {e : MainError}
    (h : checkInputs stereo ty = .error e) : run211 iter stereo ty = .error e := by
  unfold run211
  rw [h]

theorem run212_eq_ok {r : Bool} (exp : Dbl → Dbl)
    (iter : Nat) {stereo : Mat} {ty : Int} {kernelSize : Int} {sigma : Dbl}
    (h₁ : ¬ stereo.empty) (h₂ : 0 ≤ ty) (h₃ : ty ≤ 5) (h₄ : kernelSize ≠ 0)
    (h₅ : sigma ≠ Dbl.fin 0) :
    run212 r exp iter stereo ty kernelSize sigma =
      .ok ((loop212 r iter ty kernelSize (mainKernel exp kernelSize sigma)
          ⟨splitLeft stereo, splitRight stereo, Mat.create stereo.rows stereo.cols,
            Mat.create (splitLeft stereo).rows (splitLeft stereo).cols⟩).anaglyph_image,
        (loop212 r iter ty kernelSize (mainKernel exp kernelSize sigma)
          ⟨splitLeft stereo, splitRight stereo, Mat.create stereo.rows stereo.cols,
            Mat.create (splitLeft stereo).rows (splitLeft stereo).cols⟩).blurred_image) := by
  unfold run212
  rw [checkInputs_eq_ok h₁ h₂ h₃]
  simp only []
  rw [checkKernelParams_eq_ok h₄ h₅]

theorem run212_of_error {r : Bool} (exp : Dbl → Dbl)
    (iter : Nat) {stereo : Mat} {ty : Int} (kernelSize : Int) (sigma : Dbl) {e : MainError}
    (h : checkInputs stereo ty = .error e) :
    run212 r exp iter stereo ty kernelSize sigma = .error e := by
  unfold run212
  rw [h]

theorem splitLeft_at (stereo : Mat) {i j : Nat} (hi : i < stereo.rows)
    (hj : j < stereo.cols / 2) : (splitLeft stereo).atVec3b i j = stereo.atVec3b i j := by
  unfold splitLeft
  rw [Mat.atVec3b_roi _ _ _ _ _ hi hj, Nat.zero_add, Nat.zero_add]

theorem splitRight_at (stereo : Mat) {i j : Nat} (hi : i < stereo.rows)
    (hj : j < stereo.cols / 2) :
    (splitRight stereo).atVec3b i j = stereo.atVec3b i (stereo.cols / 2 + j) := by
  unfold splitRight
  rw [Mat.atVec3b_roi _ _ _ _ _ hi hj, Nat.zero_add]

/-- The halves depend on the frame only through the columns below `2 * (cols / 2)`. -/
theorem split_congr (s₁ s₂ : Mat) (hr : s₁.rows = s₂.rows) (hc : s₁.cols = s₂.cols)
    (h : ∀ i, i < s₂.rows → ∀ j, j < 2 * (s₂.cols / 2) → s₁.atVec3b i j = s₂.atVec3b i j) :
    splitLeft s₁ = splitLeft s₂ ∧ splitRight s₁ = splitRight s₂ := by
  unfold splitLeft splitRight
  rw [hr, hc]
  constructor
  · apply Mat.roi_congr
    intro i hi j hj
    rw [Nat.zero_add, Nat.zero_add]
    exact h i hi j (by omega)
  · apply Mat.roi_congr
    intro i hi j hj
    rw [Nat.zero_add]
    exact h i hi _ (by omega)

/-! ## The iteration loops -/

/-- A pass overwrites every pixel: its result does not depend on the content of the
destination. -/
theorem composePass211_eq_compose211 (ty : Int) (left right : Mat) {dst : Mat}
    (hd : dst.WF) (hs : dst.sameSize left) :
    composePass211 ty left right dst = compose211 ty left right := by
  have hc : (Mat.create left.rows left.cols).sameSize left := ⟨rfl, rfl⟩
  refine Mat.ext_of_WF (composePass211_WF ty left right hd hs)
    (composePass211_WF ty left right (Mat.WF_create _ _) hc) ⟨hs.1, hs.2⟩ ?_
  intro a b ha hb
  have ha' : a < left.rows := by rw [← hs.1]; exact ha
  have hb' : b < left.cols := by rw [← hs.2]; exact hb
  unfold compose211
  rw [composePass211_at ty left right hd hs ha' hb',
    composePass211_at ty left right (Mat.WF_create _ _) hc ha' hb']

theorem loop211_succ (n : Nat) (ty : Int) (left right dst : Mat) :
    loop211 (n + 1) ty left right dst =
      composePass211 ty left right (loop211 n ty left right dst) := by
  unfold loop211
  rw [List.range_succ, List.foldl_append]
  rfl

theorem loop211_inv (n : Nat) (ty : Int) (left right : Mat) {dst : Mat} (hd : dst.WF)
    (hs : dst.sameSize left) :
    (loop211 n ty left right dst).WF ∧ (loop211 n ty left right dst).sameSize left := by
  induction n with
  | zero => exact ⟨hd, hs⟩
  | succ n ih =>
    rw [loop211_succ]
    exact ⟨composePass211_WF ty left right ih.1 ih.2, ih.2⟩

/-- After at least one pass the destination is the composition of the halves. -/
theorem loop211_eq_compose211 (n : Nat) (ty : Int) (left right : Mat) {dst : Mat}
    (hd : dst.WF) (hs : dst.sameSize left) :
    loop211 (n + 1) ty left right dst = compose211 ty left right := by
  obtain ⟨h₁, h₂⟩ := loop211_inv n ty left right hd hs
  rw [loop211_succ, composePass211_eq_compose211 ty left right h₁ h₂]

/-- The share of one worker stores `f a b` at every `(a, b)` of its rows and leaves
every other cell alone. -/
theorem rowRange_spec {α : Type} (d : α) {R C : Nat} (f : Nat → Nat → α) (cols : Nat)
    (hc : cols ≤ C) (lo n : Nat) (hn : lo + n ≤ R) (g : List (List α))
    (h : gridShape R C g) :
    gridShape R C ((List.range n).foldl
      (fun g k => (List.range cols).foldl
        (fun g j => setCell g (lo + k) j (f (lo + k) j)) g) g) ∧
    ∀ a b, getCell d ((List.range n).foldl
      (fun g k => (List.range cols).foldl
        (fun g j => setCell g (lo + k) j (f (lo + k) j)) g) g) a b =
      if (lo ≤ a ∧ a < lo + n) ∧ b < cols then f a b else getCell d g a b := by
  induction n with
  | zero =>
    refine ⟨h, fun a b => ?_⟩
    have : ¬ ((lo ≤ a ∧ a < lo + 0) ∧ b < cols) := by omega
    simp only [List.range_zero, List.foldl_nil]
    rw [if_neg this]
  | succ n ih =>
    obtain ⟨hs, hget⟩ := ih (by omega)
    rw [List.range_succ, List.foldl_append]
    simp only [List.foldl_cons, List.foldl_nil]
    obtain ⟨hs2, hget2⟩ := rowLoop_spec d (f (lo + n)) (lo + n) (by omega : lo + n < R)
      cols hc _ hs
    refine ⟨hs2, fun a b => ?_⟩
    rw [hget2, hget]
    by_cases han : a = lo + n
    · subst han
      by_cases hb : b < cols
      · simp [hb]
      · simp [hb]
    · by_cases hlt : lo ≤ a ∧ a < lo + n
      · have : lo ≤ a ∧ a < lo + (n + 1) := by omega
        simp [han, hlt, this]
      · have : ¬ (lo ≤ a ∧ a < lo + (n + 1)) := by omega
        simp [han, hlt, this]

theorem fillRowRange_spec {α : Type} (d : α) {R C : Nat} (f : Nat → Nat → α) (cols : Nat)
    (hc : cols ≤ C) (lo hi : Nat) (hlo : lo ≤ hi) (hhi : hi ≤ R) (g : List (List α))
    (h : gridShape R C g) :
    gridShape R C (fillRowRange lo hi cols f g) ∧
    ∀ a b, getCell d (fillRowRange lo hi cols f g) a b =
      if (lo ≤ a ∧ a < hi) ∧ b < cols then f a b else getCell d g a b := by
  have e : lo + (hi - lo) = hi := by omega
  obtain ⟨h₁, h₂⟩ := rowRange_spec d f cols hc lo (hi - lo) (by omega) g h
  rw [e] at h₂
  exact ⟨h₁, h₂⟩

/-- The workers together store `f a b` at every `(a, b)` whose row lies in one of the
sub-ranges and leave every other cell alone, whatever their order. -/
theorem fillChunks_spec {α : Type} (d : α) {R C : Nat} (f : Nat → Nat → α) (cols : Nat)
    (hc : cols ≤ C) (chunks : List (Nat × Nat))
    (hch : ∀ c ∈ chunks, c.1 ≤ c.2 ∧ c.2 ≤ R) (g : List (List α)) (h : gridShape R C g) :
    gridShape R C (fillChunks chunks cols f g) ∧
    ∀ a b, getCell d (fillChunks chunks cols f g) a b =
      if (∃ c ∈ chunks, c.1 ≤ a ∧ a < c.2) ∧ b < cols then f a b else getCell d g a b := by
  unfold fillChunks
  induction chunks generalizing g with
  | nil => simp [h]
  | cons c cs ih =>
    simp only [List.foldl_cons]
    obtain ⟨hs, hget⟩ := fillRowRange_spec d f cols hc c.1 c.2
      (hch c (List.mem_cons_self _ _)).1 (hch c (List.mem_cons_self _ _)).2 g h
    obtain ⟨hs2, hget2⟩ := ih (fun c' hc' => hch c' (List.mem_cons_of_mem _ hc')) _ hs
    refine ⟨hs2, fun a b => ?_⟩
    rw [hget2, hget]
    by_cases hb : b < cols
    · by_cases h₁ : ∃ c' ∈ cs, c'.1 ≤ a ∧ a < c'.2
      · have h₂ : ∃ c' ∈ c :: cs, c'.1 ≤ a ∧ a < c'.2 := by
          obtain ⟨c', hc', hr⟩ := h₁
          exact ⟨c', List.mem_cons_of_mem _ hc', hr⟩
        simp only [h₁, h₂, hb, and_self, if_true]
      · by_cases h₃ : c.1 ≤ a ∧ a < c.2
        · have h₂ : ∃ c' ∈ c :: cs, c'.1 ≤ a ∧ a < c'.2 :=
            ⟨c, List.mem_cons_self _ _, h₃⟩
          simp only [h₁, h₂, h₃, hb, and_self, if_true, false_and, if_false]
        · have h₂ : ¬ ∃ c' ∈ c :: cs, c'.1 ≤ a ∧ a < c'.2 := by
            rintro ⟨c', hc', hr⟩
            rcases List.mem_cons.mp hc' with rfl | hm
            · exact h₃ hr
            · exact h₁ ⟨c', hm, hr⟩
          simp only [h₁, h₂, h₃, false_and, if_false]
    · simp [hb]

/-- Over a partition of the rows the workers leave what the sequential loop nest
leaves. -/
theorem fillChunks_eq_fillCells {α : Type} (d : α) {R C : Nat} (f : Nat → Nat → α)
    (cols : Nat) (hc : cols ≤ C) (chunks : List (Nat × Nat))
    (hp : isRowPartition R chunks) (g : List (List α)) (h : gridShape R C g) :
    fillChunks chunks cols f g = fillCells R cols f g := by
  obtain ⟨h₁, h₂⟩ := fillChunks_spec d f cols hc chunks hp.1 g h
  obtain ⟨h₃, h₄⟩ := fillCells_spec d f cols hc R (le_refl R) g h
  apply gridShape_ext d h₁ h₃
  intro a b ha _
  rw [h₂, h₄]
  have hcov : ∃ c ∈ chunks, c.1 ≤ a ∧ a < c.2 := hp.2.1 a ha
  simp [hcov, ha]

/-- The sequential loop nest over a buffer of its size leaves, as row `i`, the list of
the values `f i j`: a function of `f` and of the row index alone. -/
theorem fillCells_eq_map {α : Type} (d : α) {R C : Nat} (f : Nat → Nat → α)
    (g : List (List α)) (h : gridShape R C g) :
    fillCells R C f g = (List.range R).map (fun i => (List.range C).map (fun j => f i j)) := by
  obtain ⟨h₃, h₄⟩ := fillCells_spec d f C (le_refl C) R (le_refl R) g h
  apply gridShape_ext d h₃ (gridShape_map_range R C f)
  intro a b ha hb
  rw [h₄, if_pos ⟨ha, hb⟩, getCell_map_range d R C f ha hb]

theorem Mat.fillChunks_eq_fill {rows cols : Nat} (f : Nat → Nat → Vec3b)
    (chunks : List (Nat × Nat)) (hp : isRowPartition rows chunks) {dst : Mat} (hd : dst.WF)
    (hr : dst.rows = rows) (hc : dst.cols = cols) :
    Mat.fillChunks chunks cols f dst = Mat.fill rows cols f dst := by
  unfold Mat.fillChunks Mat.fill
  have hs : gridShape rows cols dst.data := by
    rw [← hr, ← hc]; exact hd
  rw [fillChunks_eq_fillCells default f cols (le_refl cols) chunks hp dst.data hs]

theorem Mat.fill_row {rows cols : Nat} (f : Nat → Nat → Vec3b) {dst : Mat} (hd : dst.WF)
    (hr : dst.rows = rows) (hc : dst.cols = cols) {i : Nat} (hi : i < rows) :
    (Mat.fill rows cols f dst).data.getD i [] = (List.range cols).map (fun j => f i j) := by
  unfold Mat.fill
  have hs : gridShape rows cols dst.data := by
    rw [← hr, ← hc]; exact hd
  simp only []
  rw [fillCells_eq_map default f dst.data hs, getD_map_range [] rows _ hi]

/-! ## Kernel indices -/

/-- An odd size of at least 1 is `2h + 1`. -/
theorem odd_size_eq_of_pos {kernelSize : Int} (hodd : kernelSize % 2 = 1)
    (h1 : 1 ≤ kernelSize) : ∃ h : Nat, kernelSize = 2 * (h : Int) + 1 :=
  ⟨(kernelSize / 2).toNat, by omega⟩

theorem mem_kernelIndices {half a : Int} :
    a ∈ kernelIndices half ↔ 0 ≤ a ∧ a ≤ 2 * half := by
  unfold kernelIndices
  simp only [List.mem_map, mem_intRange]
  constructor
  · rintro ⟨i, ⟨h₁, h₂⟩, rfl⟩
    omega
  · intro h
    exact ⟨a - half, by omega, by omega⟩

theorem tdiv_two_of_even (h : Nat) : (2 * (h : Int)).tdiv 2 = h := by
  rw [Int.tdiv_eq_ediv (by omega) (by norm_num)]
  omega

theorem even_size_eq {kernelSize : Int} (heven : kernelSize % 2 = 0) (hpos : 0 < kernelSize) :
    ∃ h : Nat, 1 ≤ h ∧ kernelSize = 2 * (h : Int) :=
  ⟨(kernelSize / 2).toNat, by omega, by omega⟩

/-- The generator stores at the cells `(a, b)` with `a` and `b` running through the
kernel indices. -/
theorem generateGaussianKernel_eq_indices (exp : Dbl → Dbl)
    (g : List (List Dbl)) (kernelSize : Int) (sigma : Dbl) :
    generateGaussianKernel exp g kernelSize sigma =
      (kernelIndices (kernelSize.tdiv 2)).foldl
        (fun g a => (kernelIndices (kernelSize.tdiv 2)).foldl
          (fun g b => setCell g a.toNat b.toNat
            (gaussianVal exp sigma (a - kernelSize.tdiv 2) (b - kernelSize.tdiv 2))) g)
        g := by
  unfold generateGaussianKernel kernelIndices
  simp only [List.foldl_map, add_sub_cancel_right]

/-- The offset loops of the blur run through the kernel indices `a` and `b`; the
weight read for the pair is `gaussKernel[a][b]`. -/
theorem blurAccumulate_eq_indices (src : Mat)
    (half : Int) (kernel : List (List Dbl)) (y x : Nat) :
    blurAccumulate src half kernel y x =
      (kernelIndices half).foldl
        (fun acc a => (kernelIndices half).foldl
          (fun acc b => blurStep src half kernel y x (a - half) (b - half) acc) acc)
        ⟨0, 0, 0, 0⟩ := by
  unfold blurAccumulate kernelIndices
  simp only [List.foldl_map, add_sub_cancel_right]

theorem length_allocKernel (kernelSize : Int) :
    (allocKernel kernelSize).length = kernelSize.toNat := by
  simp [allocKernel]

/-! ## The offset loops as one pass over the in-bounds offsets -/

theorem foldl_flatMap_pairs {α β γ : Type} (f : γ → α → β → γ) (l₁ : List α)
    (l₂ : List β) (c : γ) :
    (l₁.flatMap (fun i => l₂.map (fun j => (i, j)))).foldl (fun acc o => f acc o.1 o.2) c =
      l₁.foldl (fun acc i => l₂.foldl (fun acc j => f acc i j) acc) c := by
  induction l₁ generalizing c with
  | nil => rfl
  | cons a l ih =>
    rw [List.flatMap_cons, List.foldl_append, List.foldl_cons, ← ih, List.foldl_map]

theorem foldl_filter_eq {α γ : Type} (p : α → Bool) (f : γ → α → γ) (l : List α) (c : γ) :
    (l.filter p).foldl f c = l.foldl (fun acc o => if p o then f acc o else acc) c := by
  induction l generalizing c with
  | nil => rfl
  | cons a l ih =>
    by_cases h : p a
    · rw [List.filter_cons_of_pos h, List.foldl_cons, List.foldl_cons, if_pos h, ih]
    · rw [List.filter_cons_of_neg h, List.foldl_cons, if_neg h, ih]

/-- The step of the offset loops at an in-bounds offset. -/
theorem blurStep_of_inImage (src : Mat) (half : Int) (kernel : List (List Dbl)) (y x : Nat)
    (o : Int × Int) (acc : BlurAcc) (h : inImage src.rows src.cols y x o.1 o.2) :
    blurStep src half kernel y x o.1 o.2 acc =
      ⟨Dbl.add acc.sum0 (Dbl.mul (Dbl.ofUchar (sourceAt Vec3b.c0 src y x o))
          (weightAt kernel half o)),
        Dbl.add acc.sum1 (Dbl.mul (Dbl.ofUchar (sourceAt Vec3b.c1 src y x o))
          (weightAt kernel half o)),
        Dbl.add acc.sum2 (Dbl.mul (Dbl.ofUchar (sourceAt Vec3b.c2 src y x o))
          (weightAt kernel half o)),
        Dbl.add acc.gaussianTotal (weightAt kernel half o)⟩ := by
  unfold blurStep
  rw [if_pos h]
  rfl

theorem foldl_blurAcc {α : Type} (f₀ f₁ f₂ f₃ : Dbl → α → Dbl) (l : List α) (acc : BlurAcc) :
    l.foldl (fun acc o => (⟨f₀ acc.sum0 o, f₁ acc.sum1 o, f₂ acc.sum2 o,
        f₃ acc.gaussianTotal o⟩ : BlurAcc)) acc =
      ⟨l.foldl f₀ acc.sum0, l.foldl f₁ acc.sum1, l.foldl f₂ acc.sum2,
        l.foldl f₃ acc.gaussianTotal⟩ := by
  induction l generalizing acc with
  | nil => rfl
  | cons a l ih => rw [List.foldl_cons, ih]; rfl

/-- The accumulators after the offset loops are the sums over the in-bounds offsets,
taken in the order of the loops. -/
theorem blurAccumulate_eq_inOrder (src : Mat) (half : Int) (kernel : List (List Dbl))
    (y x : Nat) :
    blurAccumulate src half kernel y x =
      ⟨sumInOrder Vec3b.c0 src half kernel y x, sumInOrder Vec3b.c1 src half kernel y x,
        sumInOrder Vec3b.c2 src half kernel y x, totalInOrder src half kernel y x⟩ := by
  unfold blurAccumulate sumInOrder totalInOrder inBoundsOffsetList
  rw [← foldl_flatMap_pairs (fun acc i j => blurStep src half kernel y x i j acc)]
  have e : ∀ (l : List (Int × Int)) (acc : BlurAcc),
      l.foldl (fun acc o => blurStep src half kernel y x o.1 o.2 acc) acc =
        (l.filter (fun o => decide (inImage src.rows src.cols y x o.1 o.2))).foldl
          (fun acc o => (⟨Dbl.add acc.sum0 (Dbl.mul (Dbl.ofUchar (sourceAt Vec3b.c0 src y x o))
                (weightAt kernel half o)),
              Dbl.add acc.sum1 (Dbl.mul (Dbl.ofUchar (sourceAt Vec3b.c1 src y x o))
                (weightAt kernel half o)),
              Dbl.add acc.sum2 (Dbl.mul (Dbl.ofUchar (sourceAt Vec3b.c2 src y x o))
                (weightAt kernel half o)),
              Dbl.add acc.gaussianTotal (weightAt kernel half o)⟩ : BlurAcc)) acc := by
    intro l acc
    rw [foldl_filter_eq]
    apply List.foldl_ext
    intro acc o _
    by_cases h : inImage src.rows src.cols y x o.1 o.2
    · rw [blurStep_of_inImage src half kernel y x o acc h]
      simp [h]
    · unfold blurStep
      simp [h]
  rw [e]
  exact foldl_blurAcc
    (fun s o => Dbl.add s (Dbl.mul (Dbl.ofUchar (sourceAt Vec3b.c0 src y x o))
      (weightAt kernel half o)))
    (fun s o => Dbl.add s (Dbl.mul (Dbl.ofUchar (sourceAt Vec3b.c1 src y x o))
      (weightAt kernel half o)))
    (fun s o => Dbl.add s (Dbl.mul (Dbl.ofUchar (sourceAt Vec3b.c2 src y x o))
      (weightAt kernel half o)))
    (fun t o => Dbl.add t (weightAt kernel half o)) _ ⟨0, 0, 0, 0⟩

theorem mem_inBoundsOffsetList {rows cols : Nat} {half : Int} {y x : Nat} {o : Int × Int} :
    o ∈ inBoundsOffsetList rows cols half y x ↔
      (-half ≤ o.1 ∧ o.1 ≤ half) ∧ (-half ≤ o.2 ∧ o.2 ≤ half) ∧
        inImage rows cols y x o.1 o.2 := by
  unfold inBoundsOffsetList
  simp only [List.mem_filter, List.mem_flatMap, List.mem_map, mem_intRange,
    decide_eq_true_eq]
  constructor
  · rintro ⟨⟨i, hi, j, hj, rfl⟩, h⟩
    exact ⟨hi, hj, h⟩
  · rintro ⟨hi, hj, h⟩
    exact ⟨⟨o.1, hi, o.2, hj, rfl⟩, h⟩

theorem mem_inBoundsOffsetList_iff {rows cols : Nat} {half : Int} {y x : Nat}
    {o : Int × Int} :
    o ∈ inBoundsOffsetList rows cols half y x ↔ o ∈ inBoundsOffsets rows cols half y x := by
  rw [mem_inBoundsOffsetList, mem_inBoundsOffsets]

theorem nodup_inBoundsOffsetList (rows cols : Nat) (half : Int) (y x : Nat) :
    (inBoundsOffsetList rows cols half y x).Nodup := by
  unfold inBoundsOffsetList
  refine List.Nodup.filter _ ?_
  rw [List.nodup_flatMap]
  refine ⟨fun i _ => List.Nodup.map (fun a b h => (Prod.mk.inj h).2) (nodup_intRange _ _), ?_⟩
  refine List.Pairwise.imp_of_mem ?_ (nodup_intRange (-half) half)
  intro a b _ _ hab
  rw [Function.onFun, List.disjoint_left]
  intro o ho₁ ho₂
  rw [List.mem_map] at ho₁ ho₂
  obtain ⟨_, _, rfl⟩ := ho₁
  obtain ⟨_, _, h⟩ := ho₂
  exact hab (Prod.mk.inj h).1.symm

/-! ## The offset loops with the preconditions of their reads -/

theorem foldlM_eq_some_foldl {α γ : Type} (f : γ → α → Option γ) (g : γ → α → γ)
    (l : List α) (h : ∀ acc, ∀ a ∈ l, f acc a = some (g acc a)) (c : γ) :
    l.foldlM f c = some (l.foldl g c) := by
  induction l generalizing c with
  | nil => rfl
  | cons a l ih =>
    rw [List.foldlM_cons, h c a (List.mem_cons_self a l)]
    exact ih (fun acc b hb => h acc b (List.mem_cons_of_mem a hb)) (g c a)

/-- For the odd size `2h + 1` every read of the body of the offset loops is in bounds. -/
theorem blurStepChecked_eq (src : Mat) (h : Nat) (kernel : List (List Dbl)) (y x : Nat)
    {i j : Int} (hi : -(h : Int) ≤ i ∧ i ≤ h) (hj : -(h : Int) ≤ j ∧ j ≤ h)
    (acc : BlurAcc) :
    blurStepChecked src (2 * (h : Int) + 1) h kernel y x i j acc =
      some (blurStep src h kernel y x i j acc) := by
  unfold blurStepChecked blurStep
  by_cases hin : inImage src.rows src.cols y x i j
  · rw [if_pos hin, if_pos hin]
    have hk : kernelAtChecked (2 * (h : Int) + 1) kernel (i + h) (j + h) =
        some (kernelAt kernel (i + h) (j + h)) := by
      unfold kernelAtChecked
      rw [if_pos ⟨by omega, by omega, by omega, by omega⟩]
    have hs : src.atChecked ((y : Int) + i) ((x : Int) + j) =
        some (src.atVec3b ((y : Int) + i).toNat ((x : Int) + j).toNat) := by
      unfold Mat.atChecked
      exact if_pos hin
    rw [hk, hs]
  · rw [if_neg hin, if_neg hin]

theorem blurAccumulateChecked_eq (src : Mat) (h : Nat) (kernel : List (List Dbl))
    (y x : Nat) :
    blurAccumulateChecked src (2 * (h : Int) + 1) h kernel y x =
      some (blurAccumulate src h kernel y x) := by
  unfold blurAccumulateChecked blurAccumulate
  refine foldlM_eq_some_foldl _ _ _ ?_ _
  intro acc i hi
  refine foldlM_eq_some_foldl _ _ _ ?_ _
  intro acc j hj
  exact blurStepChecked_eq src h kernel y x (mem_intRange.mp hi) (mem_intRange.mp hj) acc

theorem blurPixelChecked_eq (r : Bool) (src : Mat) (h : Nat) (kernel : List (List Dbl))
    (y x : Nat) :
    blurPixelChecked r src (2 * (h : Int) + 1) h kernel y x =
      some (blurPixel r src h kernel y x) := by
  unfold blurPixelChecked blurPixel
  rw [blurAccumulateChecked_eq]
  rfl

theorem fillCellsChecked_eq {α : Type} (rows cols : Nat) (f : Nat → Nat → Option α)
    (f' : Nat → Nat → α) (h : ∀ i j, f i j = some (f' i j)) (g : List (List α)) :
    fillCellsChecked rows cols f g = some (fillCells rows cols f' g) := by
  unfold fillCellsChecked fillCells
  refine foldlM_eq_some_foldl _ _ _ ?_ _
  intro g i _
  refine foldlM_eq_some_foldl _ _ _ ?_ _
  intro g j _
  rw [h i j]
  rfl

/-- For an odd kernel size no read of `applyGaussianBlur` is out of bounds, whatever
the size of the image: the call returns its image. -/
theorem applyGaussianBlurChecked_eq (r : Bool) (src : Mat) (h : Nat)
    (kernel : List (List Dbl)) :
    applyGaussianBlurChecked r src (2 * (h : Int) + 1) kernel =
      some (applyGaussianBlur r src (2 * (h : Int) + 1) kernel) := by
  unfold applyGaussianBlurChecked applyGaussianBlur
  rw [tdiv_two_of_odd]
  rw [fillCellsChecked_eq src.rows src.cols _ (blurPixel r src h kernel)
    (fun i j => blurPixelChecked_eq r src h kernel i j)]
  rfl

/-! ## Signs of `double` values -/

theorem ulpOf_ge_min (x : ℚ) : (2 : ℚ) ^ (-1074 : Int) ≤ ulpOf x := by
  unfold ulpOf
  exact zpow_le_zpow_right₀ (by norm_num) (by have := binadeOf_ge x; omega)

theorem ulpOf_le_of_ge_min {x : ℚ} (h : (2 : ℚ) ^ (-1074 : Int) ≤ x) : ulpOf x ≤ x := by
  have hpos : 0 < x := lt_of_lt_of_le (by positivity) h
  have hx : x ≠ 0 := ne_of_gt hpos
  unfold ulpOf binadeOf
  rw [if_neg hx, abs_of_pos hpos]
  rcases le_total (Int.log 2 x) (-1022) with hl | hl
  · rw [max_eq_right hl]
    exact h
  · rw [max_eq_left hl]
    have h₂ : (2 : ℚ) ^ (Int.log 2 x) ≤ x := by
      have := Int.zpow_log_le_self (b := 2) (r := x) (by norm_num) hpos
      exact_mod_cast this
    refine le_trans (zpow_le_zpow_right₀ (by norm_num) (by omega)) h₂

/-- A value that is at least the smallest positive `double` is not rounded below it. -/
theorem roundToDouble_ge_min {x : ℚ} (h : (2 : ℚ) ^ (-1074 : Int) ≤ x) :
    (2 : ℚ) ^ (-1074 : Int) ≤ roundToDouble x := by
  have h₁ := le_roundToDouble_of_le (x := x) 1 (by simpa using ulpOf_le_of_ge_min h)
  have h₂ := ulpOf_ge_min x
  simp only [Int.cast_one, one_mul] at h₁
  exact le_trans h₂ h₁

/-- A positive number on the `double` grid is at least the smallest positive
`double`. -/
theorem ge_min_of_isDouble {q : ℚ} (hq : 0 < q) (h : roundToDouble q = q) :
    (2 : ℚ) ^ (-1074 : Int) ≤ q := by
  have hu := ulpOf_pos q
  have h₁ : (1 : Int) ≤ roundHalfEven (q / ulpOf q) := by
    by_contra hc
    have hc' : roundHalfEven (q / ulpOf q) ≤ 0 := by omega
    have : (roundHalfEven (q / ulpOf q) : ℚ) ≤ 0 := by exact_mod_cast hc'
    have h₀ : roundToDouble q ≤ 0 := by
      unfold roundToDouble
      exact mul_nonpos_of_nonpos_of_nonneg this (le_of_lt hu)
    rw [h] at h₀
    exact absurd hq (not_lt.mpr h₀)
  have h₂ : (1 : ℚ) ≤ (roundHalfEven (q / ulpOf q) : ℚ) := by exact_mod_cast h₁
  have h₃ : ulpOf q ≤ roundToDouble q := by
    unfold roundToDouble
    calc ulpOf q = 1 * ulpOf q := (one_mul _).symm
      _ ≤ (roundHalfEven (q / ulpOf q) : ℚ) * ulpOf q :=
        mul_le_mul_of_nonneg_right h₂ (le_of_lt hu)
  rw [h] at h₃
  exact le_trans (ulpOf_ge_min q) h₃

theorem Dbl.isPosDouble_of_isPos_isDouble {d : Dbl} (hp : d.isPos) (hd : d.isDouble) :
    d.isPosDouble := by
  cases d with
  | fin q => exact ge_min_of_isDouble hp hd.1
  | pinf => trivial
  | ninf => exact hp
  | nan => exact hp

theorem Dbl.isPos_of_isPosDouble {d : Dbl} (h : d.isPosDouble) : d.isPos := by
  cases d with
  | fin q => exact lt_of_lt_of_le (by positivity) h
  | pinf => trivial
  | ninf => exact h
  | nan => exact h

theorem Dbl.isNonneg_of_isPosDouble {d : Dbl} (h : d.isPosDouble) : d.isNonneg := by
  cases d with
  | fin q => exact le_trans (by positivity) h
  | pinf => trivial
  | ninf => exact h
  | nan => exact h

theorem Dbl.isNonneg_round {x : ℚ} (h : 0 ≤ x) : (Dbl.round x).isNonneg := by
  unfold Dbl.round
  split_ifs with h₁ h₂
  · trivial
  · exfalso
    have hx : x = 0 := le_antisymm (not_lt.mp h₂) h
    rw [hx, roundToDouble_zero] at h₁
    norm_num at h₁
  · exact roundToDouble_nonneg h

theorem Dbl.isPosDouble_round {x : ℚ} (h : (2 : ℚ) ^ (-1074 : Int) ≤ x) :
    (Dbl.round x).isPosDouble := by
  have hpos : 0 < x := lt_of_lt_of_le (by positivity) h
  unfold Dbl.round
  split_ifs with h₁
  · trivial
  · exact roundToDouble_ge_min h

theorem Dbl.isNonneg_add {a b : Dbl} (ha : a.isNonneg) (hb : b.isNonneg) :
    (Dbl.add a b).isNonneg := by
  cases a <;> cases b <;> first
    | exact ha.elim
    | exact hb.elim
    | trivial
    | exact Dbl.isNonneg_round (add_nonneg ha hb)

theorem Dbl.isPosDouble_add_left {a b : Dbl} (ha : a.isPosDouble) (hb : b.isNonneg) :
    (Dbl.add a b).isPosDouble := by
  cases a <;> cases b <;> first
    | exact ha.elim
    | exact hb.elim
    | trivial
    | exact Dbl.isPosDouble_round (le_trans ha (le_add_of_nonneg_right hb))

theorem Dbl.isPosDouble_add_right {a b : Dbl} (ha : a.isNonneg) (hb : b.isPosDouble) :
    (Dbl.add a b).isPosDouble := by
  cases a <;> cases b <;> first
    | exact ha.elim
    | exact hb.elim
    | trivial
    | exact Dbl.isPosDouble_round (le_trans hb (le_add_of_nonneg_left ha))

theorem Dbl.isNonneg_zero : (0 : Dbl).isNonneg := le_refl (0 : ℚ)

/-! ## The sign of the used-weight total -/

theorem foldl_add_isNonneg {α : Type} (w : α → Dbl) (l : List α)
    (h : ∀ o ∈ l, (w o).isNonneg) (t : Dbl) (ht : t.isNonneg) :
    (l.foldl (fun t o => Dbl.add t (w o)) t).isNonneg := by
  induction l generalizing t with
  | nil => exact ht
  | cons a l ih =>
    rw [List.foldl_cons]
    exact ih (fun o ho => h o (List.mem_cons_of_mem a ho)) _
      (Dbl.isNonneg_add ht (h a (List.mem_cons_self a l)))

theorem foldl_add_isPosDouble {α : Type} (w : α → Dbl) (l : List α)
    (h : ∀ o ∈ l, (w o).isNonneg) (t : Dbl) (ht : t.isPosDouble) :
    (l.foldl (fun t o => Dbl.add t (w o)) t).isPosDouble := by
  induction l generalizing t with
  | nil => exact ht
  | cons a l ih =>
    rw [List.foldl_cons]
    exact ih (fun o ho => h o (List.mem_cons_of_mem a ho)) _
      (Dbl.isPosDouble_add_left ht (h a (List.mem_cons_self a l)))

/-- A sum of non-negative `double`s, started from a non-negative value, one of which
is positive, is positive: no partial sum is rounded to zero. -/
theorem foldl_add_isPosDouble_of_mem {α : Type} (w : α → Dbl) (l : List α)
    (h : ∀ o ∈ l, (w o).isNonneg) {c : α} (hc : c ∈ l) (hw : (w c).isPosDouble) (t : Dbl)
    (ht : t.isNonneg) : (l.foldl (fun t o => Dbl.add t (w o)) t).isPosDouble := by
  induction l generalizing t with
  | nil => exact absurd hc (List.not_mem_nil c)
  | cons a l ih =>
    rw [List.foldl_cons]
    rcases List.mem_cons.mp hc with rfl | hc'
    · exact foldl_add_isPosDouble w l (fun o ho => h o (List.mem_cons_of_mem _ ho)) _
        (Dbl.isPosDouble_add_right ht hw)
    · exact ih (fun o ho => h o (List.mem_cons_of_mem a ho)) hc' _
        (Dbl.isNonneg_add ht (h a (List.mem_cons_self a l)))

theorem zero_mem_inBoundsOffsetList {rows cols : Nat} {half : Int} (h0 : 0 ≤ half)
    {y x : Nat} (hy : y < rows) (hx : x < cols) :
    ((0 : Int), (0 : Int)) ∈ inBoundsOffsetList rows cols half y x :=
  mem_inBoundsOffsetList_iff.mpr (zero_mem_inBoundsOffsets h0 hy hx)

/-- With non-negative weights at the in-bounds offsets and a positive centre weight
the used-weight total is positive at every pixel of the image. -/
theorem totalInOrder_isPosDouble (src : Mat) {half : Int} (h0 : 0 ≤ half)
    (kernel : List (List Dbl)) {y x : Nat} (hy : y < src.rows) (hx : x < src.cols)
    (hnn : ∀ o ∈ inBoundsOffsetList src.rows src.cols half y x,
      (weightAt kernel half o).isNonneg)
    (hc : (weightAt kernel half (0, 0)).isPosDouble) :
    (totalInOrder src half kernel y x).isPosDouble := by
  unfold totalInOrder
  exact foldl_add_isPosDouble_of_mem (weightAt kernel half) _ hnn
    (zero_mem_inBoundsOffsetList h0 hy hx) hc 0 Dbl.isNonneg_zero

/-! ## Evaluating operations on `double`s -/

theorem Dbl.round_eq_fin {x v : ℚ} (h : roundToDouble x = v)
    (hv : |v| < (2 : ℚ) ^ (1024 : Nat)) : Dbl.round x = Dbl.fin v := by
  unfold Dbl.round
  rw [h, if_neg (not_le.mpr hv)]

theorem Dbl.round_zero : Dbl.round 0 = Dbl.fin 0 :=
  Dbl.round_eq_fin roundToDouble_zero (by norm_num)

theorem Dbl.add_fin (a b : ℚ) : Dbl.add (.fin a) (.fin b) = Dbl.round (a + b) := rfl

theorem Dbl.mul_fin (a b : ℚ) : Dbl.mul (.fin a) (.fin b) = Dbl.round (a * b) := rfl

theorem Dbl.div_fin (a : ℚ) {b : ℚ} (hb : b ≠ 0) :
    Dbl.div (.fin a) (.fin b) = Dbl.round (a / b) := by
  show (if b = 0 then (if a = 0 then Dbl.nan else if 0 < a then Dbl.pinf else Dbl.ninf)
    else Dbl.round (a / b)) = Dbl.round (a / b)
  rw [if_neg hb]

theorem Dbl.zero_eq : (0 : Dbl) = Dbl.fin 0 := rfl

theorem Dbl.ofInt_zero : Dbl.ofInt 0 = Dbl.fin 0 := by
  unfold Dbl.ofInt
  rw [Int.cast_zero, Dbl.round_zero]

/-! ## The centre of the kernel and the single pixel -/

theorem gaussianVal_neg (exp : Dbl → Dbl) (sigma : Dbl) (i j : Int) :
    gaussianVal exp sigma (-i) (-j) = gaussianVal exp sigma i j := by
  unfold gaussianVal
  rw [neg_mul_neg, neg_mul_neg]

/-- The centre weight: when `rp` is finite, the argument of the exponential is
`0 * rp = 0`. -/
theorem gaussianVal_centre (exp : Dbl → Dbl) (sigma : Dbl) {rp : ℚ}
    (hrp : kernelRp sigma = Dbl.fin rp) :
    gaussianVal exp sigma 0 0 = Dbl.mul (kernelLp sigma) (exp (Dbl.fin 0)) := by
  unfold gaussianVal
  have e : (-((0 : Int) * 0 + 0 * 0)) = 0 := by norm_num
  rw [e, Dbl.ofInt_zero, hrp, Dbl.mul_fin, zero_mul, Dbl.round_zero]

theorem eq_singleton_of_nodup {α : Type} {l : List α} {c : α} (hn : l.Nodup)
    (h : ∀ o, o ∈ l ↔ o = c) : l = [c] := by
  match l, hn, h with
  | [], _, h => exact absurd ((h c).mpr rfl) (List.not_mem_nil c)
  | [a], _, h =>
    have := (h a).mp (List.mem_cons_self a [])
    rw [this]
  | a :: b :: t, hn, h =>
    have ha := (h a).mp (List.mem_cons_self a _)
    have hb := (h b).mp (List.mem_cons_of_mem a (List.mem_cons_self b t))
    rw [List.nodup_cons] at hn
    exact absurd (by rw [ha, hb]; exact List.mem_cons_self c t) hn.1

theorem inBoundsOffsetList_single {half : Int} (h0 : 0 ≤ half) :
    inBoundsOffsetList 1 1 half 0 0 = [((0 : Int), (0 : Int))] := by
  refine eq_singleton_of_nodup (nodup_inBoundsOffsetList _ _ _ _ _) ?_
  intro o
  rw [mem_inBoundsOffsetList_iff, inBoundsOffsets_single h0, Finset.mem_singleton]

/-- On a 1×1 image the accumulators hold the one product and the centre weight, each
added to `0.0`. -/
theorem blurAccumulate_single (p : Vec3b) {half : Int} (h0 : 0 ≤ half)
    (kernel : List (List Dbl)) :
    blurAccumulate ⟨1, 1, [[p]]⟩ half kernel 0 0 =
      ⟨Dbl.add 0 (Dbl.mul (Dbl.ofUchar p.c0) (kernelAt kernel (0 + half) (0 + half))),
        Dbl.add 0 (Dbl.mul (Dbl.ofUchar p.c1) (kernelAt kernel (0 + half) (0 + half))),
        Dbl.add 0 (Dbl.mul (Dbl.ofUchar p.c2) (kernelAt kernel (0 + half) (0 + half))),
        Dbl.add 0 (kernelAt kernel (0 + half) (0 + half))⟩ := by
  rw [blurAccumulate_eq_inOrder]
  unfold sumInOrder totalInOrder
  have e : inBoundsOffsetList (Mat.mk 1 1 [[p]]).rows (Mat.mk 1 1 [[p]]).cols half 0 0 =
      [((0 : Int), (0 : Int))] := inBoundsOffsetList_single h0
  rw [e]
  rfl

theorem Mat.WF_single (p : Vec3b) : Mat.WF ⟨1, 1, [[p]]⟩ := by
  refine ⟨rfl, fun i hi => ?_⟩
  have hi0 : i = 0 := by
    have : i < 1 := hi
    omega
  subst hi0
  rfl

/-- A 1×1 image is blurred to the 1×1 image of the pixel computed at `(0, 0)`. -/
theorem applyGaussianBlur_single (r : Bool) (p : Vec3b) (kernelSize : Int)
    (kernel : List (List Dbl)) :
    applyGaussianBlur r ⟨1, 1, [[p]]⟩ kernelSize kernel =
      ⟨1, 1, [[blurPixel r ⟨1, 1, [[p]]⟩ (kernelSize.tdiv 2) kernel 0 0]]⟩ := by
  refine Mat.ext_of_WF (applyGaussianBlur_WF _ _ _) (Mat.WF_single _) ⟨rfl, rfl⟩ ?_
  intro a b ha hb
  have ha0 : a = 0 := by
    have : a < 1 := ha
    omega
  have hb0 : b = 0 := by
    have : b < 1 := hb
    omega
  subst ha0 hb0
  rw [applyGaussianBlur_at _ _ _ (Nat.zero_lt_one) (Nat.zero_lt_one)]
  rfl

/-! ## The kernel parameters at particular values of `sigma` -/

theorem kernelLp_one : kernelLp (Dbl.fin 1) = Dbl.fin (5734161139222659 / 36028797018963968) := by
  have h0 : Dbl.round (157079632679489661923 / 50000000000000000000) = Dbl.fin (884279719003555 / 281474976710656) :=
    Dbl.round_eq_fin (by rw [roundToDouble_eq (1) (7074237752028440) (by norm_num) (by norm_num [abs_of_pos, abs_of_neg]) (by norm_num [abs_of_pos, abs_of_neg]) (by rw [abs_lt]; constructor <;> norm_num)]; norm_num)
      (by norm_num [abs_of_pos, abs_of_neg])
  have h1 : Dbl.round (884279719003555 / 140737488355328) = Dbl.fin (884279719003555 / 140737488355328) :=
    Dbl.round_eq_fin (by rw [roundToDouble_eq (2) (7074237752028440) (by norm_num) (by norm_num [abs_of_pos, abs_of_neg]) (by norm_num [abs_of_pos, abs_of_neg]) (by rw [abs_lt]; constructor <;> norm_num)]; norm_num)
      (by norm_num [abs_of_pos, abs_of_neg])
  have h2 : Dbl.round (140737488355328 / 884279719003555) = Dbl.fin (5734161139222659 / 36028797018963968) :=
    Dbl.round_eq_fin (by rw [roundToDouble_eq (-3) (5734161139222659) (by norm_num) (by norm_num [abs_of_pos, abs_of_neg]) (by norm_num [abs_of_pos, abs_of_neg]) (by rw [abs_lt]; constructor <;> norm_num)]; norm_num)
      (by norm_num [abs_of_pos, abs_of_neg])
  norm_num [kernelLp, PI, Dbl.mul_fin, Dbl.div_fin, h0, h1, h2]

theorem kernelRp_one : kernelRp (Dbl.fin 1) = Dbl.fin (1 / 2) := by
  have h0 : Dbl.round (2) = Dbl.fin (2) :=
    Dbl.round_eq_fin (by rw [roundToDouble_eq (1) (4503599627370496) (by norm_num) (by norm_num [abs_of_pos, abs_of_neg]) (by norm_num [abs_of_pos, abs_of_neg]) (by rw [abs_lt]; constructor <;> norm_num)]; norm_num)
      (by norm_num [abs_of_pos, abs_of_neg])
  have h1 : Dbl.round (1 / 2) = Dbl.fin (1 / 2) :=
    Dbl.round_eq_fin (by rw [roundToDouble_eq (-1) (4503599627370496) (by norm_num) (by norm_num [abs_of_pos, abs_of_neg]) (by norm_num [abs_of_pos, abs_of_neg]) (by rw [abs_lt]; constructor <;> norm_num)]; norm_num)
      (by norm_num [abs_of_pos, abs_of_neg])
  norm_num [kernelRp, Dbl.mul_fin, Dbl.div_fin, h0, h1]

theorem kernelLp_half : kernelLp (Dbl.fin (1 / 2)) = Dbl.fin (5734161139222659 / 9007199254740992) := by
  have h0 : Dbl.round (157079632679489661923 / 50000000000000000000) = Dbl.fin (884279719003555 / 281474976710656) :=
    Dbl.round_eq_fin (by rw [roundToDouble_eq (1) (7074237752028440) (by norm_num) (by norm_num [abs_of_pos, abs_of_neg]) (by norm_num [abs_of_pos, abs_of_neg]) (by rw [abs_lt]; constructor <;> norm_num)]; norm_num)
      (by norm_num [abs_of_pos, abs_of_neg])
  have h1 : Dbl.round (884279719003555 / 140737488355328) = Dbl.fin (884279719003555 / 140737488355328) :=
    Dbl.round_eq_fin (by rw [roundToDouble_eq (2) (7074237752028440) (by norm_num) (by norm_num [abs_of_pos, abs_of_neg]) (by norm_num [abs_of_pos, abs_of_neg]) (by rw [abs_lt]; constructor <;> norm_num)]; norm_num)
      (by norm_num [abs_of_pos, abs_of_neg])
  have h2 : Dbl.round (884279719003555 / 281474976710656) = Dbl.fin (884279719003555 / 281474976710656) :=
    Dbl.round_eq_fin (by rw [roundToDouble_eq (1) (7074237752028440) (by norm_num) (by norm_num [abs_of_pos, abs_of_neg]) (by norm_num [abs_of_pos, abs_of_neg]) (by rw [abs_lt]; constructor <;> norm_num)]; norm_num)
      (by norm_num [abs_of_pos, abs_of_neg])
  have h3 : Dbl.round (884279719003555 / 562949953421312) = Dbl.fin (884279719003555 / 562949953421312) :=
    Dbl.round_eq_fin (by rw [roundToDouble_eq (0) (7074237752028440) (by norm_num) (by norm_num [abs_of_pos, abs_of_neg]) (by norm_num [abs_of_pos, abs_of_neg]) (by rw [abs_lt]; constructor <;> norm_num)]; norm_num)
      (by norm_num [abs_of_pos, abs_of_neg])
  have h4 : Dbl.round (562949953421312 / 884279719003555) = Dbl.fin (5734161139222659 / 9007199254740992) :=
    Dbl.round_eq_fin (by rw [roundToDouble_eq (-1) (5734161139222659) (by norm_num) (by norm_num [abs_of_pos, abs_of_neg]) (by norm_num [abs_of_pos, abs_of_neg]) (by rw [abs_lt]; constructor <;> norm_num)]; norm_num)
      (by norm_num [abs_of_pos, abs_of_neg])
  norm_num [kernelLp, PI, Dbl.mul_fin, Dbl.div_fin, h0, h1, h2, h3, h4]

theorem kernelRp_half : kernelRp (Dbl.fin (1 / 2)) = Dbl.fin (2) := by
  have h0 : Dbl.round (1) = Dbl.fin (1) :=
    Dbl.round_eq_fin (by rw [roundToDouble_eq (0) (4503599627370496) (by norm_num) (by norm_num [abs_of_pos, abs_of_neg]) (by norm_num [abs_of_pos, abs_of_neg]) (by rw [abs_lt]; constructor <;> norm_num)]; norm_num)
      (by norm_num [abs_of_pos, abs_of_neg])
  have h1 : Dbl.round (1 / 2) = Dbl.fin (1 / 2) :=
    Dbl.round_eq_fin (by rw [roundToDouble_eq (-1) (4503599627370496) (by norm_num) (by norm_num [abs_of_pos, abs_of_neg]) (by norm_num [abs_of_pos, abs_of_neg]) (by rw [abs_lt]; constructor <;> norm_num)]; norm_num)
      (by norm_num [abs_of_pos, abs_of_neg])
  have h2 : Dbl.round (2) = Dbl.fin (2) :=
    Dbl.round_eq_fin (by rw [roundToDouble_eq (1) (4503599627370496) (by norm_num) (by norm_num [abs_of_pos, abs_of_neg]) (by norm_num [abs_of_pos, abs_of_neg]) (by rw [abs_lt]; constructor <;> norm_num)]; norm_num)
      (by norm_num [abs_of_pos, abs_of_neg])
  norm_num [kernelRp, Dbl.mul_fin, Dbl.div_fin, h0, h1, h2]

theorem kernelLp_tenth : kernelLp (Dbl.round (1 / 10)) = Dbl.fin (2239906695008851 / 140737488355328) := by
  have h0 : Dbl.round (1 / 10) = Dbl.fin (3602879701896397 / 36028797018963968) :=
    Dbl.round_eq_fin (by rw [roundToDouble_eq (-4) (7205759403792794) (by norm_num) (by norm_num [abs_of_pos, abs_of_neg]) (by norm_num [abs_of_pos, abs_of_neg]) (by rw [abs_lt]; constructor <;> norm_num)]; norm_num)
      (by norm_num [abs_of_pos, abs_of_neg])
  have h1 : Dbl.round (157079632679489661923 / 50000000000000000000) = Dbl.fin (884279719003555 / 281474976710656) :=
    Dbl.round_eq_fin (by rw [roundToDouble_eq (1) (7074237752028440) (by norm_num) (by norm_num [abs_of_pos, abs_of_neg]) (by norm_num [abs_of_pos, abs_of_neg]) (by rw [abs_lt]; constructor <;> norm_num)]; norm_num)
      (by norm_num [abs_of_pos, abs_of_neg])
  have h2 : Dbl.round (884279719003555 / 140737488355328) = Dbl.fin (884279719003555 / 140737488355328) :=
    Dbl.round_eq_fin (by rw [roundToDouble_eq (2) (7074237752028440) (by norm_num) (by norm_num [abs_of_pos, abs_of_neg]) (by norm_num [abs_of_pos, abs_of_neg]) (by rw [abs_lt]; constructor <;> norm_num)]; norm_num)
      (by norm_num [abs_of_pos, abs_of_neg])
  have h3 : Dbl.round (3185953450396557943612684691335 / 5070602400912917605986812821504) = Dbl.fin (176855943800711 / 281474976710656) :=
    Dbl.round_eq_fin (by rw [roundToDouble_eq (-1) (5659390201622752) (by norm_num) (by norm_num [abs_of_pos, abs_of_neg]) (by norm_num [abs_of_pos, abs_of_neg]) (by rw [abs_lt]; constructor <;> norm_num)]; norm_num)
      (by norm_num [abs_of_pos, abs_of_neg])
  have h4 : Dbl.round (637190690079311588722536938267 / 10141204801825835211973625643008) = Dbl.fin (2263756080649101 / 36028797018963968) :=
    Dbl.round_eq_fin (by rw [roundToDouble_eq (-4) (4527512161298202) (by norm_num) (by norm_num [abs_of_pos, abs_of_neg]) (by norm_num [abs_of_pos, abs_of_neg]) (by rw [abs_lt]; constructor <;> norm_num)]; norm_num)
      (by norm_num [abs_of_pos, abs_of_neg])
  have h5 : Dbl.round (36028797018963968 / 2263756080649101) = Dbl.fin (2239906695008851 / 140737488355328) :=
    Dbl.round_eq_fin (by rw [roundToDouble_eq (3) (8959626780035404) (by norm_num) (by norm_num [abs_of_pos, abs_of_neg]) (by norm_num [abs_of_pos, abs_of_neg]) (by rw [abs_lt]; constructor <;> norm_num)]; norm_num)
      (by norm_num [abs_of_pos, abs_of_neg])
  norm_num [kernelLp, PI, Dbl.mul_fin, Dbl.div_fin, h0, h1, h2, h3, h4, h5]

theorem kernelRp_tenth : kernelRp (Dbl.round (1 / 10)) = Dbl.fin (7036874417766399 / 140737488355328) := by
  have h0 : Dbl.round (1 / 10) = Dbl.fin (3602879701896397 / 36028797018963968) :=
    Dbl.round_eq_fin (by rw [roundToDouble_eq (-4) (7205759403792794) (by norm_num) (by norm_num [abs_of_pos, abs_of_neg]) (by norm_num [abs_of_pos, abs_of_neg]) (by rw [abs_lt]; constructor <;> norm_num)]; norm_num)
      (by norm_num [abs_of_pos, abs_of_neg])
  have h1 : Dbl.round (3602879701896397 / 18014398509481984) = Dbl.fin (3602879701896397 / 18014398509481984) :=
    Dbl.round_eq_fin (by rw [roundToDouble_eq (-3) (7205759403792794) (by norm_num) (by norm_num [abs_of_pos, abs_of_neg]) (by norm_num [abs_of_pos, abs_of_neg]) (by rw [abs_lt]; constructor <;> norm_num)]; norm_num)
      (by norm_num [abs_of_pos, abs_of_neg])
  have h2 : Dbl.round (12980742146337070512478121581609 / 649037107316853453566312041152512) = Dbl.fin (1441151880758559 / 72057594037927936) :=
    Dbl.round_eq_fin (by rw [roundToDouble_eq (-6) (5764607523034236) (by norm_num) (by norm_num [abs_of_pos, abs_of_neg]) (by norm_num [abs_of_pos, abs_of_neg]) (by rw [abs_lt]; constructor <;> norm_num)]; norm_num)
      (by norm_num [abs_of_pos, abs_of_neg])
  have h3 : Dbl.round (72057594037927936 / 1441151880758559) = Dbl.fin (7036874417766399 / 140737488355328) :=
    Dbl.round_eq_fin (by rw [roundToDouble_eq (5) (7036874417766399) (by norm_num) (by norm_num [abs_of_pos, abs_of_neg]) (by norm_num [abs_of_pos, abs_of_neg]) (by rw [abs_lt]; constructor <;> norm_num)]; norm_num)
      (by norm_num [abs_of_pos, abs_of_neg])
  norm_num [kernelRp, Dbl.mul_fin, Dbl.div_fin, h0, h1, h2, h3]

/-! ## Ranges that the rounding preserves -/

/-- A power of two that the type `double` holds is a lower bound of the rounded value
when it is a lower bound of the exact value. -/
theorem zpow_le_roundToDouble {x : ℚ} {a : Int} (ha : -1074 ≤ a) (h : (2 : ℚ) ^ a ≤ x) :
    (2 : ℚ) ^ a ≤ roundToDouble x := by
  have hpos : 0 < x := lt_of_lt_of_le (by positivity) h
  have hx0 : x ≠ 0 := ne_of_gt hpos
  by_cases hc : binadeOf x - 52 ≤ a
  · obtain ⟨d, hd⟩ : ∃ d : Nat, a = (binadeOf x - 52) + (d : Int) :=
      ⟨(a - (binadeOf x - 52)).toNat, by omega⟩
    have e₁ : (2 : ℚ) ^ a = ((2 ^ d : Int) : ℚ) * ulpOf x := by
      unfold ulpOf
      rw [hd, zpow_add₀ (by norm_num : (2 : ℚ) ≠ 0)]
      push_cast
      rw [zpow_natCast]
      ring
    rw [e₁] at h ⊢
    exact le_roundToDouble_of_le _ h
  · have hb : -1022 < binadeOf x := by omega
    have hlog : binadeOf x = Int.log 2 |x| := by
      unfold binadeOf at hb ⊢
      rw [if_neg hx0] at hb ⊢
      rcases le_total (Int.log 2 |x|) (-1022) with hl | hl
      · rw [max_eq_right hl] at hb
        omega
      · exact max_eq_left hl
    have h₂ : (2 : ℚ) ^ (binadeOf x) ≤ x := by
      rw [hlog]
      have := Int.zpow_log_le_self (b := 2) (r := |x|) (by norm_num) (abs_pos.mpr hx0)
      rw [abs_of_pos hpos] at this ⊢
      exact_mod_cast this
    have e₁ : (2 : ℚ) ^ (binadeOf x) = ((2 ^ 52 : Int) : ℚ) * ulpOf x := by
      unfold ulpOf
      rw [zpow_sub₀ (by norm_num : (2 : ℚ) ≠ 0)]
      norm_num
      ring
    have h₃ : (2 : ℚ) ^ (binadeOf x) ≤ roundToDouble x := by
      rw [e₁] at h₂ ⊢
      exact le_roundToDouble_of_le _ h₂
    refine le_trans (zpow_le_zpow_right₀ (by norm_num) (by omega)) h₃

/-- A power of two that the type `double` holds is an upper bound of the rounded value
when it is an upper bound of the exact value. -/
theorem roundToDouble_le_zpow {x : ℚ} {b : Int} (hb : -1074 ≤ b) (hx0 : 0 ≤ x)
    (h : x ≤ (2 : ℚ) ^ b) : roundToDouble x ≤ (2 : ℚ) ^ b := by
  have hlt : (2 : ℚ) ^ b < (2 : ℚ) ^ (max b (-1022) + 1) :=
    zpow_lt_zpow_right₀ (by norm_num) (by have := le_max_left b (-1022); omega)
  have := roundToDouble_le_dyadic (x := x) (max b (-1022)) 1 b (le_max_right _ _)
    (by rw [abs_of_nonneg hx0]; exact lt_of_le_of_lt h hlt)
    (by rcases le_total b (-1022) with hl | hl
        · rw [max_eq_right hl]; omega
        · rw [max_eq_left hl]; omega)
    (by simpa using h)
  simpa using this

/-- An exact value between two powers of two that the type holds is rounded to a
finite `double` between the same two powers. -/
theorem Dbl.round_range {x : ℚ} {a b : Int} (ha : -1074 ≤ a) (hb : b ≤ 1023)
    (h₁ : (2 : ℚ) ^ a ≤ x) (h₂ : x ≤ (2 : ℚ) ^ b) :
    ∃ v : ℚ, Dbl.round x = Dbl.fin v ∧ (2 : ℚ) ^ a ≤ v ∧ v ≤ (2 : ℚ) ^ b := by
  have hpos : 0 < x := lt_of_lt_of_le (by positivity) h₁
  have hab : a ≤ b := by
    by_contra hc
    have : (2 : ℚ) ^ b < (2 : ℚ) ^ a := zpow_lt_zpow_right₀ (by norm_num) (by omega)
    linarith
  have hlo := zpow_le_roundToDouble ha h₁
  have hhi := roundToDouble_le_zpow (by omega) (le_of_lt hpos) h₂
  refine ⟨roundToDouble x, Dbl.round_eq_fin rfl ?_, hlo, hhi⟩
  have h0 : 0 ≤ roundToDouble x := roundToDouble_nonneg (le_of_lt hpos)
  rw [abs_of_nonneg h0]
  have : (2 : ℚ) ^ b < (2 : ℚ) ^ (1024 : Nat) := by
    rw [← zpow_natCast]
    exact zpow_lt_zpow_right₀ (by norm_num) (by push_cast; omega)
  linarith

/-- A non-negative exact value up to a power of two that the type holds is rounded to
a finite non-negative `double` up to that power. -/
theorem Dbl.round_range_nonneg {x : ℚ} {b : Int} (hb₀ : -1074 ≤ b) (hb : b ≤ 1023)
    (h₁ : 0 ≤ x) (h₂ : x ≤ (2 : ℚ) ^ b) :
    ∃ v : ℚ, Dbl.round x = Dbl.fin v ∧ 0 ≤ v ∧ v ≤ (2 : ℚ) ^ b := by
  have hhi := roundToDouble_le_zpow hb₀ h₁ h₂
  have h0 : 0 ≤ roundToDouble x := roundToDouble_nonneg h₁
  refine ⟨roundToDouble x, Dbl.round_eq_fin rfl ?_, h0, hhi⟩
  rw [abs_of_nonneg h0]
  have : (2 : ℚ) ^ b < (2 : ℚ) ^ (1024 : Nat) := by
    rw [← zpow_natCast]
    exact zpow_lt_zpow_right₀ (by norm_num) (by push_cast; omega)
  linarith

theorem zpow_le_mul {x s : ℚ} {a c : Int} (hx : (2 : ℚ) ^ a ≤ x) (hs : (2 : ℚ) ^ c ≤ s) :
    (2 : ℚ) ^ (a + c) ≤ x * s := by
  rw [zpow_add₀ (by norm_num : (2 : ℚ) ≠ 0)]
  exact mul_le_mul hx hs (by positivity) (le_trans (by positivity) hx)

theorem mul_le_zpow {x s : ℚ} {a c : Int} (hx0 : 0 ≤ x) (hs0 : 0 ≤ s)
    (hx : x ≤ (2 : ℚ) ^ a) (hs : s ≤ (2 : ℚ) ^ c) : x * s ≤ (2 : ℚ) ^ (a + c) := by
  have _ := hx0
  rw [zpow_add₀ (by norm_num : (2 : ℚ) ≠ 0)]
  exact mul_le_mul hx hs hs0 (by positivity)

theorem one_div_le_zpow {x : ℚ} {a : Int} (hx : (2 : ℚ) ^ a ≤ x) :
    1 / x ≤ (2 : ℚ) ^ (-a) := by
  rw [zpow_neg, ← one_div]
  exact one_div_le_one_div_of_le (by positivity) hx

theorem zpow_le_one_div {x : ℚ} {b : Int} (hx0 : 0 < x) (hx : x ≤ (2 : ℚ) ^ b) :
    (2 : ℚ) ^ (-b) ≤ 1 / x := by
  rw [zpow_neg, ← one_div]
  exact one_div_le_one_div_of_le hx0 hx

/-! ## The range of the kernel parameters -/

theorem PI_eq : PI = Dbl.fin (884279719003555 / 281474976710656) := by
  unfold PI
  exact Dbl.round_eq_fin (by rw [roundToDouble_eq (1) (7074237752028440) (by norm_num) (by norm_num [abs_of_pos]) (by norm_num [abs_of_pos]) (by rw [abs_lt]; constructor <;> norm_num)]; norm_num)
    (by norm_num [abs_of_pos])

theorem two_PI_eq : Dbl.mul (Dbl.fin 2) PI = Dbl.fin (884279719003555 / 140737488355328) := by
  rw [PI_eq, Dbl.mul_fin]
  exact Dbl.round_eq_fin (by rw [roundToDouble_eq (2) (7074237752028440) (by norm_num) (by norm_num [abs_of_pos]) (by norm_num [abs_of_pos]) (by rw [abs_lt]; constructor <;> norm_num)]; norm_num)
    (by norm_num [abs_of_pos])

/-- For `sigma` between `2^(-400)` and `2^400` the factor `lp` is a finite positive
`double` of the normal range. -/
theorem kernelLp_range {s : ℚ} (h₁ : (2 : ℚ) ^ (-400 : Int) ≤ s)
    (h₂ : s ≤ (2 : ℚ) ^ (400 : Int)) :
    ∃ l : ℚ, kernelLp (Dbl.fin s) = Dbl.fin l ∧ (2 : ℚ) ^ (-803 : Int) ≤ l ∧
      l ≤ (2 : ℚ) ^ (798 : Int) := by
  have hs0 : 0 < s := lt_of_lt_of_le (by positivity) h₁
  unfold kernelLp
  rw [two_PI_eq, Dbl.mul_fin]
  have hp₁ : (2 : ℚ) ^ (2 : Int) ≤ 884279719003555 / 140737488355328 := by norm_num
  have hp₂ : (884279719003555 / 140737488355328 : ℚ) ≤ (2 : ℚ) ^ (3 : Int) := by norm_num
  obtain ⟨x₁, e₁, a₁, b₁⟩ := Dbl.round_range (a := 2 + -400) (b := 3 + 400) (by norm_num)
    (by norm_num) (zpow_le_mul hp₁ h₁) (mul_le_zpow (by norm_num) (le_of_lt hs0) hp₂ h₂)
  rw [e₁, Dbl.mul_fin]
  have hx₁ : 0 < x₁ := lt_of_lt_of_le (by positivity) a₁
  obtain ⟨x₂, e₂, a₂, b₂⟩ := Dbl.round_range (a := 2 + -400 + -400) (b := 3 + 400 + 400)
    (by norm_num) (by norm_num) (zpow_le_mul a₁ h₁)
    (mul_le_zpow (le_of_lt hx₁) (le_of_lt hs0) b₁ h₂)
  rw [e₂]
  have hx₂ : 0 < x₂ := lt_of_lt_of_le (by positivity) a₂
  rw [Dbl.div_fin 1 (ne_of_gt hx₂)]
  have c₁ := zpow_le_one_div hx₂ b₂
  have c₂ := one_div_le_zpow a₂
  rw [show (-(3 + 400 + 400) : Int) = -803 by norm_num] at c₁
  rw [show (-(2 + -400 + -400) : Int) = 798 by norm_num] at c₂
  exact Dbl.round_range (by norm_num) (by norm_num) c₁ c₂

/-- For `sigma` between `2^(-400)` and `2^400` the factor `rp` is a finite positive
`double`. -/
theorem kernelRp_range {s : ℚ} (h₁ : (2 : ℚ) ^ (-400 : Int) ≤ s)
    (h₂ : s ≤ (2 : ℚ) ^ (400 : Int)) :
    ∃ t : ℚ, kernelRp (Dbl.fin s) = Dbl.fin t ∧ (2 : ℚ) ^ (-801 : Int) ≤ t ∧
      t ≤ (2 : ℚ) ^ (799 : Int) := by
  have hs0 : 0 < s := lt_of_lt_of_le (by positivity) h₁
  unfold kernelRp
  rw [Dbl.mul_fin]
  obtain ⟨x₁, e₁, a₁, b₁⟩ := Dbl.round_range (a := 1 + -400) (b := 1 + 400) (by norm_num)
    (by norm_num) (zpow_le_mul (by norm_num : (2 : ℚ) ^ (1 : Int) ≤ 2) h₁)
    (mul_le_zpow (by norm_num) (le_of_lt hs0) (by norm_num : (2 : ℚ) ≤ 2 ^ (1 : Int)) h₂)
  rw [e₁, Dbl.mul_fin]
  have hx₁ : 0 < x₁ := lt_of_lt_of_le (by positivity) a₁
  obtain ⟨x₂, e₂, a₂, b₂⟩ := Dbl.round_range (a := 1 + -400 + -400) (b := 1 + 400 + 400)
    (by norm_num) (by norm_num) (zpow_le_mul a₁ h₁)
    (mul_le_zpow (le_of_lt hx₁) (le_of_lt hs0) b₁ h₂)
  rw [e₂]
  have hx₂ : 0 < x₂ := lt_of_lt_of_le (by positivity) a₂
  rw [Dbl.div_fin 1 (ne_of_gt hx₂)]
  have c₁ := zpow_le_one_div hx₂ b₂
  have c₂ := one_div_le_zpow a₂
  rw [show (-(1 + 400 + 400) : Int) = -801 by norm_num] at c₁
  rw [show (-(1 + -400 + -400) : Int) = 799 by norm_num] at c₂
  exact Dbl.round_range (by norm_num) (by norm_num) c₁ c₂

/-! ## The rounding is monotone -/

theorem roundHalfEven_mono {s t : ℚ} (h : s ≤ t) : roundHalfEven s ≤ roundHalfEven t := by
  by_contra hc
  have hc' : roundHalfEven t + 1 ≤ roundHalfEven s := by omega
  have hq : (roundHalfEven t : ℚ) + 1 ≤ (roundHalfEven s : ℚ) := by exact_mod_cast hc'
  have hs := abs_le.mp (abs_roundHalfEven_sub_le s)
  have ht := abs_le.mp (abs_roundHalfEven_sub_le t)
  have hst : s = t := by linarith [hs.1, hs.2, ht.1, ht.2]
  rw [hst] at hc
  exact hc (le_refl _)

theorem abs_lt_zpow_binadeOf_succ (x : ℚ) : |x| < (2 : ℚ) ^ (binadeOf x + 1) := by
  by_cases hx : x = 0
  · rw [hx, abs_zero]; positivity
  · have hpos : 0 < |x| := abs_pos.mpr hx
    have h₁ : |x| < (2 : ℚ) ^ (Int.log 2 |x| + 1) := by
      have := Int.lt_zpow_succ_log_self (b := 2) (by norm_num) |x|
      exact_mod_cast this
    refine lt_of_lt_of_le h₁ (zpow_le_zpow_right₀ (by norm_num) ?_)
    unfold binadeOf
    rw [if_neg hx]
    have := le_max_left (Int.log 2 |x|) (-1022)
    omega

theorem zpow_binadeOf_le {x : ℚ} (hb : -1022 < binadeOf x) : (2 : ℚ) ^ (binadeOf x) ≤ |x| := by
  have hx : x ≠ 0 := by
    intro h
    unfold binadeOf at hb
    rw [if_pos h] at hb
    omega
  have hpos : 0 < |x| := abs_pos.mpr hx
  have hlog : binadeOf x = Int.log 2 |x| := by
    unfold binadeOf at hb ⊢
    rw [if_neg hx] at hb ⊢
    rcases le_total (Int.log 2 |x|) (-1022) with hl | hl
    · rw [max_eq_right hl] at hb
      omega
    · exact max_eq_left hl
  rw [hlog]
  have := Int.zpow_log_le_self (b := 2) (r := |x|) (by norm_num) hpos
  exact_mod_cast this

theorem binadeOf_mono {x y : ℚ} (hx : 0 ≤ x) (h : x ≤ y) : binadeOf x ≤ binadeOf y := by
  by_contra hc
  have hlt : binadeOf y < binadeOf x := by omega
  have hb : -1022 < binadeOf x := lt_of_le_of_lt (binadeOf_ge y) hlt
  have h₁ := zpow_binadeOf_le hb
  have h₂ := abs_lt_zpow_binadeOf_succ y
  rw [abs_of_nonneg hx] at h₁
  rw [abs_of_nonneg (le_trans hx h)] at h₂
  have h₃ : (2 : ℚ) ^ (binadeOf y + 1) ≤ (2 : ℚ) ^ (binadeOf x) :=
    zpow_le_zpow_right₀ (by norm_num) (by omega)
  linarith

/-- On the non-negative numbers the rounding to `double` is monotone. -/
theorem roundToDouble_mono {x y : ℚ} (hx : 0 ≤ x) (h : x ≤ y) :
    roundToDouble x ≤ roundToDouble y := by
  have hy : 0 ≤ y := le_trans hx h
  rcases lt_or_eq_of_le (binadeOf_mono hx h) with hlt | heq
  · have hb : -1022 < binadeOf y := lt_of_le_of_lt (binadeOf_ge x) hlt
    have h₁ := zpow_binadeOf_le hb
    rw [abs_of_nonneg hy] at h₁
    have h₂ := abs_lt_zpow_binadeOf_succ x
    have e₁ : (2 : ℚ) ^ (binadeOf y) = ((2 ^ 52 : Int) : ℚ) * ulpOf y := by
      unfold ulpOf
      rw [zpow_sub₀ (by norm_num : (2 : ℚ) ≠ 0)]
      norm_num
      ring
    have lo : (2 : ℚ) ^ (binadeOf y) ≤ roundToDouble y := by
      rw [e₁] at h₁ ⊢
      exact le_roundToDouble_of_le _ h₁
    have hi : roundToDouble x ≤ (2 : ℚ) ^ (binadeOf x + 1) := by
      have := roundToDouble_le_dyadic (x := x) (binadeOf x) 1 (binadeOf x + 1) (binadeOf_ge x)
        h₂ (by omega) (by rw [abs_of_nonneg hx] at h₂; simpa using le_of_lt h₂)
      simpa using this
    have mid : (2 : ℚ) ^ (binadeOf x + 1) ≤ (2 : ℚ) ^ (binadeOf y) :=
      zpow_le_zpow_right₀ (by norm_num) (by omega)
    linarith
  · have hu : ulpOf x = ulpOf y := by unfold ulpOf; rw [heq]
    unfold roundToDouble
    rw [hu]
    have hpos := ulpOf_pos y
    have : roundHalfEven (x / ulpOf y) ≤ roundHalfEven (y / ulpOf y) :=
      roundHalfEven_mono (div_le_div_of_nonneg_right h (le_of_lt hpos))
    have hq : (roundHalfEven (x / ulpOf y) : ℚ) ≤ (roundHalfEven (y / ulpOf y) : ℚ) := by
      exact_mod_cast this
    exact mul_le_mul_of_nonneg_right hq (le_of_lt hpos)

/-! ## The cells of the generated kernel -/

theorem Dbl.eq_of_round_eq_fin {x v : ℚ} (h : Dbl.round x = Dbl.fin v) :
    v = roundToDouble x := by
  unfold Dbl.round at h
  split_ifs at h
  exact (Dbl.fin.inj h).symm

theorem Dbl.isNonpos_round {x : ℚ} (h : x ≤ 0) : (Dbl.round x).isNonpos := by
  unfold Dbl.round
  split_ifs with h₁ h₂
  · exact absurd h₂ (not_lt.mpr h)
  · trivial
  · exact roundToDouble_nonpos h

theorem Dbl.isNonpos_mul_pos {d : Dbl} (hd : d.isNonpos) {t : ℚ} (ht : 0 < t) :
    (Dbl.mul d (Dbl.fin t)).isNonpos := by
  cases d with
  | fin q => exact Dbl.isNonpos_round (mul_nonpos_of_nonpos_of_nonneg hd (le_of_lt ht))
  | pinf => exact hd.elim
  | ninf =>
    show (if t = 0 then Dbl.nan else if 0 < t then Dbl.ninf else Dbl.pinf).isNonpos
    rw [if_neg (ne_of_gt ht), if_pos ht]
    trivial
  | nan => exact hd.elim

/-- The argument handed to the exponential is not positive. -/
theorem expArgument_isNonpos {t : ℚ} (ht : 0 < t) (i j : Int) :
    (Dbl.mul (Dbl.ofInt (-(i * i + j * j))) (Dbl.fin t)).isNonpos := by
  refine Dbl.isNonpos_mul_pos (Dbl.isNonpos_round ?_) ht
  have : (0 : Int) ≤ i * i + j * j := add_nonneg (mul_self_nonneg i) (mul_self_nonneg j)
  have h : (-(i * i + j * j) : Int) ≤ 0 := by omega
  exact_mod_cast h

/-- With `sigma` between `2^(-400)` and `2^400` and an exponential that is 1 at zero and
has its values in `[0, 1]` at the arguments that are not positive, every value that the
generator computes is a finite `double` between 0 and the value of offset `(0, 0)`,
which is `lp` rounded and lies between `2^(-803)` and `2^798`. -/
theorem gaussianVal_range (exp : Dbl → Dbl) (hexp0 : exp (Dbl.fin 0) = Dbl.fin 1)
    (hexp : ∀ d : Dbl, d.isNonpos → ∃ v : ℚ, exp d = Dbl.fin v ∧ 0 ≤ v ∧ v ≤ 1) {s : ℚ}
    (h₁ : (2 : ℚ) ^ (-400 : Int) ≤ s) (h₂ : s ≤ (2 : ℚ) ^ (400 : Int)) :
    ∃ c₀ : ℚ, gaussianVal exp (Dbl.fin s) 0 0 = Dbl.fin c₀ ∧
      (2 : ℚ) ^ (-803 : Int) ≤ c₀ ∧ c₀ ≤ (2 : ℚ) ^ (798 : Int) ∧
      ∀ i j : Int, ∃ c : ℚ, gaussianVal exp (Dbl.fin s) i j = Dbl.fin c ∧ 0 ≤ c ∧ c ≤ c₀ := by
  obtain ⟨l, hl, l₁, l₂⟩ := kernelLp_range h₁ h₂
  obtain ⟨t, ht, t₁, _⟩ := kernelRp_range h₁ h₂
  have hl0 : 0 < l := lt_of_lt_of_le (by positivity) l₁
  have ht0 : 0 < t := lt_of_lt_of_le (by positivity) t₁
  have hc : gaussianVal exp (Dbl.fin s) 0 0 = Dbl.round l := by
    rw [gaussianVal_centre exp _ ht, hl, hexp0, Dbl.mul_fin, mul_one]
  obtain ⟨c₀, hc₀, a₀, b₀⟩ := Dbl.round_range (by norm_num) (by norm_num) l₁ l₂
  have hc₀' : c₀ = roundToDouble l := Dbl.eq_of_round_eq_fin hc₀
  refine ⟨c₀, by rw [hc, hc₀], a₀, b₀, ?_⟩
  intro i j
  obtain ⟨v, hv, v₀, v₁⟩ := hexp _ (expArgument_isNonpos ht0 i j)
  have hval : gaussianVal exp (Dbl.fin s) i j = Dbl.round (l * v) := by
    unfold gaussianVal
    rw [hl, ht, hv, Dbl.mul_fin]
  have hlv₀ : 0 ≤ l * v := mul_nonneg (le_of_lt hl0) v₀
  have hlv₁ : l * v ≤ l := by
    calc l * v ≤ l * 1 := mul_le_mul_of_nonneg_left v₁ (le_of_lt hl0)
      _ = l := mul_one l
  obtain ⟨c, hc', c₁, _⟩ := Dbl.round_range_nonneg (by norm_num) (by norm_num) hlv₀
    (le_trans hlv₁ l₂)
  have hc'' : c = roundToDouble (l * v) := Dbl.eq_of_round_eq_fin hc'
  refine ⟨c, by rw [hval, hc'], c₁, ?_⟩
  rw [hc'', hc₀']
  exact roundToDouble_mono hlv₀ hlv₁

/-! ## The rounding error of a sum of non-negative terms -/

/-- One rounding of a non-negative value: the relative error is at most `2^(-53)`
apart from `2^(-1075)`. -/
theorem roundToDouble_bounds {x : ℚ} (hx : 0 ≤ x) :
    x * (1 - 1 / 2 ^ (53 : Nat)) - (2 : ℚ) ^ (-1075 : Int) ≤ roundToDouble x ∧
    roundToDouble x ≤ x * (1 + 1 / 2 ^ (53 : Nat)) + (2 : ℚ) ^ (-1075 : Int) := by
  have h := abs_le.mp (abs_roundToDouble_sub_le_add x)
  rw [abs_of_nonneg hx] at h
  constructor
  · have := h.1
    have e : x * (1 - 1 / 2 ^ (53 : Nat)) = x - x / 2 ^ (53 : Nat) := by ring
    rw [e]
    linarith
  · have := h.2
    have e : x * (1 + 1 / 2 ^ (53 : Nat)) = x + x / 2 ^ (53 : Nat) := by ring
    rw [e]
    linarith

/-- The accumulation of non-negative finite terms, started from `0.0`, for a rounding
of relative error `u` apart from `η`: as long as the bound on the sum stays below the
overflow threshold the accumulator is finite, and it differs from the exact sum of the
`k` terms by the factors `(1 ± u)^k` and by `k·η`. -/
theorem foldl_add_bounds_of {α : Type} (u η top : ℚ) (hu0 : 0 ≤ u) (hu1 : u ≤ 1)
    (hη : 0 ≤ η)
    (hround : ∀ x : ℚ, 0 ≤ x →
      x * (1 - u) - η ≤ roundToDouble x ∧ roundToDouble x ≤ x * (1 + u) + η)
    (htop : top ≤ (2 : ℚ) ^ (1024 : Nat))
    (v : α → ℚ) (l : List α) (hv : ∀ o ∈ l, 0 ≤ v o)
    (hb : ((l.map v).sum + l.length * η) * (1 + u) ^ l.length < top) :
    ∃ T : ℚ, l.foldl (fun t o => Dbl.add t (Dbl.fin (v o))) (Dbl.fin 0) = Dbl.fin T ∧
      0 ≤ T ∧
      (l.map v).sum * (1 - u) ^ l.length - l.length * η ≤ T ∧
      T ≤ ((l.map v).sum + l.length * η) * (1 + u) ^ l.length := by
  induction l using List.reverseRecOn with
  | nil =>
    exact ⟨0, rfl, le_refl _, by simp, by simp⟩
  | append_singleton l a ih =>
    have hva : 0 ≤ v a := hv a (by simp)
    have hvl : ∀ o ∈ l, 0 ≤ v o := fun o ho => hv o (by simp [ho])
    have hsum0 : 0 ≤ (l.map v).sum := List.sum_nonneg (by
      intro x hx
      obtain ⟨o, ho, rfl⟩ := List.mem_map.mp hx
      exact hvl o ho)
    have hlen : ((l ++ [a]).length : ℚ) = (l.length : ℚ) + 1 := by simp
    have hsum : ((l ++ [a]).map v).sum = (l.map v).sum + v a := by simp
    have hpow : (1 + u) ^ (l ++ [a]).length = (1 + u) ^ l.length * (1 + u) := by
      rw [List.length_append, List.length_singleton, pow_succ]
    have hpow' : (1 - u) ^ (l ++ [a]).length = (1 - u) ^ l.length * (1 - u) := by
      rw [List.length_append, List.length_singleton, pow_succ]
    rw [hlen, hsum, hpow] at hb
    have hA : (1 : ℚ) ≤ (1 + u) ^ l.length := one_le_pow₀ (by linarith)
    have hB : (1 - u) ^ l.length ≤ 1 := pow_le_one₀ (by linarith) (by linarith)
    have hB0 : 0 ≤ (1 - u) ^ l.length := pow_nonneg (by linarith) _
    have hlen0 : (0 : ℚ) ≤ (l.length : ℚ) := Nat.cast_nonneg _
    have hlη : 0 ≤ (l.length : ℚ) * η := mul_nonneg hlen0 hη
    generalize (l.map v).sum = e at *
    generalize (1 + u) ^ l.length = A at *
    generalize (1 - u) ^ l.length = B at *
    generalize (l.length : ℚ) = k at *
    -- the bound of the prefix
    have hbl : (e + k * η) * A < top := by
      refine lt_of_le_of_lt ?_ hb
      have h₁ : e + k * η ≤ e + v a + (k + 1) * η := by linarith
      have h₂ : (0 : ℚ) ≤ e + v a + (k + 1) * η := by linarith
      calc (e + k * η) * A ≤ (e + v a + (k + 1) * η) * A :=
            mul_le_mul_of_nonneg_right h₁ (le_trans zero_le_one hA)
        _ ≤ (e + v a + (k + 1) * η) * (A * (1 + u)) := by
            exact mul_le_mul_of_nonneg_left
              (le_mul_of_one_le_right (le_trans zero_le_one hA) (by linarith)) h₂
    obtain ⟨T, hT, T0, Tlo, Thi⟩ := ih hvl hbl
    have hx0 : 0 ≤ T + v a := add_nonneg T0 hva
    obtain ⟨rlo, rhi⟩ := hround _ hx0
    have hup : roundToDouble (T + v a) ≤ (e + v a + (k + 1) * η) * (A * (1 + u)) := by
      have h₁ : T + v a ≤ (e + v a + k * η) * A := by
        have : v a ≤ v a * A := le_mul_of_one_le_right hva hA
        linarith
      have h₂ : (T + v a) * (1 + u) ≤ (e + v a + k * η) * A * (1 + u) :=
        mul_le_mul_of_nonneg_right h₁ (by linarith)
      have h₃ : η ≤ η * (A * (1 + u)) := by
        have : (1 : ℚ) ≤ A * (1 + u) := one_le_mul_of_one_le_of_one_le hA (by linarith)
        exact le_mul_of_one_le_right hη this
      calc roundToDouble (T + v a) ≤ (T + v a) * (1 + u) + η := rhi
        _ ≤ (e + v a + k * η) * A * (1 + u) + η * (A * (1 + u)) := add_le_add h₂ h₃
        _ = (e + v a + (k + 1) * η) * (A * (1 + u)) := by ring
    have hfin : Dbl.add (Dbl.fin T) (Dbl.fin (v a)) = Dbl.fin (roundToDouble (T + v a)) := by
      rw [Dbl.add_fin]
      have hlt : |roundToDouble (T + v a)| < (2 : ℚ) ^ (1024 : Nat) := by
        rw [abs_of_nonneg (roundToDouble_nonneg hx0)]
        exact lt_of_le_of_lt hup (lt_of_lt_of_le hb htop)
      exact Dbl.round_eq_fin rfl hlt
    refine ⟨roundToDouble (T + v a), ?_, roundToDouble_nonneg hx0, ?_, ?_⟩
    · rw [List.foldl_append, hT]
      exact hfin
    · rw [hsum, hlen, hpow']
      have h₁ : (e * B - k * η + v a) * (1 - u) ≤ (T + v a) * (1 - u) :=
        mul_le_mul_of_nonneg_right (by linarith) (by linarith)
      have h₂ : v a * (B * (1 - u)) ≤ v a * (1 - u) := by
        exact mul_le_mul_of_nonneg_left (mul_le_of_le_one_left (by linarith) hB) hva
      have h₃ : k * η * (1 - u) ≤ k * η := mul_le_of_le_one_right hlη (by linarith)
      calc (e + v a) * (B * (1 - u)) - (k + 1) * η
          = (e * B - k * η + v a) * (1 - u) - η + (v a * (B * (1 - u)) - v a * (1 - u)) +
            (k * η * (1 - u) - k * η) := by ring
        _ ≤ (e * B - k * η + v a) * (1 - u) - η := by linarith
        _ ≤ (T + v a) * (1 - u) - η := by linarith
        _ ≤ roundToDouble (T + v a) := rlo
    · rw [hsum, hlen, hpow]
      exact hup

/-! ## The accumulated sums of the blur -/

theorem pow_one_add_le {x : ℚ} (hx : 0 ≤ x) (n : Nat) (h : 2 * n * x ≤ 1) :
    (1 + x) ^ n ≤ 1 + 2 * n * x := by
  induction n with
  | zero => simp
  | succ k ih =>
    have hk : 2 * (k : ℚ) * x ≤ 1 := by
      push_cast at h
      nlinarith
    have ih' := ih hk
    have hkx : 0 ≤ (k : ℚ) * x := mul_nonneg (Nat.cast_nonneg k) hx
    rw [pow_succ]
    push_cast
    have h₁ : (1 + x) ^ k * (1 + x) ≤ (1 + 2 * k * x) * (1 + x) :=
      mul_le_mul_of_nonneg_right ih' (by linarith)
    have h₂ : 2 * (k : ℚ) * x * x ≤ x := by
      have := mul_le_mul_of_nonneg_right hk hx
      linarith
    nlinarith

theorem one_sub_mul_le_pow_of_le_one {x : ℚ} (hx0 : 0 ≤ x) (hx1 : x ≤ 1) (n : Nat) :
    1 - n * x ≤ (1 - x) ^ n := by
  have _ := hx0
  have := one_add_mul_le_pow (show (-2 : ℚ) ≤ -x by linarith) n
  have e : (1 : ℚ) + n * -x = 1 - n * x := by ring
  have e' : (1 : ℚ) + -x = 1 - x := by ring
  rw [e, e'] at this
  exact this

theorem sum_map_affine {α : Type} (w : α → ℚ) (a b : ℚ) (l : List α) :
    (l.map (fun o => a * w o + b)).sum = a * (l.map w).sum + l.length * b := by
  induction l with
  | nil => simp
  | cons x l ih =>
    simp only [List.map_cons, List.sum_cons, List.length_cons, ih]
    push_cast
    ring

theorem sum_map_le_sum_map {α : Type} (f g : α → ℚ) (l : List α)
    (h : ∀ o ∈ l, f o ≤ g o) : (l.map f).sum ≤ (l.map g).sum := by
  induction l with
  | nil => simp
  | cons x l ih =>
    simp only [List.map_cons, List.sum_cons]
    exact add_le_add (h x (List.mem_cons_self x l))
      (ih (fun o ho => h o (List.mem_cons_of_mem x ho)))

theorem sum_map_nonneg {α : Type} (f : α → ℚ) (l : List α) (h : ∀ o ∈ l, 0 ≤ f o) :
    0 ≤ (l.map f).sum := by
  have := sum_map_le_sum_map (fun _ => (0 : ℚ)) f l h
  simpa using this

theorem le_sum_map_of_mem {α : Type} (f : α → ℚ) (l : List α) (h : ∀ o ∈ l, 0 ≤ f o)
    {c : α} (hc : c ∈ l) : f c ≤ (l.map f).sum := by
  induction l with
  | nil => exact absurd hc (List.not_mem_nil c)
  | cons x l ih =>
    simp only [List.map_cons, List.sum_cons]
    rcases List.mem_cons.mp hc with rfl | hc'
    · have := sum_map_nonneg f l (fun o ho => h o (List.mem_cons_of_mem _ ho))
      linarith
    · have := ih (fun o ho => h o (List.mem_cons_of_mem x ho)) hc'
      have := h x (List.mem_cons_self x l)
      linarith

theorem sum_map_le_length_mul {α : Type} (f : α → ℚ) (l : List α) (b : ℚ)
    (h : ∀ o ∈ l, f o ≤ b) : (l.map f).sum ≤ l.length * b := by
  have := sum_map_le_sum_map f (fun _ => b) l h
  have e := sum_map_affine (fun _ : α => (0 : ℚ)) 0 b l
  simp only [mul_zero, zero_add] at e
  rw [e] at this
  simpa using this

/-- The arithmetic at the heart of the error bound: with the exact weight total `E`,
the accumulated total `T`, the accumulated weighted sum `S` and the exact sum `F` of
the rounded products, related by the factors `A = (1 + u)^n`, `B = (1 - u)^n` and the
absolute error `X = n·η`, the sum `S` lies between `(m - 2^(-20))·T` and
`(M + 2^(-20))·T`. -/
theorem quotient_bounds_core (E T S F X A B m M : ℚ) (hE : 0 < E) (hX0 : 0 ≤ X)
    (hX : X ≤ E / 2 ^ (155 : Nat)) (hA : A ≤ 1 + 1 / 2 ^ (32 : Nat))
    (hB : 1 - 1 / 2 ^ (33 : Nat) ≤ B) (hm : 0 ≤ m) (hmM : m ≤ M)
    (hM : M ≤ 255) (hF0 : 0 ≤ F) (hS0 : 0 ≤ S)
    (T_lo : E * B - X ≤ T) (T_hi : T ≤ (E + X) * A)
    (S_lo : F * B - X ≤ S) (S_hi : S ≤ (F + X) * A)
    (F_lo : m * (1 - 1 / 2 ^ (53 : Nat)) * E - X ≤ F)
    (F_hi : F ≤ M * (1 + 1 / 2 ^ (53 : Nat)) * E + X) :
    E / 2 ≤ T ∧ T ≤ 2 * E ∧ (m - 1 / 2 ^ (20 : Nat)) * T ≤ S ∧
      S ≤ (M + 1 / 2 ^ (20 : Nat)) * T := by
  have hM0 : 0 ≤ M := le_trans hm hmM
  have hEB : E * (1 - 1 / 2 ^ (33 : Nat)) ≤ E * B := mul_le_mul_of_nonneg_left hB (le_of_lt hE)
  have hEXA : (E + X) * A ≤ (E + X) * (1 + 1 / 2 ^ (32 : Nat)) :=
    mul_le_mul_of_nonneg_left hA (by linarith)
  have hT₁ : E * (1 - 1 / 2 ^ (33 : Nat)) - X ≤ T := by linarith
  have hT₂ : T ≤ (E + X) * (1 + 1 / 2 ^ (32 : Nat)) := by linarith
  have hT0 : 0 ≤ T := by
    have : (0 : ℚ) ≤ E * (1 - 1 / 2 ^ (33 : Nat)) - E / 2 ^ (155 : Nat) := by
      have : E * (1 - 1 / 2 ^ (33 : Nat)) - E / 2 ^ (155 : Nat) =
          E * (1 - 1 / 2 ^ (33 : Nat) - 1 / 2 ^ (155 : Nat)) := by ring
      rw [this]
      exact mul_nonneg (le_of_lt hE) (by norm_num)
    linarith
  have hME : 0 ≤ M * E := mul_nonneg hM0 (le_of_lt hE)
  have hME' : M * E ≤ 255 * E := mul_le_mul_of_nonneg_right hM (le_of_lt hE)
  have hmE : 0 ≤ m * E := mul_nonneg hm (le_of_lt hE)
  have hmE' : m * E ≤ 255 * E := mul_le_mul_of_nonneg_right (le_trans hmM hM) (le_of_lt hE)
  have hMX : M * X ≤ 255 * X := mul_le_mul_of_nonneg_right hM hX0
  have hmX : m * X ≤ 255 * X := mul_le_mul_of_nonneg_right (le_trans hmM hM) hX0
  refine ⟨?_, ?_, ?_, ?_⟩
  · have e : E * (1 - 1 / 2 ^ (33 : Nat)) = E - E / 2 ^ (33 : Nat) := by ring
    have : E / 2 ^ (33 : Nat) + E / 2 ^ (155 : Nat) ≤ E / 2 := by
      have : E / 2 ^ (33 : Nat) + E / 2 ^ (155 : Nat) =
          E * (1 / 2 ^ (33 : Nat) + 1 / 2 ^ (155 : Nat)) := by ring
      rw [this]
      have : E / 2 = E * (1 / 2) := by ring
      rw [this]
      exact mul_le_mul_of_nonneg_left (by norm_num) (le_of_lt hE)
    linarith
  · have : (E + X) * (1 + 1 / 2 ^ (32 : Nat)) ≤
        (E + E / 2 ^ (155 : Nat)) * (1 + 1 / 2 ^ (32 : Nat)) :=
      mul_le_mul_of_nonneg_right (by linarith) (by norm_num)
    have e : (E + E / 2 ^ (155 : Nat)) * (1 + 1 / 2 ^ (32 : Nat)) =
        E * ((1 + 1 / 2 ^ (155 : Nat)) * (1 + 1 / 2 ^ (32 : Nat))) := by ring
    have : E * ((1 + 1 / 2 ^ (155 : Nat)) * (1 + 1 / 2 ^ (32 : Nat))) ≤ E * 2 :=
      mul_le_mul_of_nonneg_left (by norm_num) (le_of_lt hE)
    linarith
  · rcases le_total (1 / 2 ^ (20 : Nat)) m with hmd | hmd
    · -- the lower bound of `S`
      have h₁ : F * (1 - 1 / 2 ^ (33 : Nat)) ≤ F * B := mul_le_mul_of_nonneg_left hB hF0
      have h₂ : (m * (1 - 1 / 2 ^ (53 : Nat)) * E - X) * (1 - 1 / 2 ^ (33 : Nat)) ≤
          F * (1 - 1 / 2 ^ (33 : Nat)) := mul_le_mul_of_nonneg_right F_lo (by norm_num)
      -- the upper bound of `(m - δ)·T`
      have h₃ : (m - 1 / 2 ^ (20 : Nat)) * T ≤
          (m - 1 / 2 ^ (20 : Nat)) * ((E + X) * (1 + 1 / 2 ^ (32 : Nat))) :=
        mul_le_mul_of_nonneg_left hT₂ (by linarith)
      have e₃ : (m - 1 / 2 ^ (20 : Nat)) * ((E + X) * (1 + 1 / 2 ^ (32 : Nat))) =
          (m * E + m * X - E / 2 ^ (20 : Nat) - X / 2 ^ (20 : Nat)) *
            (1 + 1 / 2 ^ (32 : Nat)) := by ring
      have e₂ : (m * (1 - 1 / 2 ^ (53 : Nat)) * E - X) * (1 - 1 / 2 ^ (33 : Nat)) =
          (m * E) * ((1 - 1 / 2 ^ (53 : Nat)) * (1 - 1 / 2 ^ (33 : Nat))) -
            X * (1 - 1 / 2 ^ (33 : Nat)) := by ring
      have h₄ : (m * E + m * X - E / 2 ^ (20 : Nat) - X / 2 ^ (20 : Nat)) *
            (1 + 1 / 2 ^ (32 : Nat)) ≤
          (m * E) * ((1 - 1 / 2 ^ (53 : Nat)) * (1 - 1 / 2 ^ (33 : Nat))) -
            X * (1 - 1 / 2 ^ (33 : Nat)) - X := by
        have k₁ : (m * E + m * X - E / 2 ^ (20 : Nat) - X / 2 ^ (20 : Nat)) *
            (1 + 1 / 2 ^ (32 : Nat)) =
            (m * E) * (1 + 1 / 2 ^ (32 : Nat)) + (m * X) * (1 + 1 / 2 ^ (32 : Nat)) -
              E * ((1 / 2 ^ (20 : Nat)) * (1 + 1 / 2 ^ (32 : Nat))) -
              X * ((1 / 2 ^ (20 : Nat)) * (1 + 1 / 2 ^ (32 : Nat))) := by ring
        rw [k₁]
        norm_num
        norm_num at hX hmE' hmX
        linarith
      linarith
    · have : (m - 1 / 2 ^ (20 : Nat)) * T ≤ 0 :=
        mul_nonpos_of_nonpos_of_nonneg (by linarith) hT0
      linarith
  · have h₁ : (F + X) * A ≤ (F + X) * (1 + 1 / 2 ^ (32 : Nat)) :=
      mul_le_mul_of_nonneg_left hA (by linarith)
    have h₂ : (F + X) * (1 + 1 / 2 ^ (32 : Nat)) ≤
        (M * (1 + 1 / 2 ^ (53 : Nat)) * E + X + X) * (1 + 1 / 2 ^ (32 : Nat)) :=
      mul_le_mul_of_nonneg_right (by linarith) (by norm_num)
    have h₃ : (M + 1 / 2 ^ (20 : Nat)) * (E * (1 - 1 / 2 ^ (33 : Nat)) - X) ≤
        (M + 1 / 2 ^ (20 : Nat)) * T :=
      mul_le_mul_of_nonneg_left hT₁ (by positivity)
    have h₄ : (M * (1 + 1 / 2 ^ (53 : Nat)) * E + X + X) * (1 + 1 / 2 ^ (32 : Nat)) ≤
        (M + 1 / 2 ^ (20 : Nat)) * (E * (1 - 1 / 2 ^ (33 : Nat)) - X) := by
      have k₁ : (M * (1 + 1 / 2 ^ (53 : Nat)) * E + X + X) * (1 + 1 / 2 ^ (32 : Nat)) =
          (M * E) * ((1 + 1 / 2 ^ (53 : Nat)) * (1 + 1 / 2 ^ (32 : Nat))) +
            X * (2 * (1 + 1 / 2 ^ (32 : Nat))) := by ring
      have k₂ : (M + 1 / 2 ^ (20 : Nat)) * (E * (1 - 1 / 2 ^ (33 : Nat)) - X) =
          (M * E) * (1 - 1 / 2 ^ (33 : Nat)) - M * X +
            E * ((1 / 2 ^ (20 : Nat)) * (1 - 1 / 2 ^ (33 : Nat))) -
            X * (1 / 2 ^ (20 : Nat)) := by ring
      rw [k₁, k₂]
      norm_num
      norm_num at hX hME' hMX
      linarith
    linarith

/-- The product of an 8-bit channel with a weight of `[0, 2^900]` is a finite `double`
with the relative error of one rounding. -/
theorem channel_mul_weight {c : Nat} {w : ℚ} (hc : c ≤ 255) (hw0 : 0 ≤ w)
    (hw : w ≤ (2 : ℚ) ^ (900 : Int)) :
    Dbl.mul (Dbl.ofUchar c) (Dbl.fin w) = Dbl.fin (roundToDouble ((c : ℚ) * w)) ∧
    0 ≤ roundToDouble ((c : ℚ) * w) ∧
    (c : ℚ) * w * (1 - 1 / 2 ^ (53 : Nat)) - (2 : ℚ) ^ (-1075 : Int) ≤
      roundToDouble ((c : ℚ) * w) ∧
    roundToDouble ((c : ℚ) * w) ≤
      (c : ℚ) * w * (1 + 1 / 2 ^ (53 : Nat)) + (2 : ℚ) ^ (-1075 : Int) := by
  have hc0 : (0 : ℚ) ≤ (c : ℚ) := Nat.cast_nonneg c
  have hcq : (c : ℚ) ≤ (2 : ℚ) ^ (8 : Int) := by
    have : (c : ℚ) ≤ 255 := by exact_mod_cast hc
    have : (255 : ℚ) ≤ (2 : ℚ) ^ (8 : Int) := by norm_num
    linarith
  have hx0 : 0 ≤ (c : ℚ) * w := mul_nonneg hc0 hw0
  have hx : (c : ℚ) * w ≤ (2 : ℚ) ^ ((8 : Int) + 900) := mul_le_zpow hc0 hw0 hcq hw
  obtain ⟨v, hv, _, _⟩ := Dbl.round_range_nonneg (by norm_num) (by norm_num) hx0 hx
  have hv' := Dbl.eq_of_round_eq_fin hv
  obtain ⟨lo, hi⟩ := roundToDouble_bounds hx0
  refine ⟨?_, roundToDouble_nonneg hx0, lo, hi⟩
  show Dbl.mul (Dbl.fin (c : ℚ)) (Dbl.fin w) = _
  rw [Dbl.mul_fin, hv, hv']

/-- The accumulated weighted sum `S` and the accumulated weight total `T` of a window:
for weights in `[0, 2^900]`, one of them at least `2^(-900)`, at most `2^20` of them,
8-bit channel values, and an exact weighted sum between `m` times and `M` times the
exact weight total, both are finite, `T` is positive, and `S` lies between
`(m - 2^(-20))·T` and `(M + 2^(-20))·T`. -/
theorem weighted_fold_bounds_of {α : Type} (w : α → ℚ) (c : α → Nat) (l : List α)
    (m M : ℚ) (hw : ∀ o ∈ l, 0 ≤ w o ∧ w o ≤ (2 : ℚ) ^ (900 : Int))
    (hc : ∀ o ∈ l, c o ≤ 255) (hmq : 0 ≤ m) (hmMq : m ≤ M) (hMq : M ≤ 255)
    (hlo : m * (l.map w).sum ≤ (l.map (fun o => (c o : ℚ) * w o)).sum)
    (hhi : (l.map (fun o => (c o : ℚ) * w o)).sum ≤ M * (l.map w).sum) {o₀ : α}
    (ho₀ : o₀ ∈ l) (hw₀ : (2 : ℚ) ^ (-900 : Int) ≤ w o₀) (hn : l.length ≤ 2 ^ 20) :
    ∃ S T : ℚ,
      l.foldl (fun s o => Dbl.add s (Dbl.mul (Dbl.ofUchar (c o)) (Dbl.fin (w o))))
        (Dbl.fin 0) = Dbl.fin S ∧
      l.foldl (fun t o => Dbl.add t (Dbl.fin (w o))) (Dbl.fin 0) = Dbl.fin T ∧
      0 ≤ S ∧ (2 : ℚ) ^ (-901 : Int) ≤ T ∧ T ≤ (2 : ℚ) ^ (921 : Int) ∧
      (m - 1 / 2 ^ (20 : Nat)) * T ≤ S ∧ S ≤ (M + 1 / 2 ^ (20 : Nat)) * T := by
  -- the products
  have hp : ∀ o ∈ l, Dbl.mul (Dbl.ofUchar (c o)) (Dbl.fin (w o)) =
        Dbl.fin (roundToDouble ((c o : ℚ) * w o)) ∧
      0 ≤ roundToDouble ((c o : ℚ) * w o) ∧
      (c o : ℚ) * w o * (1 - 1 / 2 ^ (53 : Nat)) - (2 : ℚ) ^ (-1075 : Int) ≤
        roundToDouble ((c o : ℚ) * w o) ∧
      roundToDouble ((c o : ℚ) * w o) ≤
        (c o : ℚ) * w o * (1 + 1 / 2 ^ (53 : Nat)) + (2 : ℚ) ^ (-1075 : Int) :=
    fun o ho => channel_mul_weight (hc o ho) (hw o ho).1 (hw o ho).2
  have hfold : l.foldl (fun s o => Dbl.add s (Dbl.mul (Dbl.ofUchar (c o)) (Dbl.fin (w o))))
      (Dbl.fin 0) =
      l.foldl (fun s o => Dbl.add s (Dbl.fin (roundToDouble ((c o : ℚ) * w o))))
        (Dbl.fin 0) := by
    apply List.foldl_ext
    intro s o ho
    rw [(hp o ho).1]
  rw [hfold]
  -- the exact sums
  have hE₁ : (2 : ℚ) ^ (-900 : Int) ≤ (l.map w).sum :=
    le_trans hw₀ (le_sum_map_of_mem w l (fun o ho => (hw o ho).1) ho₀)
  have hnq : (l.length : ℚ) ≤ (2 : ℚ) ^ (20 : Int) := by
    have : (l.length : ℚ) ≤ ((2 ^ 20 : Nat) : ℚ) := by exact_mod_cast hn
    have e : (((2 : Nat) ^ 20 : Nat) : ℚ) = (2 : ℚ) ^ (20 : Int) := by norm_num
    rw [e] at this
    exact this
  have hn0 : (0 : ℚ) ≤ (l.length : ℚ) := Nat.cast_nonneg _
  have hE₂ : (l.map w).sum ≤ (2 : ℚ) ^ (920 : Int) := by
    have h₁ := sum_map_le_length_mul w l _ (fun o ho => (hw o ho).2)
    have h₂ : (l.length : ℚ) * (2 : ℚ) ^ (900 : Int) ≤ (2 : ℚ) ^ ((20 : Int) + 900) :=
      mul_le_zpow hn0 (by positivity) hnq (le_refl _)
    exact le_trans h₁ h₂
  have hF0 : 0 ≤ (l.map (fun o => roundToDouble ((c o : ℚ) * w o))).sum :=
    sum_map_nonneg _ l (fun o ho => (hp o ho).2.1)
  have hF_hi : (l.map (fun o => roundToDouble ((c o : ℚ) * w o))).sum ≤
      M * (1 + 1 / 2 ^ (53 : Nat)) * (l.map w).sum +
        l.length * (2 : ℚ) ^ (-1075 : Int) := by
    have h₁ : (l.map (fun o => roundToDouble ((c o : ℚ) * w o))).sum ≤
        (l.map (fun o => (1 + 1 / 2 ^ (53 : Nat)) * ((c o : ℚ) * w o) +
          (2 : ℚ) ^ (-1075 : Int))).sum := by
      refine sum_map_le_sum_map _ _ l ?_
      intro o ho
      refine le_trans (hp o ho).2.2.2 (le_of_eq ?_)
      ring
    rw [sum_map_affine (fun o => (c o : ℚ) * w o)] at h₁
    have h₂ : (1 + 1 / 2 ^ (53 : Nat)) * (l.map (fun o => (c o : ℚ) * w o)).sum ≤
        (1 + 1 / 2 ^ (53 : Nat)) * (M * (l.map w).sum) :=
      mul_le_mul_of_nonneg_left hhi (by norm_num)
    have e : M * (1 + 1 / 2 ^ (53 : Nat)) * (l.map w).sum =
        (1 + 1 / 2 ^ (53 : Nat)) * (M * (l.map w).sum) := by ring
    rw [e]
    linarith
  have hF_lo : m * (1 - 1 / 2 ^ (53 : Nat)) * (l.map w).sum -
      l.length * (2 : ℚ) ^ (-1075 : Int) ≤
      (l.map (fun o => roundToDouble ((c o : ℚ) * w o))).sum := by
    have h₁ : (l.map (fun o => (1 - 1 / 2 ^ (53 : Nat)) * ((c o : ℚ) * w o) +
          -(2 : ℚ) ^ (-1075 : Int))).sum ≤
        (l.map (fun o => roundToDouble ((c o : ℚ) * w o))).sum := by
      refine sum_map_le_sum_map _ _ l ?_
      intro o ho
      refine le_trans (le_of_eq ?_) (hp o ho).2.2.1
      ring
    rw [sum_map_affine (fun o => (c o : ℚ) * w o)] at h₁
    have h₂ : (1 - 1 / 2 ^ (53 : Nat)) * (m * (l.map w).sum) ≤
        (1 - 1 / 2 ^ (53 : Nat)) * (l.map (fun o => (c o : ℚ) * w o)).sum :=
      mul_le_mul_of_nonneg_left hlo (by norm_num)
    have e : m * (1 - 1 / 2 ^ (53 : Nat)) * (l.map w).sum =
        (1 - 1 / 2 ^ (53 : Nat)) * (m * (l.map w).sum) := by ring
    rw [e]
    linarith
  -- the absolute error
  have hX0 : (0 : ℚ) ≤ l.length * (2 : ℚ) ^ (-1075 : Int) := by positivity
  have hX₁ : (l.length : ℚ) * (2 : ℚ) ^ (-1075 : Int) ≤ (2 : ℚ) ^ (-1055 : Int) := by
    have := mul_le_zpow hn0 (by positivity) hnq (le_refl ((2 : ℚ) ^ (-1075 : Int)))
    rw [show ((20 : Int) + -1075) = -1055 by norm_num] at this
    exact this
  have hX : (l.length : ℚ) * (2 : ℚ) ^ (-1075 : Int) ≤ (l.map w).sum / 2 ^ (155 : Nat) := by
    have e : (2 : ℚ) ^ (-1055 : Int) = (2 : ℚ) ^ (-900 : Int) / 2 ^ (155 : Nat) := by
      rw [show (-1055 : Int) = -900 - 155 by norm_num, zpow_sub₀ (by norm_num : (2 : ℚ) ≠ 0)]
      norm_num
    rw [e] at hX₁
    exact le_trans hX₁ (div_le_div_of_nonneg_right hE₁ (by positivity))
  -- the factors
  have hnu : 2 * (l.length : ℚ) * (1 / 2 ^ (53 : Nat)) ≤ 1 / 2 ^ (32 : Nat) := by
    have h20 : l.length ≤ 1048576 := by simpa using hn
    have : (l.length : ℚ) ≤ 1048576 := by exact_mod_cast h20
    norm_num
    linarith
  have hA : (1 + 1 / 2 ^ (53 : Nat) : ℚ) ^ l.length ≤ 1 + 1 / 2 ^ (32 : Nat) := by
    refine le_trans (pow_one_add_le (by norm_num) l.length (le_trans hnu (by norm_num))) ?_
    linarith
  have hB : 1 - 1 / 2 ^ (33 : Nat) ≤ (1 - 1 / 2 ^ (53 : Nat) : ℚ) ^ l.length := by
    refine le_trans ?_ (one_sub_mul_le_pow_of_le_one (by norm_num) (by norm_num) l.length)
    linarith
  have hA0 : (0 : ℚ) ≤ (1 + 1 / 2 ^ (53 : Nat) : ℚ) ^ l.length := by positivity
  -- no overflow
  have hE0 : 0 < (l.map w).sum := lt_of_lt_of_le (by positivity) hE₁
  have hXE : (l.length : ℚ) * (2 : ℚ) ^ (-1075 : Int) ≤ (l.map w).sum := by
    refine le_trans hX ?_
    exact div_le_self (le_of_lt hE0) (by norm_num)
  have hbT : ((l.map w).sum + l.length * (2 : ℚ) ^ (-1075 : Int)) *
      (1 + 1 / 2 ^ (53 : Nat)) ^ l.length < (2 : ℚ) ^ (1024 : Nat) := by
    have h₁ : ((l.map w).sum + l.length * (2 : ℚ) ^ (-1075 : Int)) *
        (1 + 1 / 2 ^ (53 : Nat)) ^ l.length ≤
        ((2 : ℚ) ^ (920 : Int) + (2 : ℚ) ^ (920 : Int)) * 2 :=
      mul_le_mul (by linarith) (le_trans hA (by norm_num)) hA0 (by positivity)
    have h₂ : ((2 : ℚ) ^ (920 : Int) + (2 : ℚ) ^ (920 : Int)) * 2 = (2 : ℚ) ^ (922 : Int) := by
      rw [show (922 : Int) = 920 + 2 by norm_num, zpow_add₀ (by norm_num : (2 : ℚ) ≠ 0)]
      norm_num
    have h₃ : (2 : ℚ) ^ (922 : Int) < (2 : ℚ) ^ (1024 : Nat) := by
      rw [← zpow_natCast]
      exact zpow_lt_zpow_right₀ (by norm_num) (by norm_num)
    rw [h₂] at h₁
    exact lt_of_le_of_lt h₁ h₃
  have hFE : (l.map (fun o => roundToDouble ((c o : ℚ) * w o))).sum ≤
      (2 : ℚ) ^ (930 : Int) := by
    refine le_trans hF_hi ?_
    have k₁ : M * (1 + 1 / 2 ^ (53 : Nat)) ≤ (2 : ℚ) ^ (9 : Int) := by
      have h₁ : M * (1 + 1 / 2 ^ (53 : Nat)) ≤ 255 * (1 + 1 / 2 ^ (53 : Nat)) :=
        mul_le_mul_of_nonneg_right hMq (by norm_num)
      have h₂ : (255 : ℚ) * (1 + 1 / 2 ^ (53 : Nat)) ≤ (2 : ℚ) ^ (9 : Int) := by norm_num
      exact le_trans h₁ h₂
    have k₂ : M * (1 + 1 / 2 ^ (53 : Nat)) * (l.map w).sum ≤
        (2 : ℚ) ^ ((9 : Int) + 920) :=
      mul_le_zpow (mul_nonneg (le_trans hmq hmMq) (by norm_num)) (le_of_lt hE0) k₁ hE₂
    have k₃ : (l.length : ℚ) * (2 : ℚ) ^ (-1075 : Int) ≤ (2 : ℚ) ^ ((9 : Int) + 920) :=
      le_trans hXE (le_trans hE₂ (zpow_le_zpow_right₀ (by norm_num) (by norm_num)))
    have k₄ : (2 : ℚ) ^ ((9 : Int) + 920) + (2 : ℚ) ^ ((9 : Int) + 920) =
        (2 : ℚ) ^ (930 : Int) := by
      rw [show (930 : Int) = (9 + 920) + 1 by norm_num,
        zpow_add₀ (by norm_num : (2 : ℚ) ≠ 0)]
      norm_num
    rw [← k₄]
    exact add_le_add k₂ k₃
  have hbS : ((l.map (fun o => roundToDouble ((c o : ℚ) * w o))).sum +
      l.length * (2 : ℚ) ^ (-1075 : Int)) *
      (1 + 1 / 2 ^ (53 : Nat)) ^ l.length < (2 : ℚ) ^ (1024 : Nat) := by
    have k₃ : (l.length : ℚ) * (2 : ℚ) ^ (-1075 : Int) ≤ (2 : ℚ) ^ (930 : Int) :=
      le_trans hXE (le_trans hE₂ (zpow_le_zpow_right₀ (by norm_num) (by norm_num)))
    have h₁ : ((l.map (fun o => roundToDouble ((c o : ℚ) * w o))).sum +
        l.length * (2 : ℚ) ^ (-1075 : Int)) * (1 + 1 / 2 ^ (53 : Nat)) ^ l.length ≤
        ((2 : ℚ) ^ (930 : Int) + (2 : ℚ) ^ (930 : Int)) * 2 :=
      mul_le_mul (add_le_add hFE k₃) (le_trans hA (by norm_num)) hA0 (by positivity)
    have h₂ : ((2 : ℚ) ^ (930 : Int) + (2 : ℚ) ^ (930 : Int)) * 2 = (2 : ℚ) ^ (932 : Int) := by
      rw [show (932 : Int) = 930 + 2 by norm_num, zpow_add₀ (by norm_num : (2 : ℚ) ≠ 0)]
      norm_num
    have h₃ : (2 : ℚ) ^ (932 : Int) < (2 : ℚ) ^ (1024 : Nat) := by
      rw [← zpow_natCast]
      exact zpow_lt_zpow_right₀ (by norm_num) (by norm_num)
    rw [h₂] at h₁
    exact lt_of_le_of_lt h₁ h₃
  -- the two accumulations
  obtain ⟨T, hT, T0, Tlo, Thi⟩ := foldl_add_bounds_of (1 / 2 ^ (53 : Nat))
    ((2 : ℚ) ^ (-1075 : Int)) ((2 : ℚ) ^ (1024 : Nat)) (by norm_num) (by norm_num)
    (by positivity) (fun x hx => roundToDouble_bounds hx) (le_refl _) w l
    (fun o ho => (hw o ho).1) hbT
  obtain ⟨S, hS, S0, Slo, Shi⟩ := foldl_add_bounds_of (1 / 2 ^ (53 : Nat))
    ((2 : ℚ) ^ (-1075 : Int)) ((2 : ℚ) ^ (1024 : Nat)) (by norm_num) (by norm_num)
    (by positivity) (fun x hx => roundToDouble_bounds hx) (le_refl _)
    (fun o => roundToDouble ((c o : ℚ) * w o)) l (fun o ho => (hp o ho).2.1) hbS
  obtain ⟨q₁, q₂, q₃, q₄⟩ := quotient_bounds_core (l.map w).sum T S
    (l.map (fun o => roundToDouble ((c o : ℚ) * w o))).sum
    (l.length * (2 : ℚ) ^ (-1075 : Int)) ((1 + 1 / 2 ^ (53 : Nat)) ^ l.length)
    ((1 - 1 / 2 ^ (53 : Nat)) ^ l.length) m M hE0 hX0 hX hA hB hmq hmMq hMq hF0 S0
    Tlo Thi Slo Shi hF_lo hF_hi
  refine ⟨S, T, hS, hT, S0, ?_, ?_, q₃, q₄⟩
  · have e : (2 : ℚ) ^ (-901 : Int) = (2 : ℚ) ^ (-900 : Int) / 2 := by
      rw [show (-901 : Int) = -900 - 1 by norm_num, zpow_sub₀ (by norm_num : (2 : ℚ) ≠ 0)]
      norm_num
    rw [e]
    exact le_trans (div_le_div_of_nonneg_right hE₁ (by norm_num)) q₁
  · have e : (2 : ℚ) ^ (921 : Int) = 2 * (2 : ℚ) ^ (920 : Int) := by
      rw [show (921 : Int) = 1 + 920 by norm_num, zpow_add₀ (by norm_num : (2 : ℚ) ≠ 0)]
      norm_num
    rw [e]
    exact le_trans q₂ (mul_le_mul_of_nonneg_left hE₂ (by norm_num))

/-- The exact sum of the weights times a constant. -/
theorem sum_map_const_mul {α : Type} (w : α → ℚ) (a : ℚ) (l : List α) :
    (l.map (fun o => a * w o)).sum = a * (l.map w).sum := by
  have := sum_map_affine w a 0 l
  simpa using this

/-- The accumulated sums of a window whose channel values lie between `m` and `M`. -/
theorem weighted_fold_bounds {α : Type} (w : α → ℚ) (c : α → Nat) (l : List α)
    (m M : Nat) (hw : ∀ o ∈ l, 0 ≤ w o ∧ w o ≤ (2 : ℚ) ^ (900 : Int))
    (hc : ∀ o ∈ l, m ≤ c o ∧ c o ≤ M) (hmM : m ≤ M) (hM : M ≤ 255) {o₀ : α}
    (ho₀ : o₀ ∈ l) (hw₀ : (2 : ℚ) ^ (-900 : Int) ≤ w o₀) (hn : l.length ≤ 2 ^ 20) :
    ∃ S T : ℚ,
      l.foldl (fun s o => Dbl.add s (Dbl.mul (Dbl.ofUchar (c o)) (Dbl.fin (w o))))
        (Dbl.fin 0) = Dbl.fin S ∧
      l.foldl (fun t o => Dbl.add t (Dbl.fin (w o))) (Dbl.fin 0) = Dbl.fin T ∧
      0 ≤ S ∧ (2 : ℚ) ^ (-901 : Int) ≤ T ∧ T ≤ (2 : ℚ) ^ (921 : Int) ∧
      ((m : ℚ) - 1 / 2 ^ (20 : Nat)) * T ≤ S ∧ S ≤ ((M : ℚ) + 1 / 2 ^ (20 : Nat)) * T := by
  refine weighted_fold_bounds_of w c l (m : ℚ) (M : ℚ) hw
    (fun o ho => le_trans (hc o ho).2 hM) (Nat.cast_nonneg m) (by exact_mod_cast hmM)
    (by exact_mod_cast hM) ?_ ?_ ho₀ hw₀ hn
  · rw [← sum_map_const_mul]
    refine sum_map_le_sum_map _ _ l ?_
    intro o ho
    exact mul_le_mul_of_nonneg_right (by exact_mod_cast (hc o ho).1) (hw o ho).1
  · rw [← sum_map_const_mul]
    refine sum_map_le_sum_map _ _ l ?_
    intro o ho
    exact mul_le_mul_of_nonneg_right (by exact_mod_cast (hc o ho).2) (hw o ho).1

/-- The accumulated sums of a window against the exact quotient `Q` of the exact
weighted sum by the exact weight total: `S` lies between `(Q - 2^(-20))·T` and
`(Q + 2^(-20))·T`, and `Q` lies in `[0, 255]`. -/
theorem weighted_fold_exact {α : Type} (w : α → ℚ) (c : α → Nat) (l : List α)
    (hw : ∀ o ∈ l, 0 ≤ w o ∧ w o ≤ (2 : ℚ) ^ (900 : Int))
    (hc : ∀ o ∈ l, c o ≤ 255) {o₀ : α}
    (ho₀ : o₀ ∈ l) (hw₀ : (2 : ℚ) ^ (-900 : Int) ≤ w o₀) (hn : l.length ≤ 2 ^ 20) :
    ∃ S T : ℚ,
      l.foldl (fun s o => Dbl.add s (Dbl.mul (Dbl.ofUchar (c o)) (Dbl.fin (w o))))
        (Dbl.fin 0) = Dbl.fin S ∧
      l.foldl (fun t o => Dbl.add t (Dbl.fin (w o))) (Dbl.fin 0) = Dbl.fin T ∧
      0 ≤ S ∧ (2 : ℚ) ^ (-901 : Int) ≤ T ∧ T ≤ (2 : ℚ) ^ (921 : Int) ∧
      0 ≤ (l.map (fun o => (c o : ℚ) * w o)).sum / (l.map w).sum ∧
      (l.map (fun o => (c o : ℚ) * w o)).sum / (l.map w).sum ≤ 255 ∧
      ((l.map (fun o => (c o : ℚ) * w o)).sum / (l.map w).sum - 1 / 2 ^ (20 : Nat)) * T ≤ S ∧
      S ≤ ((l.map (fun o => (c o : ℚ) * w o)).sum / (l.map w).sum + 1 / 2 ^ (20 : Nat)) * T := by
  have hE₁ : (2 : ℚ) ^ (-900 : Int) ≤ (l.map w).sum :=
    le_trans hw₀ (le_sum_map_of_mem w l (fun o ho => (hw o ho).1) ho₀)
  have hE0 : 0 < (l.map w).sum := lt_of_lt_of_le (by positivity) hE₁
  have hF0 : 0 ≤ (l.map (fun o => (c o : ℚ) * w o)).sum :=
    sum_map_nonneg _ l (fun o ho => mul_nonneg (Nat.cast_nonneg _) (hw o ho).1)
  have hF₁ : (l.map (fun o => (c o : ℚ) * w o)).sum ≤ 255 * (l.map w).sum := by
    rw [← sum_map_const_mul]
    refine sum_map_le_sum_map _ _ l ?_
    intro o ho
    exact mul_le_mul_of_nonneg_right (by exact_mod_cast hc o ho) (hw o ho).1
  have hQ0 : 0 ≤ (l.map (fun o => (c o : ℚ) * w o)).sum / (l.map w).sum :=
    div_nonneg hF0 (le_of_lt hE0)
  have hQ₁ : (l.map (fun o => (c o : ℚ) * w o)).sum / (l.map w).sum ≤ 255 :=
    (div_le_iff₀ hE0).mpr hF₁
  have e : (l.map (fun o => (c o : ℚ) * w o)).sum / (l.map w).sum * (l.map w).sum =
      (l.map (fun o => (c o : ℚ) * w o)).sum := div_mul_cancel₀ _ (ne_of_gt hE0)
  obtain ⟨S, T, hS, hT, S0, T₁, T₂, lo, hi⟩ := weighted_fold_bounds_of w c l _ _ hw hc
    hQ0 (le_refl _) hQ₁ (le_of_eq e) (le_of_eq e.symm) ho₀ hw₀ hn
  exact ⟨S, T, hS, hT, S0, T₁, T₂, hQ0, hQ₁, lo, hi⟩

/-! ## The quotient and the stored channel -/

/-- The division `sum /= gaussianTotal` on one channel, in either reading: for finite
`S ≥ 0` and `T` of the normal range with `(m - 2^(-20))·T ≤ S ≤ (M + 2^(-20))·T`,
`M ≤ 255`, the quotient is a finite `double` of `[0, 256)` between `m - 2^(-19)` and
`M + 2^(-19)`. -/
theorem vecDivChannel_bounds (r : Bool) {S T m M : ℚ} (hS0 : 0 ≤ S)
    (hT₁ : (2 : ℚ) ^ (-901 : Int) ≤ T) (hT₂ : T ≤ (2 : ℚ) ^ (921 : Int))
    (hm0 : 0 ≤ m) (hMq : M ≤ 255)
    (hlo : (m - 1 / 2 ^ (20 : Nat)) * T ≤ S)
    (hhi : S ≤ (M + 1 / 2 ^ (20 : Nat)) * T) :
    ∃ q : ℚ, vecDivChannel r (Dbl.fin S) (Dbl.fin T) = Dbl.fin q ∧ 0 ≤ q ∧
      m - 1 / 2 ^ (19 : Nat) ≤ q ∧ q ≤ M + 1 / 2 ^ (19 : Nat) := by
  have _ := hm0
  have hT0 : 0 < T := lt_of_lt_of_le (by positivity) hT₁
  have hx0 : 0 ≤ S / T := div_nonneg hS0 (le_of_lt hT0)
  have hx₁ : m - 1 / 2 ^ (20 : Nat) ≤ S / T := (le_div_iff₀ hT0).mpr hlo
  have hx₂ : S / T ≤ M + 1 / 2 ^ (20 : Nat) := (div_le_iff₀ hT0).mpr hhi
  have final : ∀ y : ℚ, 0 ≤ y → m - 1 / 2 ^ (20 : Nat) - 1 / 2 ^ (44 : Nat) ≤ y →
      y ≤ M + 1 / 2 ^ (20 : Nat) + 1 / 2 ^ (44 : Nat) →
      ∃ q : ℚ, Dbl.round y = Dbl.fin q ∧ 0 ≤ q ∧
        m - 1 / 2 ^ (19 : Nat) ≤ q ∧ q ≤ M + 1 / 2 ^ (19 : Nat) := by
    intro y hy0 hy₁ hy₂
    have hylt : |y| < (2 : ℚ) ^ ((8 : Int) + 1) := by
      rw [abs_of_nonneg hy0]
      norm_num
      norm_num at hy₂
      linarith
    have herr := abs_le.mp (abs_roundToDouble_sub_le_zpow 8 (by norm_num) hylt)
    have hq0 := roundToDouble_nonneg hy0
    norm_num at herr hy₁ hy₂ ⊢
    refine ⟨roundToDouble y, Dbl.round_eq_fin rfl ?_, hq0, by linarith, by linarith⟩
    rw [abs_of_nonneg hq0]
    have : roundToDouble y ≤ 512 := by linarith
    exact lt_of_le_of_lt this (by norm_num)
  unfold vecDivChannel
  cases r with
  | false =>
    rw [if_neg (by decide), Dbl.div_fin S (ne_of_gt hT0)]
    exact final (S / T) hx0 (by norm_num at hx₁ ⊢; linarith) (by norm_num at hx₂ ⊢; linarith)
  | true =>
    rw [if_pos rfl, Dbl.div_fin 1 (ne_of_gt hT0)]
    have c₁ := zpow_le_one_div hT0 hT₂
    have c₂ := one_div_le_zpow hT₁
    rw [show (-(-901) : Int) = 901 by norm_num] at c₂
    obtain ⟨ρ, hρ, ρ₁, ρ₂⟩ := Dbl.round_range (by norm_num) (by norm_num) c₁ c₂
    have hρ' := Dbl.eq_of_round_eq_fin hρ
    have hinv0 : 0 < 1 / T := by positivity
    have hnorm : (2 : ℚ) ^ (-1022 : Int) ≤ |1 / T| := by
      rw [abs_of_pos hinv0]
      exact le_trans (zpow_le_zpow_right₀ (by norm_num) (by norm_num)) c₁
    have herr := abs_le.mp (abs_roundToDouble_sub_le_mul hnorm)
    rw [abs_of_pos hinv0, ← hρ'] at herr
    have hρ0 : 0 ≤ ρ := le_trans (by positivity) ρ₁
    rw [hρ, Dbl.mul_fin]
    -- `S * ρ` against `S / T`
    have e : S / T = S * (1 / T) := by ring
    have h₁ : S * ρ ≤ S / T + (S / T) / 2 ^ (53 : Nat) := by
      have : S * ρ ≤ S * (1 / T + 1 / T / 2 ^ (53 : Nat)) :=
        mul_le_mul_of_nonneg_left (by linarith [herr.2]) hS0
      rw [e]
      have e' : S * (1 / T + 1 / T / 2 ^ (53 : Nat)) =
          S * (1 / T) + S * (1 / T) / 2 ^ (53 : Nat) := by ring
      linarith
    have h₂ : S / T - (S / T) / 2 ^ (53 : Nat) ≤ S * ρ := by
      have : S * (1 / T - 1 / T / 2 ^ (53 : Nat)) ≤ S * ρ :=
        mul_le_mul_of_nonneg_left (by linarith [herr.1]) hS0
      rw [e]
      have e' : S * (1 / T - 1 / T / 2 ^ (53 : Nat)) =
          S * (1 / T) - S * (1 / T) / 2 ^ (53 : Nat) := by ring
      linarith
    have h₃ : (S / T) / 2 ^ (53 : Nat) ≤ 1 / 2 ^ (44 : Nat) := by
      have : S / T ≤ 512 := by norm_num at hx₂; linarith
      have := div_le_div_of_nonneg_right this (by positivity : (0 : ℚ) ≤ 2 ^ (53 : Nat))
      norm_num at this ⊢
      linarith
    exact final (S * ρ) (mul_nonneg hS0 hρ0) (by linarith) (by linarith)

/-- A finite quotient of `[0, 256)` between `m - 2^(-19)` and `M + 2^(-19)` is stored
without wrapping as a value between `m - 1` and `M`. -/
theorem toUchar_between {q : ℚ} {m M : Nat} (hM : M ≤ 255) (hq0 : 0 ≤ q)
    (hlo : (m : ℚ) - 1 / 2 ^ (19 : Nat) ≤ q) (hhi : q ≤ (M : ℚ) + 1 / 2 ^ (19 : Nat)) :
    q < 256 ∧ (Dbl.toUchar (Dbl.fin q) : Int) = truncZ q ∧
      Dbl.toUchar (Dbl.fin q) ≤ M ∧ m ≤ Dbl.toUchar (Dbl.fin q) + 1 := by
  have hMq : (M : ℚ) ≤ 255 := by exact_mod_cast hM
  have hlt : q < 256 := by
    norm_num at hhi
    linarith
  have hu := (toUchar_of_range hq0 hlt).1
  have htr := truncZ_of_nonneg hq0
  have hf₁ : Int.floor q < (M : Int) + 1 := by
    rw [Int.floor_lt]
    push_cast
    norm_num at hhi
    linarith
  have hf₂ : (m : Int) - 1 ≤ Int.floor q := by
    rw [Int.le_floor]
    push_cast
    norm_num at hlo
    linarith
  have hf0 : 0 ≤ Int.floor q := Int.floor_nonneg.mpr hq0
  have e : Dbl.toUchar (Dbl.fin q) = toUchar q := rfl
  rw [e]
  refine ⟨hlt, hu, ?_, ?_⟩
  · have : (toUchar q : Int) ≤ M := by rw [hu, htr]; omega
    exact_mod_cast this
  · have : (m : Int) ≤ (toUchar q : Int) + 1 := by rw [hu, htr]; omega
    exact_mod_cast this

/-! ## The number of in-bounds offsets -/

theorem length_flatMap_pairs {α β : Type} (l₁ : List α) (l₂ : List β) :
    (l₁.flatMap (fun i => l₂.map (fun j => (i, j)))).length = l₁.length * l₂.length := by
  induction l₁ with
  | nil => simp
  | cons a l ih =>
    rw [List.flatMap_cons, List.length_append, ih, List.length_map, List.length_cons]
    ring

theorem length_intRange_neg (h : Nat) : (intRange (-(h : Int)) h).length = 2 * h + 1 := by
  rw [intRange_neg, List.length_map, List.length_range]

theorem length_inBoundsOffsetList_le (rows cols h y x : Nat) :
    (inBoundsOffsetList rows cols (h : Int) y x).length ≤ (2 * h + 1) * (2 * h + 1) := by
  unfold inBoundsOffsetList
  refine le_trans (List.length_filter_le _ _) ?_
  rw [length_flatMap_pairs, length_intRange_neg]

/-- The quotient of one channel at an output pixel, in either reading of the division:
for an image with 8-bit channels, a kernel of at most `1023 × 1023` cells whose weights
at the in-bounds offsets are finite values of `[0, 2^900]`, the centre weight being at
least `2^(-900)`, and window values between `m` and `M`, the quotient is a finite
`double` of `[0, 256)` between `m - 2^(-19)` and `M + 2^(-19)`. -/
theorem blur_quotient_bounds (r : Bool) (ch : Vec3b → Nat) (src : Mat) (h : Nat)
    (hh : h ≤ 511) (kernel : List (List Dbl)) {y x : Nat} (hy : y < src.rows)
    (hx : x < src.cols)
    (hw : ∀ o ∈ inBoundsOffsetList src.rows src.cols (h : Int) y x,
      ∃ v : ℚ, weightAt kernel h o = Dbl.fin v ∧ 0 ≤ v ∧ v ≤ (2 : ℚ) ^ (900 : Int))
    (hw₀ : ∃ v : ℚ, weightAt kernel h (0, 0) = Dbl.fin v ∧ (2 : ℚ) ^ (-900 : Int) ≤ v)
    (m M : Nat) (hmM : m ≤ M) (hM : M ≤ 255)
    (hc : ∀ o ∈ inBoundsOffsetList src.rows src.cols (h : Int) y x,
      m ≤ sourceAt ch src y x o ∧ sourceAt ch src y x o ≤ M) :
    ∃ q : ℚ, vecDivChannel r (sumInOrder ch src h kernel y x)
        (totalInOrder src h kernel y x) = Dbl.fin q ∧ 0 ≤ q ∧
      (m : ℚ) - 1 / 2 ^ (19 : Nat) ≤ q ∧ q ≤ (M : ℚ) + 1 / 2 ^ (19 : Nat) := by
  have hfin : ∀ o ∈ inBoundsOffsetList src.rows src.cols (h : Int) y x,
      weightAt kernel h o = Dbl.fin (weightAt kernel h o).toRat := by
    intro o ho
    obtain ⟨v, hv, _, _⟩ := hw o ho
    rw [hv]
    rfl
  have hwr : ∀ o ∈ inBoundsOffsetList src.rows src.cols (h : Int) y x,
      0 ≤ (weightAt kernel h o).toRat ∧ (weightAt kernel h o).toRat ≤ (2 : ℚ) ^ (900 : Int) := by
    intro o ho
    obtain ⟨v, hv, v₀, v₁⟩ := hw o ho
    rw [hv]
    exact ⟨v₀, v₁⟩
  have h0mem := zero_mem_inBoundsOffsetList (Int.natCast_nonneg h) hy hx
  have hw₀' : (2 : ℚ) ^ (-900 : Int) ≤ (weightAt kernel h ((0 : Int), (0 : Int))).toRat := by
    obtain ⟨v, hv, v₀⟩ := hw₀
    rw [hv]
    exact v₀
  have hlen : (inBoundsOffsetList src.rows src.cols (h : Int) y x).length ≤ 2 ^ 20 := by
    refine le_trans (length_inBoundsOffsetList_le _ _ _ _ _) ?_
    have : (2 * h + 1) * (2 * h + 1) ≤ 1023 * 1023 :=
      Nat.mul_le_mul (by omega) (by omega)
    exact le_trans this (by norm_num)
  obtain ⟨S, T, hS, hT, S0, T₁, T₂, lo, hi⟩ := weighted_fold_bounds
    (fun o => (weightAt kernel h o).toRat) (sourceAt ch src y x) _ m M hwr hc hmM hM
    h0mem hw₀' hlen
  have eS : sumInOrder ch src h kernel y x = Dbl.fin S := by
    unfold sumInOrder
    rw [← hS]
    apply List.foldl_ext
    intro s o ho
    rw [← hfin o ho]
  have eT : totalInOrder src h kernel y x = Dbl.fin T := by
    unfold totalInOrder
    rw [← hT]
    apply List.foldl_ext
    intro s o ho
    rw [← hfin o ho]
  rw [eS, eT]
  exact vecDivChannel_bounds r S0 T₁ T₂ (Nat.cast_nonneg m) (by exact_mod_cast hM) lo hi

/-- The exact sums of the specification as sums over the in-bounds offsets in the
order of the loops. -/
theorem weightedSum_eq_list (ch : Vec3b → Nat) (src : Mat) (half : Int)
    (kernel : List (List Dbl)) (y x : Nat) :
    weightedSum ch src half kernel y x =
      ((inBoundsOffsetList src.rows src.cols half y x).map
        (fun o => (sourceAt ch src y x o : ℚ) * (weightAt kernel half o).toRat)).sum := by
  have e : inBoundsOffsets src.rows src.cols half y x =
      (inBoundsOffsetList src.rows src.cols half y x).toFinset := by
    ext o
    rw [List.mem_toFinset, mem_inBoundsOffsetList_iff]
  unfold weightedSum
  rw [e, List.sum_toFinset _ (nodup_inBoundsOffsetList _ _ _ _ _)]
  congr 1
  apply List.map_congr_left
  intro o _
  ring

theorem usedWeightTotal_eq_list (src : Mat) (half : Int) (kernel : List (List Dbl))
    (y x : Nat) :
    usedWeightTotal src half kernel y x =
      ((inBoundsOffsetList src.rows src.cols half y x).map
        (fun o => (weightAt kernel half o).toRat)).sum := by
  have e : inBoundsOffsets src.rows src.cols half y x =
      (inBoundsOffsetList src.rows src.cols half y x).toFinset := by
    ext o
    rw [List.mem_toFinset, mem_inBoundsOffsetList_iff]
  unfold usedWeightTotal
  rw [e, List.sum_toFinset _ (nodup_inBoundsOffsetList _ _ _ _ _)]

/-- The quotient of one channel at an output pixel against the exact quotient of the
specification, in either reading of the division: for 8-bit window values and a kernel
of at most `1023 × 1023` cells whose weights at the in-bounds offsets are finite
values of `[0, 2^900]`, the centre weight being at least `2^(-900)`, the computed
quotient is a finite `double` of `[0, 256)` within `2^(-19)` of the exact quotient,
which lies in `[0, 255]`. -/
theorem blur_quotient_near_exact (r : Bool) (ch : Vec3b → Nat) (src : Mat) (h : Nat)
    (hh : h ≤ 511) (kernel : List (List Dbl)) {y x : Nat} (hy : y < src.rows)
    (hx : x < src.cols)
    (hw : ∀ o ∈ inBoundsOffsetList src.rows src.cols (h : Int) y x,
      ∃ v : ℚ, weightAt kernel h o = Dbl.fin v ∧ 0 ≤ v ∧ v ≤ (2 : ℚ) ^ (900 : Int))
    (hw₀ : ∃ v : ℚ, weightAt kernel h (0, 0) = Dbl.fin v ∧ (2 : ℚ) ^ (-900 : Int) ≤ v)
    (hc : ∀ o ∈ inBoundsOffsetList src.rows src.cols (h : Int) y x,
      sourceAt ch src y x o ≤ 255) :
    ∃ q : ℚ, vecDivChannel r (sumInOrder ch src h kernel y x)
        (totalInOrder src h kernel y x) = Dbl.fin q ∧ 0 ≤ q ∧ q < 256 ∧
      0 < usedWeightTotal src h kernel y x ∧
      0 ≤ weightedSum ch src h kernel y x / usedWeightTotal src h kernel y x ∧
      weightedSum ch src h kernel y x / usedWeightTotal src h kernel y x ≤ 255 ∧
      |q - weightedSum ch src h kernel y x / usedWeightTotal src h kernel y x| ≤
        1 / 2 ^ (19 : Nat) := by
  have hfin : ∀ o ∈ inBoundsOffsetList src.rows src.cols (h : Int) y x,
      weightAt kernel h o = Dbl.fin (weightAt kernel h o).toRat := by
    intro o ho
    obtain ⟨v, hv, _, _⟩ := hw o ho
    rw [hv]
    rfl
  have hwr : ∀ o ∈ inBoundsOffsetList src.rows src.cols (h : Int) y x,
      0 ≤ (weightAt kernel h o).toRat ∧ (weightAt kernel h o).toRat ≤ (2 : ℚ) ^ (900 : Int) := by
    intro o ho
    obtain ⟨v, hv, v₀, v₁⟩ := hw o ho
    rw [hv]
    exact ⟨v₀, v₁⟩
  have h0mem := zero_mem_inBoundsOffsetList (Int.natCast_nonneg h) hy hx
  have hw₀' : (2 : ℚ) ^ (-900 : Int) ≤ (weightAt kernel h ((0 : Int), (0 : Int))).toRat := by
    obtain ⟨v, hv, v₀⟩ := hw₀
    rw [hv]
    exact v₀
  have hlen : (inBoundsOffsetList src.rows src.cols (h : Int) y x).length ≤ 2 ^ 20 := by
    refine le_trans (length_inBoundsOffsetList_le _ _ _ _ _) ?_
    have : (2 * h + 1) * (2 * h + 1) ≤ 1023 * 1023 :=
      Nat.mul_le_mul (by omega) (by omega)
    exact le_trans this (by norm_num)
  obtain ⟨S, T, hS, hT, S0, T₁, T₂, Q0, Q₁, lo, hi⟩ := weighted_fold_exact
    (fun o => (weightAt kernel h o).toRat) (sourceAt ch src y x) _ hwr hc h0mem hw₀' hlen
  have eS : sumInOrder ch src h kernel y x = Dbl.fin S := by
    unfold sumInOrder
    rw [← hS]
    apply List.foldl_ext
    intro s o ho
    rw [← hfin o ho]
  have eT : totalInOrder src h kernel y x = Dbl.fin T := by
    unfold totalInOrder
    rw [← hT]
    apply List.foldl_ext
    intro s o ho
    rw [← hfin o ho]
  rw [eS, eT, weightedSum_eq_list, usedWeightTotal_eq_list]
  obtain ⟨q, hq, q0, q₁, q₂⟩ := vecDivChannel_bounds r S0 T₁ T₂ Q0 Q₁ lo hi
  have hE0 : 0 < ((inBoundsOffsetList src.rows src.cols (h : Int) y x).map
      (fun o => (weightAt kernel h o).toRat)).sum :=
    lt_of_lt_of_le (by positivity)
      (le_trans hw₀' (le_sum_map_of_mem _ _ (fun o ho => (hwr o ho).1) h0mem))
  refine ⟨q, hq, q0, ?_, hE0, Q0, Q₁, ?_⟩
  · have : (1 : ℚ) / 2 ^ (19 : Nat) < 1 := by norm_num
    linarith
  · rw [abs_le]
    constructor <;> linarith

/-! ## Kernel cells and window weights -/

/-- A property of all `(2h + 1)²` cells of a kernel holds for the weight of every
in-bounds offset. -/
theorem weightAt_of_cells {P : Dbl → Prop} (kernel : List (List Dbl)) (h : Nat)
    (hP : ∀ a b : Nat, (a : Int) < 2 * (h : Int) + 1 → (b : Int) < 2 * (h : Int) + 1 →
      P (getCell 0 kernel a b))
    {rows cols y x : Nat} {o : Int × Int}
    (ho : o ∈ inBoundsOffsetList rows cols (h : Int) y x) : P (weightAt kernel h o) := by
  obtain ⟨⟨a₁, a₂⟩, ⟨b₁, b₂⟩, _⟩ := mem_inBoundsOffsetList.mp ho
  exact hP (o.1 + h).toNat (o.2 + h).toNat (by omega) (by omega)

/-- For the odd size `2h + 1`, the kernel of `main` has `2h + 1` rows of `2h + 1`
cells, and cell `(a, b)` holds the value computed for offset `(a - h, b - h)`. -/
theorem mainKernel_cells (exp : Dbl → Dbl) (sigma : Dbl) (h : Nat) :
    gridShape (2 * h + 1) (2 * h + 1) (mainKernel exp (2 * (h : Int) + 1) sigma) ∧
    ∀ a b : Nat, a < 2 * h + 1 → b < 2 * h + 1 →
      getCell 0 (mainKernel exp (2 * (h : Int) + 1) sigma) a b =
        gaussianVal exp sigma ((a : Int) - h) ((b : Int) - h) := by
  unfold mainKernel
  rw [generateGaussianKernel_eq_fillCells exp _ _ sigma h (tdiv_two_of_odd h)]
  have hs : gridShape (2 * h + 1) (2 * h + 1) (allocKernel (2 * (h : Int) + 1)) := by
    have := gridShape_allocKernel (2 * h + 1)
    simpa using this
  obtain ⟨h₁, h₂⟩ := fillCells_spec (0 : Dbl)
    (fun a b => gaussianVal exp sigma ((a : Int) - h) ((b : Int) - h)) (2 * h + 1)
    (le_refl _) (2 * h + 1) (le_refl _) _ hs
  refine ⟨h₁, fun a b ha hb => ?_⟩
  rw [h₂, if_pos ⟨ha, hb⟩]

/-- The weight that the kernel of `main` holds for an in-bounds offset. -/
theorem weightAt_mainKernel (exp : Dbl → Dbl) (sigma : Dbl) (h : Nat) {rows cols y x : Nat}
    {o : Int × Int} (ho : o ∈ inBoundsOffsetList rows cols (h : Int) y x) :
    weightAt (mainKernel exp (2 * (h : Int) + 1) sigma) h o = gaussianVal exp sigma o.1 o.2 := by
  obtain ⟨⟨a₁, a₂⟩, ⟨b₁, b₂⟩, _⟩ := mem_inBoundsOffsetList.mp ho
  exact kernelAt_mainKernel exp sigma h a₁ a₂ b₁ b₂

/-- The stored pixel in terms of the sums accumulated in the order of the loops. -/
theorem blurPixel_eq_inOrder (r : Bool) (src : Mat) (half : Int) (kernel : List (List Dbl))
    (y x : Nat) :
    blurPixel r src half kernel y x =
      ⟨Dbl.toUchar (vecDivChannel r (sumInOrder Vec3b.c0 src half kernel y x)
          (totalInOrder src half kernel y x)),
        Dbl.toUchar (vecDivChannel r (sumInOrder Vec3b.c1 src half kernel y x)
          (totalInOrder src half kernel y x)),
        Dbl.toUchar (vecDivChannel r (sumInOrder Vec3b.c2 src half kernel y x)
          (totalInOrder src half kernel y x))⟩ := by
  unfold blurPixel
  rw [blurAccumulate_eq_inOrder]

/-! ## The source values of a window -/

theorem sourceAt_mem_windowValues (ch : Vec3b → Nat) (src : Mat) {half : Int} {y x : Nat}
    {o : Int × Int} (ho : o ∈ inBoundsOffsetList src.rows src.cols half y x) :
    sourceAt ch src y x o ∈ windowValues ch src half y x := by
  unfold windowValues
  exact Finset.mem_image_of_mem _ (mem_inBoundsOffsetList_iff.mp ho)

theorem windowValues_nonempty (ch : Vec3b → Nat) (src : Mat) {half : Int} (h0 : 0 ≤ half)
    {y x : Nat} (hy : y < src.rows) (hx : x < src.cols) :
    (windowValues ch src half y x).Nonempty :=
  ⟨_, sourceAt_mem_windowValues ch src (zero_mem_inBoundsOffsetList h0 hy hx)⟩

/-- A source value of the in-bounds window of a valid image is an 8-bit value. -/
theorem sourceAt_le (ch : Vec3b → Nat) (hch : ∀ p : Vec3b, p.valid → ch p < 256) (src : Mat)
    (hv : src.valid) {half : Int} {y x : Nat} {o : Int × Int}
    (ho : o ∈ inBoundsOffsetList src.rows src.cols half y x) :
    sourceAt ch src y x o ≤ 255 := by
  obtain ⟨_, _, i₁, i₂, j₁, j₂⟩ := mem_inBoundsOffsetList.mp ho
  have := hch _ (hv ((y : Int) + o.1).toNat (by omega) ((x : Int) + o.2).toNat (by omega))
  unfold sourceAt
  omega

/-- The values of the window of a uniform image. -/
theorem sourceAt_uniform (ch : Vec3b → Nat) (src : Mat) (c : Vec3b)
    (hu : ∀ y, y < src.rows → ∀ x, x < src.cols → src.atVec3b y x = c) {half : Int}
    {y x : Nat} {o : Int × Int}
    (ho : o ∈ inBoundsOffsetList src.rows src.cols half y x) :
    sourceAt ch src y x o = ch c := by
  obtain ⟨_, _, i₁, i₂, j₁, j₂⟩ := mem_inBoundsOffsetList.mp ho
  unfold sourceAt
  rw [hu ((y : Int) + o.1).toNat (by omega) ((x : Int) + o.2).toNat (by omega)]

/-! ## The stand-in exponential -/

theorem expCoarse_zero : expCoarse (Dbl.fin 0) = Dbl.fin 1 := by
  simp [expCoarse]

theorem expCoarse_nonpos (d : Dbl) (hd : d.isNonpos) :
    ∃ v : ℚ, expCoarse d = Dbl.fin v ∧ 0 ≤ v ∧ v ≤ 1 := by
  cases d with
  | fin q =>
    have hq : q ≤ 0 := hd
    by_cases h0 : q = 0
    · exact ⟨1, by simp [expCoarse, h0], by norm_num, le_refl _⟩
    · have : q < 0 := lt_of_le_of_ne hq h0
      exact ⟨0, by simp [expCoarse, h0, this], le_refl _, by norm_num⟩
  | pinf => exact absurd hd (by simp [Dbl.isNonpos])
  | ninf => exact ⟨0, rfl, le_refl _, by norm_num⟩
  | nan => exact absurd hd (by simp [Dbl.isNonpos])

theorem expCoarse_neg {q : ℚ} (hq : q < 0) : expCoarse (Dbl.fin q) = Dbl.fin 0 := by
  simp [expCoarse, ne_of_lt hq, hq]

/-! ## Ranges of `sigma` -/

theorem zpow_neg400_le_one : (2 : ℚ) ^ (-400 : Int) ≤ 1 :=
  zpow_le_one_of_nonpos₀ (by norm_num) (by norm_num)

theorem one_le_zpow_400 : (1 : ℚ) ≤ (2 : ℚ) ^ (400 : Int) :=
  one_le_zpow₀ (by norm_num) (by norm_num)

theorem sigma_range_of {s : ℚ} (h₁ : 1 / 1024 ≤ s) (h₂ : s ≤ 1024) :
    (2 : ℚ) ^ (-400 : Int) ≤ s ∧ s ≤ (2 : ℚ) ^ (400 : Int) := by
  have a : (2 : ℚ) ^ (-400 : Int) ≤ (2 : ℚ) ^ (-10 : Int) :=
    zpow_le_zpow_right₀ (by norm_num) (by norm_num)
  have b : (2 : ℚ) ^ (10 : Int) ≤ (2 : ℚ) ^ (400 : Int) :=
    zpow_le_zpow_right₀ (by norm_num) (by norm_num)
  have a' : (2 : ℚ) ^ (-10 : Int) = 1 / 1024 := by norm_num
  have b' : (2 : ℚ) ^ (10 : Int) = 1024 := by norm_num
  exact ⟨le_trans (le_trans a (le_of_eq a')) h₁, le_trans h₂ (le_trans (le_of_eq b'.symm) b)⟩

/-! ## The generated kernel as a kernel of bounded weights -/

/-- The weights of the kernel that `main` generates for a `sigma` of `[2^(-400), 2^400]`,
with an exponential that returns 1 at zero and a value of `[0, 1]` at every argument
that is not positive: every weight is a finite value of `[0, 2^900]`, and the centre
weight is at least `2^(-900)`. -/
theorem mainKernel_weights (exp : Dbl → Dbl) (hexp0 : exp (Dbl.fin 0) = Dbl.fin 1)
    (hexp : ∀ d : Dbl, d.isNonpos → ∃ v : ℚ, exp d = Dbl.fin v ∧ 0 ≤ v ∧ v ≤ 1) {s : ℚ}
    (h₁ : (2 : ℚ) ^ (-400 : Int) ≤ s) (h₂ : s ≤ (2 : ℚ) ^ (400 : Int)) (h : Nat) :
    (∀ i j : Int, -(h : Int) ≤ i → i ≤ h → -(h : Int) ≤ j → j ≤ h →
      ∃ v : ℚ, kernelAt (mainKernel exp (2 * (h : Int) + 1) (Dbl.fin s)) (i + h) (j + h) =
        Dbl.fin v ∧ 0 ≤ v ∧ v ≤ (2 : ℚ) ^ (900 : Int)) ∧
    ∃ v : ℚ, weightAt (mainKernel exp (2 * (h : Int) + 1) (Dbl.fin s)) h (0, 0) = Dbl.fin v ∧
      (2 : ℚ) ^ (-900 : Int) ≤ v := by
  obtain ⟨c₀, hc₀, lo, hi, hall⟩ := gaussianVal_range exp hexp0 hexp h₁ h₂
  have hi' : c₀ ≤ (2 : ℚ) ^ (900 : Int) :=
    le_trans hi (zpow_le_zpow_right₀ (by norm_num) (by norm_num))
  have lo' : (2 : ℚ) ^ (-900 : Int) ≤ c₀ :=
    le_trans (zpow_le_zpow_right₀ (by norm_num) (by norm_num)) lo
  constructor
  · intro i j i₁ i₂ j₁ j₂
    obtain ⟨c, hc, c0, c₁⟩ := hall i j
    rw [kernelAt_mainKernel exp (Dbl.fin s) h i₁ i₂ j₁ j₂]
    exact ⟨c, hc, c0, le_trans c₁ hi'⟩
  · refine ⟨c₀, ?_, lo'⟩
    have := kernelAt_mainKernel exp (Dbl.fin s) h (i := 0) (j := 0) (by omega) (by omega)
      (by omega) (by omega)
    unfold weightAt
    rw [this, hc₀]

/-- The weights of a kernel at the in-bounds offsets, from a bound on all its cells. -/
theorem weights_of_kernelAt (kernel : List (List Dbl)) (h : Nat) {P : Dbl → Prop}
    (hP : ∀ i j : Int, -(h : Int) ≤ i → i ≤ h → -(h : Int) ≤ j → j ≤ h →
      P (kernelAt kernel (i + h) (j + h)))
    {rows cols y x : Nat} {o : Int × Int}
    (ho : o ∈ inBoundsOffsetList rows cols (h : Int) y x) : P (weightAt kernel h o) := by
  obtain ⟨⟨a₁, a₂⟩, ⟨b₁, b₂⟩, _⟩ := mem_inBoundsOffsetList.mp ho
  exact hP o.1 o.2 a₁ a₂ b₁ b₂

/-! ## The stored channel -/

/-- The channel stored at an output pixel, in either reading of the division, under
the premises of `blur_quotient_bounds`: it lies between `m - 1` and `M`, and it is the
truncation of a finite quotient of `[0, 256)`. -/
theorem blur_stored_between (r : Bool) (ch : Vec3b → Nat) (src : Mat) (h : Nat)
    (hh : h ≤ 511) (kernel : List (List Dbl)) {y x : Nat} (hy : y < src.rows)
    (hx : x < src.cols)
    (hw : ∀ o ∈ inBoundsOffsetList src.rows src.cols (h : Int) y x,
      ∃ v : ℚ, weightAt kernel h o = Dbl.fin v ∧ 0 ≤ v ∧ v ≤ (2 : ℚ) ^ (900 : Int))
    (hw₀ : ∃ v : ℚ, weightAt kernel h (0, 0) = Dbl.fin v ∧ (2 : ℚ) ^ (-900 : Int) ≤ v)
    (m M : Nat) (hmM : m ≤ M) (hM : M ≤ 255)
    (hc : ∀ o ∈ inBoundsOffsetList src.rows src.cols (h : Int) y x,
      m ≤ sourceAt ch src y x o ∧ sourceAt ch src y x o ≤ M) :
    Dbl.toUchar (vecDivChannel r (sumInOrder ch src h kernel y x)
        (totalInOrder src h kernel y x)) ≤ M ∧
    m ≤ Dbl.toUchar (vecDivChannel r (sumInOrder ch src h kernel y x)
        (totalInOrder src h kernel y x)) + 1 := by
  obtain ⟨q, hq, q0, q₁, q₂⟩ := blur_quotient_bounds r ch src h hh kernel hy hx hw hw₀ m M
    hmM hM hc
  rw [hq]
  exact (toUchar_between hM q0 q₁ q₂).2.2

/-- The pixel stored for a uniform image of colour `c`: every channel is the channel of
`c` or one less. -/
theorem blurPixel_uniform_near (r : Bool) (src : Mat) (c : Vec3b) (hc : c.valid)
    (hu : ∀ y, y < src.rows → ∀ x, x < src.cols → src.atVec3b y x = c) (h : Nat)
    (hh : h ≤ 511) (kernel : List (List Dbl)) {y x : Nat} (hy : y < src.rows)
    (hx : x < src.cols)
    (hw : ∀ o ∈ inBoundsOffsetList src.rows src.cols (h : Int) y x,
      ∃ v : ℚ, weightAt kernel h o = Dbl.fin v ∧ 0 ≤ v ∧ v ≤ (2 : ℚ) ^ (900 : Int))
    (hw₀ : ∃ v : ℚ, weightAt kernel h (0, 0) = Dbl.fin v ∧ (2 : ℚ) ^ (-900 : Int) ≤ v) :
    ((blurPixel r src h kernel y x).c0 ≤ c.c0 ∧ c.c0 ≤ (blurPixel r src h kernel y x).c0 + 1) ∧
    ((blurPixel r src h kernel y x).c1 ≤ c.c1 ∧ c.c1 ≤ (blurPixel r src h kernel y x).c1 + 1) ∧
    ((blurPixel r src h kernel y x).c2 ≤ c.c2 ∧
      c.c2 ≤ (blurPixel r src h kernel y x).c2 + 1) := by
  have key : ∀ ch : Vec3b → Nat, ch c < 256 →
      Dbl.toUchar (vecDivChannel r (sumInOrder ch src h kernel y x)
          (totalInOrder src h kernel y x)) ≤ ch c ∧
      ch c ≤ Dbl.toUchar (vecDivChannel r (sumInOrder ch src h kernel y x)
          (totalInOrder src h kernel y x)) + 1 := by
    intro ch hch
    refine blur_stored_between r ch src h hh kernel hy hx hw hw₀ (ch c) (ch c) (le_refl _)
      (by omega) ?_
    intro o ho
    rw [sourceAt_uniform ch src c hu ho]
    exact ⟨le_refl _, le_refl _⟩
  rw [blurPixel_eq_inOrder]
  exact ⟨key Vec3b.c0 hc.1, key Vec3b.c1 hc.2.1, key Vec3b.c2 hc.2.2⟩

/-- The quotient of one channel lies near the window of the pixel. -/
theorem quotientNearWindow_of_bounds (r : Bool) (ch : Vec3b → Nat)
    (hch : ∀ p : Vec3b, p.valid → ch p < 256) (src : Mat) (hv : src.valid) (h : Nat)
    (hh : h ≤ 511) (kernel : List (List Dbl)) {y x : Nat} (hy : y < src.rows)
    (hx : x < src.cols)
    (hw : ∀ o ∈ inBoundsOffsetList src.rows src.cols (h : Int) y x,
      ∃ v : ℚ, weightAt kernel h o = Dbl.fin v ∧ 0 ≤ v ∧ v ≤ (2 : ℚ) ^ (900 : Int))
    (hw₀ : ∃ v : ℚ, weightAt kernel h (0, 0) = Dbl.fin v ∧ (2 : ℚ) ^ (-900 : Int) ≤ v) :
    quotientNearWindow ch src h y x
      (vecDivChannel r (sumInOrder ch src h kernel y x) (totalInOrder src h kernel y x)) := by
  have hne := windowValues_nonempty ch src (Int.natCast_nonneg h) hy hx
  have hmem : ∀ o ∈ inBoundsOffsetList src.rows src.cols (h : Int) y x,
      (windowValues ch src h y x).min' hne ≤ sourceAt ch src y x o ∧
        sourceAt ch src y x o ≤ (windowValues ch src h y x).max' hne :=
    fun o ho => ⟨Finset.min'_le _ _ (sourceAt_mem_windowValues ch src ho),
      Finset.le_max' _ _ (sourceAt_mem_windowValues ch src ho)⟩
  have hM : (windowValues ch src h y x).max' hne ≤ 255 := by
    have hmax := Finset.max'_mem (windowValues ch src h y x) hne
    unfold windowValues at hmax
    obtain ⟨o, ho, e⟩ := Finset.mem_image.mp hmax
    have := sourceAt_le ch hch src hv (mem_inBoundsOffsetList_iff.mpr ho)
    unfold windowValues
    omega
  have hmM : (windowValues ch src h y x).min' hne ≤ (windowValues ch src h y x).max' hne :=
    Finset.min'_le _ _ (Finset.max'_mem _ hne)
  obtain ⟨q, hq, q0, q₁, q₂⟩ := blur_quotient_bounds r ch src h hh kernel hy hx hw hw₀ _ _
    hmM hM hmem
  obtain ⟨t₁, t₂, t₃, t₄⟩ := toUchar_between hM q0 q₁ q₂
  rw [hq]
  exact ⟨hne, q₁, q₂, q0, t₁, t₂, t₄, t₃⟩

/-! ## Quotients of a single in-bounds offset at particular values -/

theorem Dbl.zero_add_fin (x : ℚ) : Dbl.add 0 (Dbl.fin x) = Dbl.round x := by
  show Dbl.round (0 + x) = Dbl.round x
  rw [zero_add]

theorem singleQuotient_one_13_div :
    vecDivChannel false (Dbl.add 0 (Dbl.mul (Dbl.ofUchar 13) (Dbl.fin (5734161139222659 / 36028797018963968))))
        (Dbl.add 0 (Dbl.fin (5734161139222659 / 36028797018963968))) =
      Dbl.fin (7318349394477055 / 562949953421312) := by
  have h0 : Dbl.round (74544094809894567 / 36028797018963968) = Dbl.fin (2329502962809205 / 1125899906842624) :=
    Dbl.round_eq_fin (by rw [roundToDouble_eq (1) (4659005925618410) (by norm_num) (by norm_num [abs_of_pos, abs_of_neg]) (by norm_num [abs_of_pos, abs_of_neg]) (by rw [abs_lt]; constructor <;> norm_num)]; norm_num)
      (by norm_num [abs_of_pos, abs_of_neg])
  have h1 : Dbl.round (2329502962809205 / 1125899906842624) = Dbl.fin (2329502962809205 / 1125899906842624) :=
    Dbl.round_eq_fin (by rw [roundToDouble_eq (1) (4659005925618410) (by norm_num) (by norm_num [abs_of_pos, abs_of_neg]) (by norm_num [abs_of_pos, abs_of_neg]) (by rw [abs_lt]; constructor <;> norm_num)]; norm_num)
      (by norm_num [abs_of_pos, abs_of_neg])
  have h2 : Dbl.round (5734161139222659 / 36028797018963968) = Dbl.fin (5734161139222659 / 36028797018963968) :=
    Dbl.round_eq_fin (by rw [roundToDouble_eq (-3) (5734161139222659) (by norm_num) (by norm_num [abs_of_pos, abs_of_neg]) (by norm_num [abs_of_pos, abs_of_neg]) (by rw [abs_lt]; constructor <;> norm_num)]; norm_num)
      (by norm_num [abs_of_pos, abs_of_neg])
  have h3 : Dbl.round (74544094809894560 / 5734161139222659) = Dbl.fin (7318349394477055 / 562949953421312) :=
    Dbl.round_eq_fin (by rw [roundToDouble_eq (3) (7318349394477055) (by norm_num) (by norm_num [abs_of_pos, abs_of_neg]) (by norm_num [abs_of_pos, abs_of_neg]) (by rw [abs_lt]; constructor <;> norm_num)]; norm_num)
      (by norm_num [abs_of_pos, abs_of_neg])
  norm_num [vecDivChannel, Dbl.ofUchar, Dbl.zero_add_fin, Dbl.add_fin, Dbl.mul_fin, Dbl.div_fin, h0, h1, h2, h3]

theorem singleQuotient_one_13_recip :
    vecDivChannel true (Dbl.add 0 (Dbl.mul (Dbl.ofUchar 13) (Dbl.fin (5734161139222659 / 36028797018963968))))
        (Dbl.add 0 (Dbl.fin (5734161139222659 / 36028797018963968))) =
      Dbl.fin (7318349394477055 / 562949953421312) := by
  have h0 : Dbl.round (74544094809894567 / 36028797018963968) = Dbl.fin (2329502962809205 / 1125899906842624) :=
    Dbl.round_eq_fin (by rw [roundToDouble_eq (1) (4659005925618410) (by norm_num) (by norm_num [abs_of_pos, abs_of_neg]) (by norm_num [abs_of_pos, abs_of_neg]) (by rw [abs_lt]; constructor <;> norm_num)]; norm_num)
      (by norm_num [abs_of_pos, abs_of_neg])
  have h1 : Dbl.round (2329502962809205 / 1125899906842624) = Dbl.fin (2329502962809205 / 1125899906842624) :=
    Dbl.round_eq_fin (by rw [roundToDouble_eq (1) (4659005925618410) (by norm_num) (by norm_num [abs_of_pos, abs_of_neg]) (by norm_num [abs_of_pos, abs_of_neg]) (by rw [abs_lt]; constructor <;> norm_num)]; norm_num)
      (by norm_num [abs_of_pos, abs_of_neg])
  have h2 : Dbl.round (5734161139222659 / 36028797018963968) = Dbl.fin (5734161139222659 / 36028797018963968) :=
    Dbl.round_eq_fin (by rw [roundToDouble_eq (-3) (5734161139222659) (by norm_num) (by norm_num [abs_of_pos, abs_of_neg]) (by norm_num [abs_of_pos, abs_of_neg]) (by rw [abs_lt]; constructor <;> norm_num)]; norm_num)
      (by norm_num [abs_of_pos, abs_of_neg])
  have h3 : Dbl.round (36028797018963968 / 5734161139222659) = Dbl.fin (884279719003555 / 140737488355328) :=
    Dbl.round_eq_fin (by rw [roundToDouble_eq (2) (7074237752028440) (by norm_num) (by norm_num [abs_of_pos, abs_of_neg]) (by norm_num [abs_of_pos, abs_of_neg]) (by rw [abs_lt]; constructor <;> norm_num)]; norm_num)
      (by norm_num [abs_of_pos, abs_of_neg])
  have h4 : Dbl.round (2059932225370872631046181723775 / 158456325028528675187087900672) = Dbl.fin (7318349394477055 / 562949953421312) :=
    Dbl.round_eq_fin (by rw [roundToDouble_eq (3) (7318349394477055) (by norm_num) (by norm_num [abs_of_pos, abs_of_neg]) (by norm_num [abs_of_pos, abs_of_neg]) (by rw [abs_lt]; constructor <;> norm_num)]; norm_num)
      (by norm_num [abs_of_pos, abs_of_neg])
  norm_num [vecDivChannel, Dbl.ofUchar, Dbl.zero_add_fin, Dbl.add_fin, Dbl.mul_fin, Dbl.div_fin, h0, h1, h2, h3, h4]

theorem singleQuotient_one_26_div :
    vecDivChannel false (Dbl.add 0 (Dbl.mul (Dbl.ofUchar 26) (Dbl.fin (5734161139222659 / 36028797018963968))))
        (Dbl.add 0 (Dbl.fin (5734161139222659 / 36028797018963968))) =
      Dbl.fin (7318349394477055 / 281474976710656) := by
  have h0 : Dbl.round (74544094809894567 / 18014398509481984) = Dbl.fin (2329502962809205 / 562949953421312) :=
    Dbl.round_eq_fin (by rw [roundToDouble_eq (2) (4659005925618410) (by norm_num) (by norm_num [abs_of_pos, abs_of_neg]) (by norm_num [abs_of_pos, abs_of_neg]) (by rw [abs_lt]; constructor <;> norm_num)]; norm_num)
      (by norm_num [abs_of_pos, abs_of_neg])
  have h1 : Dbl.round (2329502962809205 / 562949953421312) = Dbl.fin (2329502962809205 / 562949953421312) :=
    Dbl.round_eq_fin (by rw [roundToDouble_eq (2) (4659005925618410) (by norm_num) (by norm_num [abs_of_pos, abs_of_neg]) (by norm_num [abs_of_pos, abs_of_neg]) (by rw [abs_lt]; constructor <;> norm_num)]; norm_num)
      (by norm_num [abs_of_pos, abs_of_neg])
  have h2 : Dbl.round (5734161139222659 / 36028797018963968) = Dbl.fin (5734161139222659 / 36028797018963968) :=
    Dbl.round_eq_fin (by rw [roundToDouble_eq (-3) (5734161139222659) (by norm_num) (by norm_num [abs_of_pos, abs_of_neg]) (by norm_num [abs_of_pos, abs_of_neg]) (by rw [abs_lt]; constructor <;> norm_num)]; norm_num)
      (by norm_num [abs_of_pos, abs_of_neg])
  have h3 : Dbl.round (149088189619789120 / 5734161139222659) = Dbl.fin (7318349394477055 / 281474976710656) :=
    Dbl.round_eq_fin (by rw [roundToDouble_eq (4) (7318349394477055) (by norm_num) (by norm_num [abs_of_pos, abs_of_neg]) (by norm_num [abs_of_pos, abs_of_neg]) (by rw [abs_lt]; constructor <;> norm_num)]; norm_num)
      (by norm_num [abs_of_pos, abs_of_neg])
  norm_num [vecDivChannel, Dbl.ofUchar, Dbl.zero_add_fin, Dbl.add_fin, Dbl.mul_fin, Dbl.div_fin, h0, h1, h2, h3]

theorem singleQuotient_one_26_recip :
    vecDivChannel true (Dbl.add 0 (Dbl.mul (Dbl.ofUchar 26) (Dbl.fin (5734161139222659 / 36028797018963968))))
        (Dbl.add 0 (Dbl.fin (5734161139222659 / 36028797018963968))) =
      Dbl.fin (7318349394477055 / 281474976710656) := by
  have h0 : Dbl.round (74544094809894567 / 18014398509481984) = Dbl.fin (2329502962809205 / 562949953421312) :=
    Dbl.round_eq_fin (by rw [roundToDouble_eq (2) (4659005925618410) (by norm_num) (by norm_num [abs_of_pos, abs_of_neg]) (by norm_num [abs_of_pos, abs_of_neg]) (by rw [abs_lt]; constructor <;> norm_num)]; norm_num)
      (by norm_num [abs_of_pos, abs_of_neg])
  have h1 : Dbl.round (2329502962809205 / 562949953421312) = Dbl.fin (2329502962809205 / 562949953421312) :=
    Dbl.round_eq_fin (by rw [roundToDouble_eq (2) (4659005925618410) (by norm_num) (by norm_num [abs_of_pos, abs_of_neg]) (by norm_num [abs_of_pos, abs_of_neg]) (by rw [abs_lt]; constructor <;> norm_num)]; norm_num)
      (by norm_num [abs_of_pos, abs_of_neg])
  have h2 : Dbl.round (5734161139222659 / 36028797018963968) = Dbl.fin (5734161139222659 / 36028797018963968) :=
    Dbl.round_eq_fin (by rw [roundToDouble_eq (-3) (5734161139222659) (by norm_num) (by norm_num [abs_of_pos, abs_of_neg]) (by norm_num [abs_of_pos, abs_of_neg]) (by rw [abs_lt]; constructor <;> norm_num)]; norm_num)
      (by norm_num [abs_of_pos, abs_of_neg])
  have h3 : Dbl.round (36028797018963968 / 5734161139222659) = Dbl.fin (884279719003555 / 140737488355328) :=
    Dbl.round_eq_fin (by rw [roundToDouble_eq (2) (7074237752028440) (by norm_num) (by norm_num [abs_of_pos, abs_of_neg]) (by norm_num [abs_of_pos, abs_of_neg]) (by rw [abs_lt]; constructor <;> norm_num)]; norm_num)
      (by norm_num [abs_of_pos, abs_of_neg])
  have h4 : Dbl.round (2059932225370872631046181723775 / 79228162514264337593543950336) = Dbl.fin (7318349394477055 / 281474976710656) :=
    Dbl.round_eq_fin (by rw [roundToDouble_eq (4) (7318349394477055) (by norm_num) (by norm_num [abs_of_pos, abs_of_neg]) (by norm_num [abs_of_pos, abs_of_neg]) (by rw [abs_lt]; constructor <;> norm_num)]; norm_num)
      (by norm_num [abs_of_pos, abs_of_neg])
  norm_num [vecDivChannel, Dbl.ofUchar, Dbl.zero_add_fin, Dbl.add_fin, Dbl.mul_fin, Dbl.div_fin, h0, h1, h2, h3, h4]

theorem singleQuotient_one_52_div :
    vecDivChannel false (Dbl.add 0 (Dbl.mul (Dbl.ofUchar 52) (Dbl.fin (5734161139222659 / 36028797018963968))))
        (Dbl.add 0 (Dbl.fin (5734161139222659 / 36028797018963968))) =
      Dbl.fin (7318349394477055 / 140737488355328) := by
  have h0 : Dbl.round (74544094809894567 / 9007199254740992) = Dbl.fin (2329502962809205 / 281474976710656) :=
    Dbl.round_eq_fin (by rw [roundToDouble_eq (3) (4659005925618410) (by norm_num) (by norm_num [abs_of_pos, abs_of_neg]) (by norm_num [abs_of_pos, abs_of_neg]) (by rw [abs_lt]; constructor <;> norm_num)]; norm_num)
      (by norm_num [abs_of_pos, abs_of_neg])
  have h1 : Dbl.round (2329502962809205 / 281474976710656) = Dbl.fin (2329502962809205 / 281474976710656) :=
    Dbl.round_eq_fin (by rw [roundToDouble_eq (3) (4659005925618410) (by norm_num) (by norm_num [abs_of_pos, abs_of_neg]) (by norm_num [abs_of_pos, abs_of_neg]) (by rw [abs_lt]; constructor <;> norm_num)]; norm_num)
      (by norm_num [abs_of_pos, abs_of_neg])
  have h2 : Dbl.round (5734161139222659 / 36028797018963968) = Dbl.fin (5734161139222659 / 36028797018963968) :=
    Dbl.round_eq_fin (by rw [roundToDouble_eq (-3) (5734161139222659) (by norm_num) (by norm_num [abs_of_pos, abs_of_neg]) (by norm_num [abs_of_pos, abs_of_neg]) (by rw [abs_lt]; constructor <;> norm_num)]; norm_num)
      (by norm_num [abs_of_pos, abs_of_neg])
  have h3 : Dbl.round (298176379239578240 / 5734161139222659) = Dbl.fin (7318349394477055 / 140737488355328) :=
    Dbl.round_eq_fin (by rw [roundToDouble_eq (5) (7318349394477055) (by norm_num) (by norm_num [abs_of_pos, abs_of_neg]) (by norm_num [abs_of_pos, abs_of_neg]) (by rw [abs_lt]; constructor <;> norm_num)]; norm_num)
      (by norm_num [abs_of_pos, abs_of_neg])
  norm_num [vecDivChannel, Dbl.ofUchar, Dbl.zero_add_fin, Dbl.add_fin, Dbl.mul_fin, Dbl.div_fin, h0, h1, h2, h3]

theorem singleQuotient_one_52_recip :
    vecDivChannel true (Dbl.add 0 (Dbl.mul (Dbl.ofUchar 52) (Dbl.fin (5734161139222659 / 36028797018963968))))
        (Dbl.add 0 (Dbl.fin (5734161139222659 / 36028797018963968))) =
      Dbl.fin (7318349394477055 / 140737488355328) := by
  have h0 : Dbl.round (74544094809894567 / 9007199254740992) = Dbl.fin (2329502962809205 / 281474976710656) :=
    Dbl.round_eq_fin (by rw [roundToDouble_eq (3) (4659005925618410) (by norm_num) (by norm_num [abs_of_pos, abs_of_neg]) (by norm_num [abs_of_pos, abs_of_neg]) (by rw [abs_lt]; constructor <;> norm_num)]; norm_num)
      (by norm_num [abs_of_pos, abs_of_neg])
  have h1 : Dbl.round (2329502962809205 / 281474976710656) = Dbl.fin (2329502962809205 / 281474976710656) :=
    Dbl.round_eq_fin (by rw [roundToDouble_eq (3) (4659005925618410) (by norm_num) (by norm_num [abs_of_pos, abs_of_neg]) (by norm_num [abs_of_pos, abs_of_neg]) (by rw [abs_lt]; constructor <;> norm_num)]; norm_num)
      (by norm_num [abs_of_pos, abs_of_neg])
  have h2 : Dbl.round (5734161139222659 / 36028797018963968) = Dbl.fin (5734161139222659 / 36028797018963968) :=
    Dbl.round_eq_fin (by rw [roundToDouble_eq (-3) (5734161139222659) (by norm_num) (by norm_num [abs_of_pos, abs_of_neg]) (by norm_num [abs_of_pos, abs_of_neg]) (by rw [abs_lt]; constructor <;> norm_num)]; norm_num)
      (by norm_num [abs_of_pos, abs_of_neg])
  have h3 : Dbl.round (36028797018963968 / 5734161139222659) = Dbl.fin (884279719003555 / 140737488355328) :=
    Dbl.round_eq_fin (by rw [roundToDouble_eq (2) (7074237752028440) (by norm_num) (by norm_num [abs_of_pos, abs_of_neg]) (by norm_num [abs_of_pos, abs_of_neg]) (by rw [abs_lt]; constructor <;> norm_num)]; norm_num)
      (by norm_num [abs_of_pos, abs_of_neg])
  have h4 : Dbl.round (2059932225370872631046181723775 / 39614081257132168796771975168) = Dbl.fin (7318349394477055 / 140737488355328) :=
    Dbl.round_eq_fin (by rw [roundToDouble_eq (5) (7318349394477055) (by norm_num) (by norm_num [abs_of_pos, abs_of_neg]) (by norm_num [abs_of_pos, abs_of_neg]) (by rw [abs_lt]; constructor <;> norm_num)]; norm_num)
      (by norm_num [abs_of_pos, abs_of_neg])
  norm_num [vecDivChannel, Dbl.ofUchar, Dbl.zero_add_fin, Dbl.add_fin, Dbl.mul_fin, Dbl.div_fin, h0, h1, h2, h3, h4]

theorem singleQuotient_half_12_div :
    vecDivChannel false (Dbl.add 0 (Dbl.mul (Dbl.ofUchar 12) (Dbl.fin (5734161139222659 / 9007199254740992))))
        (Dbl.add 0 (Dbl.fin (5734161139222659 / 9007199254740992))) =
      Dbl.fin (12) := by
  have h0 : Dbl.round (17202483417667977 / 2251799813685248) = Dbl.fin (2150310427208497 / 281474976710656) :=
    Dbl.round_eq_fin (by rw [roundToDouble_tie (2) (8601241708833988) (by norm_num) (by norm_num [abs_of_pos, abs_of_neg]) (by norm_num [abs_of_pos, abs_of_neg]) (by norm_num)]; norm_num)
      (by norm_num [abs_of_pos, abs_of_neg])
  have h1 : Dbl.round (2150310427208497 / 281474976710656) = Dbl.fin (2150310427208497 / 281474976710656) :=
    Dbl.round_eq_fin (by rw [roundToDouble_eq (2) (8601241708833988) (by norm_num) (by norm_num [abs_of_pos, abs_of_neg]) (by norm_num [abs_of_pos, abs_of_neg]) (by rw [abs_lt]; constructor <;> norm_num)]; norm_num)
      (by norm_num [abs_of_pos, abs_of_neg])
  have h2 : Dbl.round (5734161139222659 / 9007199254740992) = Dbl.fin (5734161139222659 / 9007199254740992) :=
    Dbl.round_eq_fin (by rw [roundToDouble_eq (-1) (5734161139222659) (by norm_num) (by norm_num [abs_of_pos, abs_of_neg]) (by norm_num [abs_of_pos, abs_of_neg]) (by rw [abs_lt]; constructor <;> norm_num)]; norm_num)
      (by norm_num [abs_of_pos, abs_of_neg])
  have h3 : Dbl.round (68809933670671904 / 5734161139222659) = Dbl.fin (12) :=
    Dbl.round_eq_fin (by rw [roundToDouble_eq (3) (6755399441055744) (by norm_num) (by norm_num [abs_of_pos, abs_of_neg]) (by norm_num [abs_of_pos, abs_of_neg]) (by rw [abs_lt]; constructor <;> norm_num)]; norm_num)
      (by norm_num [abs_of_pos, abs_of_neg])
  norm_num [vecDivChannel, Dbl.ofUchar, Dbl.zero_add_fin, Dbl.add_fin, Dbl.mul_fin, Dbl.div_fin, h0, h1, h2, h3]

theorem singleQuotient_half_12_recip :
    vecDivChannel true (Dbl.add 0 (Dbl.mul (Dbl.ofUchar 12) (Dbl.fin (5734161139222659 / 9007199254740992))))
        (Dbl.add 0 (Dbl.fin (5734161139222659 / 9007199254740992))) =
      Dbl.fin (12) := by
  have h0 : Dbl.round (17202483417667977 / 2251799813685248) = Dbl.fin (2150310427208497 / 281474976710656) :=
    Dbl.round_eq_fin (by rw [roundToDouble_tie (2) (8601241708833988) (by norm_num) (by norm_num [abs_of_pos, abs_of_neg]) (by norm_num [abs_of_pos, abs_of_neg]) (by norm_num)]; norm_num)
      (by norm_num [abs_of_pos, abs_of_neg])
  have h1 : Dbl.round (2150310427208497 / 281474976710656) = Dbl.fin (2150310427208497 / 281474976710656) :=
    Dbl.round_eq_fin (by rw [roundToDouble_eq (2) (8601241708833988) (by norm_num) (by norm_num [abs_of_pos, abs_of_neg]) (by norm_num [abs_of_pos, abs_of_neg]) (by rw [abs_lt]; constructor <;> norm_num)]; norm_num)
      (by norm_num [abs_of_pos, abs_of_neg])
  have h2 : Dbl.round (5734161139222659 / 9007199254740992) = Dbl.fin (5734161139222659 / 9007199254740992) :=
    Dbl.round_eq_fin (by rw [roundToDouble_eq (-1) (5734161139222659) (by norm_num) (by norm_num [abs_of_pos, abs_of_neg]) (by norm_num [abs_of_pos, abs_of_neg]) (by rw [abs_lt]; constructor <;> norm_num)]; norm_num)
      (by norm_num [abs_of_pos, abs_of_neg])
  have h3 : Dbl.round (9007199254740992 / 5734161139222659) = Dbl.fin (884279719003555 / 562949953421312) :=
    Dbl.round_eq_fin (by rw [roundToDouble_eq (0) (7074237752028440) (by norm_num) (by norm_num [abs_of_pos, abs_of_neg]) (by norm_num [abs_of_pos, abs_of_neg]) (by rw [abs_lt]; constructor <;> norm_num)]; norm_num)
      (by norm_num [abs_of_pos, abs_of_neg])
  have h4 : Dbl.round (1901475900342344035141069206835 / 158456325028528675187087900672) = Dbl.fin (12) :=
    Dbl.round_eq_fin (by rw [roundToDouble_eq (3) (6755399441055744) (by norm_num) (by norm_num [abs_of_pos, abs_of_neg]) (by norm_num [abs_of_pos, abs_of_neg]) (by rw [abs_lt]; constructor <;> norm_num)]; norm_num)
      (by norm_num [abs_of_pos, abs_of_neg])
  norm_num [vecDivChannel, Dbl.ofUchar, Dbl.zero_add_fin, Dbl.add_fin, Dbl.mul_fin, Dbl.div_fin, h0, h1, h2, h3, h4]

theorem singleQuotient_half_200_div :
    vecDivChannel false (Dbl.add 0 (Dbl.mul (Dbl.ofUchar 200) (Dbl.fin (5734161139222659 / 9007199254740992))))
        (Dbl.add 0 (Dbl.fin (5734161139222659 / 9007199254740992))) =
      Dbl.fin (200) := by
  have h0 : Dbl.round (143354028480566475 / 1125899906842624) = Dbl.fin (8959626780035405 / 70368744177664) :=
    Dbl.round_eq_fin (by rw [roundToDouble_eq (6) (8959626780035405) (by norm_num) (by norm_num [abs_of_pos, abs_of_neg]) (by norm_num [abs_of_pos, abs_of_neg]) (by rw [abs_lt]; constructor <;> norm_num)]; norm_num)
      (by norm_num [abs_of_pos, abs_of_neg])
  have h1 : Dbl.round (8959626780035405 / 70368744177664) = Dbl.fin (8959626780035405 / 70368744177664) :=
    Dbl.round_eq_fin (by rw [roundToDouble_eq (6) (8959626780035405) (by norm_num) (by norm_num [abs_of_pos, abs_of_neg]) (by norm_num [abs_of_pos, abs_of_neg]) (by rw [abs_lt]; constructor <;> norm_num)]; norm_num)
      (by norm_num [abs_of_pos, abs_of_neg])
  have h2 : Dbl.round (5734161139222659 / 9007199254740992) = Dbl.fin (5734161139222659 / 9007199254740992) :=
    Dbl.round_eq_fin (by rw [roundToDouble_eq (-1) (5734161139222659) (by norm_num) (by norm_num [abs_of_pos, abs_of_neg]) (by norm_num [abs_of_pos, abs_of_neg]) (by rw [abs_lt]; constructor <;> norm_num)]; norm_num)
      (by norm_num [abs_of_pos, abs_of_neg])
  have h3 : Dbl.round (1146832227844531840 / 5734161139222659) = Dbl.fin (200) :=
    Dbl.round_eq_fin (by rw [roundToDouble_eq (7) (7036874417766400) (by norm_num) (by norm_num [abs_of_pos, abs_of_neg]) (by norm_num [abs_of_pos, abs_of_neg]) (by rw [abs_lt]; constructor <;> norm_num)]; norm_num)
      (by norm_num [abs_of_pos, abs_of_neg])
  norm_num [vecDivChannel, Dbl.ofUchar, Dbl.zero_add_fin, Dbl.add_fin, Dbl.mul_fin, Dbl.div_fin, h0, h1, h2, h3]

theorem singleQuotient_half_200_recip :
    vecDivChannel true (Dbl.add 0 (Dbl.mul (Dbl.ofUchar 200) (Dbl.fin (5734161139222659 / 9007199254740992))))
        (Dbl.add 0 (Dbl.fin (5734161139222659 / 9007199254740992))) =
      Dbl.fin (200) := by
  have h0 : Dbl.round (143354028480566475 / 1125899906842624) = Dbl.fin (8959626780035405 / 70368744177664) :=
    Dbl.round_eq_fin (by rw [roundToDouble_eq (6) (8959626780035405) (by norm_num) (by norm_num [abs_of_pos, abs_of_neg]) (by norm_num [abs_of_pos, abs_of_neg]) (by rw [abs_lt]; constructor <;> norm_num)]; norm_num)
      (by norm_num [abs_of_pos, abs_of_neg])
  have h1 : Dbl.round (8959626780035405 / 70368744177664) = Dbl.fin (8959626780035405 / 70368744177664) :=
    Dbl.round_eq_fin (by rw [roundToDouble_eq (6) (8959626780035405) (by norm_num) (by norm_num [abs_of_pos, abs_of_neg]) (by norm_num [abs_of_pos, abs_of_neg]) (by rw [abs_lt]; constructor <;> norm_num)]; norm_num)
      (by norm_num [abs_of_pos, abs_of_neg])
  have h2 : Dbl.round (5734161139222659 / 9007199254740992) = Dbl.fin (5734161139222659 / 9007199254740992) :=
    Dbl.round_eq_fin (by rw [roundToDouble_eq (-1) (5734161139222659) (by norm_num) (by norm_num [abs_of_pos, abs_of_neg]) (by norm_num [abs_of_pos, abs_of_neg]) (by rw [abs_lt]; constructor <;> norm_num)]; norm_num)
      (by norm_num [abs_of_pos, abs_of_neg])
  have h3 : Dbl.round (9007199254740992 / 5734161139222659) = Dbl.fin (884279719003555 / 562949953421312) :=
    Dbl.round_eq_fin (by rw [roundToDouble_eq (0) (7074237752028440) (by norm_num) (by norm_num [abs_of_pos, abs_of_neg]) (by norm_num [abs_of_pos, abs_of_neg]) (by rw [abs_lt]; constructor <;> norm_num)]; norm_num)
      (by norm_num [abs_of_pos, abs_of_neg])
  have h4 : Dbl.round (7922816251426434216654220864775 / 39614081257132168796771975168) = Dbl.fin (200) :=
    Dbl.round_eq_fin (by rw [roundToDouble_eq (7) (7036874417766400) (by norm_num) (by norm_num [abs_of_pos, abs_of_neg]) (by norm_num [abs_of_pos, abs_of_neg]) (by rw [abs_lt]; constructor <;> norm_num)]; norm_num)
      (by norm_num [abs_of_pos, abs_of_neg])
  norm_num [vecDivChannel, Dbl.ofUchar, Dbl.zero_add_fin, Dbl.add_fin, Dbl.mul_fin, Dbl.div_fin, h0, h1, h2, h3, h4]

theorem singleQuotient_half_255_div :
    vecDivChannel false (Dbl.add 0 (Dbl.mul (Dbl.ofUchar 255) (Dbl.fin (5734161139222659 / 9007199254740992))))
        (Dbl.add 0 (Dbl.fin (5734161139222659 / 9007199254740992))) =
      Dbl.fin (8972014882652159 / 35184372088832) := by
  have h0 : Dbl.round (1462211090501778045 / 9007199254740992) = Dbl.fin (2855881036136285 / 17592186044416) :=
    Dbl.round_eq_fin (by rw [roundToDouble_eq (7) (5711762072272570) (by norm_num) (by norm_num [abs_of_pos, abs_of_neg]) (by norm_num [abs_of_pos, abs_of_neg]) (by rw [abs_lt]; constructor <;> norm_num)]; norm_num)
      (by norm_num [abs_of_pos, abs_of_neg])
  have h1 : Dbl.round (2855881036136285 / 17592186044416) = Dbl.fin (2855881036136285 / 17592186044416) :=
    Dbl.round_eq_fin (by rw [roundToDouble_eq (7) (5711762072272570) (by norm_num) (by norm_num [abs_of_pos, abs_of_neg]) (by norm_num [abs_of_pos, abs_of_neg]) (by rw [abs_lt]; constructor <;> norm_num)]; norm_num)
      (by norm_num [abs_of_pos, abs_of_neg])
  have h2 : Dbl.round (5734161139222659 / 9007199254740992) = Dbl.fin (5734161139222659 / 9007199254740992) :=
    Dbl.round_eq_fin (by rw [roundToDouble_eq (-1) (5734161139222659) (by norm_num) (by norm_num [abs_of_pos, abs_of_neg]) (by norm_num [abs_of_pos, abs_of_neg]) (by rw [abs_lt]; constructor <;> norm_num)]; norm_num)
      (by norm_num [abs_of_pos, abs_of_neg])
  have h3 : Dbl.round (1462211090501777920 / 5734161139222659) = Dbl.fin (8972014882652159 / 35184372088832) :=
    Dbl.round_eq_fin (by rw [roundToDouble_eq (7) (8972014882652159) (by norm_num) (by norm_num [abs_of_pos, abs_of_neg]) (by norm_num [abs_of_pos, abs_of_neg]) (by rw [abs_lt]; constructor <;> norm_num)]; norm_num)
      (by norm_num [abs_of_pos, abs_of_neg])
  norm_num [vecDivChannel, Dbl.ofUchar, Dbl.zero_add_fin, Dbl.add_fin, Dbl.mul_fin, Dbl.div_fin, h0, h1, h2, h3]

theorem singleQuotient_half_255_recip :
    vecDivChannel true (Dbl.add 0 (Dbl.mul (Dbl.ofUchar 255) (Dbl.fin (5734161139222659 / 9007199254740992))))
        (Dbl.add 0 (Dbl.fin (5734161139222659 / 9007199254740992))) =
      Dbl.fin (8972014882652159 / 35184372088832) := by
  have h0 : Dbl.round (1462211090501778045 / 9007199254740992) = Dbl.fin (2855881036136285 / 17592186044416) :=
    Dbl.round_eq_fin (by rw [roundToDouble_eq (7) (5711762072272570) (by norm_num) (by norm_num [abs_of_pos, abs_of_neg]) (by norm_num [abs_of_pos, abs_of_neg]) (by rw [abs_lt]; constructor <;> norm_num)]; norm_num)
      (by norm_num [abs_of_pos, abs_of_neg])
  have h1 : Dbl.round (2855881036136285 / 17592186044416) = Dbl.fin (2855881036136285 / 17592186044416) :=
    Dbl.round_eq_fin (by rw [roundToDouble_eq (7) (5711762072272570) (by norm_num) (by norm_num [abs_of_pos, abs_of_neg]) (by norm_num [abs_of_pos, abs_of_neg]) (by rw [abs_lt]; constructor <;> norm_num)]; norm_num)
      (by norm_num [abs_of_pos, abs_of_neg])
  have h2 : Dbl.round (5734161139222659 / 9007199254740992) = Dbl.fin (5734161139222659 / 9007199254740992) :=
    Dbl.round_eq_fin (by rw [roundToDouble_eq (-1) (5734161139222659) (by norm_num) (by norm_num [abs_of_pos, abs_of_neg]) (by norm_num [abs_of_pos, abs_of_neg]) (by rw [abs_lt]; constructor <;> norm_num)]; norm_num)
      (by norm_num [abs_of_pos, abs_of_neg])
  have h3 : Dbl.round (9007199254740992 / 5734161139222659) = Dbl.fin (884279719003555 / 562949953421312) :=
    Dbl.round_eq_fin (by rw [roundToDouble_eq (0) (7074237752028440) (by norm_num) (by norm_num [abs_of_pos, abs_of_neg]) (by norm_num [abs_of_pos, abs_of_neg]) (by rw [abs_lt]; constructor <;> norm_num)]; norm_num)
      (by norm_num [abs_of_pos, abs_of_neg])
  have h4 : Dbl.round (2525397680142175602587379493175 / 9903520314283042199192993792) = Dbl.fin (8972014882652159 / 35184372088832) :=
    Dbl.round_eq_fin (by rw [roundToDouble_eq (7) (8972014882652159) (by norm_num) (by norm_num [abs_of_pos, abs_of_neg]) (by norm_num [abs_of_pos, abs_of_neg]) (by rw [abs_lt]; constructor <;> norm_num)]; norm_num)
      (by norm_num [abs_of_pos, abs_of_neg])
  norm_num [vecDivChannel, Dbl.ofUchar, Dbl.zero_add_fin, Dbl.add_fin, Dbl.mul_fin, Dbl.div_fin, h0, h1, h2, h3, h4]

theorem singleQuotient_centi_29_div :
    vecDivChannel false (Dbl.add 0 (Dbl.mul (Dbl.ofUchar 29) (Dbl.fin (5764607523034235 / 576460752303423488))))
        (Dbl.add 0 (Dbl.fin (5764607523034235 / 576460752303423488))) =
      Dbl.fin (8162774324609023 / 281474976710656) := by
  have h0 : Dbl.round (167173618167992815 / 576460752303423488) = Dbl.fin (5224175567749775 / 18014398509481984) :=
    Dbl.round_eq_fin (by rw [roundToDouble_eq (-2) (5224175567749775) (by norm_num) (by norm_num [abs_of_pos, abs_of_neg]) (by norm_num [abs_of_pos, abs_of_neg]) (by rw [abs_lt]; constructor <;> norm_num)]; norm_num)
      (by norm_num [abs_of_pos, abs_of_neg])
  have h1 : Dbl.round (5224175567749775 / 18014398509481984) = Dbl.fin (5224175567749775 / 18014398509481984) :=
    Dbl.round_eq_fin (by rw [roundToDouble_eq (-2) (5224175567749775) (by norm_num) (by norm_num [abs_of_pos, abs_of_neg]) (by norm_num [abs_of_pos, abs_of_neg]) (by rw [abs_lt]; constructor <;> norm_num)]; norm_num)
      (by norm_num [abs_of_pos, abs_of_neg])
  have h2 : Dbl.round (5764607523034235 / 576460752303423488) = Dbl.fin (5764607523034235 / 576460752303423488) :=
    Dbl.round_eq_fin (by rw [roundToDouble_eq (-7) (5764607523034235) (by norm_num) (by norm_num [abs_of_pos, abs_of_neg]) (by norm_num [abs_of_pos, abs_of_neg]) (by rw [abs_lt]; constructor <;> norm_num)]; norm_num)
      (by norm_num [abs_of_pos, abs_of_neg])
  have h3 : Dbl.round (33434723633598560 / 1152921504606847) = Dbl.fin (8162774324609023 / 281474976710656) :=
    Dbl.round_eq_fin (by rw [roundToDouble_eq (4) (8162774324609023) (by norm_num) (by norm_num [abs_of_pos, abs_of_neg]) (by norm_num [abs_of_pos, abs_of_neg]) (by rw [abs_lt]; constructor <;> norm_num)]; norm_num)
      (by norm_num [abs_of_pos, abs_of_neg])
  norm_num [vecDivChannel, Dbl.ofUchar, Dbl.zero_add_fin, Dbl.add_fin, Dbl.mul_fin, Dbl.div_fin, h0, h1, h2, h3]

theorem singleQuotient_centi_29_recip :
    vecDivChannel true (Dbl.add 0 (Dbl.mul (Dbl.ofUchar 29) (Dbl.fin (5764607523034235 / 576460752303423488))))
        (Dbl.add 0 (Dbl.fin (5764607523034235 / 576460752303423488))) =
      Dbl.fin (8162774324609023 / 281474976710656) := by
  have h0 : Dbl.round (167173618167992815 / 576460752303423488) = Dbl.fin (5224175567749775 / 18014398509481984) :=
    Dbl.round_eq_fin (by rw [roundToDouble_eq (-2) (5224175567749775) (by norm_num) (by norm_num [abs_of_pos, abs_of_neg]) (by norm_num [abs_of_pos, abs_of_neg]) (by rw [abs_lt]; constructor <;> norm_num)]; norm_num)
      (by norm_num [abs_of_pos, abs_of_neg])
  have h1 : Dbl.round (5224175567749775 / 18014398509481984) = Dbl.fin (5224175567749775 / 18014398509481984) :=
    Dbl.round_eq_fin (by rw [roundToDouble_eq (-2) (5224175567749775) (by norm_num) (by norm_num [abs_of_pos, abs_of_neg]) (by norm_num [abs_of_pos, abs_of_neg]) (by rw [abs_lt]; constructor <;> norm_num)]; norm_num)
      (by norm_num [abs_of_pos, abs_of_neg])
  have h2 : Dbl.round (5764607523034235 / 576460752303423488) = Dbl.fin (5764607523034235 / 576460752303423488) :=
    Dbl.round_eq_fin (by rw [roundToDouble_eq (-7) (5764607523034235) (by norm_num) (by norm_num [abs_of_pos, abs_of_neg]) (by norm_num [abs_of_pos, abs_of_neg]) (by rw [abs_lt]; constructor <;> norm_num)]; norm_num)
      (by norm_num [abs_of_pos, abs_of_neg])
  have h3 : Dbl.round (576460752303423488 / 5764607523034235) = Dbl.fin (100) :=
    Dbl.round_eq_fin (by rw [roundToDouble_eq (6) (7036874417766400) (by norm_num) (by norm_num [abs_of_pos, abs_of_neg]) (by norm_num [abs_of_pos, abs_of_neg]) (by rw [abs_lt]; constructor <;> norm_num)]; norm_num)
      (by norm_num [abs_of_pos, abs_of_neg])
  have h4 : Dbl.round (130604389193744375 / 4503599627370496) = Dbl.fin (8162774324609023 / 281474976710656) :=
    Dbl.round_eq_fin (by rw [roundToDouble_eq (4) (8162774324609023) (by norm_num) (by norm_num [abs_of_pos, abs_of_neg]) (by norm_num [abs_of_pos, abs_of_neg]) (by rw [abs_lt]; constructor <;> norm_num)]; norm_num)
      (by norm_num [abs_of_pos, abs_of_neg])
  norm_num [vecDivChannel, Dbl.ofUchar, Dbl.zero_add_fin, Dbl.add_fin, Dbl.mul_fin, Dbl.div_fin, h0, h1, h2, h3, h4]

theorem singleQuotient_centi_255_div :
    vecDivChannel false (Dbl.add 0 (Dbl.mul (Dbl.ofUchar 255) (Dbl.fin (5764607523034235 / 576460752303423488))))
        (Dbl.add 0 (Dbl.fin (5764607523034235 / 576460752303423488))) =
      Dbl.fin (8972014882652161 / 35184372088832) := by
  have h0 : Dbl.round (1469974918373729925 / 576460752303423488) = Dbl.fin (5742089524897383 / 2251799813685248) :=
    Dbl.round_eq_fin (by rw [roundToDouble_eq (1) (5742089524897383) (by norm_num) (by norm_num [abs_of_pos, abs_of_neg]) (by norm_num [abs_of_pos, abs_of_neg]) (by rw [abs_lt]; constructor <;> norm_num)]; norm_num)
      (by norm_num [abs_of_pos, abs_of_neg])
  have h1 : Dbl.round (5742089524897383 / 2251799813685248) = Dbl.fin (5742089524897383 / 2251799813685248) :=
    Dbl.round_eq_fin (by rw [roundToDouble_eq (1) (5742089524897383) (by norm_num) (by norm_num [abs_of_pos, abs_of_neg]) (by norm_num [abs_of_pos, abs_of_neg]) (by rw [abs_lt]; constructor <;> norm_num)]; norm_num)
      (by norm_num [abs_of_pos, abs_of_neg])
  have h2 : Dbl.round (5764607523034235 / 576460752303423488) = Dbl.fin (5764607523034235 / 576460752303423488) :=
    Dbl.round_eq_fin (by rw [roundToDouble_eq (-7) (5764607523034235) (by norm_num) (by norm_num [abs_of_pos, abs_of_neg]) (by norm_num [abs_of_pos, abs_of_neg]) (by rw [abs_lt]; constructor <;> norm_num)]; norm_num)
      (by norm_num [abs_of_pos, abs_of_neg])
  have h3 : Dbl.round (1469974918373730048 / 5764607523034235) = Dbl.fin (8972014882652161 / 35184372088832) :=
    Dbl.round_eq_fin (by rw [roundToDouble_eq (7) (8972014882652161) (by norm_num) (by norm_num [abs_of_pos, abs_of_neg]) (by norm_num [abs_of_pos, abs_of_neg]) (by rw [abs_lt]; constructor <;> norm_num)]; norm_num)
      (by norm_num [abs_of_pos, abs_of_neg])
  norm_num [vecDivChannel, Dbl.ofUchar, Dbl.zero_add_fin, Dbl.add_fin, Dbl.mul_fin, Dbl.div_fin, h0, h1, h2, h3]

theorem singleQuotient_centi_255_recip :
    vecDivChannel true (Dbl.add 0 (Dbl.mul (Dbl.ofUchar 255) (Dbl.fin (5764607523034235 / 576460752303423488))))
        (Dbl.add 0 (Dbl.fin (5764607523034235 / 576460752303423488))) =
      Dbl.fin (8972014882652161 / 35184372088832) := by
  have h0 : Dbl.round (1469974918373729925 / 576460752303423488) = Dbl.fin (5742089524897383 / 2251799813685248) :=
    Dbl.round_eq_fin (by rw [roundToDouble_eq (1) (5742089524897383) (by norm_num) (by norm_num [abs_of_pos, abs_of_neg]) (by norm_num [abs_of_pos, abs_of_neg]) (by rw [abs_lt]; constructor <;> norm_num)]; norm_num)
      (by norm_num [abs_of_pos, abs_of_neg])
  have h1 : Dbl.round (5742089524897383 / 2251799813685248) = Dbl.fin (5742089524897383 / 2251799813685248) :=
    Dbl.round_eq_fin (by rw [roundToDouble_eq (1) (5742089524897383) (by norm_num) (by norm_num [abs_of_pos, abs_of_neg]) (by norm_num [abs_of_pos, abs_of_neg]) (by rw [abs_lt]; constructor <;> norm_num)]; norm_num)
      (by norm_num [abs_of_pos, abs_of_neg])
  have h2 : Dbl.round (5764607523034235 / 576460752303423488) = Dbl.fin (5764607523034235 / 576460752303423488) :=
    Dbl.round_eq_fin (by rw [roundToDouble_eq (-7) (5764607523034235) (by norm_num) (by norm_num [abs_of_pos, abs_of_neg]) (by norm_num [abs_of_pos, abs_of_neg]) (by rw [abs_lt]; constructor <;> norm_num)]; norm_num)
      (by norm_num [abs_of_pos, abs_of_neg])
  have h3 : Dbl.round (576460752303423488 / 5764607523034235) = Dbl.fin (100) :=
    Dbl.round_eq_fin (by rw [roundToDouble_eq (6) (7036874417766400) (by norm_num) (by norm_num [abs_of_pos, abs_of_neg]) (by norm_num [abs_of_pos, abs_of_neg]) (by rw [abs_lt]; constructor <;> norm_num)]; norm_num)
      (by norm_num [abs_of_pos, abs_of_neg])
  have h4 : Dbl.round (143552238122434575 / 562949953421312) = Dbl.fin (8972014882652161 / 35184372088832) :=
    Dbl.round_eq_fin (by rw [roundToDouble_eq (7) (8972014882652161) (by norm_num) (by norm_num [abs_of_pos, abs_of_neg]) (by norm_num [abs_of_pos, abs_of_neg]) (by rw [abs_lt]; constructor <;> norm_num)]; norm_num)
      (by norm_num [abs_of_pos, abs_of_neg])
  norm_num [vecDivChannel, Dbl.ofUchar, Dbl.zero_add_fin, Dbl.add_fin, Dbl.mul_fin, Dbl.div_fin, h0, h1, h2, h3, h4]

theorem singleQuotient_centi_7_div :
    vecDivChannel false (Dbl.add 0 (Dbl.mul (Dbl.ofUchar 7) (Dbl.fin (5764607523034235 / 576460752303423488))))
        (Dbl.add 0 (Dbl.fin (5764607523034235 / 576460752303423488))) =
      Dbl.fin (7881299347898369 / 1125899906842624) := by
  have h0 : Dbl.round (40352252661239645 / 576460752303423488) = Dbl.fin (1261007895663739 / 18014398509481984) :=
    Dbl.round_eq_fin (by rw [roundToDouble_eq (-4) (5044031582654956) (by norm_num) (by norm_num [abs_of_pos, abs_of_neg]) (by norm_num [abs_of_pos, abs_of_neg]) (by rw [abs_lt]; constructor <;> norm_num)]; norm_num)
      (by norm_num [abs_of_pos, abs_of_neg])
  have h1 : Dbl.round (1261007895663739 / 18014398509481984) = Dbl.fin (1261007895663739 / 18014398509481984) :=
    Dbl.round_eq_fin (by rw [roundToDouble_eq (-4) (5044031582654956) (by norm_num) (by norm_num [abs_of_pos, abs_of_neg]) (by norm_num [abs_of_pos, abs_of_neg]) (by rw [abs_lt]; constructor <;> norm_num)]; norm_num)
      (by norm_num [abs_of_pos, abs_of_neg])
  have h2 : Dbl.round (5764607523034235 / 576460752303423488) = Dbl.fin (5764607523034235 / 576460752303423488) :=
    Dbl.round_eq_fin (by rw [roundToDouble_eq (-7) (5764607523034235) (by norm_num) (by norm_num [abs_of_pos, abs_of_neg]) (by norm_num [abs_of_pos, abs_of_neg]) (by rw [abs_lt]; constructor <;> norm_num)]; norm_num)
      (by norm_num [abs_of_pos, abs_of_neg])
  have h3 : Dbl.round (40352252661239648 / 5764607523034235) = Dbl.fin (7881299347898369 / 1125899906842624) :=
    Dbl.round_eq_fin (by rw [roundToDouble_eq (2) (7881299347898369) (by norm_num) (by norm_num [abs_of_pos, abs_of_neg]) (by norm_num [abs_of_pos, abs_of_neg]) (by rw [abs_lt]; constructor <;> norm_num)]; norm_num)
      (by norm_num [abs_of_pos, abs_of_neg])
  norm_num [vecDivChannel, Dbl.ofUchar, Dbl.zero_add_fin, Dbl.add_fin, Dbl.mul_fin, Dbl.div_fin, h0, h1, h2, h3]

theorem singleQuotient_centi_7_recip :
    vecDivChannel true (Dbl.add 0 (Dbl.mul (Dbl.ofUchar 7) (Dbl.fin (5764607523034235 / 576460752303423488))))
        (Dbl.add 0 (Dbl.fin (5764607523034235 / 576460752303423488))) =
      Dbl.fin (7881299347898369 / 1125899906842624) := by
  have h0 : Dbl.round (40352252661239645 / 576460752303423488) = Dbl.fin (1261007895663739 / 18014398509481984) :=
    Dbl.round_eq_fin (by rw [roundToDouble_eq (-4) (5044031582654956) (by norm_num) (by norm_num [abs_of_pos, abs_of_neg]) (by norm_num [abs_of_pos, abs_of_neg]) (by rw [abs_lt]; constructor <;> norm_num)]; norm_num)
      (by norm_num [abs_of_pos, abs_of_neg])
  have h1 : Dbl.round (1261007895663739 / 18014398509481984) = Dbl.fin (1261007895663739 / 18014398509481984) :=
    Dbl.round_eq_fin (by rw [roundToDouble_eq (-4) (5044031582654956) (by norm_num) (by norm_num [abs_of_pos, abs_of_neg]) (by norm_num [abs_of_pos, abs_of_neg]) (by rw [abs_lt]; constructor <;> norm_num)]; norm_num)
      (by norm_num [abs_of_pos, abs_of_neg])
  have h2 : Dbl.round (5764607523034235 / 576460752303423488) = Dbl.fin (5764607523034235 / 576460752303423488) :=
    Dbl.round_eq_fin (by rw [roundToDouble_eq (-7) (5764607523034235) (by norm_num) (by norm_num [abs_of_pos, abs_of_neg]) (by norm_num [abs_of_pos, abs_of_neg]) (by rw [abs_lt]; constructor <;> norm_num)]; norm_num)
      (by norm_num [abs_of_pos, abs_of_neg])
  have h3 : Dbl.round (576460752303423488 / 5764607523034235) = Dbl.fin (100) :=
    Dbl.round_eq_fin (by rw [roundToDouble_eq (6) (7036874417766400) (by norm_num) (by norm_num [abs_of_pos, abs_of_neg]) (by norm_num [abs_of_pos, abs_of_neg]) (by rw [abs_lt]; constructor <;> norm_num)]; norm_num)
      (by norm_num [abs_of_pos, abs_of_neg])
  have h4 : Dbl.round (31525197391593475 / 4503599627370496) = Dbl.fin (7881299347898369 / 1125899906842624) :=
    Dbl.round_eq_fin (by rw [roundToDouble_eq (2) (7881299347898369) (by norm_num) (by norm_num [abs_of_pos, abs_of_neg]) (by norm_num [abs_of_pos, abs_of_neg]) (by rw [abs_lt]; constructor <;> norm_num)]; norm_num)
      (by norm_num [abs_of_pos, abs_of_neg])
  norm_num [vecDivChannel, Dbl.ofUchar, Dbl.zero_add_fin, Dbl.add_fin, Dbl.mul_fin, Dbl.div_fin, h0, h1, h2, h3, h4]

/-! ## The box kernel on the 1×3 image at particular values -/

theorem quotient_two_three_div : vecDivChannel false (Dbl.fin 2) (Dbl.fin 3) = Dbl.fin (6004799503160661 / 9007199254740992) := by
  have h0 : Dbl.round (2 / 3) = Dbl.fin (6004799503160661 / 9007199254740992) :=
    Dbl.round_eq_fin (by rw [roundToDouble_eq (-1) (6004799503160661) (by norm_num) (by norm_num [abs_of_pos, abs_of_neg]) (by norm_num [abs_of_pos, abs_of_neg]) (by rw [abs_lt]; constructor <;> norm_num)]; norm_num)
      (by norm_num [abs_of_pos, abs_of_neg])
  norm_num [vecDivChannel, Dbl.mul_fin, Dbl.div_fin, h0]

theorem quotient_two_three_recip : vecDivChannel true (Dbl.fin 2) (Dbl.fin 3) = Dbl.fin (6004799503160661 / 9007199254740992) := by
  have h0 : Dbl.round (1 / 3) = Dbl.fin (6004799503160661 / 18014398509481984) :=
    Dbl.round_eq_fin (by rw [roundToDouble_eq (-2) (6004799503160661) (by norm_num) (by norm_num [abs_of_pos, abs_of_neg]) (by norm_num [abs_of_pos, abs_of_neg]) (by rw [abs_lt]; constructor <;> norm_num)]; norm_num)
      (by norm_num [abs_of_pos, abs_of_neg])
  have h1 : Dbl.round (6004799503160661 / 9007199254740992) = Dbl.fin (6004799503160661 / 9007199254740992) :=
    Dbl.round_eq_fin (by rw [roundToDouble_eq (-1) (6004799503160661) (by norm_num) (by norm_num [abs_of_pos, abs_of_neg]) (by norm_num [abs_of_pos, abs_of_neg]) (by rw [abs_lt]; constructor <;> norm_num)]; norm_num)
      (by norm_num [abs_of_pos, abs_of_neg])
  norm_num [vecDivChannel, Dbl.mul_fin, Dbl.div_fin, h0, h1]

theorem Dbl.round_small :
    Dbl.round 1 = Dbl.fin 1 ∧ Dbl.round 2 = Dbl.fin 2 ∧ Dbl.round 3 = Dbl.fin 3 := by
  have h0 : Dbl.round (1) = Dbl.fin (1) :=
    Dbl.round_eq_fin (by rw [roundToDouble_eq (0) (4503599627370496) (by norm_num) (by norm_num [abs_of_pos, abs_of_neg]) (by norm_num [abs_of_pos, abs_of_neg]) (by rw [abs_lt]; constructor <;> norm_num)]; norm_num)
      (by norm_num [abs_of_pos, abs_of_neg])
  have h1 : Dbl.round (2) = Dbl.fin (2) :=
    Dbl.round_eq_fin (by rw [roundToDouble_eq (1) (4503599627370496) (by norm_num) (by norm_num [abs_of_pos, abs_of_neg]) (by norm_num [abs_of_pos, abs_of_neg]) (by rw [abs_lt]; constructor <;> norm_num)]; norm_num)
      (by norm_num [abs_of_pos, abs_of_neg])
  have h2 : Dbl.round (3) = Dbl.fin (3) :=
    Dbl.round_eq_fin (by rw [roundToDouble_eq (1) (6755399441055744) (by norm_num) (by norm_num [abs_of_pos, abs_of_neg]) (by norm_num [abs_of_pos, abs_of_neg]) (by rw [abs_lt]; constructor <;> norm_num)]; norm_num)
      (by norm_num [abs_of_pos, abs_of_neg])
  exact ⟨h0, h1, h2⟩

theorem Dbl.round_centi : Dbl.round (1 / 100) = Dbl.fin (5764607523034235 / 576460752303423488) := by
  have h0 : Dbl.round (1 / 100) = Dbl.fin (5764607523034235 / 576460752303423488) :=
    Dbl.round_eq_fin (by rw [roundToDouble_eq (-7) (5764607523034235) (by norm_num) (by norm_num [abs_of_pos, abs_of_neg]) (by norm_num [abs_of_pos, abs_of_neg]) (by rw [abs_lt]; constructor <;> norm_num)]; norm_num)
      (by norm_num [abs_of_pos, abs_of_neg])
  exact h0

theorem Dbl.round_lp_one :
    Dbl.round (5734161139222659 / 36028797018963968) = Dbl.fin (5734161139222659 / 36028797018963968) := by
  have h0 : Dbl.round (5734161139222659 / 36028797018963968) = Dbl.fin (5734161139222659 / 36028797018963968) :=
    Dbl.round_eq_fin (by rw [roundToDouble_eq (-3) (5734161139222659) (by norm_num) (by norm_num [abs_of_pos, abs_of_neg]) (by norm_num [abs_of_pos, abs_of_neg]) (by rw [abs_lt]; constructor <;> norm_num)]; norm_num)
      (by norm_num [abs_of_pos, abs_of_neg])
  exact h0

theorem Dbl.round_lp_half :
    Dbl.round (5734161139222659 / 9007199254740992) = Dbl.fin (5734161139222659 / 9007199254740992) := by
  have h0 : Dbl.round (5734161139222659 / 9007199254740992) = Dbl.fin (5734161139222659 / 9007199254740992) :=
    Dbl.round_eq_fin (by rw [roundToDouble_eq (-1) (5734161139222659) (by norm_num) (by norm_num [abs_of_pos, abs_of_neg]) (by norm_num [abs_of_pos, abs_of_neg]) (by rw [abs_lt]; constructor <;> norm_num)]; norm_num)
      (by norm_num [abs_of_pos, abs_of_neg])
  exact h0

/-! ## The argument of the exponential at a corner -/

theorem expArgument_corner :
    Dbl.mul (Dbl.ofInt (-(3 * 3 + 3 * 3))) (kernelRp (Dbl.round (1 / 10))) =
      Dbl.fin (-(7916483719987199 / 8796093022208)) := by
  have h0 : Dbl.round (-18) = Dbl.fin (-18) :=
    Dbl.round_eq_fin (by rw [roundToDouble_eq (4) (-5066549580791808) (by norm_num) (by norm_num [abs_of_pos, abs_of_neg]) (by norm_num [abs_of_pos, abs_of_neg]) (by rw [abs_lt]; constructor <;> norm_num)]; norm_num)
      (by norm_num [abs_of_pos, abs_of_neg])
  have h1 : Dbl.round (-(63331869759897591 / 70368744177664)) = Dbl.fin (-(7916483719987199 / 8796093022208)) :=
    Dbl.round_eq_fin (by rw [roundToDouble_eq (9) (-7916483719987199) (by norm_num) (by norm_num [abs_of_pos, abs_of_neg]) (by norm_num [abs_of_pos, abs_of_neg]) (by rw [abs_lt]; constructor <;> norm_num)]; norm_num)
      (by norm_num [abs_of_pos, abs_of_neg])
  rw [kernelRp_tenth]
  norm_num [Dbl.ofInt, Dbl.mul_fin, h0, h1]

/-! ## A single pixel -/

/-- The centre cell of the kernel of `main`, for an exponential that returns 1 at
zero: `lp * 1.0`. -/
theorem centre_mainKernel (exp : Dbl → Dbl) (hexp0 : exp (Dbl.fin 0) = Dbl.fin 1)
    (sigma : Dbl) (h : Nat) {rp : ℚ} (hrp : kernelRp sigma = Dbl.fin rp) :
    kernelAt (mainKernel exp (2 * (h : Int) + 1) sigma) (0 + h) (0 + h) =
      Dbl.mul (kernelLp sigma) (Dbl.fin 1) := by
  rw [kernelAt_mainKernel exp sigma h (by omega) (by omega) (by omega) (by omega),
    gaussianVal_centre exp sigma hrp, hexp0]

/-- The centre cell of the kernel of `main` for a `sigma` of `[2^(-400), 2^400]`: a
finite value of `[2^(-803), 2^798]`. -/
theorem centre_range (exp : Dbl → Dbl) (hexp0 : exp (Dbl.fin 0) = Dbl.fin 1) {s : ℚ}
    (h₁ : (2 : ℚ) ^ (-400 : Int) ≤ s) (h₂ : s ≤ (2 : ℚ) ^ (400 : Int)) (h : Nat) :
    ∃ v : ℚ, kernelAt (mainKernel exp (2 * (h : Int) + 1) (Dbl.fin s)) (0 + h) (0 + h) =
        Dbl.fin v ∧ gaussianVal exp (Dbl.fin s) 0 0 = Dbl.fin v ∧
      (2 : ℚ) ^ (-803 : Int) ≤ v ∧ v ≤ (2 : ℚ) ^ (798 : Int) := by
  obtain ⟨l, hl, l₁, l₂⟩ := kernelLp_range h₁ h₂
  obtain ⟨t, ht, _, _⟩ := kernelRp_range h₁ h₂
  obtain ⟨v, hv, v₁, v₂⟩ := Dbl.round_range (by norm_num) (by norm_num)
    (show (2 : ℚ) ^ (-803 : Int) ≤ l * 1 by rw [mul_one]; exact l₁)
    (show l * 1 ≤ (2 : ℚ) ^ (798 : Int) by rw [mul_one]; exact l₂)
  have e : gaussianVal exp (Dbl.fin s) 0 0 = Dbl.fin v := by
    rw [gaussianVal_centre exp (Dbl.fin s) ht, hexp0, hl, Dbl.mul_fin, hv]
  refine ⟨v, ?_, e, v₁, v₂⟩
  rw [kernelAt_mainKernel exp (Dbl.fin s) h (by omega) (by omega) (by omega) (by omega), e]

/-- The pixel stored for a 1×1 image whose centre weight is the finite value `w`. -/
theorem blurPixel_single (r : Bool) (p : Vec3b) {half : Int} (h0 : 0 ≤ half)
    (kernel : List (List Dbl)) {w : ℚ}
    (hw : kernelAt kernel (0 + half) (0 + half) = Dbl.fin w) :
    blurPixel r ⟨1, 1, [[p]]⟩ half kernel 0 0 =
      ⟨Dbl.toUchar (vecDivChannel r (Dbl.add 0 (Dbl.mul (Dbl.ofUchar p.c0) (Dbl.fin w)))
          (Dbl.add 0 (Dbl.fin w))),
        Dbl.toUchar (vecDivChannel r (Dbl.add 0 (Dbl.mul (Dbl.ofUchar p.c1) (Dbl.fin w)))
          (Dbl.add 0 (Dbl.fin w))),
        Dbl.toUchar (vecDivChannel r (Dbl.add 0 (Dbl.mul (Dbl.ofUchar p.c2) (Dbl.fin w)))
          (Dbl.add 0 (Dbl.fin w)))⟩ := by
  unfold blurPixel
  rw [blurAccumulate_single p h0, hw]

/-- The 1×1 image blurred with the kernel of `main`, for an exponential that returns 1
at zero and a `sigma` whose `lp` is the finite value `lp`. -/
theorem applyGaussianBlur_single_main (r : Bool) (exp : Dbl → Dbl)
    (hexp0 : exp (Dbl.fin 0) = Dbl.fin 1) (p : Vec3b) (h : Nat) (sigma : Dbl) {lp rp : ℚ}
    (hlp : kernelLp sigma = Dbl.fin lp) (hrp : kernelRp sigma = Dbl.fin rp)
    (hround : Dbl.round lp = Dbl.fin lp) :
    applyGaussianBlur r ⟨1, 1, [[p]]⟩ (2 * (h : Int) + 1)
        (mainKernel exp (2 * (h : Int) + 1) sigma) =
      ⟨1, 1, [[⟨Dbl.toUchar (vecDivChannel r
            (Dbl.add 0 (Dbl.mul (Dbl.ofUchar p.c0) (Dbl.fin lp))) (Dbl.add 0 (Dbl.fin lp))),
          Dbl.toUchar (vecDivChannel r
            (Dbl.add 0 (Dbl.mul (Dbl.ofUchar p.c1) (Dbl.fin lp))) (Dbl.add 0 (Dbl.fin lp))),
          Dbl.toUchar (vecDivChannel r
            (Dbl.add 0 (Dbl.mul (Dbl.ofUchar p.c2) (Dbl.fin lp)))
            (Dbl.add 0 (Dbl.fin lp)))⟩]]⟩ := by
  have hc : kernelAt (mainKernel exp (2 * (h : Int) + 1) sigma) (0 + h) (0 + h) =
      Dbl.fin lp := by
    rw [centre_mainKernel exp hexp0 sigma h hrp, hlp, Dbl.mul_fin, mul_one, hround]
  rw [applyGaussianBlur_single, tdiv_two_of_odd,
    blurPixel_single r p (Int.natCast_nonneg h) _ hc]

/-- The window of the pixel of a 1×1 image holds the one value of that pixel. -/
theorem windowValues_single (ch : Vec3b → Nat) (p : Vec3b) {half : Int} (h0 : 0 ≤ half) :
    windowValues ch ⟨1, 1, [[p]]⟩ half 0 0 = {ch p} := by
  unfold windowValues
  rw [inBoundsOffsets_single h0, Finset.image_singleton]
  rfl

/-- The stored value of a finite quotient of `[0, 256)`. -/
theorem toUchar_fin_eq {q : ℚ} {n : Nat} (h₁ : (n : ℚ) ≤ q) (h₂ : q < (n : ℚ) + 1)
    (hn : n < 256) : Dbl.toUchar (Dbl.fin q) = n := by
  have hq0 : 0 ≤ q := le_trans (Nat.cast_nonneg n) h₁
  have hf : Int.floor q = (n : Int) := by
    rw [Int.floor_eq_iff]
    exact ⟨by exact_mod_cast h₁, by exact_mod_cast h₂⟩
  show toUchar q = n
  unfold toUchar
  rw [truncZ_of_nonneg hq0, hf]
  omega

/-! ## A box kernel on a 1×3 image -/

theorem inBoundsOffsetList_row3 :
    inBoundsOffsetList 1 3 1 0 1 = [(0, -1), (0, 0), (0, 1)] := by
  decide

theorem weightedSum_row3 : weightedSum Vec3b.c0 row3 1 boxKernel3 0 1 = 2 := by
  unfold weightedSum
  have h : inBoundsOffsets row3.rows row3.cols 1 0 1 = {(0, -1), (0, 0), (0, 1)} :=
    inBoundsOffsets_row3
  rw [h]
  rw [Finset.sum_insert (by decide), Finset.sum_insert (by decide), Finset.sum_singleton]
  norm_num [weightAt, sourceAt, kernelAt, getCell, Mat.atVec3b, row3, boxKernel3, Dbl.toRat,
    (by decide : Int.toNat 2 = 2)]

theorem usedWeightTotal_row3 : usedWeightTotal row3 1 boxKernel3 0 1 = 3 := by
  unfold usedWeightTotal
  have h : inBoundsOffsets row3.rows row3.cols 1 0 1 = {(0, -1), (0, 0), (0, 1)} :=
    inBoundsOffsets_row3
  rw [h]
  rw [Finset.sum_insert (by decide), Finset.sum_insert (by decide), Finset.sum_singleton]
  norm_num [weightAt, kernelAt, getCell, boxKernel3, Dbl.toRat, (by decide : Int.toNat 2 = 2)]

theorem sumInOrder_row3 : sumInOrder Vec3b.c0 row3 1 boxKernel3 0 1 = Dbl.fin 2 := by
  unfold sumInOrder
  have e : inBoundsOffsetList row3.rows row3.cols 1 0 1 = [(0, -1), (0, 0), (0, 1)] :=
    inBoundsOffsetList_row3
  rw [e]
  obtain ⟨r1, r2, _⟩ := Dbl.round_small
  norm_num [List.foldl, sourceAt, weightAt, kernelAt, getCell, Mat.atVec3b, row3, boxKernel3,
    Dbl.ofUchar, Dbl.zero_add_fin, Dbl.add_fin, Dbl.mul_fin, Dbl.round_zero, r1, r2,
    (by decide : Int.toNat 2 = 2)]

theorem totalInOrder_row3 : totalInOrder row3 1 boxKernel3 0 1 = Dbl.fin 3 := by
  unfold totalInOrder
  have e : inBoundsOffsetList row3.rows row3.cols 1 0 1 = [(0, -1), (0, 0), (0, 1)] :=
    inBoundsOffsetList_row3
  rw [e]
  obtain ⟨r1, r2, r3⟩ := Dbl.round_small
  norm_num [List.foldl, weightAt, kernelAt, getCell, boxKernel3,
    Dbl.zero_add_fin, Dbl.add_fin, r1, r2, r3, (by decide : Int.toNat 2 = 2)]

/-- The cells of the 3×3 kernel of ones. -/
theorem boxKernel3_cells (a b : Nat) (ha : (a : Int) < 2 * ((1 : Nat) : Int) + 1)
    (hb : (b : Int) < 2 * ((1 : Nat) : Int) + 1) :
    ∃ v : ℚ, getCell 0 boxKernel3 a b = Dbl.fin v ∧ 0 ≤ v ∧ v ≤ (2 : ℚ) ^ (900 : Int) := by
  have ha' : a < 3 := by omega
  have hb' : b < 3 := by omega
  refine ⟨1, ?_, by norm_num, one_le_zpow₀ (by norm_num) (by norm_num)⟩
  interval_cases a <;> interval_cases b <;> rfl

theorem boxKernel3_centre :
    ∃ v : ℚ, weightAt boxKernel3 ((1 : Nat) : Int) (0, 0) = Dbl.fin v ∧
      (2 : ℚ) ^ (-900 : Int) ≤ v :=
  ⟨1, rfl, zpow_le_one_of_nonpos₀ (by norm_num) (by norm_num)⟩

/-- The half size as a natural number. -/
theorem tdiv_two_toNat {kernelSize : Int} (h0 : 0 ≤ kernelSize) (hmax : kernelSize ≤ 1023) :
    kernelSize.tdiv 2 = (((kernelSize.tdiv 2).toNat : Nat) : Int) ∧
      (kernelSize.tdiv 2).toNat ≤ 511 := by
  rw [Int.tdiv_eq_ediv h0 (by norm_num)]
  omega

/-- The constant `PI` of the program, the `double` nearest to its literal, lies below
the number π, by less than `10⁻¹⁵`. -/
theorem PI_near_pi :
    ((PI.toRat : ℚ) : ℝ) < Real.pi ∧ Real.pi < ((PI.toRat : ℚ) : ℝ) + 1 / 10 ^ 15 := by
  have h₁ := Real.pi_gt_d20
  have h₂ := Real.pi_lt_d20
  rw [PI_eq]
  simp only [Dbl.toRat]
  constructor
  · norm_num at h₁ ⊢
    linarith
  · norm_num at h₂ ⊢
    linarith

/-- A finite `double` other than zero is not the zero of the test `!sigma`. -/
theorem Dbl.fin_ne_zero {q : ℚ} (h : q ≠ 0) : Dbl.fin q ≠ Dbl.fin 0 :=
  fun e => h (Dbl.fin.inj e)

/-! ## Channel order -/

theorem luma211_reversed (p : Vec3b) : luma211 p.reversed = luma212 p := rfl

theorem optimized211_reversed (p : Vec3b) : optimized211 p.reversed = optimized212 p := rfl

theorem reversed_eq_self_iff (p : Vec3b) : p.reversed = p ↔ p.c0 = p.c2 := by
  obtain ⟨a, b, c⟩ := p
  constructor
  · intro h
    have h₂ := congrArg Vec3b.c2 h
    exact h₂
  · intro h
    have h' : a = c := h
    subst h'
    rfl

/-! ## Claims about the composition -/

/-- C1 (as stated, refuted).  On the 1×1 halves with left pixel `(1, 2, 3)` and right
pixel `(0, 0, 100)`, mode OPTIMIZED of `2.1.1-omp.cpp` stores `(30, 0, 3)` and mode
OPTIMIZED of `2.1.2-omp.cpp` stores `(0, 0, 1)`; the row OPTIMIZED of the
specification asks for `(0, 0, 3)`, so neither program stores the specified pixel.
With the right pixel `(0, 90, 0)` the exact value `0.7·90` is 63, whereas the product of
the `double` nearest to 0.7 with 90 rounds below 63 and `2.1.2-omp.cpp` stores 62 in
channel 0. -/
theorem c1_optimized_row_counterexample :
    (composePass211 5 ⟨1, 1, [[⟨1, 2, 3⟩]]⟩ ⟨1, 1, [[⟨0, 0, 100⟩]]⟩
        (Mat.create 1 1)).atVec3b 0 0 = ⟨30, 0, 3⟩ ∧
    (composePass212 5 ⟨1, 1, [[⟨1, 2, 3⟩]]⟩ ⟨1, 1, [[⟨0, 0, 100⟩]]⟩
        (Mat.create 1 1)).atVec3b 0 0 = ⟨0, 0, 1⟩ ∧
    specOptimizedPixel ⟨1, 2, 3⟩ ⟨0, 0, 100⟩ = ⟨0, 0, 3⟩ ∧
    (composePass212 5 ⟨1, 1, [[⟨1, 2, 3⟩]]⟩ ⟨1, 1, [[⟨0, 90, 0⟩]]⟩
        (Mat.create 1 1)).atVec3b 0 0 = ⟨62, 90, 1⟩ ∧
    specOptimizedPixel ⟨1, 2, 3⟩ ⟨0, 90, 0⟩ = ⟨63, 90, 3⟩ := by
  refine ⟨?_, ?_, ?_, ?_, ?_⟩
  · rw [composePass211_at 5 ⟨1, 1, [[⟨1, 2, 3⟩]]⟩ ⟨1, 1, [[⟨0, 0, 100⟩]]⟩
      (Mat.WF_create 1 1) (by decide) (by decide) (by decide)]
    have e : Mat.atVec3b ⟨1, 1, [[⟨0, 0, 100⟩]]⟩ 0 0 = ⟨0, 0, 100⟩ := rfl
    have e' : Mat.atVec3b ⟨1, 1, [[⟨1, 2, 3⟩]]⟩ 0 0 = ⟨1, 2, 3⟩ := rfl
    rw [e, e']
    norm_num [anaglyphPixel211, optimized211_0_0_100, toUchar, truncZ]
    decide
  · rw [composePass212_at 5 ⟨1, 1, [[⟨1, 2, 3⟩]]⟩ ⟨1, 1, [[⟨0, 0, 100⟩]]⟩
      (Mat.WF_create 1 1) (by decide) (by decide) (by decide)]
    have e : Mat.atVec3b ⟨1, 1, [[⟨0, 0, 100⟩]]⟩ 0 0 = ⟨0, 0, 100⟩ := rfl
    have e' : Mat.atVec3b ⟨1, 1, [[⟨1, 2, 3⟩]]⟩ 0 0 = ⟨1, 2, 3⟩ := rfl
    rw [e, e']
    norm_num [anaglyphPixel212, optimized212_0_0_100, toUchar, truncZ]
  · norm_num [specOptimizedPixel, specOptimizedMix, truncZ]
  · rw [composePass212_at 5 ⟨1, 1, [[⟨1, 2, 3⟩]]⟩ ⟨1, 1, [[⟨0, 90, 0⟩]]⟩
      (Mat.WF_create 1 1) (by decide) (by decide) (by decide)]
    have e : Mat.atVec3b ⟨1, 1, [[⟨0, 90, 0⟩]]⟩ 0 0 = ⟨0, 90, 0⟩ := rfl
    have e' : Mat.atVec3b ⟨1, 1, [[⟨1, 2, 3⟩]]⟩ 0 0 = ⟨1, 2, 3⟩ := rfl
    rw [e, e']
    norm_num [anaglyphPixel212, optimized212_0_90_0, toUchar, truncZ]
    decide
  · norm_num [specOptimizedPixel, specOptimizedMix, truncZ]
    decide

/-- C1 (amended).  For well-formed halves of equal size, a destination of that size
and every pixel position `(i, j)` whose right pixel has 8-bit channels, mode OPTIMIZED
(code 5) stores `(m, right.c1, left.c2)` in `2.1.1-omp.cpp`, where `m` is the
truncation of `0.7 * right.c1 + 0.3 * right.c2` evaluated in `double` arithmetic, and
`(m', right.c1, left.c0)` in `2.1.2-omp.cpp`, where `m'` is the truncation of
`0.7 * right.c1 + 0.3 * right.c0` evaluated in `double` arithmetic.  Each of `m`, `m'`
is the truncation `t` of the exact real value or `t - 1`, and it is `t` whenever the
exact value is not a whole number. -/
theorem c1_optimized_pixel (left right dst : Mat) (hl : left.WF) (hr : right.WF)
    (hd : dst.WF) (hlr : right.sameSize left) (hdl : dst.sameSize left) (i j : Nat)
    (hi : i < left.rows) (hj : j < left.cols) (hv : (right.atVec3b i j).valid) :
    (composePass211 5 left right dst).atVec3b i j =
      ⟨toUchar (optimized211 (right.atVec3b i j)),
        (right.atVec3b i j).c1, (left.atVec3b i j).c2⟩ ∧
    (composePass212 5 left right dst).atVec3b i j =
      ⟨toUchar (optimized212 (right.atVec3b i j)),
        (right.atVec3b i j).c1, (left.atVec3b i j).c0⟩ ∧
    ((toUchar (optimized211 (right.atVec3b i j)) =
          (truncZ (7 / 10 * ((right.atVec3b i j).c1 : ℚ) +
            3 / 10 * ((right.atVec3b i j).c2 : ℚ))).toNat ∨
        toUchar (optimized211 (right.atVec3b i j)) + 1 =
          (truncZ (7 / 10 * ((right.atVec3b i j).c1 : ℚ) +
            3 / 10 * ((right.atVec3b i j).c2 : ℚ))).toNat) ∧
      ((7 * (right.atVec3b i j).c1 + 3 * (right.atVec3b i j).c2) % 10 ≠ 0 →
        toUchar (optimized211 (right.atVec3b i j)) =
          (truncZ (7 / 10 * ((right.atVec3b i j).c1 : ℚ) +
            3 / 10 * ((right.atVec3b i j).c2 : ℚ))).toNat)) ∧
    ((toUchar (optimized212 (right.atVec3b i j)) =
          (truncZ (7 / 10 * ((right.atVec3b i j).c1 : ℚ) +
            3 / 10 * ((right.atVec3b i j).c0 : ℚ))).toNat ∨
        toUchar (optimized212 (right.atVec3b i j)) + 1 =
          (truncZ (7 / 10 * ((right.atVec3b i j).c1 : ℚ) +
            3 / 10 * ((right.atVec3b i j).c0 : ℚ))).toNat) ∧
      ((7 * (right.atVec3b i j).c1 + 3 * (right.atVec3b i j).c0) % 10 ≠ 0 →
        toUchar (optimized212 (right.atVec3b i j)) =
          (truncZ (7 / 10 * ((right.atVec3b i j).c1 : ℚ) +
            3 / 10 * ((right.atVec3b i j).c0 : ℚ))).toNat)) := by
  have _ := hl
  have _ := hr
  have _ := hlr
  refine ⟨?_, ?_, ?_, ?_⟩
  · rw [composePass211_at 5 left right hd hdl hi hj]
    simp [anaglyphPixel211]
  · rw [composePass212_at 5 left right hd hdl hi hj]
    simp [anaglyphPixel212]
  · obtain ⟨h0, h1, he⟩ := optimized211_bounds hv
    exact toUchar_mix_near h0 h1 he
  · obtain ⟨h0, h1, he⟩ := optimized212_bounds hv
    exact toUchar_mix_near h0 h1 he

/-- C1 (amended), applied to the 2×1 halves with left column `(1, 2, 3)`, `(4, 5, 6)`
and right column `(0, 0, 100)`, `(7, 8, 9)`, at position `(1, 0)`. -/
theorem c1_optimized_pixel_witness :
    (composePass211 5 ⟨2, 1, [[⟨1, 2, 3⟩], [⟨4, 5, 6⟩]]⟩
        ⟨2, 1, [[⟨0, 0, 100⟩], [⟨7, 8, 9⟩]]⟩ (Mat.create 2 1)).atVec3b 1 0 =
      ⟨toUchar (optimized211 ⟨7, 8, 9⟩), 8, 6⟩ ∧
    (composePass212 5 ⟨2, 1, [[⟨1, 2, 3⟩], [⟨4, 5, 6⟩]]⟩
        ⟨2, 1, [[⟨0, 0, 100⟩], [⟨7, 8, 9⟩]]⟩ (Mat.create 2 1)).atVec3b 1 0 =
      ⟨toUchar (optimized212 ⟨7, 8, 9⟩), 8, 4⟩ :=
  have h := c1_optimized_pixel ⟨2, 1, [[⟨1, 2, 3⟩], [⟨4, 5, 6⟩]]⟩
    ⟨2, 1, [[⟨0, 0, 100⟩], [⟨7, 8, 9⟩]]⟩ (Mat.create 2 1) (by decide) (by decide)
    (by decide) (by decide) (by decide) 1 0 (by decide) (by decide) (by decide)
  ⟨h.1, h.2.1⟩

/-- C2 (as stated, refuted).  For the pixel `(0, 63, 49)` the exact luma
`0.578·63 + 0.114·49` is 42, so the specification asks for 42; in `double` arithmetic
the sum is `41.99999999999999` and mode GRAY of `2.1.1-omp.cpp`, on halves that both
hold this pixel, stores `(41, 41, 41)`. -/
theorem c2_exact_luma_counterexample :
    (composePass211 2 ⟨1, 1, [[⟨0, 63, 49⟩]]⟩ ⟨1, 1, [[⟨0, 63, 49⟩]]⟩
        (Mat.create 1 1)).atVec3b 0 0 = ⟨41, 41, 41⟩ ∧
    specLuma ⟨0, 63, 49⟩ = 42 ∧
    (composePass211 2 ⟨1, 1, [[⟨0, 63, 49⟩]]⟩ ⟨1, 1, [[⟨0, 63, 49⟩]]⟩
        (Mat.create 1 1)).atVec3b 0 0 ≠
      ⟨specLuma ⟨0, 63, 49⟩, specLuma ⟨0, 63, 49⟩, specLuma ⟨0, 63, 49⟩⟩ := by
  have hcode : (composePass211 2 ⟨1, 1, [[⟨0, 63, 49⟩]]⟩ ⟨1, 1, [[⟨0, 63, 49⟩]]⟩
      (Mat.create 1 1)).atVec3b 0 0 = ⟨41, 41, 41⟩ := by
    rw [composePass211_at 2 ⟨1, 1, [[⟨0, 63, 49⟩]]⟩ ⟨1, 1, [[⟨0, 63, 49⟩]]⟩
      (Mat.WF_create 1 1) (by decide) (by decide) (by decide)]
    have e : Mat.atVec3b ⟨1, 1, [[⟨0, 63, 49⟩]]⟩ 0 0 = ⟨0, 63, 49⟩ := rfl
    rw [e]
    norm_num [anaglyphPixel211, luma211_0_63_49, toUchar, truncZ]
    decide
  have hspec : specLuma ⟨0, 63, 49⟩ = 42 := by
    rw [specLuma_eq]
    decide
  refine ⟨hcode, hspec, ?_⟩
  rw [hcode, hspec]
  decide

/-- C2 (amended).  For well-formed halves of equal size, a destination of that size and
every pixel position `(i, j)` whose pixels have 8-bit channels, with `L(p)` the
truncation of `0.299 * p.c0 + 0.578 * p.c1 + 0.114 * p.c2` evaluated in `double`
arithmetic, the pass of `2.1.1-omp.cpp` stores `(L(right), 0, L(left))` in mode TRUE
(code 1), `(L(right), L(right), L(left))` in mode GRAY (code 2) and
`(L(right), right.c1, left.c2)` in mode HALFCOLOR (code 4).  `L(p)` is the truncation
`t` of the exactly evaluated luma or `t - 1`, and it is `t` whenever the exact luma is
not a whole number. -/
theorem c2_luma_modes (left right dst : Mat) (hl : left.WF) (hr : right.WF)
    (hd : dst.WF) (hlr : right.sameSize left) (hdl : dst.sameSize left) (i j : Nat)
    (hi : i < left.rows) (hj : j < left.cols) (hvl : (left.atVec3b i j).valid)
    (hvr : (right.atVec3b i j).valid) :
    (composePass211 1 left right dst).atVec3b i j =
      ⟨toUchar (luma211 (right.atVec3b i j)), 0, toUchar (luma211 (left.atVec3b i j))⟩ ∧
    (composePass211 2 left right dst).atVec3b i j =
      ⟨toUchar (luma211 (right.atVec3b i j)), toUchar (luma211 (right.atVec3b i j)),
        toUchar (luma211 (left.atVec3b i j))⟩ ∧
    (composePass211 4 left right dst).atVec3b i j =
      ⟨toUchar (luma211 (right.atVec3b i j)), (right.atVec3b i j).c1,
        (left.atVec3b i j).c2⟩ ∧
    (∀ p : Vec3b, p.valid →
      (toUchar (luma211 p) = specLuma p ∨ toUchar (luma211 p) + 1 = specLuma p) ∧
      ((299 * p.c0 + 578 * p.c1 + 114 * p.c2) % 1000 ≠ 0 →
        toUchar (luma211 p) = specLuma p)) := by
  have _ := hl
  have _ := hr
  have _ := hlr
  have _ := hvl
  have _ := hvr
  refine ⟨?_, ?_, ?_, fun p hp => toUchar_luma211_near hp⟩
  · rw [composePass211_at 1 left right hd hdl hi hj]
    simp [anaglyphPixel211]
  · rw [composePass211_at 2 left right hd hdl hi hj]
    simp [anaglyphPixel211]
  · rw [composePass211_at 4 left right hd hdl hi hj]
    simp [anaglyphPixel211]

/-- C2 (amended), applied to the 1×2 halves with left row `(1, 2, 3)`, `(10, 20, 30)`
and right row `(7, 8, 9)`, `(40, 50, 60)`, at position `(0, 1)`. -/
theorem c2_luma_modes_witness :
    (composePass211 1 ⟨1, 2, [[⟨1, 2, 3⟩, ⟨10, 20, 30⟩]]⟩
        ⟨1, 2, [[⟨7, 8, 9⟩, ⟨40, 50, 60⟩]]⟩ (Mat.create 1 2)).atVec3b 0 1 =
      ⟨toUchar (luma211 ⟨40, 50, 60⟩), 0, toUchar (luma211 ⟨10, 20, 30⟩)⟩ ∧
    (composePass211 2 ⟨1, 2, [[⟨1, 2, 3⟩, ⟨10, 20, 30⟩]]⟩
        ⟨1, 2, [[⟨7, 8, 9⟩, ⟨40, 50, 60⟩]]⟩ (Mat.create 1 2)).atVec3b 0 1 =
      ⟨toUchar (luma211 ⟨40, 50, 60⟩), toUchar (luma211 ⟨40, 50, 60⟩),
        toUchar (luma211 ⟨10, 20, 30⟩)⟩ ∧
    (composePass211 4 ⟨1, 2, [[⟨1, 2, 3⟩, ⟨10, 20, 30⟩]]⟩
        ⟨1, 2, [[⟨7, 8, 9⟩, ⟨40, 50, 60⟩]]⟩ (Mat.create 1 2)).atVec3b 0 1 =
      ⟨toUchar (luma211 ⟨40, 50, 60⟩), 50, 30⟩ :=
  have h := c2_luma_modes ⟨1, 2, [[⟨1, 2, 3⟩, ⟨10, 20, 30⟩]]⟩
    ⟨1, 2, [[⟨7, 8, 9⟩, ⟨40, 50, 60⟩]]⟩
    (Mat.create 1 2) (by decide) (by decide) (by decide) (by decide) (by decide) 0 1
    (by decide) (by decide) (by decide) (by decide)
  ⟨h.1, h.2.1, h.2.2.1⟩

/-- C3 (as stated, refuted).  On the 1×1 halves with left pixel `(10, 20, 30)` and
right pixel `(40, 50, 60)`, mode GRAY of `2.1.1-omp.cpp` does not store
`(48, 48, 18)`. -/
theorem c3_gray_scenario_counterexample :
    (composePass211 2 ⟨1, 1, [[⟨10, 20, 30⟩]]⟩ ⟨1, 1, [[⟨40, 50, 60⟩]]⟩
        (Mat.create 1 1)).atVec3b 0 0 ≠ ⟨48, 48, 18⟩ := by
  rw [composePass211_at 2 ⟨1, 1, [[⟨10, 20, 30⟩]]⟩ ⟨1, 1, [[⟨40, 50, 60⟩]]⟩
    (Mat.WF_create 1 1) (by decide) (by decide) (by decide)]
  have e : Mat.atVec3b ⟨1, 1, [[⟨40, 50, 60⟩]]⟩ 0 0 = ⟨40, 50, 60⟩ := rfl
  have e' : Mat.atVec3b ⟨1, 1, [[⟨10, 20, 30⟩]]⟩ 0 0 = ⟨10, 20, 30⟩ := rfl
  rw [e, e']
  norm_num [anaglyphPixel211, luma211_40_50_60, luma211_10_20_30, toUchar, truncZ]
  decide

/-- C3 (amended).  Wherever the left pixel is `(10, 20, 30)` and the right pixel is
`(40, 50, 60)`, mode GRAY of `2.1.1-omp.cpp` stores `(47, 47, 17)`: the lumas are
`47.70` and `17.97` (in `double` arithmetic, the `double`s nearest to these two
numbers), and the conversion discards the fractional part. -/
theorem c3_gray_scenario (left right dst : Mat) (hl : left.WF) (hr : right.WF)
    (hd : dst.WF) (hlr : right.sameSize left) (hdl : dst.sameSize left) (i j : Nat)
    (hi : i < left.rows) (hj : j < left.cols) (hpl : left.atVec3b i j = ⟨10, 20, 30⟩)
    (hpr : right.atVec3b i j = ⟨40, 50, 60⟩) :
    (composePass211 2 left right dst).atVec3b i j = ⟨47, 47, 17⟩ ∧
    luma211 ⟨40, 50, 60⟩ = roundToDouble (477 / 10) ∧
    luma211 ⟨10, 20, 30⟩ = roundToDouble (1797 / 100) := by
  have _ := hl
  have _ := hr
  have _ := hlr
  refine ⟨?_, by rw [luma211_40_50_60, double_477_10],
    by rw [luma211_10_20_30, double_1797_100]⟩
  rw [composePass211_at 2 left right hd hdl hi hj, hpl, hpr]
  norm_num [anaglyphPixel211, luma211_40_50_60, luma211_10_20_30, toUchar, truncZ]
  decide

/-- C3 (amended), applied to the 1×1 halves of the scenario. -/
theorem c3_gray_scenario_witness :
    (composePass211 2 ⟨1, 1, [[⟨10, 20, 30⟩]]⟩ ⟨1, 1, [[⟨40, 50, 60⟩]]⟩
        (Mat.create 1 1)).atVec3b 0 0 = ⟨47, 47, 17⟩ ∧
    luma211 ⟨40, 50, 60⟩ = roundToDouble (477 / 10) ∧
    luma211 ⟨10, 20, 30⟩ = roundToDouble (1797 / 100) :=
  c3_gray_scenario ⟨1, 1, [[⟨10, 20, 30⟩]]⟩ ⟨1, 1, [[⟨40, 50, 60⟩]]⟩ (Mat.create 1 1)
    (by decide) (by decide) (by decide) (by decide) (by decide) 0 0 (by decide)
    (by decide) rfl rfl

/-- C4.  For well-formed halves of equal size, a destination of that size and every
pixel position `(i, j)`, mode COLOR (code 3) of `2.1.1-omp.cpp` stores
`(right.c0, right.c1, left.c2)`, the channels being copied without arithmetic; for
the left pixel `(10, 20, 30)` and the right pixel `(40, 50, 60)` the switch gives
`(40, 50, 30)`. -/
theorem c4_color_mode (left right dst : Mat) (hl : left.WF) (hr : right.WF)
    (hd : dst.WF) (hlr : right.sameSize left) (hdl : dst.sameSize left) (i j : Nat)
    (hi : i < left.rows) (hj : j < left.cols) :
    (composePass211 3 left right dst).atVec3b i j =
      ⟨(right.atVec3b i j).c0, (right.atVec3b i j).c1, (left.atVec3b i j).c2⟩ ∧
    anaglyphPixel211 3 ⟨10, 20, 30⟩ ⟨40, 50, 60⟩ = ⟨40, 50, 30⟩ := by
  have _ := hl
  have _ := hr
  have _ := hlr
  refine ⟨?_, by decide⟩
  rw [composePass211_at 3 left right hd hdl hi hj]
  simp [anaglyphPixel211]

/-- C4, applied to the 1×1 halves with left pixel `(10, 20, 30)` and right pixel
`(40, 50, 60)`. -/
theorem c4_color_mode_witness :
    (composePass211 3 ⟨1, 1, [[⟨10, 20, 30⟩]]⟩ ⟨1, 1, [[⟨40, 50, 60⟩]]⟩
        (Mat.create 1 1)).atVec3b 0 0 =
      ⟨(Mat.atVec3b ⟨1, 1, [[⟨40, 50, 60⟩]]⟩ 0 0).c0,
        (Mat.atVec3b ⟨1, 1, [[⟨40, 50, 60⟩]]⟩ 0 0).c1,
        (Mat.atVec3b ⟨1, 1, [[⟨10, 20, 30⟩]]⟩ 0 0).c2⟩ ∧
    anaglyphPixel211 3 ⟨10, 20, 30⟩ ⟨40, 50, 60⟩ = ⟨40, 50, 30⟩ :=
  c4_color_mode ⟨1, 1, [[⟨10, 20, 30⟩]]⟩ ⟨1, 1, [[⟨40, 50, 60⟩]]⟩ (Mat.create 1 1)
    (by decide) (by decide) (by decide) (by decide) (by decide) 0 0 (by decide)
    (by decide)

/-- C5.  For well-formed halves of equal size, a destination of that size and every
mode code, the image left by the pass of `2.1.1-omp.cpp` has the rows and columns of
the inputs and a buffer of exactly that shape; in mode NONE (code 0) every output
pixel equals the left pixel at the same position, so the output is the left image. -/
theorem c5_size_and_none (ty : Int) (left right dst : Mat) (hl : left.WF)
    (hr : right.WF) (hd : dst.WF) (hlr : right.sameSize left) (hdl : dst.sameSize left) :
    (composePass211 ty left right dst).rows = left.rows ∧
    (composePass211 ty left right dst).cols = left.cols ∧
    (composePass211 ty left right dst).rows = right.rows ∧
    (composePass211 ty left right dst).cols = right.cols ∧
    (composePass211 ty left right dst).WF ∧
    (∀ i j, i < left.rows → j < left.cols →
      (composePass211 0 left right dst).atVec3b i j = left.atVec3b i j) ∧
    composePass211 0 left right dst = left := by
  have _ := hr
  have hpt : ∀ i j, i < left.rows → j < left.cols →
      (composePass211 0 left right dst).atVec3b i j = left.atVec3b i j := by
    intro i j hi hj
    rw [composePass211_at 0 left right hd hdl hi hj]
    simp [anaglyphPixel211]
  have hrows : (composePass211 ty left right dst).rows = left.rows := hdl.1
  have hcols : (composePass211 ty left right dst).cols = left.cols := hdl.2
  refine ⟨hrows, hcols, hrows.trans hlr.1.symm, hcols.trans hlr.2.symm,
    composePass211_WF ty left right hd hdl, hpt, ?_⟩
  refine Mat.ext_of_WF (composePass211_WF 0 left right hd hdl) hl hdl ?_
  intro a b ha hb
  exact hpt a b (by rw [← hdl.1]; exact ha) (by rw [← hdl.2]; exact hb)

/-- C5, applied with mode COLOR to the 1×2 halves with left row `(1, 2, 3)`,
`(10, 20, 30)` and right row `(7, 8, 9)`, `(40, 50, 60)` and a fresh destination. -/
theorem c5_size_and_none_witness :
    (composePass211 3 ⟨1, 2, [[⟨1, 2, 3⟩, ⟨10, 20, 30⟩]]⟩
      ⟨1, 2, [[⟨7, 8, 9⟩, ⟨40, 50, 60⟩]]⟩ (Mat.create 1 2)).rows = 1 ∧
    (composePass211 3 ⟨1, 2, [[⟨1, 2, 3⟩, ⟨10, 20, 30⟩]]⟩
      ⟨1, 2, [[⟨7, 8, 9⟩, ⟨40, 50, 60⟩]]⟩ (Mat.create 1 2)).cols = 2 ∧
    composePass211 0 ⟨1, 2, [[⟨1, 2, 3⟩, ⟨10, 20, 30⟩]]⟩
      ⟨1, 2, [[⟨7, 8, 9⟩, ⟨40, 50, 60⟩]]⟩ (Mat.create 1 2) =
      ⟨1, 2, [[⟨1, 2, 3⟩, ⟨10, 20, 30⟩]]⟩ :=
  have h := c5_size_and_none 3 ⟨1, 2, [[⟨1, 2, 3⟩, ⟨10, 20, 30⟩]]⟩
    ⟨1, 2, [[⟨7, 8, 9⟩, ⟨40, 50, 60⟩]]⟩ (Mat.create 1 2) (by decide) (by decide)
    (by decide) (by decide) (by decide)
  ⟨h.1, h.2.1, h.2.2.2.2.2.2⟩

/-- C6.  For every integer mode code outside `{1, 2, 3, 4, 5}` the switch of
`2.1.1-omp.cpp`, and likewise the switch of `2.1.2-omp.cpp` and
`2.1.2_anaglyphs-omp.cpp`, takes the default branch: the output pixel is the left
pixel, which is also the output of mode NONE (code 0). -/
theorem c6_default_branch (ty : Int) (h : ty < 1 ∨ 5 < ty) (l r : Vec3b) :
    anaglyphPixel211 ty l r = l ∧ anaglyphPixel211 ty l r = anaglyphPixel211 0 l r ∧
    anaglyphPixel212 ty l r = l ∧ anaglyphPixel212 ty l r = anaglyphPixel212 0 l r := by
  have h1 : ty ≠ 1 := by omega
  have h2 : ty ≠ 2 := by omega
  have h3 : ty ≠ 3 := by omega
  have h4 : ty ≠ 4 := by omega
  have h5 : ty ≠ 5 := by omega
  simp [anaglyphPixel211, anaglyphPixel212, h1, h2, h3, h4, h5]

/-- C6, applied to the code `-3` and the pixels `(10, 20, 30)`, `(40, 50, 60)`. -/
theorem c6_default_branch_witness :
    anaglyphPixel211 (-3) ⟨10, 20, 30⟩ ⟨40, 50, 60⟩ = ⟨10, 20, 30⟩ ∧
    anaglyphPixel211 (-3) ⟨10, 20, 30⟩ ⟨40, 50, 60⟩ =
      anaglyphPixel211 0 ⟨10, 20, 30⟩ ⟨40, 50, 60⟩ ∧
    anaglyphPixel212 (-3) ⟨10, 20, 30⟩ ⟨40, 50, 60⟩ = ⟨10, 20, 30⟩ ∧
    anaglyphPixel212 (-3) ⟨10, 20, 30⟩ ⟨40, 50, 60⟩ =
      anaglyphPixel212 0 ⟨10, 20, 30⟩ ⟨40, 50, 60⟩ :=
  c6_default_branch (-3) (by decide) ⟨10, 20, 30⟩ ⟨40, 50, 60⟩

/-- C7.  For every left and right pixel with channels in `0..255` and every mode
code, each real-valued channel expression of the composition (the luma of the right
and of the left pixel and the OPTIMIZED mix of the right pixel, in the channel order
of `2.1.1-omp.cpp` and in that of `2.1.2-omp.cpp`) lies in `[0, 255]`, its truncation
is an integer of `0..255`, and the narrowing to an 8-bit channel returns the
truncation without wrapping; every channel of the output pixel is below 256. -/
theorem c7_channels_in_range (ty : Int) (l r : Vec3b) (hl : l.valid) (hr : r.valid) :
    narrowsExactly (luma211 r) ∧ narrowsExactly (luma211 l) ∧
    narrowsExactly (optimized211 r) ∧
    narrowsExactly (luma212 r) ∧ narrowsExactly (luma212 l) ∧
    narrowsExactly (optimized212 r) ∧
    (anaglyphPixel211 ty l r).valid ∧ (anaglyphPixel212 ty l r).valid :=
  ⟨narrowsExactly_of_range (luma211_range hr).1 (luma211_range hr).2,
    narrowsExactly_of_range (luma211_range hl).1 (luma211_range hl).2,
    narrowsExactly_of_range (optimized211_range hr).1 (optimized211_range hr).2,
    narrowsExactly_of_range (luma212_range hr).1 (luma212_range hr).2,
    narrowsExactly_of_range (luma212_range hl).1 (luma212_range hl).2,
    narrowsExactly_of_range (optimized212_range hr).1 (optimized212_range hr).2,
    anaglyphPixel211_valid ty hl hr, anaglyphPixel212_valid ty hl hr⟩

/-- C7, applied to mode GRAY and the brightest pixels `(255, 255, 255)`. -/
theorem c7_channels_in_range_witness :
    narrowsExactly (luma211 ⟨255, 255, 255⟩) ∧ narrowsExactly (luma211 ⟨255, 255, 255⟩) ∧
    narrowsExactly (optimized211 ⟨255, 255, 255⟩) ∧
    narrowsExactly (luma212 ⟨255, 255, 255⟩) ∧ narrowsExactly (luma212 ⟨255, 255, 255⟩) ∧
    narrowsExactly (optimized212 ⟨255, 255, 255⟩) ∧
    (anaglyphPixel211 2 ⟨255, 255, 255⟩ ⟨255, 255, 255⟩).valid ∧
    (anaglyphPixel212 2 ⟨255, 255, 255⟩ ⟨255, 255, 255⟩).valid :=
  c7_channels_in_range 2 ⟨255, 255, 255⟩ ⟨255, 255, 255⟩ (by decide) (by decide)

/-! ## Claims about the blur -/

/-- C8 (as stated, refuted).  On the 1×3 image `(0,0,0), (1,1,1), (1,1,1)` with the
3×3 kernel of ones, the in-bounds weighted sum at pixel `(0, 1)` is 2 and the
used-weight total is 3; `applyGaussianBlur` stores channel 0 equal to 0, in either
reading of the division, whereas the quotient `2/3` rounded to the nearest integer and
clamped is 1. -/
theorem c8_rounding_counterexample :
    weightedSum Vec3b.c0 row3 ((3 : Int).tdiv 2) boxKernel3 0 1 = 2 ∧
    usedWeightTotal row3 ((3 : Int).tdiv 2) boxKernel3 0 1 = 3 ∧
    ((applyGaussianBlur true row3 3 boxKernel3).atVec3b 0 1).c0 = 0 ∧
    ((applyGaussianBlur false row3 3 boxKernel3).atVec3b 0 1).c0 = 0 ∧
    specBlurChannel Vec3b.c0 row3 ((3 : Int).tdiv 2) boxKernel3 0 1 = 1 := by
  have hh : (3 : Int).tdiv 2 = 1 := by decide
  have hcode : ∀ r : Bool, ((applyGaussianBlur r row3 3 boxKernel3).atVec3b 0 1).c0 = 0 := by
    intro r
    rw [applyGaussianBlur_at row3 3 boxKernel3 (by decide : 0 < row3.rows)
      (by decide : 1 < row3.cols), blurPixel_eq_inOrder, hh]
    simp only []
    rw [sumInOrder_row3, totalInOrder_row3]
    cases r with
    | false =>
      rw [quotient_two_three_div]
      exact toUchar_fin_eq (by norm_num) (by norm_num) (by norm_num)
    | true =>
      rw [quotient_two_three_recip]
      exact toUchar_fin_eq (by norm_num) (by norm_num) (by norm_num)
  have hspec : specBlurChannel Vec3b.c0 row3 ((3 : Int).tdiv 2) boxKernel3 0 1 = 1 := by
    unfold specBlurChannel roundClamp
    rw [hh, weightedSum_row3, usedWeightTotal_row3]
    norm_num [round_eq]
  exact ⟨by rw [hh]; exact weightedSum_row3, by rw [hh]; exact usedWeightTotal_row3,
    hcode true, hcode false, hspec⟩

/-- C8 (amended).  For every image, every kernel and every output pixel `(y, x)`, each
output channel of `applyGaussianBlur` is the quotient, formed in `double` arithmetic by
the division operator of `cv::Vec` and narrowed to an 8-bit channel by discarding the
fractional part, of the sum of `src[y + i][x + j] * kernel[i + half][j + half]` by the
sum of the same weights, both accumulated in `double` arithmetic over the offsets
`(i, j)` with `(y + i, x + j)` inside the image in the order of the loops, every such
offset being met once.  The result is neither rounded to the nearest integer nor
clamped.  For an image with 8-bit channels and a kernel of at most 1023 × 1023 cells
whose in-bounds weights are finite values of `[0, 2^900]`, the centre weight being at
least `2^(-900)`, that quotient is a finite number of `[0, 256)`, so that the stored
value is its truncation, and it differs by at most `2^(-19)` from the exact quotient of
the exact weighted sum by the exact used-weight total. -/
theorem c8_blur_pixel (r : Bool) (src : Mat) (hwf : src.WF) (kernelSize : Int)
    (kernel : List (List Dbl)) (y x : Nat) (hy : y < src.rows) (hx : x < src.cols) :
    (applyGaussianBlur r src kernelSize kernel).atVec3b y x =
      ⟨Dbl.toUchar (vecDivChannel r
          (sumInOrder Vec3b.c0 src (kernelSize.tdiv 2) kernel y x)
          (totalInOrder src (kernelSize.tdiv 2) kernel y x)),
        Dbl.toUchar (vecDivChannel r
          (sumInOrder Vec3b.c1 src (kernelSize.tdiv 2) kernel y x)
          (totalInOrder src (kernelSize.tdiv 2) kernel y x)),
        Dbl.toUchar (vecDivChannel r
          (sumInOrder Vec3b.c2 src (kernelSize.tdiv 2) kernel y x)
          (totalInOrder src (kernelSize.tdiv 2) kernel y x))⟩ ∧
    (∀ o, o ∈ inBoundsOffsetList src.rows src.cols (kernelSize.tdiv 2) y x ↔
      o ∈ inBoundsOffsets src.rows src.cols (kernelSize.tdiv 2) y x) ∧
    (inBoundsOffsetList src.rows src.cols (kernelSize.tdiv 2) y x).Nodup ∧
    (src.valid → 0 ≤ kernelSize → kernelSize ≤ 1023 →
      (∀ o ∈ inBoundsOffsetList src.rows src.cols (kernelSize.tdiv 2) y x,
        ∃ v : ℚ, weightAt kernel (kernelSize.tdiv 2) o = Dbl.fin v ∧ 0 ≤ v ∧
          v ≤ (2 : ℚ) ^ (900 : Int)) →
      (∃ v : ℚ, weightAt kernel (kernelSize.tdiv 2) (0, 0) = Dbl.fin v ∧
        (2 : ℚ) ^ (-900 : Int) ≤ v) →
      ∀ ch : Vec3b → Nat, (∀ p : Vec3b, p.valid → ch p < 256) →
        ∃ q : ℚ,
          vecDivChannel r (sumInOrder ch src (kernelSize.tdiv 2) kernel y x)
            (totalInOrder src (kernelSize.tdiv 2) kernel y x) = Dbl.fin q ∧
          0 ≤ q ∧ q < 256 ∧ (Dbl.toUchar (Dbl.fin q) : Int) = truncZ q ∧
          0 < usedWeightTotal src (kernelSize.tdiv 2) kernel y x ∧
          |q - weightedSum ch src (kernelSize.tdiv 2) kernel y x /
              usedWeightTotal src (kernelSize.tdiv 2) kernel y x| ≤ 1 / 2 ^ (19 : Nat)) := by
  have _ := hwf
  refine ⟨?_, fun o => mem_inBoundsOffsetList_iff, nodup_inBoundsOffsetList _ _ _ _ _, ?_⟩
  · rw [applyGaussianBlur_at src kernelSize kernel hy hx, blurPixel_eq_inOrder]
  · intro hv h0 hmax hw hw₀ ch hch
    obtain ⟨e, hh⟩ := tdiv_two_toNat h0 hmax
    rw [e] at hw hw₀ ⊢
    obtain ⟨q, hq, q0, q₁, E0, _, _, hnear⟩ := blur_quotient_near_exact r ch src _ hh kernel
      hy hx hw hw₀ (fun o ho => sourceAt_le ch hch src hv ho)
    exact ⟨q, hq, q0, q₁, (toUchar_of_range q0 q₁).1, E0, hnear⟩

/-- C8 (amended), applied to the 1×3 image `(0,0,0), (1,1,1), (1,1,1)`, the 3×3 kernel
of ones and the pixel `(0, 1)`, with the division by the reciprocal. -/
theorem c8_blur_pixel_witness :
    (applyGaussianBlur true row3 3 boxKernel3).atVec3b 0 1 =
      ⟨Dbl.toUchar (vecDivChannel true
          (sumInOrder Vec3b.c0 row3 ((3 : Int).tdiv 2) boxKernel3 0 1)
          (totalInOrder row3 ((3 : Int).tdiv 2) boxKernel3 0 1)),
        Dbl.toUchar (vecDivChannel true
          (sumInOrder Vec3b.c1 row3 ((3 : Int).tdiv 2) boxKernel3 0 1)
          (totalInOrder row3 ((3 : Int).tdiv 2) boxKernel3 0 1)),
        Dbl.toUchar (vecDivChannel true
          (sumInOrder Vec3b.c2 row3 ((3 : Int).tdiv 2) boxKernel3 0 1)
          (totalInOrder row3 ((3 : Int).tdiv 2) boxKernel3 0 1))⟩ ∧
    ∃ q : ℚ,
      vecDivChannel true (sumInOrder Vec3b.c0 row3 ((3 : Int).tdiv 2) boxKernel3 0 1)
        (totalInOrder row3 ((3 : Int).tdiv 2) boxKernel3 0 1) = Dbl.fin q ∧
      0 ≤ q ∧ q < 256 ∧ (Dbl.toUchar (Dbl.fin q) : Int) = truncZ q ∧
      0 < usedWeightTotal row3 ((3 : Int).tdiv 2) boxKernel3 0 1 ∧
      |q - weightedSum Vec3b.c0 row3 ((3 : Int).tdiv 2) boxKernel3 0 1 /
          usedWeightTotal row3 ((3 : Int).tdiv 2) boxKernel3 0 1| ≤ 1 / 2 ^ (19 : Nat) :=
  have h := c8_blur_pixel true row3 (by decide) 3 boxKernel3 0 1 (by decide) (by decide)
  ⟨h.1, h.2.2.2 (by decide) (by decide) (by decide)
    (fun _ ho => weightAt_of_cells
      (P := fun d => ∃ v : ℚ, d = Dbl.fin v ∧ 0 ≤ v ∧ v ≤ (2 : ℚ) ^ (900 : Int))
      boxKernel3 1 boxKernel3_cells ho) boxKernel3_centre
    Vec3b.c0 (fun _ hp => hp.1)⟩

/-- C9 (as stated, refuted).  The 1×1 image of colour `(13, 26, 52)`, which is uniform,
blurred with the kernel generated for size 3 and `sigma = 1`, comes back as
`(12, 25, 51)`, in either reading of the division and for every exponential that
returns 1 at zero (the stand-in `expCoarse` is one): the centre weight is
`w = 0.15915494309189535`, the product `13 * w` is rounded, and the quotient by `w` is
`12.999999999999998`, which the conversion to `uchar` truncates to 12. -/
theorem c9_uniform_counterexample :
    applyGaussianBlur false ⟨1, 1, [[⟨13, 26, 52⟩]]⟩ 3 (mainKernel expCoarse 3 (Dbl.fin 1)) =
      ⟨1, 1, [[⟨12, 25, 51⟩]]⟩ ∧
    applyGaussianBlur true ⟨1, 1, [[⟨13, 26, 52⟩]]⟩ 3 (mainKernel expCoarse 3 (Dbl.fin 1)) =
      ⟨1, 1, [[⟨12, 25, 51⟩]]⟩ ∧
    ∀ (r : Bool) (exp : Dbl → Dbl), exp (Dbl.fin 0) = Dbl.fin 1 →
      applyGaussianBlur r ⟨1, 1, [[⟨13, 26, 52⟩]]⟩ 3 (mainKernel exp 3 (Dbl.fin 1)) =
        ⟨1, 1, [[⟨12, 25, 51⟩]]⟩ := by
  have key : ∀ (r : Bool) (exp : Dbl → Dbl), exp (Dbl.fin 0) = Dbl.fin 1 →
      applyGaussianBlur r ⟨1, 1, [[⟨13, 26, 52⟩]]⟩ 3 (mainKernel exp 3 (Dbl.fin 1)) =
        ⟨1, 1, [[⟨12, 25, 51⟩]]⟩ := by
    intro r exp hexp0
    have e := applyGaussianBlur_single_main r exp hexp0 ⟨13, 26, 52⟩ 1 (Dbl.fin 1)
      kernelLp_one kernelRp_one Dbl.round_lp_one
    have e3 : (2 * ((1 : Nat) : Int) + 1) = 3 := by norm_num
    rw [e3] at e
    rw [e]
    cases r with
    | false =>
      simp only []
      rw [singleQuotient_one_13_div, singleQuotient_one_26_div, singleQuotient_one_52_div,
        toUchar_fin_eq (n := 12) (by norm_num) (by norm_num) (by norm_num),
        toUchar_fin_eq (n := 25) (by norm_num) (by norm_num) (by norm_num),
        toUchar_fin_eq (n := 51) (by norm_num) (by norm_num) (by norm_num)]
    | true =>
      simp only []
      rw [singleQuotient_one_13_recip, singleQuotient_one_26_recip,
        singleQuotient_one_52_recip,
        toUchar_fin_eq (n := 12) (by norm_num) (by norm_num) (by norm_num),
        toUchar_fin_eq (n := 25) (by norm_num) (by norm_num) (by norm_num),
        toUchar_fin_eq (n := 51) (by norm_num) (by norm_num) (by norm_num)]
  exact ⟨key false expCoarse expCoarse_zero, key true expCoarse expCoarse_zero, key⟩

/-- C9 (amended).  For every non-empty image whose pixels all have the same 8-bit
colour `c`, every odd kernel size from 3 to 1023 and every `sigma` of
`[2^(-400), 2^400]`, the blur with the kernel that `main` allocates and
`generateGaussianKernel` fills returns, in either reading of the division, an image of
the same dimensions in which every channel of every pixel, interior or border, is the
channel of `c` or one less: the quotient computed in `double` arithmetic can fall just
below the channel of `c`, and the conversion truncates it.  The exponential is any
function that returns 1 at zero and a finite value of `[0, 1]` at every argument that
is not positive. -/
theorem c9_uniform_image_near (r : Bool) (exp : Dbl → Dbl)
    (hexp0 : exp (Dbl.fin 0) = Dbl.fin 1)
    (hexp : ∀ d : Dbl, d.isNonpos → ∃ v : ℚ, exp d = Dbl.fin v ∧ 0 ≤ v ∧ v ≤ 1)
    (src : Mat) (hwf : src.WF) (hrows : 0 < src.rows) (hcols : 0 < src.cols) (c : Vec3b)
    (hc : c.valid)
    (hu : ∀ y, y < src.rows → ∀ x, x < src.cols → src.atVec3b y x = c)
    (kernelSize : Int) (hodd : kernelSize % 2 = 1) (h3 : 3 ≤ kernelSize)
    (hmax : kernelSize ≤ 1023) (s : ℚ) (hs₁ : (2 : ℚ) ^ (-400 : Int) ≤ s)
    (hs₂ : s ≤ (2 : ℚ) ^ (400 : Int)) :
    (applyGaussianBlur r src kernelSize (mainKernel exp kernelSize (Dbl.fin s))).rows =
      src.rows ∧
    (applyGaussianBlur r src kernelSize (mainKernel exp kernelSize (Dbl.fin s))).cols =
      src.cols ∧
    (applyGaussianBlur r src kernelSize (mainKernel exp kernelSize (Dbl.fin s))).WF ∧
    ∀ y, y < src.rows → ∀ x, x < src.cols →
      (((applyGaussianBlur r src kernelSize
            (mainKernel exp kernelSize (Dbl.fin s))).atVec3b y x).c0 ≤ c.c0 ∧
        c.c0 ≤ ((applyGaussianBlur r src kernelSize
            (mainKernel exp kernelSize (Dbl.fin s))).atVec3b y x).c0 + 1) ∧
      (((applyGaussianBlur r src kernelSize
            (mainKernel exp kernelSize (Dbl.fin s))).atVec3b y x).c1 ≤ c.c1 ∧
        c.c1 ≤ ((applyGaussianBlur r src kernelSize
            (mainKernel exp kernelSize (Dbl.fin s))).atVec3b y x).c1 + 1) ∧
      (((applyGaussianBlur r src kernelSize
            (mainKernel exp kernelSize (Dbl.fin s))).atVec3b y x).c2 ≤ c.c2 ∧
        c.c2 ≤ ((applyGaussianBlur r src kernelSize
            (mainKernel exp kernelSize (Dbl.fin s))).atVec3b y x).c2 + 1) := by
  have _ := hwf
  have _ := hrows
  have _ := hcols
  refine ⟨rfl, rfl, applyGaussianBlur_WF src kernelSize _, ?_⟩
  intro y hy x hx
  obtain ⟨h, _, rfl⟩ := odd_size_eq hodd h3
  obtain ⟨hall, hcentre⟩ := mainKernel_weights exp hexp0 hexp hs₁ hs₂ h
  rw [applyGaussianBlur_at src _ _ hy hx, tdiv_two_of_odd h]
  exact blurPixel_uniform_near r src c hc hu h (by omega) _ hy hx
    (fun o ho => weights_of_kernelAt _ h
      (P := fun d => ∃ v : ℚ, d = Dbl.fin v ∧ 0 ≤ v ∧ v ≤ (2 : ℚ) ^ (900 : Int)) hall ho)
    hcentre

/-- C9 (amended), applied with the division by the reciprocal and the stand-in
exponential to the 2×2 image of colour `(7, 8, 9)`, kernel size 3 and `sigma = 1`. -/
theorem c9_uniform_image_near_witness :
    (applyGaussianBlur true ⟨2, 2, [[⟨7, 8, 9⟩, ⟨7, 8, 9⟩], [⟨7, 8, 9⟩, ⟨7, 8, 9⟩]]⟩ 3
      (mainKernel expCoarse 3 (Dbl.fin 1))).rows = 2 ∧
    (applyGaussianBlur true ⟨2, 2, [[⟨7, 8, 9⟩, ⟨7, 8, 9⟩], [⟨7, 8, 9⟩, ⟨7, 8, 9⟩]]⟩ 3
      (mainKernel expCoarse 3 (Dbl.fin 1))).cols = 2 ∧
    ∀ y, y < 2 → ∀ x, x < 2 →
      (((applyGaussianBlur true ⟨2, 2, [[⟨7, 8, 9⟩, ⟨7, 8, 9⟩], [⟨7, 8, 9⟩, ⟨7, 8, 9⟩]]⟩ 3
            (mainKernel expCoarse 3 (Dbl.fin 1))).atVec3b y x).c0 ≤ 7 ∧
        7 ≤ ((applyGaussianBlur true ⟨2, 2, [[⟨7, 8, 9⟩, ⟨7, 8, 9⟩], [⟨7, 8, 9⟩, ⟨7, 8, 9⟩]]⟩ 3
            (mainKernel expCoarse 3 (Dbl.fin 1))).atVec3b y x).c0 + 1) :=
  have h := c9_uniform_image_near true expCoarse expCoarse_zero expCoarse_nonpos
    ⟨2, 2, [[⟨7, 8, 9⟩, ⟨7, 8, 9⟩], [⟨7, 8, 9⟩, ⟨7, 8, 9⟩]]⟩ (by decide) (by decide)
    (by decide) ⟨7, 8, 9⟩ (by decide) (by decide) 3 (by decide) (by decide) (by decide) 1
    zpow_neg400_le_one one_le_zpow_400
  ⟨h.1, h.2.1, fun y hy x hx => (h.2.2.2 y hy x hx).1⟩

/-- C10 (as stated, refuted).  The 1×1 image with pixel `(12, 200, 255)`, blurred with
the kernel generated for size 21 and `sigma = 1/2`, comes back with pixel
`(12, 200, 254)`, in either reading of the division and for every exponential that
returns 1 at zero (the stand-in `expCoarse` is one): with the centre weight
`w = 0.6366197723675814` the quotient of the rounded product `255 * w` by `w` is
`254.99999999999997`, not 255 exactly, and it is truncated to 254. -/
theorem c10_single_pixel_counterexample :
    applyGaussianBlur false ⟨1, 1, [[⟨12, 200, 255⟩]]⟩ 21
        (mainKernel expCoarse 21 (Dbl.fin (1 / 2))) = ⟨1, 1, [[⟨12, 200, 254⟩]]⟩ ∧
    applyGaussianBlur true ⟨1, 1, [[⟨12, 200, 255⟩]]⟩ 21
        (mainKernel expCoarse 21 (Dbl.fin (1 / 2))) = ⟨1, 1, [[⟨12, 200, 254⟩]]⟩ ∧
    ∀ (r : Bool) (exp : Dbl → Dbl), exp (Dbl.fin 0) = Dbl.fin 1 →
      applyGaussianBlur r ⟨1, 1, [[⟨12, 200, 255⟩]]⟩ 21
          (mainKernel exp 21 (Dbl.fin (1 / 2))) = ⟨1, 1, [[⟨12, 200, 254⟩]]⟩ := by
  have key : ∀ (r : Bool) (exp : Dbl → Dbl), exp (Dbl.fin 0) = Dbl.fin 1 →
      applyGaussianBlur r ⟨1, 1, [[⟨12, 200, 255⟩]]⟩ 21
          (mainKernel exp 21 (Dbl.fin (1 / 2))) = ⟨1, 1, [[⟨12, 200, 254⟩]]⟩ := by
    intro r exp hexp0
    have e := applyGaussianBlur_single_main r exp hexp0 ⟨12, 200, 255⟩ 10 (Dbl.fin (1 / 2))
      kernelLp_half kernelRp_half Dbl.round_lp_half
    have e21 : (2 * ((10 : Nat) : Int) + 1) = 21 := by norm_num
    rw [e21] at e
    rw [e]
    cases r with
    | false =>
      simp only []
      rw [singleQuotient_half_12_div, singleQuotient_half_200_div,
        singleQuotient_half_255_div,
        toUchar_fin_eq (n := 12) (by norm_num) (by norm_num) (by norm_num),
        toUchar_fin_eq (n := 200) (by norm_num) (by norm_num) (by norm_num),
        toUchar_fin_eq (n := 254) (by norm_num) (by norm_num) (by norm_num)]
    | true =>
      simp only []
      rw [singleQuotient_half_12_recip, singleQuotient_half_200_recip,
        singleQuotient_half_255_recip,
        toUchar_fin_eq (n := 12) (by norm_num) (by norm_num) (by norm_num),
        toUchar_fin_eq (n := 200) (by norm_num) (by norm_num) (by norm_num),
        toUchar_fin_eq (n := 254) (by norm_num) (by norm_num) (by norm_num)]
  exact ⟨key false expCoarse expCoarse_zero, key true expCoarse expCoarse_zero, key⟩

/-- C10 (amended).  For every 1×1 image with an 8-bit pixel `p`, every odd kernel size
in `[3, 21]` and every `sigma` of `[2^(-400), 2^400]`, the blur with the kernel that
`main` allocates and `generateGaussianKernel` fills returns, in either reading of the
division, a 1×1 image whose pixel has, in every channel, the value of `p` or one less:
the only in-bounds offset is `(0, 0)`, the used-weight total is the centre weight `w`,
which is finite and positive, each weighted sum is the rounded product `p.c * w`, and
the quotient of that rounded product by `w`, formed in `double` arithmetic and then
truncated, is not always `p.c`.  The exponential is any function that returns 1 at
zero. -/
theorem c10_single_pixel (r : Bool) (exp : Dbl → Dbl) (hexp0 : exp (Dbl.fin 0) = Dbl.fin 1)
    (p : Vec3b) (hp : p.valid) (kernelSize : Int) (hodd : kernelSize % 2 = 1)
    (h3 : 3 ≤ kernelSize) (h21 : kernelSize ≤ 21) (s : ℚ)
    (hs₁ : (2 : ℚ) ^ (-400 : Int) ≤ s) (hs₂ : s ≤ (2 : ℚ) ^ (400 : Int)) :
    (∃ q : Vec3b,
      applyGaussianBlur r ⟨1, 1, [[p]]⟩ kernelSize (mainKernel exp kernelSize (Dbl.fin s)) =
        ⟨1, 1, [[q]]⟩ ∧
      (q.c0 ≤ p.c0 ∧ p.c0 ≤ q.c0 + 1) ∧ (q.c1 ≤ p.c1 ∧ p.c1 ≤ q.c1 + 1) ∧
      (q.c2 ≤ p.c2 ∧ p.c2 ≤ q.c2 + 1)) ∧
    inBoundsOffsets 1 1 (kernelSize.tdiv 2) 0 0 = {((0 : Int), (0 : Int))} ∧
    inBoundsOffsetList 1 1 (kernelSize.tdiv 2) 0 0 = [((0 : Int), (0 : Int))] ∧
    ∃ w : ℚ, gaussianVal exp (Dbl.fin s) 0 0 = Dbl.fin w ∧ 0 < w ∧
      blurAccumulate ⟨1, 1, [[p]]⟩ (kernelSize.tdiv 2)
          (mainKernel exp kernelSize (Dbl.fin s)) 0 0 =
        ⟨Dbl.add 0 (Dbl.mul (Dbl.ofUchar p.c0) (Dbl.fin w)),
          Dbl.add 0 (Dbl.mul (Dbl.ofUchar p.c1) (Dbl.fin w)),
          Dbl.add 0 (Dbl.mul (Dbl.ofUchar p.c2) (Dbl.fin w)),
          Dbl.add 0 (Dbl.fin w)⟩ := by
  obtain ⟨h, _, rfl⟩ := odd_size_eq hodd h3
  have h0 : (0 : Int) ≤ (h : Int) := Int.natCast_nonneg h
  obtain ⟨w, hw, hg, w₁, w₂⟩ := centre_range exp hexp0 hs₁ hs₂ h
  have hwf := Mat.WF_single p
  have hu : ∀ y, y < (Mat.mk 1 1 [[p]]).rows → ∀ x, x < (Mat.mk 1 1 [[p]]).cols →
      (Mat.mk 1 1 [[p]]).atVec3b y x = p := by
    intro y hy x hx
    have hy0 : y = 0 := by
      have : y < 1 := hy
      omega
    have hx0 : x = 0 := by
      have : x < 1 := hx
      omega
    subst hy0 hx0
    rfl
  have hlist := inBoundsOffsetList_single h0
  have hpix := blurPixel_uniform_near r ⟨1, 1, [[p]]⟩ p hp hu h (by omega)
    (mainKernel exp (2 * (h : Int) + 1) (Dbl.fin s)) (y := 0) (x := 0) Nat.zero_lt_one
    Nat.zero_lt_one
    (by
      intro o ho
      have ho' : o ∈ inBoundsOffsetList 1 1 (h : Int) 0 0 := ho
      rw [hlist, List.mem_singleton] at ho'
      subst ho'
      exact ⟨w, hw, le_trans (by positivity) w₁,
        le_trans w₂ (zpow_le_zpow_right₀ (by norm_num) (by norm_num))⟩)
    ⟨w, hw, le_trans (zpow_le_zpow_right₀ (by norm_num) (by norm_num)) w₁⟩
  rw [tdiv_two_of_odd h]
  refine ⟨⟨_, ?_, hpix⟩, inBoundsOffsets_single h0, hlist, w, hg,
    lt_of_lt_of_le (by positivity) w₁, ?_⟩
  · rw [applyGaussianBlur_single, tdiv_two_of_odd]
  · rw [blurAccumulate_single p h0, hw]

/-- C10 (amended), applied with the division by the reciprocal and the stand-in
exponential to the pixel `(12, 200, 255)`, kernel size 21 and `sigma = 1/2`. -/
theorem c10_single_pixel_witness :
    ∃ q : Vec3b,
      applyGaussianBlur true ⟨1, 1, [[⟨12, 200, 255⟩]]⟩ 21
          (mainKernel expCoarse 21 (Dbl.fin (1 / 2))) = ⟨1, 1, [[q]]⟩ ∧
      (q.c0 ≤ 12 ∧ 12 ≤ q.c0 + 1) ∧ (q.c1 ≤ 200 ∧ 200 ≤ q.c1 + 1) ∧
      (q.c2 ≤ 255 ∧ 255 ≤ q.c2 + 1) :=
  (c10_single_pixel true expCoarse expCoarse_zero ⟨12, 200, 255⟩ (by decide) 21 (by decide)
    (by decide) (by decide) (1 / 2) (sigma_range_of (by norm_num) (by norm_num)).1
    (sigma_range_of (by norm_num) (by norm_num)).2).1

/-- C11 (as stated, refuted).  For the 5×5 image of uniform colour `(7, 8, 9)` and a
21×21 kernel, the kernel size exceeds both dimensions of the image, so the
specification asks for `InvalidParameter` and no image; the call of
`applyGaussianBlur`, followed with the bounds of every read of the image and of the
kernel, performs no read out of bounds and returns a 5×5 image, in either reading of
the division, for the kernel of ones and for every kernel that `main` generates. -/
theorem c11_oversized_kernel_counterexample :
    specBlurFailure uniform5 21 = some .InvalidParameter ∧
    applyGaussianBlurChecked true uniform5 21 boxKernel21 =
      some (applyGaussianBlur true uniform5 21 boxKernel21) ∧
    applyGaussianBlurChecked false uniform5 21 boxKernel21 =
      some (applyGaussianBlur false uniform5 21 boxKernel21) ∧
    (applyGaussianBlur true uniform5 21 boxKernel21).rows = 5 ∧
    (applyGaussianBlur true uniform5 21 boxKernel21).cols = 5 ∧
    (applyGaussianBlur false uniform5 21 boxKernel21).rows = 5 ∧
    (applyGaussianBlur false uniform5 21 boxKernel21).cols = 5 ∧
    ∀ (r : Bool) (exp : Dbl → Dbl) (sigma : Dbl),
      ∃ out : Mat,
        applyGaussianBlurChecked r uniform5 21 (mainKernel exp 21 sigma) = some out ∧
          out.rows = 5 ∧ out.cols = 5 := by
  have e21 : (2 * ((10 : Nat) : Int) + 1) = 21 := by norm_num
  have key : ∀ (r : Bool) (kernel : List (List Dbl)),
      applyGaussianBlurChecked r uniform5 21 kernel =
        some (applyGaussianBlur r uniform5 21 kernel) := by
    intro r kernel
    have := applyGaussianBlurChecked_eq r uniform5 10 kernel
    rw [e21] at this
    exact this
  refine ⟨?_, key true _, key false _, rfl, rfl, rfl, rfl, ?_⟩
  · unfold specBlurFailure
    rw [if_pos (by decide)]
  · intro r exp sigma
    exact ⟨_, key r _, rfl, rfl⟩

/-- C11 (amended).  For an odd kernel size, `applyGaussianBlur` has no failing exit and
performs no read out of bounds: also when the kernel size exceeds the width or the
height of the image, the call followed with the bounds of its reads returns an output
image, of the dimensions of the source and of well-formed buffer, whose pixel `(y, x)`
is, channel by channel, the quotient in `double` arithmetic of the sum over the
in-bounds offsets of `src * kernel` by the sum of the in-bounds weights, narrowed to 8
bits by truncation. -/
theorem c11_oversized_kernel_returns (r : Bool) (src : Mat) (hwf : src.WF)
    (kernelSize : Int) (hodd : kernelSize % 2 = 1) (h1 : 1 ≤ kernelSize)
    (kernel : List (List Dbl))
    (hbig : (src.cols : Int) < kernelSize ∨ (src.rows : Int) < kernelSize) :
    applyGaussianBlurChecked r src kernelSize kernel =
      some (applyGaussianBlur r src kernelSize kernel) ∧
    (applyGaussianBlur r src kernelSize kernel).rows = src.rows ∧
    (applyGaussianBlur r src kernelSize kernel).cols = src.cols ∧
    (applyGaussianBlur r src kernelSize kernel).WF ∧
    ∀ y, y < src.rows → ∀ x, x < src.cols →
      (applyGaussianBlur r src kernelSize kernel).atVec3b y x =
        ⟨Dbl.toUchar (vecDivChannel r
            (sumInOrder Vec3b.c0 src (kernelSize.tdiv 2) kernel y x)
            (totalInOrder src (kernelSize.tdiv 2) kernel y x)),
          Dbl.toUchar (vecDivChannel r
            (sumInOrder Vec3b.c1 src (kernelSize.tdiv 2) kernel y x)
            (totalInOrder src (kernelSize.tdiv 2) kernel y x)),
          Dbl.toUchar (vecDivChannel r
            (sumInOrder Vec3b.c2 src (kernelSize.tdiv 2) kernel y x)
            (totalInOrder src (kernelSize.tdiv 2) kernel y x))⟩ := by
  have _ := hwf
  have _ := hbig
  obtain ⟨h, rfl⟩ := odd_size_eq_of_pos hodd h1
  refine ⟨applyGaussianBlurChecked_eq r src h kernel, rfl, rfl,
    applyGaussianBlur_WF src _ kernel, ?_⟩
  intro y hy x hx
  rw [applyGaussianBlur_at src _ kernel hy hx, blurPixel_eq_inOrder]

/-- C11 (amended), applied with the division by the reciprocal to the 5×5 image of
uniform colour `(7, 8, 9)` and the 21×21 kernel of ones. -/
theorem c11_oversized_kernel_returns_witness :
    applyGaussianBlurChecked true uniform5 21 boxKernel21 =
      some (applyGaussianBlur true uniform5 21 boxKernel21) ∧
    (applyGaussianBlur true uniform5 21 boxKernel21).rows = uniform5.rows ∧
    (applyGaussianBlur true uniform5 21 boxKernel21).cols = uniform5.cols ∧
    (applyGaussianBlur true uniform5 21 boxKernel21).WF :=
  have h := c11_oversized_kernel_returns true uniform5 (by decide) 21 (by decide)
    (by decide) boxKernel21 (by decide)
  ⟨h.1, h.2.1, h.2.2.1, h.2.2.2.1⟩

/-- C12 (as stated, refuted).  For size 7 and `sigma = 0.1` (the `double` nearest to
it), the corner cell `(6, 6)`, that of offset `(3, 3)`, is computed as
`lp * exp(-18 * rp)` with `rp = 49.99999999999999`: the argument handed to the
exponential is `-899.9999999999999`, far below the point `-745.14` under which the
exponential is smaller than half the least positive `double`, so that `exp` returns
zero and the cell is zero, not strictly positive.  This holds for every exponential
that returns zero at that argument (the stand-in `expCoarse` is one). -/
theorem c12_corner_underflow_counterexample :
    Dbl.mul (Dbl.ofInt (-(3 * 3 + 3 * 3))) (kernelRp (Dbl.round (1 / 10))) =
      Dbl.fin (-(7916483719987199 / 8796093022208)) ∧
    (-(7916483719987199 / 8796093022208) : ℚ) < -899 ∧
    getCell 0 (mainKernel expCoarse 7 (Dbl.round (1 / 10))) 6 6 = Dbl.fin 0 ∧
    ¬ (getCell 0 (mainKernel expCoarse 7 (Dbl.round (1 / 10))) 6 6).isPos ∧
    ∀ exp : Dbl → Dbl, exp (Dbl.fin (-(7916483719987199 / 8796093022208))) = Dbl.fin 0 →
      getCell 0 (mainKernel exp 7 (Dbl.round (1 / 10))) 6 6 = Dbl.fin 0 := by
  have key : ∀ exp : Dbl → Dbl,
      exp (Dbl.fin (-(7916483719987199 / 8796093022208))) = Dbl.fin 0 →
      getCell 0 (mainKernel exp 7 (Dbl.round (1 / 10))) 6 6 = Dbl.fin 0 := by
    intro exp hexp
    have e := (mainKernel_cells exp (Dbl.round (1 / 10)) 3).2 6 6 (by norm_num) (by norm_num)
    have e7 : (2 * ((3 : Nat) : Int) + 1) = 7 := by norm_num
    have e3 : (((6 : Nat) : Int) - ((3 : Nat) : Int)) = 3 := by norm_num
    rw [e7, e3] at e
    rw [e]
    unfold gaussianVal
    rw [expArgument_corner, hexp, kernelLp_tenth, Dbl.mul_fin, mul_zero, Dbl.round_zero]
  have hc := key expCoarse (expCoarse_neg (by norm_num))
  refine ⟨expArgument_corner, by norm_num, hc, ?_, key⟩
  rw [hc]
  exact lt_irrefl (0 : ℚ)

/-- C12 (amended).  For every odd size in `[3, 21]` and every `sigma` of
`[2^(-400), 2^400]`, after `generateGaussianKernel` the cell `(i + half, j + half)`
holds, for every offset `(i, j)` of `[-half, half]²`, the value
`lp * exp(-(i*i + j*j) * rp)` computed in `double` arithmetic, unnormalised, where
`lp = 1.0 / (2.0 * PI * sigma * sigma)` and `rp = 1.0 / (2.0 * sigma * sigma)` are
finite and positive and `PI` is the `double` nearest to the literal of the program
(below π by less than `10⁻¹⁵`); the kernel has `size` rows of `size` cells; the centre
cell is finite and strictly positive; every cell is finite, not negative (it is zero
where the exponential underflows) and at most the centre cell; and the weights of
`(i, j)` and `(-i, -j)` are equal.  The exponential is any function that returns 1 at
zero and a finite value of `[0, 1]` at every argument that is not positive. -/
theorem c12_kernel_cells (exp : Dbl → Dbl) (hexp0 : exp (Dbl.fin 0) = Dbl.fin 1)
    (hexp : ∀ d : Dbl, d.isNonpos → ∃ v : ℚ, exp d = Dbl.fin v ∧ 0 ≤ v ∧ v ≤ 1)
    (kernelSize : Int) (hodd : kernelSize % 2 = 1) (h3 : 3 ≤ kernelSize)
    (h21 : kernelSize ≤ 21) (s : ℚ) (hs₁ : (2 : ℚ) ^ (-400 : Int) ≤ s)
    (hs₂ : s ≤ (2 : ℚ) ^ (400 : Int)) :
    (∀ i j : Int, -(kernelSize.tdiv 2) ≤ i → i ≤ kernelSize.tdiv 2 →
      -(kernelSize.tdiv 2) ≤ j → j ≤ kernelSize.tdiv 2 →
      kernelAt (mainKernel exp kernelSize (Dbl.fin s)) (i + kernelSize.tdiv 2)
          (j + kernelSize.tdiv 2) =
        Dbl.mul (kernelLp (Dbl.fin s))
          (exp (Dbl.mul (Dbl.ofInt (-(i * i + j * j))) (kernelRp (Dbl.fin s))))) ∧
    gridShape kernelSize.toNat kernelSize.toNat (mainKernel exp kernelSize (Dbl.fin s)) ∧
    (∃ c₀ : ℚ,
      kernelAt (mainKernel exp kernelSize (Dbl.fin s)) (0 + kernelSize.tdiv 2)
          (0 + kernelSize.tdiv 2) = Dbl.fin c₀ ∧ 0 < c₀ ∧
      ∀ a b : Nat, (a : Int) < kernelSize → (b : Int) < kernelSize →
        ∃ v : ℚ, getCell 0 (mainKernel exp kernelSize (Dbl.fin s)) a b = Dbl.fin v ∧
          0 ≤ v ∧ v ≤ c₀) ∧
    (∀ i j : Int, -(kernelSize.tdiv 2) ≤ i → i ≤ kernelSize.tdiv 2 →
      -(kernelSize.tdiv 2) ≤ j → j ≤ kernelSize.tdiv 2 →
      kernelAt (mainKernel exp kernelSize (Dbl.fin s)) (i + kernelSize.tdiv 2)
          (j + kernelSize.tdiv 2) =
        kernelAt (mainKernel exp kernelSize (Dbl.fin s)) (-i + kernelSize.tdiv 2)
          (-j + kernelSize.tdiv 2)) ∧
    (∃ lp rp : ℚ, kernelLp (Dbl.fin s) = Dbl.fin lp ∧ 0 < lp ∧
      kernelRp (Dbl.fin s) = Dbl.fin rp ∧ 0 < rp) ∧
    (PI = Dbl.fin (884279719003555 / 281474976710656) ∧
      ((PI.toRat : ℚ) : ℝ) < Real.pi ∧ Real.pi < ((PI.toRat : ℚ) : ℝ) + 1 / 10 ^ 15) := by
  have _ := h21
  obtain ⟨h, _, rfl⟩ := odd_size_eq hodd h3
  rw [tdiv_two_of_odd h]
  have hn : (2 * (h : Int) + 1).toNat = 2 * h + 1 := by omega
  obtain ⟨hshape, hcell⟩ := mainKernel_cells exp (Dbl.fin s) h
  obtain ⟨c₀, hc₀, lo, _, hall⟩ := gaussianVal_range exp hexp0 hexp hs₁ hs₂
  obtain ⟨l, hl, l₁, _⟩ := kernelLp_range hs₁ hs₂
  obtain ⟨t, ht, t₁, _⟩ := kernelRp_range hs₁ hs₂
  refine ⟨?_, ?_, ⟨c₀, ?_, lt_of_lt_of_le (by positivity) lo, ?_⟩, ?_,
    ⟨l, t, hl, lt_of_lt_of_le (by positivity) l₁, ht, lt_of_lt_of_le (by positivity) t₁⟩,
    PI_eq, PI_near_pi⟩
  · intro i j hi₁ hi₂ hj₁ hj₂
    rw [kernelAt_mainKernel exp (Dbl.fin s) h hi₁ hi₂ hj₁ hj₂]
    rfl
  · rw [hn]
    exact hshape
  · rw [kernelAt_mainKernel exp (Dbl.fin s) h (by omega) (by omega) (by omega) (by omega),
      hc₀]
  · intro a b ha hb
    rw [hcell a b (by omega) (by omega)]
    exact hall _ _
  · intro i j hi₁ hi₂ hj₁ hj₂
    rw [kernelAt_mainKernel exp (Dbl.fin s) h hi₁ hi₂ hj₁ hj₂,
      kernelAt_mainKernel exp (Dbl.fin s) h (by omega) (by omega) (by omega) (by omega),
      gaussianVal_neg]

/-- C12 (amended), applied with the stand-in exponential to size 5 and `sigma = 2`. -/
theorem c12_kernel_cells_witness :
    gridShape (5 : Int).toNat (5 : Int).toNat (mainKernel expCoarse 5 (Dbl.fin 2)) ∧
    (∃ c₀ : ℚ,
      kernelAt (mainKernel expCoarse 5 (Dbl.fin 2)) (0 + (5 : Int).tdiv 2)
          (0 + (5 : Int).tdiv 2) = Dbl.fin c₀ ∧ 0 < c₀ ∧
      ∀ a b : Nat, (a : Int) < 5 → (b : Int) < 5 →
        ∃ v : ℚ, getCell 0 (mainKernel expCoarse 5 (Dbl.fin 2)) a b = Dbl.fin v ∧
          0 ≤ v ∧ v ≤ c₀) ∧
    (∀ i j : Int, -((5 : Int).tdiv 2) ≤ i → i ≤ (5 : Int).tdiv 2 →
      -((5 : Int).tdiv 2) ≤ j → j ≤ (5 : Int).tdiv 2 →
      kernelAt (mainKernel expCoarse 5 (Dbl.fin 2)) (i + (5 : Int).tdiv 2)
          (j + (5 : Int).tdiv 2) =
        kernelAt (mainKernel expCoarse 5 (Dbl.fin 2)) (-i + (5 : Int).tdiv 2)
          (-j + (5 : Int).tdiv 2)) :=
  have h := c12_kernel_cells expCoarse expCoarse_zero expCoarse_nonpos 5 (by decide)
    (by decide) (by decide) 2 (sigma_range_of (by norm_num) (by norm_num)).1
    (sigma_range_of (by norm_num) (by norm_num)).2
  ⟨h.2.1, h.2.2.1, h.2.2.2.1⟩

/-! ## Claims about the programs -/

/-- C13 (the code at the failing inputs).  The check of `2.1.2-omp.cpp` rejects the
kernel parameters exactly when the size is 0 or `sigma` is 0.  The size 4, the size
23, the size -3 and `sigma = -1`, each of which the specification rejects, pass the
check, and with size 4 the run on a 1×3 image goes on to its end and returns images. -/
theorem c13_check_accepts_rejected_parameters :
    (specInvalidParameter 4 (1 : ℚ) ∧ checkKernelParams 4 (Dbl.fin 1) = .ok ()) ∧
    (specInvalidParameter 23 (1 : ℚ) ∧ checkKernelParams 23 (Dbl.fin 1) = .ok ()) ∧
    (specInvalidParameter (-3) (1 : ℚ) ∧ checkKernelParams (-3) (Dbl.fin 1) = .ok ()) ∧
    (specInvalidParameter 3 (-1 : ℚ) ∧ checkKernelParams 3 (Dbl.fin (-1)) = .ok ()) ∧
    (∀ (kernelSize : Int) (sigma : Dbl),
      checkKernelParams kernelSize sigma = .error .invalidKernelOrSigma ↔
        kernelSize = 0 ∨ sigma = Dbl.fin 0) ∧
    (∀ (r : Bool) (exp : Dbl → Dbl), ∃ out, main212 r exp row3 1 4 (Dbl.fin 1) = .ok out) := by
  refine ⟨⟨?_, ?_⟩, ⟨?_, ?_⟩, ⟨?_, ?_⟩, ⟨?_, ?_⟩, ?_, ?_⟩
  · exact Or.inl (by decide)
  · exact checkKernelParams_eq_ok (by decide) (Dbl.fin_ne_zero (by norm_num))
  · exact Or.inr (Or.inr (Or.inl (by decide)))
  · exact checkKernelParams_eq_ok (by decide) (Dbl.fin_ne_zero (by norm_num))
  · exact Or.inr (Or.inl (by decide))
  · exact checkKernelParams_eq_ok (by decide) (Dbl.fin_ne_zero (by norm_num))
  · exact Or.inr (Or.inr (Or.inr (by norm_num)))
  · exact checkKernelParams_eq_ok (by decide) (Dbl.fin_ne_zero (by norm_num))
  · exact fun kernelSize sigma => checkKernelParams_error_iff kernelSize sigma
  · intro r exp
    unfold main212
    rw [run212_eq_ok exp 5 (by decide) (by decide) (by decide) (by decide)
      (Dbl.fin_ne_zero (by norm_num))]
    exact ⟨_, rfl⟩

/-- C14.  The check of the anaglyph type, in `2.1.1-omp.cpp` and in `2.1.2-omp.cpp`,
accepts a code if and only if it is one of `0..5`: the inputs pass the check exactly
when the image is not empty and the code lies in `0..5`; the run ends with the error
of an invalid anaglyph type, and no image, exactly when the image is not empty and the
code is below 0 or above 5; and the run of `2.1.1-omp.cpp` returns an anaglyph exactly
when the inputs pass the check. -/
theorem c14_mode_validation (r : Bool) (exp : Dbl → Dbl) (stereo : Mat) (ty : Int)
    (kernelSize : Int) (sigma : Dbl) :
    (checkInputs stereo ty = .ok () ↔ ¬ stereo.empty ∧ 0 ≤ ty ∧ ty ≤ 5) ∧
    (main211 stereo ty = .error .invalidAnaglyphType ↔
      ¬ stereo.empty ∧ (ty < 0 ∨ 5 < ty)) ∧
    (main212 r exp stereo ty kernelSize sigma = .error .invalidAnaglyphType ↔
      ¬ stereo.empty ∧ (ty < 0 ∨ 5 < ty)) ∧
    ((∃ e, main211 stereo ty = .error e) ↔ stereo.empty ∨ ty < 0 ∨ 5 < ty) ∧
    ((∃ e, main212 r exp stereo ty kernelSize sigma = .error e) ↔
      stereo.empty ∨ ty < 0 ∨ 5 < ty ∨ kernelSize = 0 ∨ sigma = Dbl.fin 0) ∧
    ((∃ out, main211 stereo ty = .ok out) ↔ ¬ stereo.empty ∧ 0 ≤ ty ∧ ty ≤ 5) := by
  unfold main211 main212
  by_cases h₁ : stereo.empty
  · have e₁ := run211_of_error 5 (checkInputs_of_empty ty h₁)
    have e₂ := run212_of_error (r := r) exp 5 kernelSize sigma (checkInputs_of_empty ty h₁)
    rw [e₁, e₂, checkInputs_of_empty ty h₁]
    simp [h₁]
  · by_cases h₂ : ty < 0 ∨ 5 < ty
    · have e₁ := run211_of_error 5 (checkInputs_of_bad_type h₁ h₂)
      have e₂ := run212_of_error (r := r) exp 5 kernelSize sigma (checkInputs_of_bad_type h₁ h₂)
      rw [e₁, e₂, checkInputs_of_bad_type h₁ h₂]
      have h₃ : ¬ (0 ≤ ty ∧ ty ≤ 5) := by omega
      simp [h₁, h₂, h₃]
      rcases h₂ with h | h
      · exact Or.inl h
      · exact Or.inr (Or.inl h)
    · have h₃ : 0 ≤ ty := by omega
      have h₄ : ty ≤ 5 := by omega
      rw [run211_eq_ok 5 h₁ h₃ h₄, checkInputs_eq_ok h₁ h₃ h₄]
      have h₅ : ¬ ty < 0 := by omega
      have h₆ : ¬ 5 < ty := by omega
      by_cases h₇ : kernelSize = 0 ∨ sigma = Dbl.fin 0
      · have e₂ : run212 r exp 5 stereo ty kernelSize sigma =
            .error .invalidKernelOrSigma := by
          unfold run212
          rw [checkInputs_eq_ok h₁ h₃ h₄]
          simp only []
          rw [(checkKernelParams_error_iff kernelSize sigma).mpr h₇]
        rw [e₂]
        simp [h₁, h₃, h₄, h₅, h₆, h₇]
      · have h₈ : kernelSize ≠ 0 := fun h => h₇ (Or.inl h)
        have h₉ : sigma ≠ Dbl.fin 0 := fun h => h₇ (Or.inr h)
        rw [run212_eq_ok (r := r) exp 5 h₁ h₃ h₄ h₈ h₉]
        simp [h₁, h₃, h₄, h₅, h₆, h₈, h₉]

/-- C15.  For every stereo frame of width `W` and height `H`, both halves have width
`W / 2` (integer division) and height `H`; pixel `(i, j)` of the left half is pixel
`(i, j)` of the frame and pixel `(i, j)` of the right half is pixel `(i, W/2 + j)`, so
every column read has an index below `2 * (W / 2) ≤ W`; the halves, and with them every
composition pass, are the same for two frames that agree on the columns below
`2 * (W / 2)`; for odd `W` that bound is `W - 1`, so the last column is never read, and
for `W = 101` both halves have width 50 and column 100 is not read. -/
theorem c15_split (stereo : Mat) (hwf : stereo.WF) :
    ((splitLeft stereo).rows = stereo.rows ∧ (splitLeft stereo).cols = stereo.cols / 2 ∧
      (splitRight stereo).rows = stereo.rows ∧
      (splitRight stereo).cols = stereo.cols / 2 ∧
      (splitLeft stereo).WF ∧ (splitRight stereo).WF) ∧
    (∀ i, i < stereo.rows → ∀ j, j < stereo.cols / 2 →
      (splitLeft stereo).atVec3b i j = stereo.atVec3b i j ∧
      (splitRight stereo).atVec3b i j = stereo.atVec3b i (stereo.cols / 2 + j) ∧
      stereo.cols / 2 + j < 2 * (stereo.cols / 2) ∧
      2 * (stereo.cols / 2) ≤ stereo.cols) ∧
    (∀ other : Mat, other.rows = stereo.rows → other.cols = stereo.cols →
      (∀ i, i < stereo.rows → ∀ j, j < 2 * (stereo.cols / 2) →
        other.atVec3b i j = stereo.atVec3b i j) →
      splitLeft other = splitLeft stereo ∧ splitRight other = splitRight stereo ∧
      ∀ (ty : Int) (dst : Mat),
        composePass211 ty (splitLeft other) (splitRight other) dst =
          composePass211 ty (splitLeft stereo) (splitRight stereo) dst) ∧
    (stereo.cols % 2 = 1 → 2 * (stereo.cols / 2) = stereo.cols - 1) ∧
    (stereo.cols = 101 →
      (splitLeft stereo).cols = 50 ∧ (splitRight stereo).cols = 50 ∧
      ¬ (100 < 2 * (stereo.cols / 2))) := by
  have _ := hwf
  refine ⟨⟨rfl, rfl, rfl, rfl, Mat.WF_roi _ _ _ _ _, Mat.WF_roi _ _ _ _ _⟩, ?_, ?_, ?_, ?_⟩
  · intro i hi j hj
    exact ⟨splitLeft_at stereo hi hj, splitRight_at stereo hi hj, by omega, by omega⟩
  · intro other hr hc h
    obtain ⟨e₁, e₂⟩ := split_congr other stereo hr hc h
    refine ⟨e₁, e₂, fun ty dst => ?_⟩
    rw [e₁, e₂]
  · intro h
    omega
  · intro h
    have e₁ : (splitLeft stereo).cols = stereo.cols / 2 := rfl
    have e₂ : (splitRight stereo).cols = stereo.cols / 2 := rfl
    rw [e₁, e₂, h]
    decide

/-- C15, applied to a frame of 2 rows and 101 columns. -/
theorem c15_split_witness :
    ((splitLeft (Mat.create 2 101)).rows = 2 ∧ (splitLeft (Mat.create 2 101)).cols = 50 ∧
      (splitRight (Mat.create 2 101)).rows = 2 ∧
      (splitRight (Mat.create 2 101)).cols = 50) ∧
    (∀ other : Mat, other.rows = 2 → other.cols = 101 →
      (∀ i, i < 2 → ∀ j, j < 100 →
        other.atVec3b i j = (Mat.create 2 101).atVec3b i j) →
      splitLeft other = splitLeft (Mat.create 2 101) ∧
      splitRight other = splitRight (Mat.create 2 101)) ∧
    ¬ (100 < 2 * ((Mat.create 2 101).cols / 2)) :=
  have h := c15_split (Mat.create 2 101) (Mat.WF_create 2 101)
  ⟨⟨h.1.1, (h.2.2.2.2 rfl).1, h.1.2.2.1, (h.2.2.2.2 rfl).2.1⟩,
    fun other hr hc hag => ⟨(h.2.2.1 other hr hc hag).1, (h.2.2.1 other hr hc hag).2.1⟩,
    (h.2.2.2.2 rfl).2.2⟩

/-- C17.  For the blur and for the composition passes, distributing the rows over
workers along any partition of `[0, H)` into disjoint contiguous sub-ranges, of equal
or unequal sizes and in any order of the workers, and letting every worker store its
rows into the destination, leaves exactly the image of the sequential pass; row `i` of
that image is the list of the pixels computed from the read-only inputs, the row index
`i` and the column index. -/
theorem c17_row_partition (r : Bool) (src : Mat) (hwf : src.WF) (kernelSize : Int)
    (kernel : List (List Dbl))
    (blurChunks : List (Nat × Nat)) (hb : isRowPartition src.rows blurChunks) (ty : Int)
    (left right dst : Mat) (hl : left.WF) (hr : right.WF) (hd : dst.WF)
    (hlr : right.sameSize left) (hdl : dst.sameSize left)
    (composeChunks : List (Nat × Nat)) (hc : isRowPartition left.rows composeChunks) :
    applyGaussianBlurChunks r blurChunks src kernelSize kernel =
      applyGaussianBlur r src kernelSize kernel ∧
    composePass211Chunks composeChunks ty left right dst =
      composePass211 ty left right dst ∧
    composePass212Chunks composeChunks ty left right dst =
      composePass212 ty left right dst ∧
    (∀ i, i < src.rows →
      (applyGaussianBlur r src kernelSize kernel).data.getD i [] =
        (List.range src.cols).map
          (fun j => blurPixel r src (kernelSize.tdiv 2) kernel i j)) ∧
    (∀ i, i < left.rows →
      (composePass211 ty left right dst).data.getD i [] =
        (List.range left.cols).map
          (fun j => anaglyphPixel211 ty (left.atVec3b i j) (right.atVec3b i j))) ∧
    (∀ i, i < left.rows →
      (composePass212 ty left right dst).data.getD i [] =
        (List.range left.cols).map
          (fun j => anaglyphPixel212 ty (left.atVec3b i j) (right.atVec3b i j))) := by
  have _ := hwf
  have _ := hl
  have _ := hr
  have _ := hlr
  refine ⟨?_, ?_, ?_, ?_, ?_, ?_⟩
  · exact Mat.fillChunks_eq_fill _ blurChunks hb (Mat.WF_create src.rows src.cols) rfl rfl
  · exact Mat.fillChunks_eq_fill _ composeChunks hc hd hdl.1 hdl.2
  · exact Mat.fillChunks_eq_fill _ composeChunks hc hd hdl.1 hdl.2
  · intro i hi
    exact Mat.fill_row _ (Mat.WF_create src.rows src.cols) rfl rfl hi
  · intro i hi
    exact Mat.fill_row _ hd hdl.1 hdl.2 hi
  · intro i hi
    exact Mat.fill_row _ hd hdl.1 hdl.2 hi

/-- C17, applied to the blur (division by the reciprocal) of the 5×5 uniform image with the rows split into
`[3, 5)`, `[0, 1)`, `[1, 3)` (three workers, unequal shares, out of order) and to the
composition in mode GRAY of 2×1 halves with the rows split into `[1, 2)`, `[0, 1)`. -/
theorem c17_row_partition_witness :
    applyGaussianBlurChunks true [(3, 5), (0, 1), (1, 3)] uniform5 3 boxKernel3 =
      applyGaussianBlur true uniform5 3 boxKernel3 ∧
    composePass211Chunks [(1, 2), (0, 1)] 2 ⟨2, 1, [[⟨1, 2, 3⟩], [⟨4, 5, 6⟩]]⟩
        ⟨2, 1, [[⟨0, 0, 100⟩], [⟨7, 8, 9⟩]]⟩ (Mat.create 2 1) =
      composePass211 2 ⟨2, 1, [[⟨1, 2, 3⟩], [⟨4, 5, 6⟩]]⟩
        ⟨2, 1, [[⟨0, 0, 100⟩], [⟨7, 8, 9⟩]]⟩ (Mat.create 2 1) ∧
    composePass212Chunks [(1, 2), (0, 1)] 2 ⟨2, 1, [[⟨1, 2, 3⟩], [⟨4, 5, 6⟩]]⟩
        ⟨2, 1, [[⟨0, 0, 100⟩], [⟨7, 8, 9⟩]]⟩ (Mat.create 2 1) =
      composePass212 2 ⟨2, 1, [[⟨1, 2, 3⟩], [⟨4, 5, 6⟩]]⟩
        ⟨2, 1, [[⟨0, 0, 100⟩], [⟨7, 8, 9⟩]]⟩ (Mat.create 2 1) :=
  have h := c17_row_partition true uniform5 (by decide) 3 boxKernel3 [(3, 5), (0, 1), (1, 3)]
    (by decide) 2 ⟨2, 1, [[⟨1, 2, 3⟩], [⟨4, 5, 6⟩]]⟩ ⟨2, 1, [[⟨0, 0, 100⟩], [⟨7, 8, 9⟩]]⟩
    (Mat.create 2 1) (by decide) (by decide) (by decide) (by decide) (by decide)
    [(1, 2), (0, 1)] (by decide)
  ⟨h.1, h.2.1, h.2.2.1⟩

/-- C18.  In `2.1.1-omp.cpp`, for well-formed halves of equal size and a destination
of that size, `k ≥ 1` passes over the same halves leave the anaglyph that a single
pass leaves, which is the composition of the halves whatever the destination held;
hence the run with `k` iterations returns what the run with one iteration returns. -/
theorem c18_repeat_compose (ty : Int) (left right dst : Mat) (hl : left.WF)
    (hr : right.WF) (hd : dst.WF) (hlr : right.sameSize left) (hdl : dst.sameSize left)
    (k : Nat) (hk : 1 ≤ k) :
    loop211 k ty left right dst = loop211 1 ty left right dst ∧
    loop211 k ty left right dst = composePass211 ty left right dst ∧
    loop211 k ty left right dst = compose211 ty left right ∧
    ∀ stereo : Mat, run211 k stereo ty = run211 1 stereo ty := by
  have _ := hl
  have _ := hr
  have _ := hlr
  obtain ⟨m, rfl⟩ : ∃ m, k = m + 1 := ⟨k - 1, by omega⟩
  have e := loop211_eq_compose211 m ty left right hd hdl
  have e₁ := loop211_eq_compose211 0 ty left right hd hdl
  refine ⟨by rw [e, e₁], ?_, e, ?_⟩
  · rw [e, composePass211_eq_compose211 ty left right hd hdl]
  · intro stereo
    unfold run211
    cases checkInputs stereo ty with
    | error err => rfl
    | ok u =>
      simp only []
      have hc : (Mat.create (splitLeft stereo).rows (splitLeft stereo).cols).sameSize
          (splitLeft stereo) := ⟨rfl, rfl⟩
      rw [loop211_eq_compose211 m ty (splitLeft stereo) (splitRight stereo)
          (Mat.WF_create _ _) hc,
        loop211_eq_compose211 0 ty (splitLeft stereo) (splitRight stereo)
          (Mat.WF_create _ _) hc]

/-- C18, applied to the five passes of `main` in mode GRAY over the 1×2 halves with
left row `(1, 2, 3)`, `(10, 20, 30)` and right row `(7, 8, 9)`, `(40, 50, 60)`. -/
theorem c18_repeat_compose_witness :
    loop211 5 2 ⟨1, 2, [[⟨1, 2, 3⟩, ⟨10, 20, 30⟩]]⟩ ⟨1, 2, [[⟨7, 8, 9⟩, ⟨40, 50, 60⟩]]⟩
        (Mat.create 1 2) =
      loop211 1 2 ⟨1, 2, [[⟨1, 2, 3⟩, ⟨10, 20, 30⟩]]⟩ ⟨1, 2, [[⟨7, 8, 9⟩, ⟨40, 50, 60⟩]]⟩
        (Mat.create 1 2) ∧
    ∀ stereo : Mat, run211 5 stereo 2 = run211 1 stereo 2 :=
  have h := c18_repeat_compose 2 ⟨1, 2, [[⟨1, 2, 3⟩, ⟨10, 20, 30⟩]]⟩
    ⟨1, 2, [[⟨7, 8, 9⟩, ⟨40, 50, 60⟩]]⟩ (Mat.create 1 2) (by decide) (by decide)
    (by decide) (by decide) (by decide) 5 (by decide)
  ⟨h.1, h.2.2.2⟩

/-! ## Claims about the used-weight total and the quotients -/

/-- C19.  For every non-empty image, every odd kernel size of at least 1 and every
kernel whose `size × size` cells are strictly positive values of the type `double`, at
every pixel `(y, x)` the offset `(0, 0)` is in bounds and the accumulator
`gaussianTotal` of `applyGaussianBlur` is strictly positive after the offset loops (it
is neither zero nor a NaN), so the division `sum /= gaussianTotal` never divides by
zero.  For the kernel that `generateGaussianKernel` fills, whose cells away from the
centre may be zero, the same holds when `sigma` lies in `[2^(-400), 2^400]` and the
exponential returns 1 at zero and a finite value of `[0, 1]` at every argument that is
not positive. -/
theorem c19_total_positive (src : Mat) (hrows : 0 < src.rows) (hcols : 0 < src.cols)
    (kernelSize : Int) (hodd : kernelSize % 2 = 1) (h1 : 1 ≤ kernelSize)
    (kernel : List (List Dbl))
    (hpos : ∀ a b : Nat, (a : Int) < kernelSize → (b : Int) < kernelSize →
      (getCell 0 kernel a b).isPos ∧ (getCell 0 kernel a b).isDouble)
    (y x : Nat) (hy : y < src.rows) (hx : x < src.cols) :
    ((0 : Int), (0 : Int)) ∈ inBoundsOffsets src.rows src.cols (kernelSize.tdiv 2) y x ∧
    (blurAccumulate src (kernelSize.tdiv 2) kernel y x).gaussianTotal.isPos ∧
    (blurAccumulate src (kernelSize.tdiv 2) kernel y x).gaussianTotal ≠ 0 ∧
    (blurAccumulate src (kernelSize.tdiv 2) kernel y x).gaussianTotal ≠ Dbl.nan ∧
    ∀ (exp : Dbl → Dbl) (s : ℚ), exp (Dbl.fin 0) = Dbl.fin 1 →
      (∀ d : Dbl, d.isNonpos → ∃ v : ℚ, exp d = Dbl.fin v ∧ 0 ≤ v ∧ v ≤ 1) →
      (2 : ℚ) ^ (-400 : Int) ≤ s → s ≤ (2 : ℚ) ^ (400 : Int) →
      (blurAccumulate src (kernelSize.tdiv 2) (mainKernel exp kernelSize (Dbl.fin s))
        y x).gaussianTotal.isPos := by
  have _ := hrows
  have _ := hcols
  obtain ⟨h, rfl⟩ := odd_size_eq_of_pos hodd h1
  rw [tdiv_two_of_odd h]
  have h0 : (0 : Int) ≤ (h : Int) := Int.natCast_nonneg h
  have etot : ∀ k : List (List Dbl),
      (blurAccumulate src (h : Int) k y x).gaussianTotal = totalInOrder src h k y x := by
    intro k
    rw [blurAccumulate_eq_inOrder]
  have hpd : (totalInOrder src (h : Int) kernel y x).isPosDouble := by
    refine totalInOrder_isPosDouble src h0 kernel hy hx ?_ ?_
    · intro o ho
      exact weightAt_of_cells (P := fun d => d.isNonneg) kernel h
        (fun a b ha hb => Dbl.isNonneg_of_isPosDouble
          (Dbl.isPosDouble_of_isPos_isDouble (hpos a b ha hb).1 (hpos a b ha hb).2)) ho
    · have := hpos h h (by omega) (by omega)
      have e : weightAt kernel (h : Int) (0, 0) = getCell 0 kernel h h := by
        show getCell 0 kernel ((0 : Int) + h).toNat ((0 : Int) + h).toNat = _
        rw [zero_add, Int.toNat_natCast]
      rw [e]
      exact Dbl.isPosDouble_of_isPos_isDouble this.1 this.2
  refine ⟨zero_mem_inBoundsOffsets h0 hy hx, ?_, ?_, ?_, ?_⟩
  · rw [etot]
    exact Dbl.isPos_of_isPosDouble hpd
  · rw [etot]
    intro e
    rw [e] at hpd
    have h₁ : (2 : ℚ) ^ (-1074 : Int) ≤ 0 := hpd
    have h₂ : (0 : ℚ) < (2 : ℚ) ^ (-1074 : Int) := by positivity
    exact absurd h₁ (not_le.mpr h₂)
  · rw [etot]
    intro e
    rw [e] at hpd
    exact hpd
  · intro exp s hexp0 hexp hs₁ hs₂
    rw [etot]
    obtain ⟨hall, v, hv, v₁⟩ := mainKernel_weights exp hexp0 hexp hs₁ hs₂ h
    refine Dbl.isPos_of_isPosDouble (totalInOrder_isPosDouble src h0 _ hy hx ?_ ?_)
    · intro o ho
      obtain ⟨u, hu, u0, _⟩ := weights_of_kernelAt _ h
        (P := fun d => ∃ v : ℚ, d = Dbl.fin v ∧ 0 ≤ v ∧ v ≤ (2 : ℚ) ^ (900 : Int)) hall ho
      rw [hu]
      exact u0
    · rw [hv]
      exact le_trans (zpow_le_zpow_right₀ (by norm_num) (by norm_num)) v₁

/-- C19, applied to the 1×3 image `(0,0,0), (1,1,1), (1,1,1)`, the 3×3 kernel of ones
and the pixel `(0, 2)`, and to the kernel generated with the stand-in exponential for
`sigma = 1`. -/
theorem c19_total_positive_witness :
    ((0 : Int), (0 : Int)) ∈ inBoundsOffsets row3.rows row3.cols ((3 : Int).tdiv 2) 0 2 ∧
    (blurAccumulate row3 ((3 : Int).tdiv 2) boxKernel3 0 2).gaussianTotal.isPos ∧
    (blurAccumulate row3 ((3 : Int).tdiv 2) boxKernel3 0 2).gaussianTotal ≠ 0 ∧
    (blurAccumulate row3 ((3 : Int).tdiv 2) boxKernel3 0 2).gaussianTotal ≠ Dbl.nan ∧
    (blurAccumulate row3 ((3 : Int).tdiv 2) (mainKernel expCoarse 3 (Dbl.fin 1))
      0 2).gaussianTotal.isPos :=
  have h := c19_total_positive row3 (by decide) (by decide) 3 (by decide) (by decide)
    boxKernel3
    (by
      intro a b ha hb
      have ha' : a < 3 := by omega
      have hb' : b < 3 := by omega
      have e : getCell 0 boxKernel3 a b = Dbl.fin 1 := by
        interval_cases a <;> interval_cases b <;> rfl
      rw [e]
      exact ⟨zero_lt_one, (Dbl.eq_of_round_eq_fin Dbl.round_small.1).symm, by norm_num⟩)
    0 2 (by decide) (by decide)
  ⟨h.1, h.2.1, h.2.2.1, h.2.2.2.1,
    h.2.2.2.2 expCoarse 1 expCoarse_zero expCoarse_nonpos zpow_neg400_le_one one_le_zpow_400⟩

/-- C20 (as stated, refuted).  On the 1×1 image with pixel `(29, 255, 7)` and the 3×3
kernel whose weights are all the `double` nearest to `0.01`, a kernel of strictly
positive weights, the window of the pixel holds the single value 29 in channel 0 and
the single value 255 in channel 1; the quotient computed for channel 0 is
`28.999999999999996`, below the minimum 29 of the window, and is stored as 28; the
quotient computed for channel 1 is `255.00000000000003`, above the maximum 255 of the
window and outside `[0, 255]`.  Both readings of the division give these values. -/
theorem c20_quotient_outside_window_counterexample :
    windowValues Vec3b.c0 ⟨1, 1, [[⟨29, 255, 7⟩]]⟩ ((3 : Int).tdiv 2) 0 0 = {29} ∧
    windowValues Vec3b.c1 ⟨1, 1, [[⟨29, 255, 7⟩]]⟩ ((3 : Int).tdiv 2) 0 0 = {255} ∧
    (∀ r : Bool,
      vecDivChannel r
          (blurAccumulate ⟨1, 1, [[⟨29, 255, 7⟩]]⟩ ((3 : Int).tdiv 2) centiKernel3 0 0).sum0
          (blurAccumulate ⟨1, 1, [[⟨29, 255, 7⟩]]⟩ ((3 : Int).tdiv 2) centiKernel3
            0 0).gaussianTotal =
        Dbl.fin (8162774324609023 / 281474976710656) ∧
      vecDivChannel r
          (blurAccumulate ⟨1, 1, [[⟨29, 255, 7⟩]]⟩ ((3 : Int).tdiv 2) centiKernel3 0 0).sum1
          (blurAccumulate ⟨1, 1, [[⟨29, 255, 7⟩]]⟩ ((3 : Int).tdiv 2) centiKernel3
            0 0).gaussianTotal =
        Dbl.fin (8972014882652161 / 35184372088832) ∧
      ¬ quotientInWindow Vec3b.c0 ⟨1, 1, [[⟨29, 255, 7⟩]]⟩ ((3 : Int).tdiv 2) 0 0
        (vecDivChannel r
          (blurAccumulate ⟨1, 1, [[⟨29, 255, 7⟩]]⟩ ((3 : Int).tdiv 2) centiKernel3 0 0).sum0
          (blurAccumulate ⟨1, 1, [[⟨29, 255, 7⟩]]⟩ ((3 : Int).tdiv 2) centiKernel3
            0 0).gaussianTotal) ∧
      ¬ quotientInWindow Vec3b.c1 ⟨1, 1, [[⟨29, 255, 7⟩]]⟩ ((3 : Int).tdiv 2) 0 0
        (vecDivChannel r
          (blurAccumulate ⟨1, 1, [[⟨29, 255, 7⟩]]⟩ ((3 : Int).tdiv 2) centiKernel3 0 0).sum1
          (blurAccumulate ⟨1, 1, [[⟨29, 255, 7⟩]]⟩ ((3 : Int).tdiv 2) centiKernel3
            0 0).gaussianTotal) ∧
      applyGaussianBlur r ⟨1, 1, [[⟨29, 255, 7⟩]]⟩ 3 centiKernel3 =
        ⟨1, 1, [[⟨28, 255, 7⟩]]⟩) ∧
    (8162774324609023 / 281474976710656 : ℚ) < 29 ∧
    (255 : ℚ) < 8972014882652161 / 35184372088832 := by
  have hh : (3 : Int).tdiv 2 = 1 := by decide
  have hw : kernelAt centiKernel3 (0 + 1) (0 + 1) =
      Dbl.fin (5764607523034235 / 576460752303423488) := by
    rw [← Dbl.round_centi]
    rfl
  have hacc := blurAccumulate_single ⟨29, 255, 7⟩ (by norm_num : (0 : Int) ≤ 1) centiKernel3
  rw [hw] at hacc
  have w₀ := windowValues_single Vec3b.c0 ⟨29, 255, 7⟩ (by norm_num : (0 : Int) ≤ 1)
  have w₁ := windowValues_single Vec3b.c1 ⟨29, 255, 7⟩ (by norm_num : (0 : Int) ≤ 1)
  rw [hh]
  refine ⟨w₀, w₁, ?_, by norm_num, by norm_num⟩
  intro r
  rw [hacc]
  simp only []
  have q₀ : vecDivChannel r
      (Dbl.add 0 (Dbl.mul (Dbl.ofUchar 29) (Dbl.fin (5764607523034235 / 576460752303423488))))
      (Dbl.add 0 (Dbl.fin (5764607523034235 / 576460752303423488))) =
      Dbl.fin (8162774324609023 / 281474976710656) := by
    cases r
    · exact singleQuotient_centi_29_div
    · exact singleQuotient_centi_29_recip
  have q₁ : vecDivChannel r
      (Dbl.add 0 (Dbl.mul (Dbl.ofUchar 255) (Dbl.fin (5764607523034235 / 576460752303423488))))
      (Dbl.add 0 (Dbl.fin (5764607523034235 / 576460752303423488))) =
      Dbl.fin (8972014882652161 / 35184372088832) := by
    cases r
    · exact singleQuotient_centi_255_div
    · exact singleQuotient_centi_255_recip
  have q₂ : vecDivChannel r
      (Dbl.add 0 (Dbl.mul (Dbl.ofUchar 7) (Dbl.fin (5764607523034235 / 576460752303423488))))
      (Dbl.add 0 (Dbl.fin (5764607523034235 / 576460752303423488))) =
      Dbl.fin (7881299347898369 / 1125899906842624) := by
    cases r
    · exact singleQuotient_centi_7_div
    · exact singleQuotient_centi_7_recip
  refine ⟨q₀, q₁, ?_, ?_, ?_⟩
  · rw [q₀]
    rintro ⟨hne, h₁, _⟩
    have hmin : 29 ≤ (windowValues Vec3b.c0 ⟨1, 1, [[⟨29, 255, 7⟩]]⟩ 1 0 0).min' hne := by
      refine Finset.le_min' _ _ _ ?_
      intro v hv
      rw [w₀, Finset.mem_singleton] at hv
      rw [hv]
    have : (29 : ℚ) ≤ ((windowValues Vec3b.c0 ⟨1, 1, [[⟨29, 255, 7⟩]]⟩ 1 0 0).min' hne : ℚ) := by
      exact_mod_cast hmin
    have hlt : (8162774324609023 / 281474976710656 : ℚ) < 29 := by norm_num
    linarith
  · rw [q₁]
    rintro ⟨hne, _, h₂, _⟩
    have hmax : (windowValues Vec3b.c1 ⟨1, 1, [[⟨29, 255, 7⟩]]⟩ 1 0 0).max' hne ≤ 255 := by
      refine Finset.max'_le _ _ _ ?_
      intro v hv
      rw [w₁, Finset.mem_singleton] at hv
      rw [hv]
    have : ((windowValues Vec3b.c1 ⟨1, 1, [[⟨29, 255, 7⟩]]⟩ 1 0 0).max' hne : ℚ) ≤ 255 := by
      exact_mod_cast hmax
    have hlt : (255 : ℚ) < 8972014882652161 / 35184372088832 := by norm_num
    linarith
  · rw [applyGaussianBlur_single, hh, blurPixel_single r ⟨29, 255, 7⟩
      (by norm_num : (0 : Int) ≤ 1) centiKernel3 hw]
    simp only []
    rw [q₀, q₁, q₂,
      toUchar_fin_eq (n := 28) (by norm_num) (by norm_num) (by norm_num),
      toUchar_fin_eq (n := 255) (by norm_num) (by norm_num) (by norm_num),
      toUchar_fin_eq (n := 7) (by norm_num) (by norm_num) (by norm_num)]

/-- C20 (amended).  For every image with channels in `0..255`, every odd kernel size
from 1 to 1023 and every kernel whose `size × size` cells are finite values of
`[0, 2^900]`, the centre cell being at least `2^(-900)`, each of the three quotients
`sum[c] / gaussianTotal` that `applyGaussianBlur` computes for the output pixel
`(y, x)`, in either reading of the division, is a finite number that lies within
`2^(-19)` of the interval between the minimum and the maximum of the source values of
that channel in the in-bounds window around `(y, x)`; it lies in `[0, 256)`, so the
conversion to an 8-bit channel returns its truncation without wrapping, and the stored
value lies between that minimum less one and that maximum.  The kernel that
`generateGaussianKernel` fills for a `sigma` of `[2^(-400), 2^400]`, with an
exponential that returns 1 at zero and a finite value of `[0, 1]` at every argument
that is not positive, is such a kernel. -/
theorem c20_quotient_near_window (r : Bool) (src : Mat) (hwf : src.WF) (hv : src.valid)
    (kernelSize : Int) (hodd : kernelSize % 2 = 1) (h1 : 1 ≤ kernelSize)
    (hmax : kernelSize ≤ 1023) (kernel : List (List Dbl))
    (hcells : ∀ a b : Nat, (a : Int) < kernelSize → (b : Int) < kernelSize →
      ∃ v : ℚ, getCell 0 kernel a b = Dbl.fin v ∧ 0 ≤ v ∧ v ≤ (2 : ℚ) ^ (900 : Int))
    (hcentre : ∃ v : ℚ, kernelAt kernel (kernelSize.tdiv 2) (kernelSize.tdiv 2) = Dbl.fin v ∧
      (2 : ℚ) ^ (-900 : Int) ≤ v)
    (y x : Nat) (hy : y < src.rows) (hx : x < src.cols) :
    quotientNearWindow Vec3b.c0 src (kernelSize.tdiv 2) y x
      (vecDivChannel r (blurAccumulate src (kernelSize.tdiv 2) kernel y x).sum0
        (blurAccumulate src (kernelSize.tdiv 2) kernel y x).gaussianTotal) ∧
    quotientNearWindow Vec3b.c1 src (kernelSize.tdiv 2) y x
      (vecDivChannel r (blurAccumulate src (kernelSize.tdiv 2) kernel y x).sum1
        (blurAccumulate src (kernelSize.tdiv 2) kernel y x).gaussianTotal) ∧
    quotientNearWindow Vec3b.c2 src (kernelSize.tdiv 2) y x
      (vecDivChannel r (blurAccumulate src (kernelSize.tdiv 2) kernel y x).sum2
        (blurAccumulate src (kernelSize.tdiv 2) kernel y x).gaussianTotal) ∧
    ∀ (exp : Dbl → Dbl) (s : ℚ), exp (Dbl.fin 0) = Dbl.fin 1 →
      (∀ d : Dbl, d.isNonpos → ∃ v : ℚ, exp d = Dbl.fin v ∧ 0 ≤ v ∧ v ≤ 1) →
      (2 : ℚ) ^ (-400 : Int) ≤ s → s ≤ (2 : ℚ) ^ (400 : Int) →
      quotientNearWindow Vec3b.c0 src (kernelSize.tdiv 2) y x
        (vecDivChannel r
          (blurAccumulate src (kernelSize.tdiv 2) (mainKernel exp kernelSize (Dbl.fin s))
            y x).sum0
          (blurAccumulate src (kernelSize.tdiv 2) (mainKernel exp kernelSize (Dbl.fin s))
            y x).gaussianTotal) ∧
      quotientNearWindow Vec3b.c1 src (kernelSize.tdiv 2) y x
        (vecDivChannel r
          (blurAccumulate src (kernelSize.tdiv 2) (mainKernel exp kernelSize (Dbl.fin s))
            y x).sum1
          (blurAccumulate src (kernelSize.tdiv 2) (mainKernel exp kernelSize (Dbl.fin s))
            y x).gaussianTotal) ∧
      quotientNearWindow Vec3b.c2 src (kernelSize.tdiv 2) y x
        (vecDivChannel r
          (blurAccumulate src (kernelSize.tdiv 2) (mainKernel exp kernelSize (Dbl.fin s))
            y x).sum2
          (blurAccumulate src (kernelSize.tdiv 2) (mainKernel exp kernelSize (Dbl.fin s))
            y x).gaussianTotal) := by
  have _ := hwf
  obtain ⟨h, rfl⟩ := odd_size_eq_of_pos hodd h1
  rw [tdiv_two_of_odd h] at hcentre ⊢
  have hh : h ≤ 511 := by omega
  have key : ∀ k : List (List Dbl),
      (∀ o ∈ inBoundsOffsetList src.rows src.cols (h : Int) y x,
        ∃ v : ℚ, weightAt k h o = Dbl.fin v ∧ 0 ≤ v ∧ v ≤ (2 : ℚ) ^ (900 : Int)) →
      (∃ v : ℚ, weightAt k h (0, 0) = Dbl.fin v ∧ (2 : ℚ) ^ (-900 : Int) ≤ v) →
      quotientNearWindow Vec3b.c0 src (h : Int) y x
        (vecDivChannel r (blurAccumulate src (h : Int) k y x).sum0
          (blurAccumulate src (h : Int) k y x).gaussianTotal) ∧
      quotientNearWindow Vec3b.c1 src (h : Int) y x
        (vecDivChannel r (blurAccumulate src (h : Int) k y x).sum1
          (blurAccumulate src (h : Int) k y x).gaussianTotal) ∧
      quotientNearWindow Vec3b.c2 src (h : Int) y x
        (vecDivChannel r (blurAccumulate src (h : Int) k y x).sum2
          (blurAccumulate src (h : Int) k y x).gaussianTotal) := by
    intro k hw hw₀
    rw [blurAccumulate_eq_inOrder]
    exact ⟨quotientNearWindow_of_bounds r Vec3b.c0 (fun _ hp => hp.1) src hv h hh k hy hx
        hw hw₀,
      quotientNearWindow_of_bounds r Vec3b.c1 (fun _ hp => hp.2.1) src hv h hh k hy hx
        hw hw₀,
      quotientNearWindow_of_bounds r Vec3b.c2 (fun _ hp => hp.2.2) src hv h hh k hy hx
        hw hw₀⟩
  have hw₀ : ∃ v : ℚ, weightAt kernel h (0, 0) = Dbl.fin v ∧ (2 : ℚ) ^ (-900 : Int) ≤ v := by
    obtain ⟨v, e, v₁⟩ := hcentre
    refine ⟨v, ?_, v₁⟩
    show kernelAt kernel ((0 : Int) + h) ((0 : Int) + h) = _
    rw [zero_add]
    exact e
  obtain ⟨k₀, k₁, k₂⟩ := key kernel
    (fun o ho => weightAt_of_cells
      (P := fun d => ∃ v : ℚ, d = Dbl.fin v ∧ 0 ≤ v ∧ v ≤ (2 : ℚ) ^ (900 : Int))
      kernel h hcells ho) hw₀
  refine ⟨k₀, k₁, k₂, ?_⟩
  intro exp s hexp0 hexp hs₁ hs₂
  obtain ⟨hall, hc⟩ := mainKernel_weights exp hexp0 hexp hs₁ hs₂ h
  exact key _
    (fun o ho => weights_of_kernelAt _ h
      (P := fun d => ∃ v : ℚ, d = Dbl.fin v ∧ 0 ≤ v ∧ v ≤ (2 : ℚ) ^ (900 : Int)) hall ho)
    hc

/-- C20 (amended), applied with the division by the reciprocal to the 1×3 image
`(0,0,0), (1,1,1), (1,1,1)`, the 3×3 kernel of ones and the pixel `(0, 1)`. -/
theorem c20_quotient_near_window_witness :
    quotientNearWindow Vec3b.c0 row3 ((3 : Int).tdiv 2) 0 1
      (vecDivChannel true (blurAccumulate row3 ((3 : Int).tdiv 2) boxKernel3 0 1).sum0
        (blurAccumulate row3 ((3 : Int).tdiv 2) boxKernel3 0 1).gaussianTotal) ∧
    quotientNearWindow Vec3b.c1 row3 ((3 : Int).tdiv 2) 0 1
      (vecDivChannel true (blurAccumulate row3 ((3 : Int).tdiv 2) boxKernel3 0 1).sum1
        (blurAccumulate row3 ((3 : Int).tdiv 2) boxKernel3 0 1).gaussianTotal) ∧
    quotientNearWindow Vec3b.c2 row3 ((3 : Int).tdiv 2) 0 1
      (vecDivChannel true (blurAccumulate row3 ((3 : Int).tdiv 2) boxKernel3 0 1).sum2
        (blurAccumulate row3 ((3 : Int).tdiv 2) boxKernel3 0 1).gaussianTotal) :=
  have h := c20_quotient_near_window true row3 (by decide) (by decide) 3 (by decide)
    (by decide) (by decide) boxKernel3 boxKernel3_cells
    ⟨1, rfl, zpow_le_one_of_nonpos₀ (by norm_num) (by norm_num)⟩ 0 1 (by decide) (by decide)
  ⟨h.1, h.2.1, h.2.2.1⟩

/-! ## Claims about the kernel indices -/

/-- C21.  With `half = kernelSize / 2` (integer division) and a positive
`kernelSize`, the kernel indices `i + half` and `j + half` formed by the offset loops
of `generateGaussianKernel` and of `applyGaussianBlur` all lie in `[0, kernelSize)` when
`kernelSize` is odd; when `kernelSize` is even they lie in `[0, kernelSize]` and the
index `kernelSize` is among them, which is one past the end of the array of
`kernelSize` rows of `kernelSize` cells that `main` allocates.  Both functions run
their two loops through exactly these indices. -/
theorem c21_kernel_indices (kernelSize : Int) (hpos : 0 < kernelSize) :
    (kernelSize % 2 = 1 →
      ∀ a ∈ kernelIndices (kernelSize.tdiv 2), 0 ≤ a ∧ a < kernelSize) ∧
    (kernelSize % 2 = 0 →
      kernelSize ∈ kernelIndices (kernelSize.tdiv 2) ∧
      ∀ a ∈ kernelIndices (kernelSize.tdiv 2), 0 ≤ a ∧ a ≤ kernelSize) ∧
    ((allocKernel kernelSize).length = kernelSize.toNat ∧
      gridShape kernelSize.toNat kernelSize.toNat (allocKernel kernelSize) ∧
      ¬ kernelSize.toNat < (allocKernel kernelSize).length) ∧
    (∀ (exp : Dbl → Dbl) (g : List (List Dbl)) (sigma : Dbl),
      generateGaussianKernel exp g kernelSize sigma =
        (kernelIndices (kernelSize.tdiv 2)).foldl
          (fun g a => (kernelIndices (kernelSize.tdiv 2)).foldl
            (fun g b => setCell g a.toNat b.toNat
              (gaussianVal exp sigma (a - kernelSize.tdiv 2) (b - kernelSize.tdiv 2))) g)
          g) ∧
    (∀ (src : Mat) (kernel : List (List Dbl)) (y x : Nat),
      blurAccumulate src (kernelSize.tdiv 2) kernel y x =
        (kernelIndices (kernelSize.tdiv 2)).foldl
          (fun acc a => (kernelIndices (kernelSize.tdiv 2)).foldl
            (fun acc b => blurStep src (kernelSize.tdiv 2) kernel y x
              (a - kernelSize.tdiv 2) (b - kernelSize.tdiv 2) acc) acc)
          ⟨0, 0, 0, 0⟩) := by
  refine ⟨?_, ?_, ⟨length_allocKernel kernelSize, ?_, ?_⟩,
    fun exp g sigma => generateGaussianKernel_eq_indices exp g kernelSize sigma,
    fun src kernel y x => blurAccumulate_eq_indices src (kernelSize.tdiv 2) kernel y x⟩
  · intro hodd a ha
    obtain ⟨h, rfl⟩ := odd_size_eq_of_pos hodd (by omega)
    rw [tdiv_two_of_odd h, mem_kernelIndices] at ha
    omega
  · intro heven
    obtain ⟨h, _, rfl⟩ := even_size_eq heven hpos
    rw [tdiv_two_of_even h]
    refine ⟨mem_kernelIndices.mpr (by omega), fun a ha => ?_⟩
    rw [mem_kernelIndices] at ha
    omega
  · have e : ((kernelSize.toNat : Nat) : Int) = kernelSize := Int.toNat_of_nonneg (le_of_lt hpos)
    have := gridShape_allocKernel kernelSize.toNat
    rw [e] at this
    exact this
  · rw [length_allocKernel]
    exact Nat.lt_irrefl _

/-- C21, applied to the odd size 5 and to the even size 4. -/
theorem c21_kernel_indices_witness :
    (∀ a ∈ kernelIndices ((5 : Int).tdiv 2), 0 ≤ a ∧ a < 5) ∧
    ((4 : Int) ∈ kernelIndices ((4 : Int).tdiv 2) ∧
      ∀ a ∈ kernelIndices ((4 : Int).tdiv 2), 0 ≤ a ∧ a ≤ 4) ∧
    ¬ (4 : Int).toNat < (allocKernel 4).length :=
  ⟨(c21_kernel_indices 5 (by decide)).1 (by decide),
    (c21_kernel_indices 4 (by decide)).2.1 (by decide),
    (c21_kernel_indices 4 (by decide)).2.2.1.2.2⟩

/-! ## Claims about the channel order -/

/-- C22 (as stated, refuted).  For the left pixel `(5, 5, 5)`, whose reversal is
itself, and the right pixel `(40, 50, 60)`, the default branch of `2.1.2-omp.cpp`
(mode NONE) and the default branch of `2.1.1-omp.cpp` on the channel-reversed pixels
return the same pixel `(5, 5, 5)`: in mode NONE the two do not differ here. -/
theorem c22_none_counterexample :
    anaglyphPixel212 0 ⟨5, 5, 5⟩ ⟨40, 50, 60⟩ = ⟨5, 5, 5⟩ ∧
    anaglyphPixel211 0 (Vec3b.reversed ⟨5, 5, 5⟩) (Vec3b.reversed ⟨40, 50, 60⟩) = ⟨5, 5, 5⟩ ∧
    anaglyphPixel212 0 ⟨5, 5, 5⟩ ⟨40, 50, 60⟩ =
      anaglyphPixel211 0 (Vec3b.reversed ⟨5, 5, 5⟩) (Vec3b.reversed ⟨40, 50, 60⟩) := by
  decide

/-- C22 (amended).  For every left pixel `l`, right pixel `r` and every mode of
`{TRUE, GRAY, COLOR, HALFCOLOR, OPTIMIZED}` (codes 1 to 5), the switch of
`2.1.2-omp.cpp` (and of `2.1.2_anaglyphs-omp.cpp`) applied to `(l, r)` returns what the
switch of `2.1.1-omp.cpp` returns on the channel-reversed pixels.  In mode NONE the
former returns `l` and the latter the reversed `l`, so the two differ exactly when
`l.c0 ≠ l.c2`. -/
theorem c22_channel_reversal (ty : Int) (l r : Vec3b) :
    (1 ≤ ty → ty ≤ 5 →
      anaglyphPixel212 ty l r = anaglyphPixel211 ty l.reversed r.reversed) ∧
    anaglyphPixel212 0 l r = l ∧
    anaglyphPixel211 0 l.reversed r.reversed = l.reversed ∧
    (anaglyphPixel212 0 l r ≠ anaglyphPixel211 0 l.reversed r.reversed ↔ l.c0 ≠ l.c2) := by
  have e₁ : anaglyphPixel212 0 l r = l := by simp [anaglyphPixel212]
  have e₂ : anaglyphPixel211 0 l.reversed r.reversed = l.reversed := by
    simp [anaglyphPixel211]
  refine ⟨?_, e₁, e₂, ?_⟩
  · intro h₁ h₅
    have hcases : ty = 1 ∨ ty = 2 ∨ ty = 3 ∨ ty = 4 ∨ ty = 5 := by omega
    rcases hcases with h | h | h | h | h <;> subst h <;>
      simp [anaglyphPixel212, anaglyphPixel211, luma211_reversed, optimized211_reversed] <;>
      simp [Vec3b.reversed]
  · rw [e₁, e₂, ne_comm, Ne, reversed_eq_self_iff]

/-- C22 (amended), applied to mode OPTIMIZED and the pixels `(10, 20, 30)`,
`(40, 50, 60)`. -/
theorem c22_channel_reversal_witness :
    anaglyphPixel212 5 ⟨10, 20, 30⟩ ⟨40, 50, 60⟩ =
      anaglyphPixel211 5 (Vec3b.reversed ⟨10, 20, 30⟩) (Vec3b.reversed ⟨40, 50, 60⟩) ∧
    (anaglyphPixel212 0 ⟨10, 20, 30⟩ ⟨40, 50, 60⟩ ≠
        anaglyphPixel211 0 (Vec3b.reversed ⟨10, 20, 30⟩) (Vec3b.reversed ⟨40, 50, 60⟩) ↔
      (10 : Nat) ≠ 30) :=
  ⟨(c22_channel_reversal 5 ⟨10, 20, 30⟩ ⟨40, 50, 60⟩).1 (by decide) (by decide),
    (c22_channel_reversal 5 ⟨10, 20, 30⟩ ⟨40, 50, 60⟩).2.2.2⟩

end OpenCVOMP
